import Mathlib

/-!
# Hierarchy builder

A shallow embedding of `HierarchyBuilder.cpp`: rigid bodies and joints are
registered by name, `build` grows trees of `Link` nodes from the joints,
merges tree fragments and flags loop joints.

Pointers to heap objects are modelled by values: a tree of `Link` nodes owns
its children, a `Link *` into the flat link array of `findLoopJoints` is the
position of the node in that array, and a `nullptr` slot is `none`.  Loops
whose termination is not structural carry a fuel argument and return `none`
when the fuel runs out.
-/

namespace HIERARCHY_BUILDER

/-! ## Data model -/

/-- A registered rigid body: its name and whether some joint refers to it. -/
structure RigidBodyRef where
  mName : String
  mUsed : Bool := false
deriving DecidableEq, Repr

/-- A registered joint: consumed flag, name and the two body names. -/
structure JointRef where
  mUsed : Bool := false
  mName : String
  mBody0 : String
  mBody1 : String
deriving DecidableEq, Repr

/-- One node of a hierarchy.  The joint name is empty at a root node. -/
inductive Link where
  | mk (mIsLoopJoint : Bool) (mJointName : String) (mRigidBody : String)
      (mChildren : List Link)
deriving Repr

/-- Field `mIsLoopJoint` of a link. -/
def Link.mIsLoopJoint : Link → Bool
  | .mk f _ _ _ => f

/-- Field `mJointName` of a link. -/
def Link.mJointName : Link → String
  | .mk _ n _ _ => n

/-- Field `mRigidBody` of a link. -/
def Link.mRigidBody : Link → String
  | .mk _ _ b _ => b

/-- Field `mChildren` of a link. -/
def Link.mChildren : Link → List Link
  | .mk _ _ _ cs => cs

/-- The enumeration `Link::LinkOrder`. -/
inductive LinkOrder where
  | LO_NOT_LINKED
  | LO_BODY0
  | LO_BODY1
deriving DecidableEq, Repr

/-- A freshly constructed link for joint `jref`: `new Link` followed by the
assignments of the joint name and of `mBody1`. -/
def Link.fresh (jref : JointRef) (children : List Link) : Link :=
  .mk false jref.mName jref.mBody1 children

/-! ## Link operations -/

/-- The method `Link::isLinked`: which end of the joint this node is. -/
def Link.isLinked (l : Link) (jref : JointRef) : LinkOrder :=
  if l.mRigidBody = jref.mBody0 then .LO_BODY0
  else if l.mRigidBody = jref.mBody1 then .LO_BODY1
  else .LO_NOT_LINKED

mutual
/-- The method `Link::add`.  The result is the updated subtree when the
source returns a non-null link, and `none` (nothing changed) when it returns
`nullptr`. -/
def Link.add : Link → JointRef → Option Link
  | .mk f n b cs, jref =>
    match Link.isLinked (.mk f n b cs) jref with
    | .LO_BODY0 => some (.mk f n b (cs ++ [Link.fresh jref []]))
    | .LO_BODY1 => some (.mk f n jref.mBody0 [Link.fresh jref cs])
    | .LO_NOT_LINKED =>
      match Link.addChildren cs jref with
      | some cs1 => some (.mk f n b cs1)
      | none => none
/-- The loop over `mChildren` in `Link::add`: the first child that accepts
the joint is updated and the loop stops. -/
def Link.addChildren : List Link → JointRef → Option (List Link)
  | [], _ => none
  | c :: cs, jref =>
    match Link.add c jref with
    | some c1 => some (c1 :: cs)
    | none =>
      match Link.addChildren cs jref with
      | some cs1 => some (c :: cs1)
      | none => none
end

/-- The first loop of `Link::isDuplicate`: some child edge of a node with
body `b` has the parent, child and joint name of `ref`. -/
def Link.childDuplicate (b : String) (cs : List Link) (ref : JointRef) : Bool :=
  cs.any fun i =>
    decide (ref.mBody0 = b) && decide (ref.mBody1 = i.mRigidBody) &&
      decide (ref.mName = i.mJointName)

mutual
/-- The method `Link::isDuplicate`. -/
def Link.isDuplicate : Link → JointRef → Bool
  | .mk _ _ b cs, ref =>
    if Link.childDuplicate b cs ref then true else Link.isDuplicateChildren cs ref
/-- The second loop of `Link::isDuplicate`, over the children. -/
def Link.isDuplicateChildren : List Link → JointRef → Bool
  | [], _ => false
  | c :: cs, ref =>
    if Link.isDuplicate c ref then true else Link.isDuplicateChildren cs ref
end

/-- The first loop of `Link::getJointRef`: one unused joint record per child
edge of a node with body `b`. -/
def Link.childJointRefs (b : String) (cs : List Link) : List JointRef :=
  cs.map fun i => { mUsed := false, mName := i.mJointName, mBody0 := b, mBody1 := i.mRigidBody }

mutual
/-- The method `Link::getJointRef`: the records it pushes, in order. -/
def Link.getJointRef : Link → List JointRef
  | .mk _ _ b cs => Link.childJointRefs b cs ++ Link.getJointRefChildren cs
/-- The second loop of `Link::getJointRef`, over the children. -/
def Link.getJointRefChildren : List Link → List JointRef
  | [] => []
  | c :: cs => Link.getJointRef c ++ Link.getJointRefChildren cs
end

mutual
/-- The method `Link::getLinks`: the nodes of the subtree, this node first. -/
def Link.getLinks : Link → List Link
  | .mk f n b cs => .mk f n b cs :: Link.getLinksChildren cs
/-- The loop over the children in `Link::getLinks`. -/
def Link.getLinksChildren : List Link → List Link
  | [] => []
  | c :: cs => Link.getLinks c ++ Link.getLinksChildren cs
end

/-- The method `Link::getChildCount`. -/
def Link.getChildCount (l : Link) : Nat :=
  l.mChildren.length

/-- The method `Link::getJoint`: joint name, parent body, child body and loop
flag of child `index`, or `none` when the index is out of range. -/
def Link.getJoint (l : Link) (index : Nat) : Option (String × String × String × Bool) :=
  match l.mChildren.get? index with
  | some c => some (c.mJointName, l.mRigidBody, c.mRigidBody, c.mIsLoopJoint)
  | none => none

/-- The method `Link::getChild`. -/
def Link.getChild (l : Link) (index : Nat) : Option Link :=
  l.mChildren.get? index

/-- The method `Link::getRigidBody`. -/
def Link.getRigidBody (l : Link) : String :=
  l.mRigidBody

/-- The answers of `getJoint` for all children of a node with body `b`. -/
def Link.childEdges (b : String) (cs : List Link) : List (String × String × String × Bool) :=
  cs.map fun c => (c.mJointName, b, c.mRigidBody, c.mIsLoopJoint)

mutual
/-- The traversal of `showHierarchy`: every answer of `getJoint` in the
subtree, the edges of a node before those of its children. -/
def Link.showHierarchy : Link → List (String × String × String × Bool)
  | .mk _ _ b cs => Link.childEdges b cs ++ Link.showHierarchyChildren cs
/-- The second loop of `showHierarchy`, over the children. -/
def Link.showHierarchyChildren : List Link → List (String × String × String × Bool)
  | [] => []
  | c :: cs => Link.showHierarchy c ++ Link.showHierarchyChildren cs
end

mutual
/-- Writing `mIsLoopJoint = true` through the pointers of the flat link
array: the node at position `k + i` of the array gets the flag when
`k + i` is in `marked`, where `k` is the position of this node. -/
def Link.setLoopJoints (marked : List Nat) : Link → Nat → Link
  | .mk f n b cs, k =>
    .mk (if k ∈ marked then true else f) n b (Link.setLoopJointsChildren marked cs (k + 1))
/-- The children of a node in `Link.setLoopJoints`; child subtrees occupy
consecutive ranges of the flat link array. -/
def Link.setLoopJointsChildren (marked : List Nat) : List Link → Nat → List Link
  | [], _ => []
  | c :: cs, k =>
    Link.setLoopJoints marked c k ::
      Link.setLoopJointsChildren marked cs (k + (Link.getLinks c).length)
end

/-! ## Hierarchy -/

/-- The class `Hierarchy`: an index and the root link. -/
structure Hierarchy where
  mIndex : Nat
  mRoot : Link
deriving Repr

/-- The constructor `Hierarchy::Hierarchy`: root `mBody0` with the single
child `mBody1` attached by the joint. -/
def Hierarchy.new (joint : JointRef) (index : Nat) : Hierarchy :=
  { mIndex := index
    mRoot := .mk false "" joint.mBody0 [.mk false joint.mName joint.mBody1 []] }

/-- The method `Hierarchy::added`: the hierarchy afterwards and the result. -/
def Hierarchy.added (h : Hierarchy) (jref : JointRef) : Hierarchy × Bool :=
  match h.mRoot.add jref with
  | some r => ({ h with mRoot := r }, true)
  | none => (h, false)

/-- The method `Hierarchy::getHierarchyRoot`. -/
def Hierarchy.getHierarchyRoot (h : Hierarchy) : Link :=
  h.mRoot

/-- The state of the `while` loop of `Hierarchy::merge`. -/
structure MergeState where
  self : Hierarchy
  ret : Bool
  consumed : Bool
  joints : List JointRef
deriving Repr

/-- One run of the `for` loop inside the `while` loop of `Hierarchy::merge`
over the joints that are still to visit; `joints` of the result holds the
visited joints with their updated flags. -/
def Hierarchy.mergeScan (self : Hierarchy) (ret consumed : Bool) :
    List JointRef → MergeState
  | [] => { self := self, ret := ret, consumed := consumed, joints := [] }
  | i :: rest =>
    if !i.mUsed then
      if self.mRoot.isDuplicate i then
        let s := Hierarchy.mergeScan self ret consumed rest
        { s with joints := { i with mUsed := true } :: s.joints }
      else
        match self.added i with
        | (self1, true) =>
          let s := Hierarchy.mergeScan self1 true true rest
          { s with joints := { i with mUsed := true } :: s.joints }
        | (self1, false) =>
          let s := Hierarchy.mergeScan self1 ret consumed rest
          { s with joints := i :: s.joints }
    else
      let s := Hierarchy.mergeScan self ret consumed rest
      { s with joints := i :: s.joints }

/-- The `while (consumed)` loop of `Hierarchy::merge`.  The loop is entered
with `consumed` true, so the body always runs once. -/
def Hierarchy.mergeLoop : Nat → Hierarchy → Bool → List JointRef → Option MergeState
  | 0, _, _, _ => none
  | fuel + 1, self, ret, joints =>
    let s := Hierarchy.mergeScan self ret false joints
    if s.consumed then Hierarchy.mergeLoop fuel s.self s.ret s.joints else some s

/-- The method `Hierarchy::merge`: the state when the loop has ended, with
the receiver afterwards, the returned flag and the local joint list that the
debug assertion inspects.  Every repetition of the loop has marked one more
joint, so one more than the number of joints is enough fuel. -/
def Hierarchy.merge (self other : Hierarchy) : Option MergeState :=
  let joints := other.mRoot.getJointRef
  Hierarchy.mergeLoop (joints.length + 1) self false joints

/-- The position in `links` of the first link whose joint name is `name`:
the inner loop of the first part of `Hierarchy::findLoopJoints`. -/
def Hierarchy.findLink (links : List Link) (name : String) : Option Nat :=
  links.findIdx? fun j => decide (j.mJointName = name)

/-- The list `sortLinks` of `Hierarchy::findLoopJoints`, as positions in the
flat link array. -/
def Hierarchy.sortLinks (links : List Link) (joints : List JointRef) : List Nat :=
  joints.filterMap fun i => Hierarchy.findLink links i.mName

/-- The second loop of `Hierarchy::findLoopJoints`: `rigidBodies` is the list
of bodies seen so far, the result lists the positions whose flag is set. -/
def Hierarchy.loopScan (links : List Link) : List String → List Nat → List Nat
  | _, [] => []
  | rigidBodies, i :: rest =>
    match links.get? i with
    | none => Hierarchy.loopScan links rigidBodies rest
    | some l =>
      if rigidBodies.contains l.mRigidBody then
        i :: Hierarchy.loopScan links rigidBodies rest
      else
        Hierarchy.loopScan links (rigidBodies ++ [l.mRigidBody]) rest

/-- The method `Hierarchy::findLoopJoints`. -/
def Hierarchy.findLoopJoints (h : Hierarchy) (joints : List JointRef) : Hierarchy :=
  let links := h.mRoot.getLinks
  let sortLinks := Hierarchy.sortLinks links joints
  let marked := Hierarchy.loopScan links [h.mRoot.mRigidBody] sortLinks
  { h with mRoot := Link.setLoopJoints marked h.mRoot 0 }

/-! ## Builder -/

/-- The members of `HierarchyBuilderImpl`. -/
structure HierarchyBuilderImpl where
  mRigidBodies : List RigidBodyRef := []
  mJoints : List JointRef := []
  mHierarchies : List Hierarchy := []
  mDisconnectedRigidBodies : List String := []
deriving Repr

/-- The state of a builder after `create`, and after `reset`. -/
def HierarchyBuilderImpl.create : HierarchyBuilderImpl :=
  {}

/-- The method `reset`. -/
def HierarchyBuilderImpl.reset (_b : HierarchyBuilderImpl) : HierarchyBuilderImpl :=
  { mRigidBodies := [], mJoints := [], mHierarchies := [], mDisconnectedRigidBodies := [] }

/-- The method `findRigidBodRef`: the position of the first body named `id`. -/
def HierarchyBuilderImpl.findRigidBodRef (b : HierarchyBuilderImpl) (id : String) : Option Nat :=
  b.mRigidBodies.findIdx? fun i => decide (i.mName = id)

/-- The method `findJointRef`: the position of the first joint named `id`. -/
def HierarchyBuilderImpl.findJointRef (b : HierarchyBuilderImpl) (id : String) : Option Nat :=
  b.mJoints.findIdx? fun i => decide (i.mName = id)

/-- The method `addRigidBody`: the builder afterwards and the result. -/
def HierarchyBuilderImpl.addRigidBody (b : HierarchyBuilderImpl) (id : String) :
    HierarchyBuilderImpl × Bool :=
  if (b.findRigidBodRef id).isNone then
    ({ b with mRigidBodies := b.mRigidBodies ++ [{ mName := id }] }, true)
  else (b, false)

/-- The method `addJoint`: the builder afterwards and the result. -/
def HierarchyBuilderImpl.addJoint (b : HierarchyBuilderImpl) (jointId body0 body1 : String) :
    HierarchyBuilderImpl × Bool :=
  if (b.findJointRef jointId).isNone then
    if (b.findRigidBodRef body0).isSome && (b.findRigidBodRef body1).isSome then
      ({ b with mJoints := b.mJoints ++ [{ mName := jointId, mBody0 := body0, mBody1 := body1 }] },
        true)
    else (b, false)
  else (b, false)

/-- The method `findFirstUnusedJoint`: the position of the joint found. -/
def HierarchyBuilderImpl.findFirstUnusedJoint (b : HierarchyBuilderImpl) : Option Nat :=
  b.mJoints.findIdx? fun i => !i.mUsed

/-- The second loop of `checkForDisconnectedRigidBodies` for one joint. -/
def HierarchyBuilderImpl.markUsed (i : JointRef) (bodies : List RigidBodyRef) :
    List RigidBodyRef :=
  bodies.map fun j =>
    if !j.mUsed then
      if j.mName = i.mBody0 ∨ j.mName = i.mBody1 then { j with mUsed := true } else j
    else j

/-- The method `checkForDisconnectedRigidBodies`. -/
def HierarchyBuilderImpl.checkForDisconnectedRigidBodies (b : HierarchyBuilderImpl) :
    HierarchyBuilderImpl :=
  let cleared := b.mRigidBodies.map fun i => { i with mUsed := false }
  let marked := b.mJoints.foldl (fun bodies i => HierarchyBuilderImpl.markUsed i bodies) cleared
  { b with
    mRigidBodies := marked
    mDisconnectedRigidBodies := (marked.filter fun i => !i.mUsed).map fun i => i.mName }

/-- The `for` loop over `mHierarchies` in the first loop of `build`: the
first hierarchy that accepts the joint is updated. -/
def HierarchyBuilderImpl.addToFirst : List Hierarchy → JointRef → List Hierarchy × Bool
  | [], _ => ([], false)
  | h :: hs, jref =>
    match h.added jref with
    | (h1, true) => (h1 :: hs, true)
    | (h1, false) =>
      let r := HierarchyBuilderImpl.addToFirst hs jref
      (h1 :: r.1, r.2)

/-- The body of the first `while` loop of `build` for the joint at position
`k`, which is `jref`. -/
def HierarchyBuilderImpl.consumeJoint (b : HierarchyBuilderImpl) (k : Nat) (jref : JointRef) :
    HierarchyBuilderImpl :=
  let r := HierarchyBuilderImpl.addToFirst b.mHierarchies jref
  let joints := b.mJoints.set k { jref with mUsed := true }
  if r.2 then { b with mJoints := joints, mHierarchies := r.1 }
  else
    { b with
      mJoints := joints
      mHierarchies := r.1 ++ [Hierarchy.new { jref with mUsed := true } r.1.length] }

/-- The first `while` loop of `build`. -/
def HierarchyBuilderImpl.consumeJoints : Nat → HierarchyBuilderImpl → Option HierarchyBuilderImpl
  | 0, _ => none
  | fuel + 1, b =>
    match b.findFirstUnusedJoint with
    | none => some b
    | some k =>
      match b.mJoints.get? k with
      | none => some b
      | some jref => HierarchyBuilderImpl.consumeJoints fuel (b.consumeJoint k jref)

/-- The loop over `j` in the merge pass of `build`: `source` is merged with
every hierarchy of the slots after it; the result is the source afterwards,
the slots afterwards and the number of merges. -/
def HierarchyBuilderImpl.mergeInto (source : Hierarchy) :
    List (Option Hierarchy) → Option (Hierarchy × List (Option Hierarchy) × Nat)
  | [] => some (source, [], 0)
  | none :: rest =>
    match HierarchyBuilderImpl.mergeInto source rest with
    | some (s, r, c) => some (s, none :: r, c)
    | none => none
  | some dest :: rest =>
    match source.merge dest with
    | none => none
    | some m =>
      if m.ret then
        match HierarchyBuilderImpl.mergeInto m.self rest with
        | some (s, r, c) => some (s, none :: r, c + 1)
        | none => none
      else
        match HierarchyBuilderImpl.mergeInto m.self rest with
        | some (s, r, c) => some (s, some dest :: r, c)
        | none => none

/-- The loop over `i` in the merge pass of `build`, which stops after the
first source that merged something; the result is the slots afterwards and
the number of merges.  The first argument bounds the number of slots that
are still to visit. -/
def HierarchyBuilderImpl.mergeSweep :
    Nat → List (Option Hierarchy) → Option (List (Option Hierarchy) × Nat)
  | _, [] => some ([], 0)
  | 0, _ :: _ => none
  | fuel + 1, none :: rest =>
    match HierarchyBuilderImpl.mergeSweep fuel rest with
    | some (r, c) => some (none :: r, c)
    | none => none
  | fuel + 1, some source :: rest =>
    match HierarchyBuilderImpl.mergeInto source rest with
    | none => none
    | some (s, r, c) =>
      if c ≠ 0 then some (some s :: r, c)
      else
        match HierarchyBuilderImpl.mergeSweep fuel r with
        | some (r1, c1) => some (some s :: r1, c1)
        | none => none

/-- The `while (mergePass)` loop of `build`; the result is the slots and the
value of `mergeCount` when the loop has ended. -/
def HierarchyBuilderImpl.mergePasses :
    Nat → List (Option Hierarchy) → Nat → Option (List (Option Hierarchy) × Nat)
  | 0, _, _ => none
  | fuel + 1, hs, mergeCount =>
    match HierarchyBuilderImpl.mergeSweep hs.length hs with
    | none => none
    | some (hs1, c) =>
      if c ≠ 0 then HierarchyBuilderImpl.mergePasses fuel hs1 (mergeCount + c)
      else some (hs1, mergeCount)

/-- The merge pass of `build` with the rebuild of the hierarchy list.  When
`mergeCount` is zero no slot was set to null and the list is kept, which is
what dropping the null slots gives as well. -/
def HierarchyBuilderImpl.mergeHierarchies (hs : List Hierarchy) : Option (List Hierarchy) :=
  if hs.length > 1 then
    match HierarchyBuilderImpl.mergePasses (hs.length + 1) (hs.map some) 0 with
    | none => none
    | some (temp, _mergeCount) => some (temp.filterMap id)
  else some hs

/-- The method `build`: the builder afterwards and the returned count.  Every
repetition of the first loop marks one more joint and every repetition of
the merge loop empties one more slot, which bounds the fuel. -/
def HierarchyBuilderImpl.build (b : HierarchyBuilderImpl) : Option (HierarchyBuilderImpl × Nat) :=
  let b1 := b.checkForDisconnectedRigidBodies
  match HierarchyBuilderImpl.consumeJoints (b1.mJoints.length + 1) b1 with
  | none => none
  | some b2 =>
    match HierarchyBuilderImpl.mergeHierarchies b2.mHierarchies with
    | none => none
    | some hs =>
      let hs1 := hs.map fun i => i.findLoopJoints b2.mJoints
      some ({ b2 with mHierarchies := hs1 }, hs1.length)

/-- The method `getHierarchyCount`. -/
def HierarchyBuilderImpl.getHierarchyCount (b : HierarchyBuilderImpl) : Nat :=
  b.mHierarchies.length

/-- The method `getHierarchyRoot`. -/
def HierarchyBuilderImpl.getHierarchyRoot (b : HierarchyBuilderImpl) (index : Nat) :
    Option Link :=
  (b.mHierarchies.get? index).map Hierarchy.getHierarchyRoot

/-- The method `getDisconnectedRigidBodyCount`. -/
def HierarchyBuilderImpl.getDisconnectedRigidBodyCount (b : HierarchyBuilderImpl) : Nat :=
  b.mDisconnectedRigidBodies.length

/-- The method `getDisconnectedRigidBody`. -/
def HierarchyBuilderImpl.getDisconnectedRigidBody (b : HierarchyBuilderImpl) (index : Nat) :
    Option String :=
  b.mDisconnectedRigidBodies.get? index

/-- The method `getRigidBodyCount`. -/
def HierarchyBuilderImpl.getRigidBodyCount (b : HierarchyBuilderImpl) : Nat :=
  b.mRigidBodies.length

/-- The method `getJointCount`. -/
def HierarchyBuilderImpl.getJointCount (b : HierarchyBuilderImpl) : Nat :=
  b.mJoints.length

/-! ## Callers -/

/-- A call of the registration interface. -/
inductive Call where
  | addRigidBody (id : String)
  | addJoint (jointId body0 body1 : String)
deriving DecidableEq, Repr

/-- One registration call; its boolean result is dropped, as in `main`. -/
def Call.run (b : HierarchyBuilderImpl) : Call → HierarchyBuilderImpl
  | .addRigidBody id => (b.addRigidBody id).1
  | .addJoint jointId body0 body1 => (b.addJoint jointId body0 body1).1

/-- A sequence of registration calls on a fresh builder. -/
def register (calls : List Call) : HierarchyBuilderImpl :=
  calls.foldl Call.run HierarchyBuilderImpl.create

end HIERARCHY_BUILDER

namespace HIERARCHY_BUILDER

/-- The body names of the nodes of a subtree, in the order of `getLinks`. -/
def Link.bodies (t : Link) : List String :=
  (Link.getLinks t).map Link.mRigidBody

/-- The body names of the nodes of a list of subtrees. -/
def Link.bodiesChildren (cs : List Link) : List String :=
  (Link.getLinksChildren cs).map Link.mRigidBody

/-- The joint names of the nodes below the root, in the order of `getLinks`. -/
def Link.jointNames (t : Link) : List String :=
  (Link.getLinksChildren t.mChildren).map Link.mJointName

/-- The joint names of all nodes of a list of subtrees. -/
def Link.jointNamesChildren (cs : List Link) : List String :=
  (Link.getLinksChildren cs).map Link.mJointName

/-- Adding a list of joints one after the other, all with success. -/
def Link.addAll : Link → List JointRef → Option Link
  | t, [] => some t
  | t, j :: js =>
    match Link.add t j with
    | some t1 => Link.addAll t1 js
    | none => none

end HIERARCHY_BUILDER
namespace HIERARCHY_BUILDER

/-- The joint names of the records that are not marked as used. -/
def unusedNames (js : List JointRef) : List String :=
  (js.filter fun i => !i.mUsed).map JointRef.mName

/-- A joint record with the flag cleared. -/
def JointRef.unmark (i : JointRef) : JointRef :=
  { i with mUsed := false }

/-- A joint record with the flag set. -/
def JointRef.mark (i : JointRef) : JointRef :=
  { i with mUsed := true }

end HIERARCHY_BUILDER

namespace HIERARCHY_BUILDER

/-! ## The joint graph -/

/-- Two bodies are the two ends of some joint of the list, in either order. -/
def Adjacent (joints : List JointRef) (a b : String) : Prop :=
  ∃ j ∈ joints, (j.mBody0 = a ∧ j.mBody1 = b) ∨ (j.mBody0 = b ∧ j.mBody1 = a)

/-- Two bodies are connected by a path of joints of the list. -/
def Connected (joints : List JointRef) : String → String → Prop :=
  Relation.ReflTransGen (Adjacent joints)

/-- A body is an end of some joint of the list. -/
def IsEndpoint (joints : List JointRef) (x : String) : Prop :=
  ∃ j ∈ joints, x = j.mBody0 ∨ x = j.mBody1

/-- The loop flags of the nodes of a subtree, in the order of `getLinks`. -/
def Link.loopFlags (t : Link) : List Bool :=
  (Link.getLinks t).map Link.mIsLoopJoint

/-- The loop flags of the nodes of a list of subtrees. -/
def Link.loopFlagsChildren (cs : List Link) : List Bool :=
  (Link.getLinksChildren cs).map Link.mIsLoopJoint

/-- What every hierarchy satisfies while `build` grows and merges trees, with
respect to the registered joints: its bodies are connected with each other in
the joint graph, each is an end of a joint, the root has a child and the
empty joint name, and no loop flag is set yet. -/
structure Link.WellFormed (joints : List JointRef) (t : Link) : Prop where
  connected : ∀ x ∈ Link.bodies t, ∀ y ∈ Link.bodies t, Connected joints x y
  endpoint : ∀ x ∈ Link.bodies t, IsEndpoint joints x
  children : t.mChildren ≠ []
  rootName : t.mJointName = ""
  noLoop : ∀ f ∈ Link.loopFlags t, f = false

/-- A joint record that may be added to a well-formed tree: its two bodies
are ends of registered joints and are connected in the joint graph. -/
structure JointRef.Admissible (joints : List JointRef) (j : JointRef) : Prop where
  connected : Connected joints j.mBody0 j.mBody1
  endpoint0 : IsEndpoint joints j.mBody0
  endpoint1 : IsEndpoint joints j.mBody1

end HIERARCHY_BUILDER

namespace HIERARCHY_BUILDER

/-! ## Lists of hierarchies -/

/-- The joint names of the edges of all hierarchies of a list. -/
def forestNames (hs : List Hierarchy) : List String :=
  hs.flatMap fun h => Link.jointNames h.mRoot

/-- The hierarchies in the slots that are not null. -/
def liveSlots (slots : List (Option Hierarchy)) : List Hierarchy :=
  slots.filterMap id

/-- No body labels a node of both hierarchies. -/
def Hierarchy.Disjoint (h k : Hierarchy) : Prop :=
  ∀ x ∈ Link.bodies h.mRoot, x ∉ Link.bodies k.mRoot

/-- The invariant of the hierarchy list during `build`: no joint name occurs
on two edges and every tree is well formed. -/
structure ForestInv (joints : List JointRef) (hs : List Hierarchy) : Prop where
  nodup : (forestNames hs).Nodup
  wellFormed : ∀ h ∈ hs, Link.WellFormed joints h.mRoot

/-- The bodies and the joint names of the first hierarchy are among those of
the second. -/
def Hierarchy.Inside (h h1 : Hierarchy) : Prop :=
  (∀ x ∈ Link.bodies h.mRoot, x ∈ Link.bodies h1.mRoot) ∧
    ∀ n ∈ Link.jointNames h.mRoot, n ∈ Link.jointNames h1.mRoot

/-- The second list of hierarchies has the same edges by name as the first
and every hierarchy of the first is inside one of the second. -/
structure ForestGrow (hs hs1 : List Hierarchy) : Prop where
  names : (forestNames hs1).Perm (forestNames hs)
  inside : ∀ h ∈ hs, ∃ h1 ∈ hs1, Hierarchy.Inside h h1

end HIERARCHY_BUILDER

namespace HIERARCHY_BUILDER

/-- The list `rigidBodies` of `Hierarchy::findLoopJoints` when its second
loop has ended. -/
def Hierarchy.loopSeen (links : List Link) : List String → List Nat → List String
  | rigidBodies, [] => rigidBodies
  | rigidBodies, i :: rest =>
    match links.get? i with
    | none => Hierarchy.loopSeen links rigidBodies rest
    | some l =>
      if rigidBodies.contains l.mRigidBody then Hierarchy.loopSeen links rigidBodies rest
      else Hierarchy.loopSeen links (rigidBodies ++ [l.mRigidBody]) rest

end HIERARCHY_BUILDER

namespace HIERARCHY_BUILDER

/-! ## The first loop of `build` -/

/-- The joint names of the records that are marked as used. -/
def usedNames (js : List JointRef) : List String :=
  (js.filter fun i => i.mUsed).map JointRef.mName

/-- The invariant of the first loop of `build`, with respect to the joints
`joints` as they were registered: the joint list differs from them in flags
only, the edges of the hierarchies carry exactly the names of the joints
marked as used, every tree is well formed, and every joint marked as used
has its name on an edge of a hierarchy in which both of its bodies label
nodes. -/
structure BuildInv (joints : List JointRef) (b : HierarchyBuilderImpl) : Prop where
  joints_eq : b.mJoints.map JointRef.unmark = joints.map JointRef.unmark
  names : (forestNames b.mHierarchies).Perm (usedNames b.mJoints)
  wellFormed : ∀ h ∈ b.mHierarchies, Link.WellFormed joints h.mRoot
  placed : ∀ j ∈ b.mJoints, j.mUsed = true →
    ∃ h ∈ b.mHierarchies, j.mName ∈ Link.jointNames h.mRoot ∧
      j.mBody0 ∈ Link.bodies h.mRoot ∧ j.mBody1 ∈ Link.bodies h.mRoot

end HIERARCHY_BUILDER

namespace HIERARCHY_BUILDER

/-! ## Valid inputs -/

/-- The state of a builder on which only registration calls were made since
it was created or reset: nothing is built, no flag is set, the body names are
pairwise distinct, the joint names are pairwise distinct, and both bodies of
every joint are registered. -/
structure Registered (b : HierarchyBuilderImpl) : Prop where
  hierarchies : b.mHierarchies = []
  disconnected : b.mDisconnectedRigidBodies = []
  jointsUnused : ∀ j ∈ b.mJoints, j.mUsed = false
  bodiesUnused : ∀ r ∈ b.mRigidBodies, r.mUsed = false
  jointNames : (b.mJoints.map JointRef.mName).Nodup
  bodyNames : (b.mRigidBodies.map RigidBodyRef.mName).Nodup
  known : ∀ j ∈ b.mJoints,
    j.mBody0 ∈ b.mRigidBodies.map RigidBodyRef.mName ∧
      j.mBody1 ∈ b.mRigidBodies.map RigidBodyRef.mName

/-- Whether a joint refers to a body name: the test in the second loop of
`checkForDisconnectedRigidBodies`. -/
def JointRef.refersTo (i : JointRef) (name : String) : Bool :=
  decide (name = i.mBody0 ∨ name = i.mBody1)

end HIERARCHY_BUILDER

namespace HIERARCHY_BUILDER

/-! ## The result of `build` -/

/-- What `build` returns for the valid input `b`: `r` is the builder
afterwards with the returned count, and `hs` is the hierarchy list before
the loop flags are set. -/
structure BuildResult (b : HierarchyBuilderImpl) (r : HierarchyBuilderImpl × Nat)
    (hs : List Hierarchy) : Prop where
  count : r.2 = hs.length
  hierarchies : r.1.mHierarchies = hs.map fun i => i.findLoopJoints r.1.mJoints
  joints_eq : r.1.mJoints.map JointRef.unmark = b.mJoints.map JointRef.unmark
  bodyNames : r.1.mRigidBodies.map RigidBodyRef.mName = b.mRigidBodies.map RigidBodyRef.mName
  disconnected : r.1.mDisconnectedRigidBodies =
    b.checkForDisconnectedRigidBodies.mDisconnectedRigidBodies
  inv : ForestInv b.mJoints hs
  disjoint : hs.Pairwise Hierarchy.Disjoint
  names : (forestNames hs).Perm (b.mJoints.map JointRef.mName)
  placed : ∀ j ∈ b.mJoints, ∃ h ∈ hs, j.mName ∈ Link.jointNames h.mRoot ∧
    j.mBody0 ∈ Link.bodies h.mRoot ∧ j.mBody1 ∈ Link.bodies h.mRoot

end HIERARCHY_BUILDER

namespace HIERARCHY_BUILDER

/-! ## Connected components -/

/-- The connected components of the joint graph that contain a joint, each
as the set of its bodies. -/
def jointComponents (joints : List JointRef) : Set (Set String) :=
  {S | ∃ j ∈ joints, S = {x | Connected joints j.mBody0 x}}

/-- The set of body names that label nodes of a hierarchy. -/
def Hierarchy.bodySet (h : Hierarchy) : Set String :=
  {x | x ∈ Link.bodies h.mRoot}

end HIERARCHY_BUILDER

namespace HIERARCHY_BUILDER

/-! ## Observations of the result -/

/-- Every edge that the hierarchies of a builder report through `getJoint`,
in the order in which `debugPrint` walks them. -/
def HierarchyBuilderImpl.reportedEdges (b : HierarchyBuilderImpl) :
    List (String × String × String × Bool) :=
  b.mHierarchies.flatMap fun h => Link.showHierarchy h.getHierarchyRoot

/-- The body names of all nodes of all hierarchies of a builder. -/
def HierarchyBuilderImpl.nodeBodies (b : HierarchyBuilderImpl) : List String :=
  b.mHierarchies.flatMap fun h => Link.bodies h.getHierarchyRoot

/-- The number of hierarchies of a builder that have a node for the body. -/
def HierarchyBuilderImpl.hierarchiesWith (b : HierarchyBuilderImpl) (x : String) : Nat :=
  b.mHierarchies.countP fun h => decide (x ∈ Link.bodies h.getHierarchyRoot)

/-- The joint names of the reported edges that are flagged as loop joints. -/
def HierarchyBuilderImpl.loopJoints (b : HierarchyBuilderImpl) : List String :=
  (b.reportedEdges.filter fun e => e.2.2.2).map fun e => e.1

/-- The registration calls for a list of body names. -/
def bodyCalls (bodies : List String) : List Call :=
  bodies.map Call.addRigidBody

/-- The registration calls for a list of joints, each given by its name and
the names of its two bodies. -/
def jointCalls (joints : List (String × String × String)) : List Call :=
  joints.map fun j => Call.addJoint j.1 j.2.1 j.2.2

end HIERARCHY_BUILDER

namespace HIERARCHY_BUILDER

/-- The joint record that `addJoint` stores for a joint given by its name and
the names of its two bodies. -/
def jointRecord (j : String × String × String) : JointRef :=
  { mName := j.1, mBody0 := j.2.1, mBody1 := j.2.2 }

end HIERARCHY_BUILDER

namespace HIERARCHY_BUILDER

mutual
/-- The method `Link::add` with the state of the receiver passed through
every call, also through the calls that return `nullptr`: the subtree after
the call, and whether the returned pointer is not null. -/
def Link.addInPlace : Link → JointRef → Link × Bool
  | .mk f n b cs, jref =>
    match Link.isLinked (.mk f n b cs) jref with
    | .LO_BODY0 => (.mk f n b (cs ++ [Link.fresh jref []]), true)
    | .LO_BODY1 => (.mk f n jref.mBody0 [Link.fresh jref cs], true)
    | .LO_NOT_LINKED =>
      let r := Link.addInPlaceChildren cs jref
      (.mk f n b r.1, r.2)
/-- The loop over `mChildren` in `Link::add`, with the children after the
loop and whether the loop ended with a non-null `ret`. -/
def Link.addInPlaceChildren : List Link → JointRef → List Link × Bool
  | [], _ => ([], false)
  | c :: cs, jref =>
    let r := Link.addInPlace c jref
    if r.2 then (r.1 :: cs, true)
    else
      let rs := Link.addInPlaceChildren cs jref
      (r.1 :: rs.1, rs.2)
end

/-- The method `Hierarchy::added` with the state of the tree passed through
the call of `Link::add`. -/
def Hierarchy.addedInPlace (h : Hierarchy) (jref : JointRef) : Hierarchy × Bool :=
  let r := Link.addInPlace h.mRoot jref
  ({ h with mRoot := r.1 }, r.2)

mutual
/-- A subtree with every loop flag cleared: the bodies, the joint names and
the shape of the subtree. -/
def Link.skeleton : Link → Link
  | .mk _ n b cs => .mk false n b (Link.skeletonChildren cs)
/-- The skeletons of a list of subtrees. -/
def Link.skeletonChildren : List Link → List Link
  | [] => []
  | c :: cs => Link.skeleton c :: Link.skeletonChildren cs
end

/-- A joint named `n1` stands in the joint list before a joint named `n2`. -/
def JointRef.Earlier (joints : List JointRef) (n1 n2 : String) : Prop :=
  ∃ l1 a l2, joints = l1 ++ a :: l2 ∧ a.mName = n2 ∧ ∃ a1 ∈ l1, a1.mName = n1

end HIERARCHY_BUILDER

namespace HIERARCHY_BUILDER

/-! ## Joint graphs without a cycle -/

/-- The joint graph is a forest: the two bodies of a joint are never
connected by the other joints of the list.  This excludes a joint from a
body to itself, two joints between the same two bodies and every longer
cycle. -/
def Acyclic (joints : List JointRef) : Prop :=
  ∀ j ∈ joints, ¬ Connected (joints.erase j) j.mBody0 j.mBody1

/-- The joints of the list whose names are on the edges of the tree. -/
def Link.jointsOf (joints : List JointRef) (t : Link) : List JointRef :=
  joints.filter fun j => decide (j.mName ∈ Link.jointNames t)

/-- What every tree satisfies while `build` grows and merges trees when the
joint graph is a forest: no body labels two nodes, and the bodies are
connected by the joints whose names are on the edges of the tree. -/
structure Link.Simple (joints : List JointRef) (t : Link) : Prop where
  nodup : (Link.bodies t).Nodup
  linked : ∀ x ∈ Link.bodies t, ∀ y ∈ Link.bodies t,
    Connected (Link.jointsOf joints t) x y

end HIERARCHY_BUILDER

namespace HIERARCHY_BUILDER

/-! ## Trees: induction and the flat link array -/

/-- Induction over a tree together with its lists of subtrees. -/
theorem Link.induct {P : Link → Prop} {Q : List Link → Prop}
    (hmk : ∀ f n b cs, Q cs → P (.mk f n b cs)) (hnil : Q [])
    (hcons : ∀ c cs, P c → Q cs → Q (c :: cs)) : (∀ t, P t) ∧ (∀ cs, Q cs) :=
  ⟨fun t => @Link.rec P Q hmk hnil hcons t, fun cs => @Link.rec_1 P Q hmk hnil hcons cs⟩

theorem Link.getLinks_mk (f : Bool) (n b : String) (cs : List Link) :
    Link.getLinks (.mk f n b cs) = .mk f n b cs :: Link.getLinksChildren cs := by
  rw [Link.getLinks]

theorem Link.getLinks_eq (t : Link) :
    Link.getLinks t = t :: Link.getLinksChildren t.mChildren := by
  cases t with
  | mk f n b cs => rw [Link.getLinks]; rfl

theorem Link.getLinksChildren_nil : Link.getLinksChildren [] = [] := by
  rw [Link.getLinksChildren]

theorem Link.getLinksChildren_cons (c : Link) (cs : List Link) :
    Link.getLinksChildren (c :: cs) = Link.getLinks c ++ Link.getLinksChildren cs := by
  rw [Link.getLinksChildren]

theorem Link.getLinksChildren_append (cs ds : List Link) :
    Link.getLinksChildren (cs ++ ds) = Link.getLinksChildren cs ++ Link.getLinksChildren ds := by
  induction cs with
  | nil => simp [Link.getLinksChildren_nil]
  | cons c cs ih => simp [Link.getLinksChildren_cons, ih]

theorem Link.bodies_mk (f : Bool) (n b : String) (cs : List Link) :
    Link.bodies (.mk f n b cs) = b :: Link.bodiesChildren cs := by
  simp [Link.bodies, Link.bodiesChildren, Link.getLinks_mk, Link.mRigidBody]

theorem Link.bodies_eq (t : Link) :
    Link.bodies t = t.mRigidBody :: Link.bodiesChildren t.mChildren := by
  cases t with
  | mk f n b cs => rw [Link.bodies_mk]; rfl

theorem Link.bodiesChildren_nil : Link.bodiesChildren [] = [] := by
  simp [Link.bodiesChildren, Link.getLinksChildren_nil]

theorem Link.bodiesChildren_cons (c : Link) (cs : List Link) :
    Link.bodiesChildren (c :: cs) = Link.bodies c ++ Link.bodiesChildren cs := by
  simp [Link.bodies, Link.bodiesChildren, Link.getLinksChildren_cons]

theorem Link.bodiesChildren_append (cs ds : List Link) :
    Link.bodiesChildren (cs ++ ds) = Link.bodiesChildren cs ++ Link.bodiesChildren ds := by
  simp [Link.bodiesChildren, Link.getLinksChildren_append]

theorem Link.jointNames_mk (f : Bool) (n b : String) (cs : List Link) :
    Link.jointNames (.mk f n b cs) = Link.jointNamesChildren cs := by
  simp [Link.jointNames, Link.jointNamesChildren, Link.mChildren]

theorem Link.jointNamesChildren_nil : Link.jointNamesChildren [] = [] := by
  simp [Link.jointNamesChildren, Link.getLinksChildren_nil]

theorem Link.jointNamesChildren_cons (c : Link) (cs : List Link) :
    Link.jointNamesChildren (c :: cs) =
      c.mJointName :: (Link.jointNames c ++ Link.jointNamesChildren cs) := by
  simp [Link.jointNames, Link.jointNamesChildren, Link.getLinksChildren_cons, Link.getLinks_eq]

theorem Link.jointNamesChildren_append (cs ds : List Link) :
    Link.jointNamesChildren (cs ++ ds) =
      Link.jointNamesChildren cs ++ Link.jointNamesChildren ds := by
  simp [Link.jointNamesChildren, Link.getLinksChildren_append]

theorem Link.mRigidBody_mem_bodies (t : Link) : t.mRigidBody ∈ Link.bodies t := by
  rw [Link.bodies_eq]; exact List.mem_cons_self _ _

/-! ## The method `add` -/

theorem Link.add_body0 (f : Bool) (n b : String) (cs : List Link) (j : JointRef)
    (h0 : b = j.mBody0) :
    Link.add (.mk f n b cs) j = some (.mk f n b (cs ++ [Link.fresh j []])) := by
  rw [Link.add]; simp [Link.isLinked, Link.mRigidBody, h0]

theorem Link.add_body1 (f : Bool) (n b : String) (cs : List Link) (j : JointRef)
    (h0 : b ≠ j.mBody0) (h1 : b = j.mBody1) :
    Link.add (.mk f n b cs) j = some (.mk f n j.mBody0 [Link.fresh j cs]) := by
  subst h1
  rw [Link.add]; simp [Link.isLinked, Link.mRigidBody, h0]

theorem Link.add_descend (f : Bool) (n b : String) (cs : List Link) (j : JointRef)
    (h0 : b ≠ j.mBody0) (h1 : b ≠ j.mBody1) :
    Link.add (.mk f n b cs) j = (Link.addChildren cs j).map (Link.mk f n b) := by
  rw [Link.add]; simp only [Link.isLinked, Link.mRigidBody, h0, h1, if_false]
  cases Link.addChildren cs j <;> rfl

theorem Link.addChildren_nil (j : JointRef) : Link.addChildren [] j = none := by
  rw [Link.addChildren]

theorem Link.addChildren_cons_some (c c1 : Link) (cs : List Link) (j : JointRef)
    (h : Link.add c j = some c1) : Link.addChildren (c :: cs) j = some (c1 :: cs) := by
  rw [Link.addChildren, h]

theorem Link.addChildren_cons_none (c : Link) (cs : List Link) (j : JointRef)
    (h : Link.add c j = none) :
    Link.addChildren (c :: cs) j = (Link.addChildren cs j).map (List.cons c) := by
  rw [Link.addChildren, h]
  cases Link.addChildren cs j <;> rfl

/-- Case analysis of a successful `add`, by induction over the tree. -/
theorem Link.add_cases (j : JointRef) {P : Link → Link → Prop}
    {Q : List Link → List Link → Prop}
    (h0 : ∀ f n b cs, b = j.mBody0 → P (.mk f n b cs) (.mk f n b (cs ++ [Link.fresh j []])))
    (h1 : ∀ f n b cs, b ≠ j.mBody0 → b = j.mBody1 →
      P (.mk f n b cs) (.mk f n j.mBody0 [Link.fresh j cs]))
    (hd : ∀ f n b cs cs1, b ≠ j.mBody0 → b ≠ j.mBody1 → Link.addChildren cs j = some cs1 →
      Q cs cs1 → P (.mk f n b cs) (.mk f n b cs1))
    (hhead : ∀ c c1 cs, Link.add c j = some c1 → P c c1 → Q (c :: cs) (c1 :: cs))
    (htail : ∀ c cs cs1, Link.add c j = none → Link.addChildren cs j = some cs1 →
      Q cs cs1 → Q (c :: cs) (c :: cs1)) :
    (∀ t t1, Link.add t j = some t1 → P t t1) ∧
      (∀ cs cs1, Link.addChildren cs j = some cs1 → Q cs cs1) := by
  apply Link.induct
  · intro f n b cs ih t1 ht
    by_cases e0 : b = j.mBody0
    · rw [Link.add_body0 f n b cs j e0] at ht
      cases ht; exact h0 f n b cs e0
    · by_cases e1 : b = j.mBody1
      · rw [Link.add_body1 f n b cs j e0 e1] at ht
        cases ht; exact h1 f n b cs e0 e1
      · rw [Link.add_descend f n b cs j e0 e1] at ht
        cases hc : Link.addChildren cs j with
        | none => rw [hc] at ht; cases ht
        | some cs1 =>
          rw [hc] at ht; cases ht
          exact hd f n b cs cs1 e0 e1 hc (ih cs1 hc)
  · intro cs1 h
    rw [Link.addChildren_nil] at h; cases h
  · intro c cs ihc ihcs cs1 h
    cases hc : Link.add c j with
    | some c1 =>
      rw [Link.addChildren_cons_some c c1 cs j hc] at h
      cases h; exact hhead c c1 cs hc (ihc c1 hc)
    | none =>
      rw [Link.addChildren_cons_none c cs j hc] at h
      cases hd2 : Link.addChildren cs j with
      | none => rw [hd2] at h; cases h
      | some cs2 =>
        rw [hd2] at h; cases h
        exact htail c cs cs2 hc hd2 (ihcs cs2 hd2)

end HIERARCHY_BUILDER

namespace HIERARCHY_BUILDER

theorem Link.bodies_fresh (j : JointRef) (cs : List Link) :
    Link.bodies (Link.fresh j cs) = j.mBody1 :: Link.bodiesChildren cs := by
  rw [Link.fresh, Link.bodies_mk]

theorem Link.jointNames_fresh (j : JointRef) (cs : List Link) :
    Link.jointNames (Link.fresh j cs) = Link.jointNamesChildren cs := by
  rw [Link.fresh, Link.jointNames_mk]

/-- The bodies of a tree after a successful `add`: the old ones and the two
bodies of the joint. -/
theorem Link.add_bodies (j : JointRef) :
    (∀ t t1, Link.add t j = some t1 →
      ∀ x, x ∈ Link.bodies t1 ↔ x ∈ Link.bodies t ∨ x = j.mBody0 ∨ x = j.mBody1) ∧
    (∀ cs cs1, Link.addChildren cs j = some cs1 →
      ∀ x, x ∈ Link.bodiesChildren cs1 ↔
        x ∈ Link.bodiesChildren cs ∨ x = j.mBody0 ∨ x = j.mBody1) := by
  apply Link.add_cases j
  · intro f n b cs e0 x
    subst e0
    simp only [Link.bodies_mk, Link.bodiesChildren_append, Link.bodiesChildren_cons,
      Link.bodies_fresh, Link.bodiesChildren_nil, List.mem_cons, List.mem_append,
      List.append_nil, List.not_mem_nil, or_false]
    tauto
  · intro f n b cs e0 e1 x
    subst e1
    simp only [Link.bodies_mk, Link.bodiesChildren_cons, Link.bodies_fresh,
      Link.bodiesChildren_nil, List.mem_cons, List.mem_append, List.append_nil]
    tauto
  · intro f n b cs cs1 _ _ _ ih x
    simp only [Link.bodies_mk, List.mem_cons, ih x]
    tauto
  · intro c c1 cs _ ih x
    simp only [Link.bodiesChildren_cons, List.mem_append, ih x]
    tauto
  · intro c cs cs1 _ _ ih x
    simp only [Link.bodiesChildren_cons, List.mem_append, ih x]
    tauto

/-- A failing `add` means that neither body of the joint labels a node. -/
theorem Link.add_eq_none (j : JointRef) :
    (∀ t, Link.add t j = none ↔ (j.mBody0 ∉ Link.bodies t ∧ j.mBody1 ∉ Link.bodies t)) ∧
    (∀ cs, Link.addChildren cs j = none ↔
      (j.mBody0 ∉ Link.bodiesChildren cs ∧ j.mBody1 ∉ Link.bodiesChildren cs)) := by
  apply Link.induct
  · intro f n b cs ih
    rw [Link.bodies_mk]
    by_cases e0 : b = j.mBody0
    · rw [Link.add_body0 f n b cs j e0]; simp [e0]
    · by_cases e1 : b = j.mBody1
      · rw [Link.add_body1 f n b cs j e0 e1]; simp [e1]
      · rw [Link.add_descend f n b cs j e0 e1, Option.map_eq_none', ih]
        simp [List.mem_cons, Ne.symm e0, Ne.symm e1]
  · simp [Link.addChildren_nil, Link.bodiesChildren_nil]
  · intro c cs ihc ihcs
    rw [Link.bodiesChildren_cons]
    cases hc : Link.add c j with
    | some c1 =>
      rw [Link.addChildren_cons_some c c1 cs j hc]
      have : ¬ (j.mBody0 ∉ Link.bodies c ∧ j.mBody1 ∉ Link.bodies c) := by
        rw [← ihc, hc]; simp
      simp only [List.mem_append]
      constructor
      · intro h; cases h
      · intro h; exact absurd ⟨fun h0 => h.1 (Or.inl h0), fun h1 => h.2 (Or.inl h1)⟩ this
    | none =>
      rw [Link.addChildren_cons_none c cs j hc, Option.map_eq_none', ihcs]
      rw [ihc] at hc
      simp only [List.mem_append]
      tauto

theorem Link.add_isSome_iff (t : Link) (j : JointRef) :
    (Link.add t j).isSome ↔ (j.mBody0 ∈ Link.bodies t ∨ j.mBody1 ∈ Link.bodies t) := by
  have h := (Link.add_eq_none j).1 t
  cases ha : Link.add t j with
  | none => rw [ha] at h; simp only [true_iff] at h; simp; tauto
  | some t1 =>
    rw [ha] at h
    simp only [Option.isSome_some, true_iff]
    by_contra hn
    have : (some t1 : Option Link) = none := h.mpr ⟨fun h0 => hn (Or.inl h0), fun h1 => hn (Or.inr h1)⟩
    cases this

/-- A successful `add` keeps the joint name of every old node and puts the
name of the joint on one new node. -/
theorem Link.add_jointNames (j : JointRef) :
    (∀ t t1, Link.add t j = some t1 →
      t1.mJointName = t.mJointName ∧
        (Link.jointNames t1).Perm (j.mName :: Link.jointNames t)) ∧
    (∀ cs cs1, Link.addChildren cs j = some cs1 →
      (Link.jointNamesChildren cs1).Perm (j.mName :: Link.jointNamesChildren cs)) := by
  apply Link.add_cases j
  · intro f n b cs _
    refine ⟨rfl, ?_⟩
    simp only [Link.jointNames_mk, Link.jointNamesChildren_append, Link.jointNamesChildren_cons,
      Link.jointNames_fresh, Link.jointNamesChildren_nil, List.append_nil]
    exact (List.perm_append_comm).trans (List.Perm.refl _)
  · intro f n b cs _ _
    refine ⟨rfl, ?_⟩
    simp only [Link.jointNames_mk, Link.jointNamesChildren_cons, Link.jointNames_fresh,
      Link.jointNamesChildren_nil, List.append_nil]
    exact List.Perm.refl _
  · intro f n b cs cs1 _ _ _ ih
    refine ⟨rfl, ?_⟩
    simpa only [Link.jointNames_mk] using ih
  · intro c c1 cs _ ih
    simp only [Link.jointNamesChildren_cons, ih.1]
    refine (List.Perm.cons _ (List.Perm.append_right _ ih.2)).trans ?_
    simp only [List.cons_append]
    exact List.Perm.swap _ _ _
  · intro c cs cs1 _ _ ih
    simp only [Link.jointNamesChildren_cons]
    refine (List.Perm.cons _ (List.Perm.append_left _ ih)).trans ?_
    refine (List.Perm.cons _ List.perm_middle).trans ?_
    exact List.Perm.swap _ _ _

end HIERARCHY_BUILDER

namespace HIERARCHY_BUILDER

/-! ## The methods `getJointRef` and `isDuplicate` -/

theorem Link.getJointRef_mk (f : Bool) (n b : String) (cs : List Link) :
    Link.getJointRef (.mk f n b cs) = Link.childJointRefs b cs ++ Link.getJointRefChildren cs := by
  rw [Link.getJointRef]

theorem Link.getJointRefChildren_nil : Link.getJointRefChildren [] = [] := by
  rw [Link.getJointRefChildren]

theorem Link.getJointRefChildren_cons (c : Link) (cs : List Link) :
    Link.getJointRefChildren (c :: cs) = Link.getJointRef c ++ Link.getJointRefChildren cs := by
  rw [Link.getJointRefChildren]

theorem Link.childJointRefs_nil (b : String) : Link.childJointRefs b [] = [] := rfl

theorem Link.childJointRefs_cons (b : String) (c : Link) (cs : List Link) :
    Link.childJointRefs b (c :: cs) =
      { mUsed := false, mName := c.mJointName, mBody0 := b, mBody1 := c.mRigidBody } ::
        Link.childJointRefs b cs := rfl

/-- Every record of `getJointRef` is unused. -/
theorem Link.getJointRef_unused :
    (∀ t : Link, ∀ e ∈ Link.getJointRef t, e.mUsed = false) ∧
    (∀ cs : List Link, ∀ b : String,
      ∀ e ∈ Link.childJointRefs b cs ++ Link.getJointRefChildren cs, e.mUsed = false) := by
  apply Link.induct
  · intro f n b cs ih e he
    rw [Link.getJointRef_mk] at he
    exact ih b e he
  · intro b e he
    simp [Link.childJointRefs_nil, Link.getJointRefChildren_nil] at he
  · intro c cs ihc ihcs b e he
    simp only [Link.childJointRefs_cons, Link.getJointRefChildren_cons, List.cons_append,
      List.mem_cons, List.mem_append] at he
    rcases he with he | he | he | he
    · rw [he]
    · exact ihcs b e (List.mem_append_left _ he)
    · exact ihc e he
    · exact ihcs b e (List.mem_append_right _ he)

/-- The joint names of the records of `getJointRef` are the joint names of
the nodes below the root, in another order. -/
theorem Link.getJointRef_names :
    (∀ t : Link, ((Link.getJointRef t).map JointRef.mName).Perm (Link.jointNames t)) ∧
    (∀ cs : List Link, ∀ b : String,
      ((Link.childJointRefs b cs ++ Link.getJointRefChildren cs).map JointRef.mName).Perm
        (Link.jointNamesChildren cs)) := by
  apply Link.induct
  · intro f n b cs ih
    rw [Link.getJointRef_mk, Link.jointNames_mk]
    exact ih b
  · intro b
    simp [Link.childJointRefs_nil, Link.getJointRefChildren_nil, Link.jointNamesChildren_nil]
  · intro c cs ihc ihcs b
    simp only [Link.childJointRefs_cons, Link.getJointRefChildren_cons, List.cons_append,
      List.map_cons, List.map_append, Link.jointNamesChildren_cons]
    refine List.Perm.cons _ ?_
    have h2 := ihcs b
    rw [List.map_append] at h2
    refine List.Perm.trans ?_ (List.Perm.append ihc h2)
    rw [← List.append_assoc, ← List.append_assoc]
    exact List.Perm.append_right _ List.perm_append_comm

/-- Both bodies of a record of `getJointRef` label nodes of the tree. -/
theorem Link.getJointRef_bodies :
    (∀ t : Link, ∀ e ∈ Link.getJointRef t,
      e.mBody0 ∈ Link.bodies t ∧ e.mBody1 ∈ Link.bodies t) ∧
    (∀ cs : List Link, ∀ b : String,
      ∀ e ∈ Link.childJointRefs b cs ++ Link.getJointRefChildren cs,
        (e.mBody0 = b ∨ e.mBody0 ∈ Link.bodiesChildren cs) ∧
          e.mBody1 ∈ Link.bodiesChildren cs) := by
  apply Link.induct
  · intro f n b cs ih e he
    rw [Link.getJointRef_mk] at he
    rw [Link.bodies_mk]
    have := ih b e he
    simp only [List.mem_cons]
    tauto
  · intro b e he
    simp [Link.childJointRefs_nil, Link.getJointRefChildren_nil] at he
  · intro c cs ihc ihcs b e he
    simp only [Link.childJointRefs_cons, Link.getJointRefChildren_cons, List.cons_append,
      List.mem_cons, List.mem_append] at he
    simp only [Link.bodiesChildren_cons, List.mem_append]
    rcases he with he | he | he | he
    · subst he
      exact ⟨Or.inl rfl, Or.inl (Link.mRigidBody_mem_bodies c)⟩
    · have := ihcs b e (List.mem_append_left _ he); tauto
    · have := ihc e he; tauto
    · have := ihcs b e (List.mem_append_right _ he); tauto

/-- The records of `getJointRef` connect the nodes of the tree: a property of
bodies that every record carries from one of its bodies to the other holds
for all nodes when it holds for one. -/
theorem Link.getJointRef_connected (S : String → Prop) :
    (∀ t : Link, (∀ e ∈ Link.getJointRef t, (S e.mBody0 ↔ S e.mBody1)) →
      ∀ x ∈ Link.bodies t, (S x ↔ S t.mRigidBody)) ∧
    (∀ cs : List Link, ∀ b : String,
      (∀ e ∈ Link.childJointRefs b cs ++ Link.getJointRefChildren cs,
        (S e.mBody0 ↔ S e.mBody1)) →
      ∀ x ∈ Link.bodiesChildren cs, (S x ↔ S b)) := by
  apply Link.induct
  · intro f n b cs ih h x hx
    rw [Link.getJointRef_mk] at h
    rw [Link.bodies_mk, List.mem_cons] at hx
    rcases hx with hx | hx
    · rw [hx]; rfl
    · exact ih b h x hx
  · intro b _ x hx
    simp [Link.bodiesChildren_nil] at hx
  · intro c cs ihc ihcs b h x hx
    simp only [Link.childJointRefs_cons, Link.getJointRefChildren_cons, List.cons_append,
      List.mem_cons, List.mem_append] at h
    rw [Link.bodiesChildren_cons, List.mem_append] at hx
    rcases hx with hx | hx
    · have h1 := ihc (fun e he => h e (Or.inr (Or.inr (Or.inl he)))) x hx
      have h2 := h _ (Or.inl rfl)
      simp only at h2
      rw [h1, h2]
    · refine ihcs b (fun e he => ?_) x hx
      rw [List.mem_append] at he
      rcases he with he | he
      · exact h e (Or.inr (Or.inl he))
      · exact h e (Or.inr (Or.inr (Or.inr he)))

/-- A joint that `isDuplicate` finds is a record of `getJointRef`, up to the
flag. -/
theorem Link.isDuplicate_true (ref : JointRef) :
    (∀ t : Link, Link.isDuplicate t ref = true →
      ∃ e ∈ Link.getJointRef t,
        e.mName = ref.mName ∧ e.mBody0 = ref.mBody0 ∧ e.mBody1 = ref.mBody1) ∧
    (∀ cs : List Link, Link.isDuplicateChildren cs ref = true →
      ∃ e ∈ Link.getJointRefChildren cs,
        e.mName = ref.mName ∧ e.mBody0 = ref.mBody0 ∧ e.mBody1 = ref.mBody1) := by
  apply Link.induct
  · intro f n b cs ih h
    rw [Link.isDuplicate] at h
    rw [Link.getJointRef_mk]
    by_cases hc : Link.childDuplicate b cs ref = true
    · simp only [Link.childDuplicate, List.any_eq_true, Bool.and_eq_true,
        decide_eq_true_eq] at hc
      obtain ⟨i, hi, ⟨h0, h1⟩, h2⟩ := hc
      refine ⟨{ mUsed := false, mName := i.mJointName, mBody0 := b, mBody1 := i.mRigidBody },
        List.mem_append_left _ ?_, h2.symm, h0.symm, h1.symm⟩
      exact List.mem_map.mpr ⟨i, hi, rfl⟩
    · simp only [hc] at h
      obtain ⟨e, he, hp⟩ := ih (by simpa using h)
      exact ⟨e, List.mem_append_right _ he, hp⟩
  · intro h
    rw [Link.isDuplicateChildren] at h; cases h
  · intro c cs ihc ihcs h
    rw [Link.isDuplicateChildren] at h
    rw [Link.getJointRefChildren_cons]
    by_cases hc : Link.isDuplicate c ref = true
    · obtain ⟨e, he, hp⟩ := ihc hc
      exact ⟨e, List.mem_append_left _ he, hp⟩
    · simp only [hc] at h
      obtain ⟨e, he, hp⟩ := ihcs (by simpa using h)
      exact ⟨e, List.mem_append_right _ he, hp⟩

theorem Link.isDuplicate_bodies (t : Link) (ref : JointRef)
    (h : Link.isDuplicate t ref = true) :
    ref.mBody0 ∈ Link.bodies t ∧ ref.mBody1 ∈ Link.bodies t := by
  obtain ⟨e, he, _, h0, h1⟩ := (Link.isDuplicate_true ref).1 t h
  have := Link.getJointRef_bodies.1 t e he
  rw [h0, h1] at this; exact this

theorem Link.isDuplicate_name (t : Link) (ref : JointRef)
    (h : Link.isDuplicate t ref = true) : ref.mName ∈ Link.jointNames t := by
  obtain ⟨e, he, hn, _, _⟩ := (Link.isDuplicate_true ref).1 t h
  rw [← (Link.getJointRef_names.1 t).mem_iff, ← hn]
  exact List.mem_map.mpr ⟨e, he, rfl⟩

end HIERARCHY_BUILDER

namespace HIERARCHY_BUILDER

/-! ## The method `merge` -/

theorem Hierarchy.added_some (h : Hierarchy) (j : JointRef) (r : Link)
    (hr : h.mRoot.add j = some r) : h.added j = ({ h with mRoot := r }, true) := by
  rw [Hierarchy.added, hr]

theorem Hierarchy.added_none (h : Hierarchy) (j : JointRef)
    (hr : h.mRoot.add j = none) : h.added j = (h, false) := by
  rw [Hierarchy.added, hr]

theorem Hierarchy.mergeScan_nil (self : Hierarchy) (ret consumed : Bool) :
    Hierarchy.mergeScan self ret consumed [] =
      { self := self, ret := ret, consumed := consumed, joints := [] } := by
  rw [Hierarchy.mergeScan]

theorem Hierarchy.mergeScan_used (self : Hierarchy) (ret consumed : Bool) (i : JointRef)
    (rest : List JointRef) (hi : i.mUsed = true) :
    Hierarchy.mergeScan self ret consumed (i :: rest) =
      { Hierarchy.mergeScan self ret consumed rest with
        joints := i :: (Hierarchy.mergeScan self ret consumed rest).joints } := by
  rw [Hierarchy.mergeScan]; simp [hi]

theorem Hierarchy.mergeScan_duplicate (self : Hierarchy) (ret consumed : Bool) (i : JointRef)
    (rest : List JointRef) (hi : i.mUsed = false) (hd : self.mRoot.isDuplicate i = true) :
    Hierarchy.mergeScan self ret consumed (i :: rest) =
      { Hierarchy.mergeScan self ret consumed rest with
        joints := i.mark :: (Hierarchy.mergeScan self ret consumed rest).joints } := by
  rw [Hierarchy.mergeScan]; simp [hi, hd, JointRef.mark]

theorem Hierarchy.mergeScan_added (self : Hierarchy) (ret consumed : Bool) (i : JointRef)
    (rest : List JointRef) (r : Link) (hi : i.mUsed = false)
    (hd : self.mRoot.isDuplicate i = false) (hr : self.mRoot.add i = some r) :
    Hierarchy.mergeScan self ret consumed (i :: rest) =
      { Hierarchy.mergeScan { self with mRoot := r } true true rest with
        joints := i.mark :: (Hierarchy.mergeScan { self with mRoot := r } true true rest).joints } := by
  rw [Hierarchy.mergeScan]; simp [hi, hd, JointRef.mark, Hierarchy.added_some self i r hr]

theorem Hierarchy.mergeScan_failed (self : Hierarchy) (ret consumed : Bool) (i : JointRef)
    (rest : List JointRef) (hi : i.mUsed = false)
    (hd : self.mRoot.isDuplicate i = false) (hr : self.mRoot.add i = none) :
    Hierarchy.mergeScan self ret consumed (i :: rest) =
      { Hierarchy.mergeScan self ret consumed rest with
        joints := i :: (Hierarchy.mergeScan self ret consumed rest).joints } := by
  rw [Hierarchy.mergeScan]; simp [hi, hd, Hierarchy.added_none self i hr]

/-- Case analysis of one scan of the joints in `merge`. -/
theorem Hierarchy.mergeScan_cases
    {P : Hierarchy → Bool → Bool → List JointRef → MergeState → Prop}
    (hnil : ∀ self ret consumed,
      P self ret consumed [] { self := self, ret := ret, consumed := consumed, joints := [] })
    (hused : ∀ self ret consumed i rest s, i.mUsed = true → P self ret consumed rest s →
      P self ret consumed (i :: rest) { s with joints := i :: s.joints })
    (hdup : ∀ self ret consumed i rest s, i.mUsed = false → self.mRoot.isDuplicate i = true →
      P self ret consumed rest s →
      P self ret consumed (i :: rest) { s with joints := i.mark :: s.joints })
    (hadd : ∀ self ret consumed i rest r s, i.mUsed = false →
      self.mRoot.isDuplicate i = false → self.mRoot.add i = some r →
      P { self with mRoot := r } true true rest s →
      P self ret consumed (i :: rest) { s with joints := i.mark :: s.joints })
    (hfail : ∀ self ret consumed i rest s, i.mUsed = false →
      self.mRoot.isDuplicate i = false → self.mRoot.add i = none →
      P self ret consumed rest s →
      P self ret consumed (i :: rest) { s with joints := i :: s.joints }) :
    ∀ js self ret consumed, P self ret consumed js (Hierarchy.mergeScan self ret consumed js) := by
  intro js
  induction js with
  | nil => intro self ret consumed; rw [Hierarchy.mergeScan_nil]; exact hnil _ _ _
  | cons i rest ih =>
    intro self ret consumed
    cases hi : i.mUsed with
    | true =>
      rw [Hierarchy.mergeScan_used self ret consumed i rest hi]
      exact hused _ _ _ _ _ _ hi (ih _ _ _)
    | false =>
      cases hd : self.mRoot.isDuplicate i with
      | true =>
        rw [Hierarchy.mergeScan_duplicate self ret consumed i rest hi hd]
        exact hdup _ _ _ _ _ _ hi hd (ih _ _ _)
      | false =>
        cases hr : self.mRoot.add i with
        | some r =>
          rw [Hierarchy.mergeScan_added self ret consumed i rest r hi hd hr]
          exact hadd _ _ _ _ _ _ _ hi hd hr (ih _ _ _)
        | none =>
          rw [Hierarchy.mergeScan_failed self ret consumed i rest hi hd hr]
          exact hfail _ _ _ _ _ _ hi hd hr (ih _ _ _)

end HIERARCHY_BUILDER

namespace HIERARCHY_BUILDER

theorem JointRef.mark_mUsed (i : JointRef) : i.mark.mUsed = true := rfl

theorem JointRef.unmark_mark (i : JointRef) : i.mark.unmark = i.unmark := rfl

theorem JointRef.unmark_of_unused (i : JointRef) (h : i.mUsed = false) : i.unmark = i := by
  cases i; simp only [JointRef.unmark] at *; simp [h]

theorem unusedNames_nil : unusedNames [] = [] := rfl

theorem unusedNames_cons_used (i : JointRef) (js : List JointRef) (h : i.mUsed = true) :
    unusedNames (i :: js) = unusedNames js := by
  simp [unusedNames, List.filter_cons, h]

theorem unusedNames_cons_unused (i : JointRef) (js : List JointRef) (h : i.mUsed = false) :
    unusedNames (i :: js) = i.mName :: unusedNames js := by
  simp [unusedNames, List.filter_cons, h]

theorem unusedNames_eq_nil (js : List JointRef) :
    unusedNames js = [] ↔ ∀ i ∈ js, i.mUsed = true := by
  induction js with
  | nil => simp [unusedNames_nil]
  | cons i js ih =>
    cases hi : i.mUsed with
    | true => rw [unusedNames_cons_used i js hi, ih]; simp [hi]
    | false => rw [unusedNames_cons_unused i js hi]; simp [hi]

theorem unusedNames_of_unused (js : List JointRef) (h : ∀ i ∈ js, i.mUsed = false) :
    unusedNames js = js.map JointRef.mName := by
  induction js with
  | nil => rfl
  | cons i js ih =>
    rw [unusedNames_cons_unused i js (h i (List.mem_cons_self _ _)),
      ih (fun k hk => h k (List.mem_cons_of_mem _ hk))]
    rfl

/-- One scan keeps the index of the receiver and the joints up to flags. -/
theorem Hierarchy.mergeScan_frame (js : List JointRef) (self : Hierarchy) (ret consumed : Bool) :
    (Hierarchy.mergeScan self ret consumed js).self.mIndex = self.mIndex ∧
      (Hierarchy.mergeScan self ret consumed js).joints.map JointRef.unmark =
        js.map JointRef.unmark := by
  refine Hierarchy.mergeScan_cases
    (P := fun self _ _ js s =>
      s.self.mIndex = self.mIndex ∧ s.joints.map JointRef.unmark = js.map JointRef.unmark)
    ?_ ?_ ?_ ?_ ?_ js self ret consumed
  · intro self ret consumed; exact ⟨rfl, rfl⟩
  · intro self ret consumed i rest s _ ih
    exact ⟨ih.1, by simp [ih.2]⟩
  · intro self ret consumed i rest s _ _ ih
    exact ⟨ih.1, by simp [ih.2, JointRef.unmark_mark]⟩
  · intro self ret consumed i rest r s _ _ _ ih
    exact ⟨ih.1, by simp [ih.2, JointRef.unmark_mark]⟩
  · intro self ret consumed i rest s _ _ _ ih
    exact ⟨ih.1, by simp [ih.2]⟩

/-- The flags `ret` and `consumed` only go up in a scan, and the receiver
changes only when they are set. -/
theorem Hierarchy.mergeScan_flags (js : List JointRef) (self : Hierarchy) (ret consumed : Bool) :
    (ret = true → (Hierarchy.mergeScan self ret consumed js).ret = true) ∧
    (consumed = true → (Hierarchy.mergeScan self ret consumed js).consumed = true) ∧
    ((Hierarchy.mergeScan self ret consumed js).ret = false →
      (Hierarchy.mergeScan self ret consumed js).self = self) ∧
    ((Hierarchy.mergeScan self ret consumed js).consumed = false →
      (Hierarchy.mergeScan self ret consumed js).self = self) := by
  refine Hierarchy.mergeScan_cases
    (P := fun self ret consumed _ s =>
      (ret = true → s.ret = true) ∧ (consumed = true → s.consumed = true) ∧
      (s.ret = false → s.self = self) ∧ (s.consumed = false → s.self = self))
    ?_ ?_ ?_ ?_ ?_ js self ret consumed
  · intro self ret consumed; simp
  · intro self ret consumed i rest s _ ih; exact ih
  · intro self ret consumed i rest s _ _ ih; exact ih
  · intro self ret consumed i rest r s _ _ _ ih
    have h1 := ih.1 rfl
    have h2 := ih.2.1 rfl
    refine ⟨fun _ => h1, fun _ => h2, fun h => ?_, fun h => ?_⟩
    · simp only at h; rw [h1] at h; cases h
    · simp only at h; rw [h2] at h; cases h
  · intro self ret consumed i rest s _ _ _ ih; exact ih

/-- After a scan that consumed nothing, `add` fails for every joint that is
still unused. -/
theorem Hierarchy.mergeScan_quiet (js : List JointRef) (self : Hierarchy) (ret consumed : Bool) :
    (Hierarchy.mergeScan self ret consumed js).consumed = false →
      ∀ i ∈ (Hierarchy.mergeScan self ret consumed js).joints, i.mUsed = false →
        self.mRoot.add i = none := by
  refine (Hierarchy.mergeScan_cases
    (P := fun self _ consumed _ s =>
      (consumed = true → s.consumed = true) ∧
      (s.consumed = false → ∀ i ∈ s.joints, i.mUsed = false → self.mRoot.add i = none))
    ?_ ?_ ?_ ?_ ?_ js self ret consumed).2
  · intro self ret consumed
    exact ⟨fun h => h, fun _ i hi => by cases hi⟩
  · intro self ret consumed i rest s hu ih
    refine ⟨ih.1, fun hc k hk hku => ?_⟩
    simp only [List.mem_cons] at hk
    rcases hk with hk | hk
    · subst hk; rw [hu] at hku; cases hku
    · exact ih.2 hc k hk hku
  · intro self ret consumed i rest s _ _ ih
    refine ⟨ih.1, fun hc k hk hku => ?_⟩
    simp only [List.mem_cons] at hk
    rcases hk with hk | hk
    · subst hk; rw [JointRef.mark_mUsed] at hku; cases hku
    · exact ih.2 hc k hk hku
  · intro self ret consumed i rest r s _ _ _ ih
    have h2 := ih.1 rfl
    refine ⟨fun _ => h2, fun hc => ?_⟩
    simp only at hc; rw [h2] at hc; cases hc
  · intro self ret consumed i rest s _ _ hr ih
    refine ⟨ih.1, fun hc k hk hku => ?_⟩
    simp only [List.mem_cons] at hk
    rcases hk with hk | hk
    · subst hk; exact hr
    · exact ih.2 hc k hk hku

/-- When a scan leaves `ret` false, every unused joint it visited was a
duplicate or was refused by `add`. -/
theorem Hierarchy.mergeScan_ret_false (js : List JointRef) (self : Hierarchy)
    (ret consumed : Bool) :
    (Hierarchy.mergeScan self ret consumed js).ret = false →
      ∀ i ∈ js, i.mUsed = false →
        self.mRoot.isDuplicate i = true ∨ self.mRoot.add i = none := by
  refine (Hierarchy.mergeScan_cases
    (P := fun self ret _ js s =>
      (ret = true → s.ret = true) ∧
      (s.ret = false → ∀ i ∈ js, i.mUsed = false →
        self.mRoot.isDuplicate i = true ∨ self.mRoot.add i = none))
    ?_ ?_ ?_ ?_ ?_ js self ret consumed).2
  · intro self ret consumed
    exact ⟨fun h => h, fun _ i hi => by cases hi⟩
  · intro self ret consumed i rest s hu ih
    refine ⟨ih.1, fun hc k hk hku => ?_⟩
    simp only [List.mem_cons] at hk
    rcases hk with hk | hk
    · subst hk; rw [hu] at hku; cases hku
    · exact ih.2 hc k hk hku
  · intro self ret consumed i rest s _ hd ih
    refine ⟨ih.1, fun hc k hk hku => ?_⟩
    simp only [List.mem_cons] at hk
    rcases hk with hk | hk
    · subst hk; exact Or.inl hd
    · exact ih.2 hc k hk hku
  · intro self ret consumed i rest r s _ _ _ ih
    have h2 := ih.1 rfl
    refine ⟨fun _ => h2, fun hc => ?_⟩
    simp only at hc; rw [h2] at hc; cases hc
  · intro self ret consumed i rest s _ _ hr ih
    refine ⟨ih.1, fun hc k hk hku => ?_⟩
    simp only [List.mem_cons] at hk
    rcases hk with hk | hk
    · subst hk; exact Or.inr hr
    · exact ih.2 hc k hk hku

/-- When a scan returns `ret` true, it was true before or some joint is
marked as used. -/
theorem Hierarchy.mergeScan_ret_true (js : List JointRef) (self : Hierarchy)
    (ret consumed : Bool) :
    (Hierarchy.mergeScan self ret consumed js).ret = true →
      ret = true ∨ ∃ i ∈ (Hierarchy.mergeScan self ret consumed js).joints, i.mUsed = true := by
  refine Hierarchy.mergeScan_cases
    (P := fun _ ret _ _ s => s.ret = true → ret = true ∨ ∃ i ∈ s.joints, i.mUsed = true)
    ?_ ?_ ?_ ?_ ?_ js self ret consumed
  · intro self ret consumed h; exact Or.inl h
  · intro self ret consumed i rest s _ ih h
    rcases ih h with h1 | ⟨k, hk, hku⟩
    · exact Or.inl h1
    · exact Or.inr ⟨k, List.mem_cons_of_mem _ hk, hku⟩
  · intro self ret consumed i rest s _ _ _ _
    exact Or.inr ⟨i.mark, List.mem_cons_self _ _, rfl⟩
  · intro self ret consumed i rest r s _ _ _ _ _
    exact Or.inr ⟨i.mark, List.mem_cons_self _ _, rfl⟩
  · intro self ret consumed i rest s _ _ _ ih h
    rcases ih h with h1 | ⟨k, hk, hku⟩
    · exact Or.inl h1
    · exact Or.inr ⟨k, List.mem_cons_of_mem _ hk, hku⟩

/-- A scan does not unmark joints, and a scan that sets `consumed` marks at
least one more joint. -/
theorem Hierarchy.mergeScan_count (js : List JointRef) (self : Hierarchy) (ret consumed : Bool) :
    (unusedNames (Hierarchy.mergeScan self ret consumed js).joints).length ≤
        (unusedNames js).length ∧
      ((Hierarchy.mergeScan self ret consumed js).consumed = true → consumed = true ∨
        (unusedNames (Hierarchy.mergeScan self ret consumed js).joints).length <
          (unusedNames js).length) := by
  refine Hierarchy.mergeScan_cases
    (P := fun _ _ consumed js s =>
      (unusedNames s.joints).length ≤ (unusedNames js).length ∧
      (s.consumed = true → consumed = true ∨
        (unusedNames s.joints).length < (unusedNames js).length))
    ?_ ?_ ?_ ?_ ?_ js self ret consumed
  · intro self ret consumed; exact ⟨le_refl _, fun h => Or.inl h⟩
  · intro self ret consumed i rest s hu ih
    simp only [unusedNames_cons_used i _ hu]
    exact ih
  · intro self ret consumed i rest s hu _ ih
    simp only [unusedNames_cons_used i.mark _ rfl, unusedNames_cons_unused i _ hu,
      List.length_cons]
    exact ⟨by omega, fun _ => Or.inr (by omega)⟩
  · intro self ret consumed i rest r s hu _ _ ih
    simp only [unusedNames_cons_used i.mark _ rfl, unusedNames_cons_unused i _ hu,
      List.length_cons]
    exact ⟨by omega, fun _ => Or.inr (by omega)⟩
  · intro self ret consumed i rest s hu _ _ ih
    simp only [unusedNames_cons_unused i _ hu, List.length_cons]
    refine ⟨by omega, fun h => ?_⟩
    rcases ih.2 h with h1 | h1
    · exact Or.inl h1
    · exact Or.inr (by omega)

end HIERARCHY_BUILDER

namespace HIERARCHY_BUILDER

theorem Link.addAll_nil (t : Link) : Link.addAll t [] = some t := by
  rw [Link.addAll]

theorem Link.addAll_cons (t t1 : Link) (j : JointRef) (js : List JointRef)
    (h : Link.add t j = some t1) : Link.addAll t (j :: js) = Link.addAll t1 js := by
  rw [Link.addAll, h]

theorem Link.addAll_cons_none (t : Link) (j : JointRef) (js : List JointRef)
    (h : Link.add t j = none) : Link.addAll t (j :: js) = none := by
  rw [Link.addAll, h]

/-- Induction over a successful run of `addAll`. -/
theorem Link.addAll_induct {P : Link → List JointRef → Link → Prop}
    (hnil : ∀ t, P t [] t)
    (hcons : ∀ t j t1 js t2, Link.add t j = some t1 → Link.addAll t1 js = some t2 →
      P t1 js t2 → P t (j :: js) t2) :
    ∀ js t t2, Link.addAll t js = some t2 → P t js t2 := by
  intro js
  induction js with
  | nil =>
    intro t t2 h
    rw [Link.addAll_nil] at h; cases h; exact hnil t
  | cons j js ih =>
    intro t t2 h
    cases ha : Link.add t j with
    | none => rw [Link.addAll_cons_none t j js ha] at h; cases h
    | some t1 =>
      rw [Link.addAll_cons t t1 j js ha] at h
      exact hcons t j t1 js t2 ha h (ih t1 t2 h)

theorem Link.addAll_append (es fs : List JointRef) (t t1 t2 : Link)
    (h1 : Link.addAll t es = some t1) (h2 : Link.addAll t1 fs = some t2) :
    Link.addAll t (es ++ fs) = some t2 := by
  revert h2
  refine Link.addAll_induct
    (P := fun t es t1 => Link.addAll t1 fs = some t2 → Link.addAll t (es ++ fs) = some t2)
    ?_ ?_ es t t1 h1
  · intro t h; simpa using h
  · intro t j t1 js t3 ha _ ih h
    rw [List.cons_append, Link.addAll_cons t t1 j _ ha]
    exact ih h

/-- The bodies after `addAll`: the old ones and the bodies of the joints. -/
theorem Link.addAll_bodies (js : List JointRef) (t t2 : Link)
    (h : Link.addAll t js = some t2) (x : String) :
    x ∈ Link.bodies t2 ↔ x ∈ Link.bodies t ∨ ∃ e ∈ js, x = e.mBody0 ∨ x = e.mBody1 := by
  refine Link.addAll_induct
    (P := fun t js t2 =>
      x ∈ Link.bodies t2 ↔ x ∈ Link.bodies t ∨ ∃ e ∈ js, x = e.mBody0 ∨ x = e.mBody1)
    ?_ ?_ js t t2 h
  · intro t; simp
  · intro t j t1 js t2 ha _ ih
    rw [ih, (Link.add_bodies j).1 t t1 ha x]
    constructor
    · rintro ((h1 | h1) | ⟨e, he, h1⟩)
      · exact Or.inl h1
      · exact Or.inr ⟨j, List.mem_cons_self _ _, h1⟩
      · exact Or.inr ⟨e, List.mem_cons_of_mem _ he, h1⟩
    · rintro (h1 | ⟨e, he, h1⟩)
      · exact Or.inl (Or.inl h1)
      · rw [List.mem_cons] at he
        rcases he with he | he
        · subst he; exact Or.inl (Or.inr h1)
        · exact Or.inr ⟨e, he, h1⟩

/-- The joint names after `addAll`: the old ones and the names of the joints. -/
theorem Link.addAll_jointNames (js : List JointRef) (t t2 : Link)
    (h : Link.addAll t js = some t2) :
    t2.mJointName = t.mJointName ∧
      (Link.jointNames t2).Perm (js.map JointRef.mName ++ Link.jointNames t) := by
  refine Link.addAll_induct
    (P := fun t js t2 => t2.mJointName = t.mJointName ∧
      (Link.jointNames t2).Perm (js.map JointRef.mName ++ Link.jointNames t))
    ?_ ?_ js t t2 h
  · intro t; exact ⟨rfl, List.Perm.refl _⟩
  · intro t j t1 js t2 ha _ ih
    have h1 := (Link.add_jointNames j).1 t t1 ha
    refine ⟨ih.1.trans h1.1, ih.2.trans ?_⟩
    refine (List.Perm.append_left _ h1.2).trans ?_
    simp only [List.map_cons, List.cons_append]
    exact List.perm_middle

/-- The receiver after a scan is the receiver before with some of the unused
joints added. -/
theorem Hierarchy.mergeScan_addAll (js : List JointRef) (self : Hierarchy)
    (ret consumed : Bool) :
    ∃ es, Link.addAll self.mRoot es = some (Hierarchy.mergeScan self ret consumed js).self.mRoot ∧
      ∀ e ∈ es, e ∈ js ∧ e.mUsed = false := by
  refine Hierarchy.mergeScan_cases
    (P := fun self _ _ js s =>
      ∃ es, Link.addAll self.mRoot es = some s.self.mRoot ∧ ∀ e ∈ es, e ∈ js ∧ e.mUsed = false)
    ?_ ?_ ?_ ?_ ?_ js self ret consumed
  · intro self ret consumed
    exact ⟨[], Link.addAll_nil _, fun e he => by cases he⟩
  · intro self ret consumed i rest s _ ih
    obtain ⟨es, h1, h2⟩ := ih
    exact ⟨es, h1, fun e he => ⟨List.mem_cons_of_mem _ (h2 e he).1, (h2 e he).2⟩⟩
  · intro self ret consumed i rest s _ _ ih
    obtain ⟨es, h1, h2⟩ := ih
    exact ⟨es, h1, fun e he => ⟨List.mem_cons_of_mem _ (h2 e he).1, (h2 e he).2⟩⟩
  · intro self ret consumed i rest r s hu _ hr ih
    obtain ⟨es, h1, h2⟩ := ih
    refine ⟨i :: es, ?_, ?_⟩
    · rw [Link.addAll_cons self.mRoot r i es hr]; exact h1
    · intro e he
      simp only [List.mem_cons] at he
      rcases he with he | he
      · subst he; exact ⟨List.mem_cons_self _ _, hu⟩
      · exact ⟨List.mem_cons_of_mem _ (h2 e he).1, (h2 e he).2⟩
  · intro self ret consumed i rest s _ _ _ ih
    obtain ⟨es, h1, h2⟩ := ih
    exact ⟨es, h1, fun e he => ⟨List.mem_cons_of_mem _ (h2 e he).1, (h2 e he).2⟩⟩

/-- A scan keeps the bodies of the receiver, and both bodies of every joint
that is marked as used label nodes of the receiver. -/
theorem Hierarchy.mergeScan_bodies (js : List JointRef) (self : Hierarchy)
    (ret consumed : Bool) :
    (∀ x ∈ Link.bodies self.mRoot,
      x ∈ Link.bodies (Hierarchy.mergeScan self ret consumed js).self.mRoot) ∧
    ((∀ i ∈ js, i.mUsed = true →
        i.mBody0 ∈ Link.bodies self.mRoot ∧ i.mBody1 ∈ Link.bodies self.mRoot) →
      ∀ i ∈ (Hierarchy.mergeScan self ret consumed js).joints, i.mUsed = true →
        i.mBody0 ∈ Link.bodies (Hierarchy.mergeScan self ret consumed js).self.mRoot ∧
          i.mBody1 ∈ Link.bodies (Hierarchy.mergeScan self ret consumed js).self.mRoot) := by
  refine Hierarchy.mergeScan_cases
    (P := fun self _ _ js s =>
      (∀ x ∈ Link.bodies self.mRoot, x ∈ Link.bodies s.self.mRoot) ∧
      ((∀ i ∈ js, i.mUsed = true →
          i.mBody0 ∈ Link.bodies self.mRoot ∧ i.mBody1 ∈ Link.bodies self.mRoot) →
        ∀ i ∈ s.joints, i.mUsed = true →
          i.mBody0 ∈ Link.bodies s.self.mRoot ∧ i.mBody1 ∈ Link.bodies s.self.mRoot))
    ?_ ?_ ?_ ?_ ?_ js self ret consumed
  · intro self ret consumed
    exact ⟨fun x hx => hx, fun _ i hi => by cases hi⟩
  · intro self ret consumed i rest s hu ih
    refine ⟨ih.1, fun h k hk hku => ?_⟩
    simp only [List.mem_cons] at hk
    rcases hk with hk | hk
    · subst hk
      have := h k (List.mem_cons_self _ _) hu
      exact ⟨ih.1 _ this.1, ih.1 _ this.2⟩
    · exact ih.2 (fun i hi => h i (List.mem_cons_of_mem _ hi)) k hk hku
  · intro self ret consumed i rest s _ hd ih
    refine ⟨ih.1, fun h k hk hku => ?_⟩
    simp only [List.mem_cons] at hk
    rcases hk with hk | hk
    · subst hk
      have := Link.isDuplicate_bodies self.mRoot i hd
      exact ⟨ih.1 _ this.1, ih.1 _ this.2⟩
    · exact ih.2 (fun i hi => h i (List.mem_cons_of_mem _ hi)) k hk hku
  · intro self ret consumed i rest r s _ _ hr ih
    have hb := (Link.add_bodies i).1 self.mRoot r hr
    have hmono : ∀ x ∈ Link.bodies self.mRoot, x ∈ Link.bodies r :=
      fun x hx => (hb x).mpr (Or.inl hx)
    refine ⟨fun x hx => ih.1 x (hmono x hx), fun h k hk hku => ?_⟩
    simp only [List.mem_cons] at hk
    rcases hk with hk | hk
    · subst hk
      exact ⟨ih.1 _ ((hb _).mpr (Or.inr (Or.inl rfl))), ih.1 _ ((hb _).mpr (Or.inr (Or.inr rfl)))⟩
    · refine ih.2 (fun i hi hiu => ?_) k hk hku
      have := h i (List.mem_cons_of_mem _ hi) hiu
      exact ⟨hmono _ this.1, hmono _ this.2⟩
  · intro self ret consumed i rest s _ _ _ ih
    refine ⟨ih.1, fun h k hk hku => ?_⟩
    simp only [List.mem_cons] at hk
    rcases hk with hk | hk
    · subst hk
      have := h k (List.mem_cons_self _ _) hku
      exact ⟨ih.1 _ this.1, ih.1 _ this.2⟩
    · exact ih.2 (fun i hi => h i (List.mem_cons_of_mem _ hi)) k hk hku

/-- Conservation of joint names in a scan: a name leaves the unused joints
exactly when it enters the receiver, as long as all names are distinct. -/
theorem Hierarchy.mergeScan_names (js : List JointRef) (self : Hierarchy)
    (ret consumed : Bool) :
    (Link.jointNames self.mRoot ++ unusedNames js).Nodup →
      (Link.jointNames (Hierarchy.mergeScan self ret consumed js).self.mRoot ++
        unusedNames (Hierarchy.mergeScan self ret consumed js).joints).Perm
        (Link.jointNames self.mRoot ++ unusedNames js) := by
  refine Hierarchy.mergeScan_cases
    (P := fun self _ _ js s =>
      (Link.jointNames self.mRoot ++ unusedNames js).Nodup →
        (Link.jointNames s.self.mRoot ++ unusedNames s.joints).Perm
          (Link.jointNames self.mRoot ++ unusedNames js))
    ?_ ?_ ?_ ?_ ?_ js self ret consumed
  · intro self ret consumed _; exact List.Perm.refl _
  · intro self ret consumed i rest s hu ih
    simp only [unusedNames_cons_used i _ hu]
    exact ih
  · intro self ret consumed i rest s hu hd _ hn
    exfalso
    rw [unusedNames_cons_unused i _ hu] at hn
    have h1 := Link.isDuplicate_name self.mRoot i hd
    exact (List.nodup_append.mp hn).2.2 h1 (List.mem_cons_self _ _)
  · intro self ret consumed i rest r s hu _ hr ih hn
    simp only [unusedNames_cons_unused i _ hu, unusedNames_cons_used i.mark _ rfl] at hn ⊢
    have h1 := ((Link.add_jointNames i).1 self.mRoot r hr).2
    have h2 : (Link.jointNames r ++ unusedNames rest).Perm
        (Link.jointNames self.mRoot ++ i.mName :: unusedNames rest) :=
      (List.Perm.append_right _ h1).trans (by
        simp only [List.cons_append]; exact List.perm_middle.symm)
    exact (ih (h2.nodup_iff.mpr hn)).trans h2
  · intro self ret consumed i rest s hu _ _ ih hn
    simp only [unusedNames_cons_unused i _ hu] at hn ⊢
    have hn2 : (Link.jointNames self.mRoot ++ unusedNames rest).Nodup :=
      (List.perm_middle.nodup_iff.mp hn).of_cons
    exact (List.perm_middle.trans (List.Perm.cons _ (ih hn2))).trans List.perm_middle.symm

end HIERARCHY_BUILDER

namespace HIERARCHY_BUILDER

/-- A scan does not unmark joints. -/
theorem Hierarchy.mergeScan_used_mono (js : List JointRef) (self : Hierarchy)
    (ret consumed : Bool) :
    (∃ i ∈ js, i.mUsed = true) →
      ∃ i ∈ (Hierarchy.mergeScan self ret consumed js).joints, i.mUsed = true := by
  refine Hierarchy.mergeScan_cases
    (P := fun _ _ _ js s => (∃ i ∈ js, i.mUsed = true) → ∃ i ∈ s.joints, i.mUsed = true)
    ?_ ?_ ?_ ?_ ?_ js self ret consumed
  · intro self ret consumed h; exact h
  · intro self ret consumed i rest s hu _ _
    exact ⟨i, List.mem_cons_self _ _, hu⟩
  · intro self ret consumed i rest s _ _ _ _
    exact ⟨i.mark, List.mem_cons_self _ _, rfl⟩
  · intro self ret consumed i rest r s _ _ _ _ _
    exact ⟨i.mark, List.mem_cons_self _ _, rfl⟩
  · intro self ret consumed i rest s hu _ _ ih h
    obtain ⟨k, hk, hku⟩ := h
    simp only [List.mem_cons] at hk
    rcases hk with hk | hk
    · subst hk; rw [hu] at hku; cases hku
    · obtain ⟨k1, hk1, hku1⟩ := ih ⟨k, hk, hku⟩
      exact ⟨k1, List.mem_cons_of_mem _ hk1, hku1⟩

/-- A scan that sets `consumed` sets `ret` as well. -/
theorem Hierarchy.mergeScan_consumed_ret (js : List JointRef) (self : Hierarchy)
    (ret consumed : Bool) :
    (consumed = true → ret = true) →
      (Hierarchy.mergeScan self ret consumed js).consumed = true →
        (Hierarchy.mergeScan self ret consumed js).ret = true := by
  refine Hierarchy.mergeScan_cases
    (P := fun _ ret consumed _ s => (consumed = true → ret = true) →
      s.consumed = true → s.ret = true)
    ?_ ?_ ?_ ?_ ?_ js self ret consumed
  · intro self ret consumed h; exact h
  · intro self ret consumed i rest s _ ih; exact ih
  · intro self ret consumed i rest s _ _ ih; exact ih
  · intro self ret consumed i rest r s _ _ _ ih _; exact ih (fun _ => rfl)
  · intro self ret consumed i rest s _ _ _ ih; exact ih

theorem Hierarchy.mergeLoop_zero (self : Hierarchy) (ret : Bool) (js : List JointRef) :
    Hierarchy.mergeLoop 0 self ret js = none := by
  rw [Hierarchy.mergeLoop]

theorem Hierarchy.mergeLoop_succ (fuel : Nat) (self : Hierarchy) (ret : Bool)
    (js : List JointRef) :
    Hierarchy.mergeLoop (fuel + 1) self ret js =
      if (Hierarchy.mergeScan self ret false js).consumed then
        Hierarchy.mergeLoop fuel (Hierarchy.mergeScan self ret false js).self
          (Hierarchy.mergeScan self ret false js).ret (Hierarchy.mergeScan self ret false js).joints
      else some (Hierarchy.mergeScan self ret false js) := by
  rw [Hierarchy.mergeLoop]

/-- The loop of `merge` ends when the fuel exceeds the number of unused
joints, and its result is a scan that consumed nothing, started in a state
that satisfies every invariant of the loop head. -/
theorem Hierarchy.mergeLoop_rule (Inv : Hierarchy → Bool → List JointRef → Prop)
    (hstep : ∀ self ret js, Inv self ret js →
      (Hierarchy.mergeScan self ret false js).consumed = true →
      Inv (Hierarchy.mergeScan self ret false js).self (Hierarchy.mergeScan self ret false js).ret
        (Hierarchy.mergeScan self ret false js).joints) :
    ∀ fuel self ret js, Inv self ret js → (unusedNames js).length < fuel →
      ∃ self1 ret1 js1, Inv self1 ret1 js1 ∧
        (Hierarchy.mergeScan self1 ret1 false js1).consumed = false ∧
        Hierarchy.mergeLoop fuel self ret js = some (Hierarchy.mergeScan self1 ret1 false js1) := by
  intro fuel
  induction fuel with
  | zero => intro self ret js _ h; omega
  | succ fuel ih =>
    intro self ret js hinv hlen
    rw [Hierarchy.mergeLoop_succ]
    cases hc : (Hierarchy.mergeScan self ret false js).consumed with
    | false => exact ⟨self, ret, js, hinv, hc, by simp⟩
    | true =>
      simp only [if_true]
      refine ih _ _ _ (hstep self ret js hinv hc) ?_
      rcases (Hierarchy.mergeScan_count js self ret false).2 hc with h | h
      · cases h
      · omega

end HIERARCHY_BUILDER

namespace HIERARCHY_BUILDER

theorem JointRef.unmark_mBody0 (i : JointRef) : i.unmark.mBody0 = i.mBody0 := rfl

theorem JointRef.unmark_mBody1 (i : JointRef) : i.unmark.mBody1 = i.mBody1 := rfl

theorem JointRef.unmark_mName (i : JointRef) : i.unmark.mName = i.mName := rfl

theorem Link.getJointRef_unmark (t : Link) :
    (Link.getJointRef t).map JointRef.unmark = Link.getJointRef t := by
  conv_rhs => rw [← List.map_id (Link.getJointRef t)]
  refine List.map_congr_left fun e he => ?_
  exact JointRef.unmark_of_unused e (Link.getJointRef_unused.1 t e he)

/-- The invariant of the loop head of `merge`, for the receiver `self0` and
the joint records `E0` of the other hierarchy. -/
theorem Hierarchy.merge_loop (self0 : Hierarchy) (E0 : List JointRef)
    (hE : ∀ e ∈ E0, e.mUsed = false) :
    ∃ self1 ret1 js1,
      (self1.mIndex = self0.mIndex ∧ js1.map JointRef.unmark = E0 ∧
        (ret1 = false → self1 = self0 ∧ js1 = E0) ∧
        (ret1 = true → ∃ i ∈ js1, i.mUsed = true) ∧
        (∀ i ∈ js1, i.mUsed = true →
          i.mBody0 ∈ Link.bodies self1.mRoot ∧ i.mBody1 ∈ Link.bodies self1.mRoot) ∧
        (∃ es, Link.addAll self0.mRoot es = some self1.mRoot ∧ ∀ e ∈ es, e ∈ E0) ∧
        ((Link.jointNames self0.mRoot ++ E0.map JointRef.mName).Nodup →
          (Link.jointNames self1.mRoot ++ unusedNames js1).Perm
            (Link.jointNames self0.mRoot ++ E0.map JointRef.mName))) ∧
      (Hierarchy.mergeScan self1 ret1 false js1).consumed = false ∧
      Hierarchy.mergeLoop (E0.length + 1) self0 false E0 =
        some (Hierarchy.mergeScan self1 ret1 false js1) := by
  have hE2 : E0.map JointRef.unmark = E0 := by
    conv_rhs => rw [← List.map_id E0]
    exact List.map_congr_left fun e he => JointRef.unmark_of_unused e (hE e he)
  refine Hierarchy.mergeLoop_rule
    (fun self1 ret1 js1 =>
      self1.mIndex = self0.mIndex ∧ js1.map JointRef.unmark = E0 ∧
        (ret1 = false → self1 = self0 ∧ js1 = E0) ∧
        (ret1 = true → ∃ i ∈ js1, i.mUsed = true) ∧
        (∀ i ∈ js1, i.mUsed = true →
          i.mBody0 ∈ Link.bodies self1.mRoot ∧ i.mBody1 ∈ Link.bodies self1.mRoot) ∧
        (∃ es, Link.addAll self0.mRoot es = some self1.mRoot ∧ ∀ e ∈ es, e ∈ E0) ∧
        ((Link.jointNames self0.mRoot ++ E0.map JointRef.mName).Nodup →
          (Link.jointNames self1.mRoot ++ unusedNames js1).Perm
            (Link.jointNames self0.mRoot ++ E0.map JointRef.mName)))
    ?_ (E0.length + 1) self0 false E0 ?_ ?_
  · intro slf ret js hinv hc
    obtain ⟨h1, h2, _, h4, h5, ⟨es, h6, h6b⟩, h7⟩ := hinv
    have hfr := Hierarchy.mergeScan_frame js slf ret false
    have hret : (Hierarchy.mergeScan slf ret false js).ret = true :=
      Hierarchy.mergeScan_consumed_ret js slf ret false (fun h => by cases h) hc
    refine ⟨hfr.1.trans h1, hfr.2.trans h2, fun h => ?_, fun _ => ?_, ?_, ?_, fun hn => ?_⟩
    · rw [hret] at h; cases h
    · rcases Hierarchy.mergeScan_ret_true js slf ret false hret with h | h
      · exact Hierarchy.mergeScan_used_mono js slf ret false (h4 h)
      · exact h
    · exact (Hierarchy.mergeScan_bodies js slf ret false).2 h5
    · obtain ⟨es2, h8, h8b⟩ := Hierarchy.mergeScan_addAll js slf ret false
      refine ⟨es ++ es2, Link.addAll_append es es2 _ _ _ h6 h8, fun e he => ?_⟩
      rw [List.mem_append] at he
      rcases he with he | he
      · exact h6b e he
      · rw [← h2, ← JointRef.unmark_of_unused e (h8b e he).2]
        exact List.mem_map_of_mem _ (h8b e he).1
    · have hp := h7 hn
      exact (Hierarchy.mergeScan_names js slf ret false (hp.nodup_iff.mpr hn)).trans hp
  · refine ⟨rfl, hE2, fun _ => ⟨rfl, rfl⟩, fun h => Bool.noConfusion h, fun i hi hu => ?_,
      ⟨[], Link.addAll_nil _, fun e he => (List.not_mem_nil e he).elim⟩, fun _ => ?_⟩
    · rw [hE i hi] at hu; cases hu
    · rw [unusedNames_of_unused E0 hE]
  · have : (unusedNames E0).length ≤ E0.length := by
      rw [unusedNames_of_unused E0 hE, List.length_map]
    omega

end HIERARCHY_BUILDER

namespace HIERARCHY_BUILDER

/-- What `merge` does: it always ends; a failed merge changes nothing and
every joint of the other hierarchy was a duplicate or was refused; the
receiver afterwards is the receiver before with joints of the other
hierarchy added; a successful merge has marked every joint, has all bodies of
the other hierarchy and, when joint names are distinct, exactly the joint
names of both. -/
theorem Hierarchy.merge_spec (self other : Hierarchy) :
    ∃ s, self.merge other = some s ∧ s.consumed = false ∧
      s.self.mIndex = self.mIndex ∧
      s.joints.map JointRef.unmark = Link.getJointRef other.mRoot ∧
      (s.ret = false → s.self = self ∧ ∀ e ∈ Link.getJointRef other.mRoot,
        self.mRoot.isDuplicate e = true ∨ self.mRoot.add e = none) ∧
      (∃ es, Link.addAll self.mRoot es = some s.self.mRoot ∧
        ∀ e ∈ es, e ∈ Link.getJointRef other.mRoot) ∧
      (s.ret = true → (∀ i ∈ s.joints, i.mUsed = true) ∧
        ∀ x ∈ Link.bodies other.mRoot, x ∈ Link.bodies s.self.mRoot) ∧
      ((Link.jointNames self.mRoot ++ Link.jointNames other.mRoot).Nodup → s.ret = true →
        (Link.jointNames s.self.mRoot).Perm
          (Link.jointNames self.mRoot ++ Link.jointNames other.mRoot)) := by
  have hE := Link.getJointRef_unused.1 other.mRoot
  obtain ⟨self1, ret1, js1, ⟨h1, h2, h3, h4, h5, h6, h7⟩, hc, hrun⟩ :=
    Hierarchy.merge_loop self (Link.getJointRef other.mRoot) hE
  have hfl := Hierarchy.mergeScan_flags js1 self1 ret1 false
  have hfr := Hierarchy.mergeScan_frame js1 self1 ret1 false
  have hself : (Hierarchy.mergeScan self1 ret1 false js1).self = self1 := hfl.2.2.2 hc
  have hused : (Hierarchy.mergeScan self1 ret1 false js1).ret = true →
      (∀ i ∈ (Hierarchy.mergeScan self1 ret1 false js1).joints, i.mUsed = true) ∧
        ∀ x ∈ Link.bodies other.mRoot, x ∈ Link.bodies self1.mRoot := by
    intro hret
    have hex : ∃ i ∈ (Hierarchy.mergeScan self1 ret1 false js1).joints, i.mUsed = true := by
      rcases Hierarchy.mergeScan_ret_true js1 self1 ret1 false hret with h | h
      · exact Hierarchy.mergeScan_used_mono js1 self1 ret1 false (h4 h)
      · exact h
    have hin := (Hierarchy.mergeScan_bodies js1 self1 ret1 false).2 h5
    rw [hself] at hin
    have hout := Hierarchy.mergeScan_quiet js1 self1 ret1 false hc
    have hmem : ∀ i ∈ (Hierarchy.mergeScan self1 ret1 false js1).joints,
        i.unmark ∈ Link.getJointRef other.mRoot := by
      intro i hi
      rw [← h2, ← hfr.2]
      exact List.mem_map_of_mem _ hi
    have hedge : ∀ e ∈ Link.getJointRef other.mRoot,
        (e.mBody0 ∈ Link.bodies self1.mRoot ↔ e.mBody1 ∈ Link.bodies self1.mRoot) := by
      intro e he
      rw [← h2, ← hfr.2, List.mem_map] at he
      obtain ⟨i, hi, rfl⟩ := he
      rw [JointRef.unmark_mBody0, JointRef.unmark_mBody1]
      cases hu : i.mUsed with
      | true =>
        have := hin i hi hu
        exact ⟨fun _ => this.2, fun _ => this.1⟩
      | false =>
        have := ((Link.add_eq_none i).1 self1.mRoot).mp (hout i hi hu)
        exact ⟨fun h => absurd h this.1, fun h => absurd h this.2⟩
    have hconn := (Link.getJointRef_connected (fun x => x ∈ Link.bodies self1.mRoot)).1
      other.mRoot hedge
    obtain ⟨i, hi, hu⟩ := hex
    have hib := (Link.getJointRef_bodies.1 other.mRoot i.unmark (hmem i hi)).1
    rw [JointRef.unmark_mBody0] at hib
    have hroot : other.mRoot.mRigidBody ∈ Link.bodies self1.mRoot :=
      (hconn _ hib).mp (hin i hi hu).1
    have hall : ∀ x ∈ Link.bodies other.mRoot, x ∈ Link.bodies self1.mRoot :=
      fun x hx => (hconn x hx).mpr hroot
    refine ⟨fun k hk => ?_, hall⟩
    cases hku : k.mUsed with
    | true => rfl
    | false =>
      exfalso
      have h8 := ((Link.add_eq_none k).1 self1.mRoot).mp (hout k hk hku)
      have h9 := (Link.getJointRef_bodies.1 other.mRoot k.unmark (hmem k hk)).1
      rw [JointRef.unmark_mBody0] at h9
      exact h8.1 (hall _ h9)
  refine ⟨_, hrun, hc, hfr.1.trans h1, hfr.2.trans h2, fun hret => ?_, ?_, fun hret => ?_,
    fun hn hret => ?_⟩
  · have hr1 : ret1 = false := by
      cases hr : ret1 with
      | false => rfl
      | true => have := hfl.1 hr; rw [hret] at this; cases this
    obtain ⟨e1, e2⟩ := h3 hr1
    refine ⟨hself.trans e1, fun e he => ?_⟩
    have := Hierarchy.mergeScan_ret_false js1 self1 ret1 false hret e (e2 ▸ he) (hE e he)
    rw [e1] at this; exact this
  · rw [hself]; exact h6
  · rw [hself]; exact hused hret
  · rw [hself]
    have hp := Link.getJointRef_names.1 other.mRoot
    have hn2 : (Link.jointNames self.mRoot ++
        (Link.getJointRef other.mRoot).map JointRef.mName).Nodup :=
      ((List.Perm.append_left _ hp).nodup_iff).mpr hn
    have h8 := h7 hn2
    have h9 := Hierarchy.mergeScan_names js1 self1 ret1 false (h8.nodup_iff.mpr hn2)
    rw [hself, (unusedNames_eq_nil _).mpr (hused hret).1, List.append_nil] at h9
    exact (h9.trans h8).trans (List.Perm.append_left _ hp)

end HIERARCHY_BUILDER

namespace HIERARCHY_BUILDER

/-! ## Well-formed trees -/

theorem Adjacent.adjacent_symm {joints : List JointRef} {a b : String} (h : Adjacent joints a b) :
    Adjacent joints b a := by
  obtain ⟨j, hj, h1⟩ := h
  exact ⟨j, hj, h1.symm⟩

theorem Connected.connected_refl (joints : List JointRef) (a : String) : Connected joints a a :=
  Relation.ReflTransGen.refl

theorem Connected.connected_trans {joints : List JointRef} {a b c : String}
    (h1 : Connected joints a b) (h2 : Connected joints b c) : Connected joints a c :=
  Relation.ReflTransGen.trans h1 h2

theorem Connected.connected_symm {joints : List JointRef} {a b : String} (h : Connected joints a b) :
    Connected joints b a := by
  induction h with
  | refl => exact Relation.ReflTransGen.refl
  | tail _ hbc ih => exact Relation.ReflTransGen.head hbc.adjacent_symm ih

theorem Connected.of_joint {joints : List JointRef} {j : JointRef} (hj : j ∈ joints) :
    Connected joints j.mBody0 j.mBody1 :=
  Relation.ReflTransGen.single ⟨j, hj, Or.inl ⟨rfl, rfl⟩⟩

theorem IsEndpoint.of_joint0 {joints : List JointRef} {j : JointRef} (hj : j ∈ joints) :
    IsEndpoint joints j.mBody0 :=
  ⟨j, hj, Or.inl rfl⟩

theorem IsEndpoint.of_joint1 {joints : List JointRef} {j : JointRef} (hj : j ∈ joints) :
    IsEndpoint joints j.mBody1 :=
  ⟨j, hj, Or.inr rfl⟩

theorem JointRef.Admissible.of_mem {joints : List JointRef} {j : JointRef} (hj : j ∈ joints) :
    j.Admissible joints :=
  ⟨Connected.of_joint hj, IsEndpoint.of_joint0 hj, IsEndpoint.of_joint1 hj⟩

theorem Link.loopFlags_mk (f : Bool) (n b : String) (cs : List Link) :
    Link.loopFlags (.mk f n b cs) = f :: Link.loopFlagsChildren cs := by
  simp [Link.loopFlags, Link.loopFlagsChildren, Link.getLinks_mk, Link.mIsLoopJoint]

theorem Link.loopFlagsChildren_nil : Link.loopFlagsChildren [] = [] := by
  simp [Link.loopFlagsChildren, Link.getLinksChildren_nil]

theorem Link.loopFlagsChildren_cons (c : Link) (cs : List Link) :
    Link.loopFlagsChildren (c :: cs) = Link.loopFlags c ++ Link.loopFlagsChildren cs := by
  simp [Link.loopFlags, Link.loopFlagsChildren, Link.getLinksChildren_cons]

theorem Link.loopFlagsChildren_append (cs ds : List Link) :
    Link.loopFlagsChildren (cs ++ ds) = Link.loopFlagsChildren cs ++ Link.loopFlagsChildren ds := by
  simp [Link.loopFlagsChildren, Link.getLinksChildren_append]

/-- A successful `add` sets no loop flag. -/
theorem Link.add_loopFlags (j : JointRef) :
    (∀ t t1, Link.add t j = some t1 → (∀ f ∈ Link.loopFlags t, f = false) →
      ∀ f ∈ Link.loopFlags t1, f = false) ∧
    (∀ cs cs1, Link.addChildren cs j = some cs1 →
      (∀ f ∈ Link.loopFlagsChildren cs, f = false) →
      ∀ f ∈ Link.loopFlagsChildren cs1, f = false) := by
  apply Link.add_cases j
  · intro f n b cs _ h g hg
    simp only [Link.loopFlags_mk, Link.loopFlagsChildren_append, Link.loopFlagsChildren_cons,
      Link.fresh, Link.loopFlagsChildren_nil, List.mem_cons, List.mem_append,
      List.append_nil, List.not_mem_nil, or_false] at h hg
    rcases hg with hg | hg | hg
    · exact h g (Or.inl hg)
    · exact h g (Or.inr hg)
    · exact hg
  · intro f n b cs _ _ h g hg
    simp only [Link.loopFlags_mk, Link.loopFlagsChildren_cons, Link.fresh,
      Link.loopFlagsChildren_nil, List.mem_cons, List.mem_append, List.append_nil,
      List.not_mem_nil, or_false] at h hg
    rcases hg with hg | hg | hg
    · exact h g (Or.inl hg)
    · exact hg
    · exact h g (Or.inr hg)
  · intro f n b cs cs1 _ _ _ ih h g hg
    simp only [Link.loopFlags_mk, List.mem_cons] at h hg
    rcases hg with hg | hg
    · exact h g (Or.inl hg)
    · exact ih (fun k hk => h k (Or.inr hk)) g hg
  · intro c c1 cs _ ih h g hg
    simp only [Link.loopFlagsChildren_cons, List.mem_append] at h hg
    rcases hg with hg | hg
    · exact ih (fun k hk => h k (Or.inl hk)) g hg
    · exact h g (Or.inr hg)
  · intro c cs cs1 _ _ ih h g hg
    simp only [Link.loopFlagsChildren_cons, List.mem_append] at h hg
    rcases hg with hg | hg
    · exact h g (Or.inl hg)
    · exact ih (fun k hk => h k (Or.inr hk)) g hg

/-- After a successful `add` the node has a child. -/
theorem Link.add_children (j : JointRef) :
    (∀ t t1, Link.add t j = some t1 → t1.mChildren ≠ []) ∧
    (∀ cs cs1, Link.addChildren cs j = some cs1 → cs1 ≠ []) := by
  apply Link.add_cases j
  · intro f n b cs _; simp [Link.mChildren]
  · intro f n b cs _ _; simp [Link.mChildren]
  · intro f n b cs cs1 _ _ _ ih; simpa [Link.mChildren] using ih
  · intro c c1 cs _ _; simp
  · intro c cs cs1 _ _ _; simp

/-- A successful `add` of an admissible joint keeps a tree well formed. -/
theorem Link.WellFormed.add {joints : List JointRef} {t t1 : Link} {j : JointRef}
    (hw : Link.WellFormed joints t) (hj : j.Admissible joints) (ha : Link.add t j = some t1) :
    Link.WellFormed joints t1 := by
  have hb := (Link.add_bodies j).1 t t1 ha
  have hsome : j.mBody0 ∈ Link.bodies t ∨ j.mBody1 ∈ Link.bodies t := by
    rw [← Link.add_isSome_iff, ha]; rfl
  have hz : ∃ z ∈ Link.bodies t, ∀ x ∈ Link.bodies t1, Connected joints x z := by
    rcases hsome with h0 | h1
    · refine ⟨j.mBody0, h0, fun x hx => ?_⟩
      rcases (hb x).mp hx with h | h | h
      · exact hw.connected x h _ h0
      · rw [h]; exact Connected.connected_refl _ _
      · rw [h]; exact hj.connected.connected_symm
    · refine ⟨j.mBody1, h1, fun x hx => ?_⟩
      rcases (hb x).mp hx with h | h | h
      · exact hw.connected x h _ h1
      · rw [h]; exact hj.connected
      · rw [h]; exact Connected.connected_refl _ _
  obtain ⟨z, _, hzc⟩ := hz
  refine ⟨fun x hx y hy => (hzc x hx).connected_trans (hzc y hy).connected_symm, fun x hx => ?_,
    (Link.add_children j).1 t t1 ha, ?_, (Link.add_loopFlags j).1 t t1 ha hw.noLoop⟩
  · rcases (hb x).mp hx with h | h | h
    · exact hw.endpoint x h
    · rw [h]; exact hj.endpoint0
    · rw [h]; exact hj.endpoint1
  · rw [((Link.add_jointNames j).1 t t1 ha).1]; exact hw.rootName

/-- Adding admissible joints one after the other keeps a tree well formed. -/
theorem Link.WellFormed.addAll {joints : List JointRef} (js : List JointRef) (t t2 : Link)
    (h : Link.addAll t js = some t2) :
    Link.WellFormed joints t → (∀ j ∈ js, j.Admissible joints) → Link.WellFormed joints t2 := by
  refine Link.addAll_induct
    (P := fun t js t2 => Link.WellFormed joints t → (∀ j ∈ js, j.Admissible joints) →
      Link.WellFormed joints t2)
    ?_ ?_ js t t2 h
  · intro t hw _; exact hw
  · intro t j t1 js t2 ha _ ih hw hj
    exact ih (hw.add (hj j (List.mem_cons_self _ _)) ha)
      (fun k hk => hj k (List.mem_cons_of_mem _ hk))

/-- The joint records of a well-formed tree are admissible. -/
theorem Link.WellFormed.admissible {joints : List JointRef} {t : Link}
    (hw : Link.WellFormed joints t) : ∀ e ∈ Link.getJointRef t, e.Admissible joints := by
  intro e he
  have hb := Link.getJointRef_bodies.1 t e he
  exact ⟨hw.connected _ hb.1 _ hb.2, hw.endpoint _ hb.1, hw.endpoint _ hb.2⟩

/-- The tree that the constructor of `Hierarchy` builds is well formed. -/
theorem Hierarchy.new_wellFormed {joints : List JointRef} (j : JointRef) (index : Nat)
    (hj : j.Admissible joints) : Link.WellFormed joints (Hierarchy.new j index).mRoot := by
  have hb : Link.bodies (Hierarchy.new j index).mRoot = [j.mBody0, j.mBody1] := by
    simp [Hierarchy.new, Link.bodies_mk, Link.bodiesChildren_cons, Link.bodiesChildren_nil]
  refine ⟨fun x hx y hy => ?_, fun x hx => ?_, ?_, rfl, ?_⟩
  · rw [hb] at hx hy
    simp only [List.mem_cons, List.not_mem_nil, or_false] at hx hy
    rcases hx with hx | hx <;> rcases hy with hy | hy <;> subst hx <;> subst hy
    · exact Connected.connected_refl _ _
    · exact hj.connected
    · exact hj.connected.connected_symm
    · exact Connected.connected_refl _ _
  · rw [hb] at hx
    simp only [List.mem_cons, List.not_mem_nil, or_false] at hx
    rcases hx with hx | hx <;> subst hx
    · exact hj.endpoint0
    · exact hj.endpoint1
  · simp [Hierarchy.new, Link.mChildren]
  · simp [Hierarchy.new, Link.loopFlags_mk, Link.loopFlagsChildren_cons,
      Link.loopFlagsChildren_nil]

/-- In a tree whose root has a child every body is an end of a joint record. -/
theorem Link.bodies_getJointRef :
    (∀ t : Link, ∀ x ∈ Link.bodiesChildren t.mChildren,
      ∃ e ∈ Link.getJointRef t, x = e.mBody1) ∧
    (∀ cs : List Link, ∀ b : String, ∀ x ∈ Link.bodiesChildren cs,
      ∃ e ∈ Link.childJointRefs b cs ++ Link.getJointRefChildren cs, x = e.mBody1) := by
  apply Link.induct
  · intro f n b cs ih x hx
    rw [Link.getJointRef_mk]
    exact ih b x hx
  · intro b x hx
    simp [Link.bodiesChildren_nil] at hx
  · intro c cs ihc ihcs b x hx
    rw [Link.bodiesChildren_cons, Link.bodies_eq, List.cons_append, List.mem_cons,
      List.mem_append] at hx
    simp only [Link.childJointRefs_cons, Link.getJointRefChildren_cons, List.cons_append]
    rcases hx with hx | hx | hx
    · exact ⟨_, List.mem_cons_self _ _, hx⟩
    · obtain ⟨e, he, hx2⟩ := ihc x hx
      refine ⟨e, List.mem_cons_of_mem _ ?_, hx2⟩
      exact List.mem_append_right _ (List.mem_append_left _ he)
    · obtain ⟨e, he, hx2⟩ := ihcs b x hx
      refine ⟨e, List.mem_cons_of_mem _ ?_, hx2⟩
      rw [List.mem_append] at he
      rcases he with he | he
      · exact List.mem_append_left _ he
      · exact List.mem_append_right _ (List.mem_append_right _ he)

theorem Link.bodies_endpoint (t : Link) (hc : t.mChildren ≠ []) :
    ∀ x ∈ Link.bodies t, ∃ e ∈ Link.getJointRef t, x = e.mBody0 ∨ x = e.mBody1 := by
  intro x hx
  rw [Link.bodies_eq, List.mem_cons] at hx
  rcases hx with hx | hx
  · cases t with
    | mk f n b cs =>
      cases cs with
      | nil => exact absurd rfl hc
      | cons c cs =>
        refine ⟨{ mUsed := false, mName := c.mJointName, mBody0 := b, mBody1 := c.mRigidBody },
          ?_, Or.inl hx⟩
        rw [Link.getJointRef_mk, Link.childJointRefs_cons]
        exact List.mem_cons_self _ _
  · obtain ⟨e, he, h⟩ := Link.bodies_getJointRef.1 t x hx
    exact ⟨e, he, Or.inr h⟩

end HIERARCHY_BUILDER

namespace HIERARCHY_BUILDER

/-! ## The merge pass of `build` -/

theorem forestNames_nil : forestNames [] = [] := rfl

theorem forestNames_cons (h : Hierarchy) (hs : List Hierarchy) :
    forestNames (h :: hs) = Link.jointNames h.mRoot ++ forestNames hs := by
  simp [forestNames, List.flatMap_cons]

theorem forestNames_append (hs ks : List Hierarchy) :
    forestNames (hs ++ ks) = forestNames hs ++ forestNames ks := by
  simp [forestNames, List.flatMap_append]

theorem liveSlots_nil : liveSlots [] = [] := rfl

theorem liveSlots_none (slots : List (Option Hierarchy)) :
    liveSlots (none :: slots) = liveSlots slots := by
  simp [liveSlots]

theorem liveSlots_some (h : Hierarchy) (slots : List (Option Hierarchy)) :
    liveSlots (some h :: slots) = h :: liveSlots slots := by
  simp [liveSlots]

theorem liveSlots_map_some (hs : List Hierarchy) : liveSlots (hs.map some) = hs := by
  induction hs with
  | nil => rfl
  | cons h hs ih => rw [List.map_cons, liveSlots_some, ih]

theorem liveSlots_length_le (slots : List (Option Hierarchy)) :
    (liveSlots slots).length ≤ slots.length := by
  induction slots with
  | nil => simp [liveSlots_nil]
  | cons a slots ih =>
    cases a with
    | none => rw [liveSlots_none]; simp; omega
    | some h => rw [liveSlots_some]; simp; omega

theorem Hierarchy.Inside.inside_refl (h : Hierarchy) : Hierarchy.Inside h h :=
  ⟨fun _ hx => hx, fun _ hn => hn⟩

theorem Hierarchy.Inside.inside_trans {h k l : Hierarchy} (h1 : Hierarchy.Inside h k)
    (h2 : Hierarchy.Inside k l) : Hierarchy.Inside h l :=
  ⟨fun x hx => h2.1 x (h1.1 x hx), fun n hn => h2.2 n (h1.2 n hn)⟩

theorem ForestGrow.grow_refl (hs : List Hierarchy) : ForestGrow hs hs :=
  ⟨List.Perm.refl _, fun h hh => ⟨h, hh, Hierarchy.Inside.inside_refl h⟩⟩

theorem ForestGrow.grow_trans {hs ks ls : List Hierarchy} (h1 : ForestGrow hs ks)
    (h2 : ForestGrow ks ls) : ForestGrow hs ls := by
  refine ⟨h2.names.trans h1.names, fun h hh => ?_⟩
  obtain ⟨k, hk, hkb⟩ := h1.inside h hh
  obtain ⟨l, hl, hlb⟩ := h2.inside k hk
  exact ⟨l, hl, hkb.inside_trans hlb⟩

theorem ForestInv.tail {joints : List JointRef} {h : Hierarchy} {hs : List Hierarchy}
    (hi : ForestInv joints (h :: hs)) : ForestInv joints hs := by
  refine ⟨?_, fun k hk => hi.wellFormed k (List.mem_cons_of_mem _ hk)⟩
  have := hi.nodup
  rw [forestNames_cons] at this
  exact this.of_append_right

/-- Dropping the second hierarchy of a list keeps the invariant. -/
theorem ForestInv.skip {joints : List JointRef} {h k : Hierarchy} {hs : List Hierarchy}
    (hi : ForestInv joints (h :: k :: hs)) : ForestInv joints (h :: hs) := by
  refine ⟨?_, fun l hl => hi.wellFormed l ?_⟩
  · have := hi.nodup
    rw [forestNames_cons, forestNames_cons] at this
    rw [forestNames_cons]
    refine List.Nodup.sublist ?_ this
    exact List.Sublist.append_left (List.sublist_append_right _ _) _
  · rw [List.mem_cons] at hl ⊢
    rcases hl with hl | hl
    · exact Or.inl hl
    · exact Or.inr (List.mem_cons_of_mem _ hl)

/-- A merge that fails shows that the two hierarchies share no body, when
they share no joint name and the other hierarchy has an edge. -/
theorem Hierarchy.disjoint_of_refused (self other : Hierarchy)
    (hn : (Link.jointNames self.mRoot ++ Link.jointNames other.mRoot).Nodup)
    (hc : other.mRoot.mChildren ≠ [])
    (h : ∀ e ∈ Link.getJointRef other.mRoot,
      self.mRoot.isDuplicate e = true ∨ self.mRoot.add e = none) :
    Hierarchy.Disjoint self other := by
  intro x hx hy
  obtain ⟨e, he, hxe⟩ := Link.bodies_endpoint other.mRoot hc x hy
  rcases h e he with hd | ha
  · have h1 := Link.isDuplicate_name self.mRoot e hd
    have h2 : e.mName ∈ Link.jointNames other.mRoot := by
      rw [← (Link.getJointRef_names.1 other.mRoot).mem_iff]
      exact List.mem_map_of_mem _ he
    exact (List.nodup_append.mp hn).2.2 h1 h2
  · have := ((Link.add_eq_none e).1 self.mRoot).mp ha
    rcases hxe with hxe | hxe
    · exact this.1 (hxe ▸ hx)
    · exact this.2 (hxe ▸ hx)

/-- A successful merge keeps the invariant of the list and absorbs the other
hierarchy. -/
theorem Hierarchy.merge_absorb {joints : List JointRef} (self other : Hierarchy)
    (hs : List Hierarchy) (s : MergeState) (hi : ForestInv joints (self :: other :: hs))
    (hm : self.merge other = some s) (hret : s.ret = true) :
    ForestInv joints (s.self :: hs) ∧ ForestGrow (self :: other :: hs) (s.self :: hs) := by
  obtain ⟨s1, h1, _, _, _, _, ⟨es, hes, hes2⟩, h7, h8⟩ := Hierarchy.merge_spec self other
  rw [hm] at h1
  cases h1
  have hnd := hi.nodup
  rw [forestNames_cons, forestNames_cons, ← List.append_assoc] at hnd
  have hp := h8 hnd.of_append_left hret
  have hp2 : (forestNames (s.self :: hs)).Perm (forestNames (self :: other :: hs)) := by
    rw [forestNames_cons, forestNames_cons, forestNames_cons, ← List.append_assoc]
    exact List.Perm.append_right _ hp
  have hwo := hi.wellFormed other (List.mem_cons_of_mem _ (List.mem_cons_self _ _))
  have hws := hi.wellFormed self (List.mem_cons_self _ _)
  refine ⟨⟨hp2.nodup_iff.mpr hi.nodup, fun k hk => ?_⟩, ⟨hp2, fun k hk => ?_⟩⟩
  · rw [List.mem_cons] at hk
    rcases hk with hk | hk
    · subst hk
      exact Link.WellFormed.addAll es _ _ hes hws (fun e he => hwo.admissible e (hes2 e he))
    · exact hi.wellFormed k (List.mem_cons_of_mem _ (List.mem_cons_of_mem _ hk))
  · simp only [List.mem_cons] at hk
    rcases hk with hk | hk | hk
    · subst hk
      exact ⟨s.self, List.mem_cons_self _ _, fun x hx =>
        (Link.addAll_bodies es _ _ hes x).mpr (Or.inl hx),
        fun n hn => hp.mem_iff.mpr (List.mem_append_left _ hn)⟩
    · subst hk
      exact ⟨s.self, List.mem_cons_self _ _, (h7 hret).2,
        fun n hn => hp.mem_iff.mpr (List.mem_append_right _ hn)⟩
    · exact ⟨k, List.mem_cons_of_mem _ hk, Hierarchy.Inside.inside_refl k⟩

theorem HierarchyBuilderImpl.mergeInto_nil (source : Hierarchy) :
    HierarchyBuilderImpl.mergeInto source [] = some (source, [], 0) := by
  rw [HierarchyBuilderImpl.mergeInto]

theorem HierarchyBuilderImpl.mergeInto_none (source : Hierarchy)
    (rest : List (Option Hierarchy)) :
    HierarchyBuilderImpl.mergeInto source (none :: rest) =
      (HierarchyBuilderImpl.mergeInto source rest).map fun q => (q.1, none :: q.2.1, q.2.2) := by
  rw [HierarchyBuilderImpl.mergeInto]
  cases HierarchyBuilderImpl.mergeInto source rest with
  | none => rfl
  | some q => rfl

theorem HierarchyBuilderImpl.mergeInto_merged (source dest : Hierarchy)
    (rest : List (Option Hierarchy)) (m : MergeState) (hm : source.merge dest = some m)
    (hret : m.ret = true) :
    HierarchyBuilderImpl.mergeInto source (some dest :: rest) =
      (HierarchyBuilderImpl.mergeInto m.self rest).map fun q =>
        (q.1, none :: q.2.1, q.2.2 + 1) := by
  rw [HierarchyBuilderImpl.mergeInto, hm]
  simp only [hret, if_true]
  cases HierarchyBuilderImpl.mergeInto m.self rest with
  | none => rfl
  | some q => rfl

theorem HierarchyBuilderImpl.mergeInto_refused (source dest : Hierarchy)
    (rest : List (Option Hierarchy)) (m : MergeState) (hm : source.merge dest = some m)
    (hret : m.ret = false) :
    HierarchyBuilderImpl.mergeInto source (some dest :: rest) =
      (HierarchyBuilderImpl.mergeInto m.self rest).map fun q =>
        (q.1, some dest :: q.2.1, q.2.2) := by
  rw [HierarchyBuilderImpl.mergeInto, hm]
  simp only [hret, Bool.false_eq_true, if_false]
  cases HierarchyBuilderImpl.mergeInto m.self rest with
  | none => rfl
  | some q => rfl

end HIERARCHY_BUILDER

namespace HIERARCHY_BUILDER

/-- Putting a hierarchy back behind the head of a grown list. -/
theorem ForestGrow.insert {h h1 k : Hierarchy} {hs hs1 : List Hierarchy}
    (hg : ForestGrow (h :: hs) (h1 :: hs1)) : ForestGrow (h :: k :: hs) (h1 :: k :: hs1) := by
  refine ⟨?_, fun l hl => ?_⟩
  · have := hg.names
    rw [forestNames_cons, forestNames_cons] at this
    rw [forestNames_cons, forestNames_cons, forestNames_cons, forestNames_cons]
    refine (List.perm_append_comm_assoc _ _ _).trans ?_
    exact (List.Perm.append_left _ this).trans (List.perm_append_comm_assoc _ _ _)
  · simp only [List.mem_cons] at hl
    have lift : ∀ l1 ∈ h1 :: hs1, l1 ∈ h1 :: k :: hs1 := by
      intro l1 hl1
      rw [List.mem_cons] at hl1
      rcases hl1 with e | e
      · exact e ▸ List.mem_cons_self _ _
      · exact List.mem_cons_of_mem _ (List.mem_cons_of_mem _ e)
    rcases hl with hl | hl | hl
    · obtain ⟨l1, hl1, hb⟩ := hg.inside l (hl ▸ List.mem_cons_self _ _)
      exact ⟨l1, lift l1 hl1, hb⟩
    · exact ⟨k, List.mem_cons_of_mem _ (List.mem_cons_self _ _), hl ▸ Hierarchy.Inside.inside_refl k⟩
    · obtain ⟨l1, hl1, hb⟩ := hg.inside l (List.mem_cons_of_mem _ hl)
      exact ⟨l1, lift l1 hl1, hb⟩

/-- The loop over `j` of the merge pass: it always ends, keeps the invariant
of the list, loses no edge and no body, and when it merged nothing the source
shares no body with any hierarchy after it. -/
theorem HierarchyBuilderImpl.mergeInto_spec (joints : List JointRef) :
    ∀ (rest : List (Option Hierarchy)) (source : Hierarchy),
      ForestInv joints (source :: liveSlots rest) →
      ∃ s r c, HierarchyBuilderImpl.mergeInto source rest = some (s, r, c) ∧
        r.length = rest.length ∧
        ForestInv joints (s :: liveSlots r) ∧
        ForestGrow (source :: liveSlots rest) (s :: liveSlots r) ∧
        (liveSlots r).length + c = (liveSlots rest).length ∧
        (c = 0 → s = source ∧ r = rest ∧
          ∀ dest ∈ liveSlots rest, Hierarchy.Disjoint source dest) := by
  intro rest
  induction rest with
  | nil =>
    intro source hi
    exact ⟨source, [], 0, HierarchyBuilderImpl.mergeInto_nil source, rfl, hi,
      ForestGrow.grow_refl _, rfl, fun _ => ⟨rfl, rfl, fun d hd => by cases hd⟩⟩
  | cons a rest ih =>
    intro source hi
    cases a with
    | none =>
      rw [liveSlots_none] at hi
      obtain ⟨s, r, c, h1, h2, h3, h4, h5, h6⟩ := ih source hi
      refine ⟨s, none :: r, c, ?_, by simp [h2], ?_, ?_, ?_, fun hc => ?_⟩
      · rw [HierarchyBuilderImpl.mergeInto_none, h1]; rfl
      · rw [liveSlots_none]; exact h3
      · rw [liveSlots_none, liveSlots_none]; exact h4
      · rw [liveSlots_none, liveSlots_none]; exact h5
      · obtain ⟨e1, e2, e3⟩ := h6 hc
        refine ⟨e1, by rw [e2], ?_⟩
        rw [liveSlots_none]; exact e3
    | some dest =>
      rw [liveSlots_some] at hi
      obtain ⟨m, hm, _, _, _, hfalse, _, _, _⟩ := Hierarchy.merge_spec source dest
      cases hret : m.ret with
      | true =>
        obtain ⟨hi2, hg2⟩ := Hierarchy.merge_absorb source dest (liveSlots rest) m hi hm hret
        obtain ⟨s, r, c, h1, h2, h3, h4, h5, _⟩ := ih m.self hi2
        refine ⟨s, none :: r, c + 1, ?_, by simp [h2], ?_, ?_, ?_, fun hc => ?_⟩
        · rw [HierarchyBuilderImpl.mergeInto_merged source dest rest m hm hret, h1]; rfl
        · rw [liveSlots_none]; exact h3
        · rw [liveSlots_none, liveSlots_some]; exact hg2.grow_trans h4
        · rw [liveSlots_none, liveSlots_some, List.length_cons]; omega
        · omega
      | false =>
        obtain ⟨hself, href⟩ := hfalse hret
        have hi2 : ForestInv joints (m.self :: liveSlots rest) := by
          rw [hself]; exact hi.skip
        obtain ⟨s, r, c, h1, h2, h3, h4, h5, h6⟩ := ih m.self hi2
        rw [hself] at h4 h6
        have hg : ForestGrow (source :: dest :: liveSlots rest) (s :: dest :: liveSlots r) :=
          h4.insert
        refine ⟨s, some dest :: r, c, ?_, by simp [h2], ?_, ?_, ?_, fun hc => ?_⟩
        · rw [HierarchyBuilderImpl.mergeInto_refused source dest rest m hm hret, h1]; rfl
        · rw [liveSlots_some]
          refine ⟨hg.names.nodup_iff.mpr hi.nodup, fun k hk => ?_⟩
          simp only [List.mem_cons] at hk
          rcases hk with hk | hk | hk
          · exact h3.wellFormed k (hk ▸ List.mem_cons_self _ _)
          · exact hi.wellFormed k (hk ▸ List.mem_cons_of_mem _ (List.mem_cons_self _ _))
          · exact h3.wellFormed k (List.mem_cons_of_mem _ hk)
        · rw [liveSlots_some, liveSlots_some]; exact hg
        · rw [liveSlots_some, liveSlots_some, List.length_cons, List.length_cons]; omega
        · obtain ⟨e1, e2, e3⟩ := h6 hc
          refine ⟨e1, by rw [e2], fun d hd => ?_⟩
          rw [liveSlots_some, List.mem_cons] at hd
          rcases hd with hd | hd
          · subst hd
            have hnd := hi.nodup
            rw [forestNames_cons, forestNames_cons, ← List.append_assoc] at hnd
            exact Hierarchy.disjoint_of_refused source d hnd.of_append_left
              (hi.wellFormed d (List.mem_cons_of_mem _ (List.mem_cons_self _ _))).children href
          · exact e3 d hd

end HIERARCHY_BUILDER

namespace HIERARCHY_BUILDER

theorem ForestGrow.cons (h : Hierarchy) {hs hs1 : List Hierarchy} (hg : ForestGrow hs hs1) :
    ForestGrow (h :: hs) (h :: hs1) := by
  refine ⟨?_, fun l hl => ?_⟩
  · rw [forestNames_cons, forestNames_cons]
    exact List.Perm.append_left _ hg.names
  · rw [List.mem_cons] at hl
    rcases hl with hl | hl
    · exact ⟨h, List.mem_cons_self _ _, hl ▸ Hierarchy.Inside.inside_refl h⟩
    · obtain ⟨l1, hl1, hb⟩ := hg.inside l hl
      exact ⟨l1, List.mem_cons_of_mem _ hl1, hb⟩

theorem HierarchyBuilderImpl.mergeSweep_nil (fuel : Nat) :
    HierarchyBuilderImpl.mergeSweep fuel [] = some ([], 0) := by
  cases fuel <;> rw [HierarchyBuilderImpl.mergeSweep]

theorem HierarchyBuilderImpl.mergeSweep_none (fuel : Nat) (rest : List (Option Hierarchy)) :
    HierarchyBuilderImpl.mergeSweep (fuel + 1) (none :: rest) =
      (HierarchyBuilderImpl.mergeSweep fuel rest).map fun q => (none :: q.1, q.2) := by
  rw [HierarchyBuilderImpl.mergeSweep]
  cases HierarchyBuilderImpl.mergeSweep fuel rest with
  | none => rfl
  | some q => rfl

theorem HierarchyBuilderImpl.mergeSweep_merged (fuel : Nat) (source s : Hierarchy)
    (rest r : List (Option Hierarchy)) (c : Nat)
    (h : HierarchyBuilderImpl.mergeInto source rest = some (s, r, c)) (hc : c ≠ 0) :
    HierarchyBuilderImpl.mergeSweep (fuel + 1) (some source :: rest) = some (some s :: r, c) := by
  rw [HierarchyBuilderImpl.mergeSweep, h]
  simp [hc]

theorem HierarchyBuilderImpl.mergeSweep_quiet (fuel : Nat) (source s : Hierarchy)
    (rest r : List (Option Hierarchy))
    (h : HierarchyBuilderImpl.mergeInto source rest = some (s, r, 0)) :
    HierarchyBuilderImpl.mergeSweep (fuel + 1) (some source :: rest) =
      (HierarchyBuilderImpl.mergeSweep fuel r).map fun q => (some s :: q.1, q.2) := by
  rw [HierarchyBuilderImpl.mergeSweep, h]
  simp only [ne_eq, not_true_eq_false, if_false]
  cases HierarchyBuilderImpl.mergeSweep fuel r with
  | none => rfl
  | some q => rfl

/-- The loop over `i` of the merge pass: it always ends, keeps the invariant
of the list, loses no edge and no body, and when it merged nothing no two
hierarchies of the list share a body. -/
theorem HierarchyBuilderImpl.mergeSweep_spec (joints : List JointRef) :
    ∀ (fuel : Nat) (slots : List (Option Hierarchy)), slots.length ≤ fuel →
      ForestInv joints (liveSlots slots) →
      ∃ slots1 c, HierarchyBuilderImpl.mergeSweep fuel slots = some (slots1, c) ∧
        slots1.length = slots.length ∧
        ForestInv joints (liveSlots slots1) ∧
        ForestGrow (liveSlots slots) (liveSlots slots1) ∧
        (liveSlots slots1).length + c = (liveSlots slots).length ∧
        (c = 0 → slots1 = slots ∧ (liveSlots slots).Pairwise Hierarchy.Disjoint) := by
  intro fuel
  induction fuel with
  | zero =>
    intro slots hlen hi
    cases slots with
    | nil =>
      exact ⟨[], 0, HierarchyBuilderImpl.mergeSweep_nil 0, rfl, hi, ForestGrow.grow_refl _, rfl,
        fun _ => ⟨rfl, List.Pairwise.nil⟩⟩
    | cons a rest => simp at hlen
  | succ fuel ih =>
    intro slots hlen hi
    cases slots with
    | nil =>
      exact ⟨[], 0, HierarchyBuilderImpl.mergeSweep_nil _, rfl, hi, ForestGrow.grow_refl _, rfl,
        fun _ => ⟨rfl, List.Pairwise.nil⟩⟩
    | cons a rest =>
      have hlen2 : rest.length ≤ fuel := by simp at hlen; omega
      cases a with
      | none =>
        rw [liveSlots_none] at hi
        obtain ⟨r, c, h1, h2, h3, h4, h5, h6⟩ := ih rest hlen2 hi
        refine ⟨none :: r, c, ?_, by simp [h2], ?_, ?_, ?_, fun hc => ?_⟩
        · rw [HierarchyBuilderImpl.mergeSweep_none, h1]; rfl
        · rw [liveSlots_none]; exact h3
        · rw [liveSlots_none, liveSlots_none]; exact h4
        · rw [liveSlots_none, liveSlots_none]; exact h5
        · obtain ⟨e1, e2⟩ := h6 hc
          refine ⟨by rw [e1], ?_⟩
          rw [liveSlots_none]; exact e2
      | some source =>
        rw [liveSlots_some] at hi
        obtain ⟨s, r, c, h1, h2, h3, h4, h5, h6⟩ :=
          HierarchyBuilderImpl.mergeInto_spec joints rest source hi
        by_cases hc : c = 0
        · subst hc
          obtain ⟨e1, e2, e3⟩ := h6 rfl
          obtain ⟨r1, c1, k1, k2, k3, k4, k5, k6⟩ := ih r (by omega) h3.tail
          have hg : ForestGrow (s :: liveSlots r) (s :: liveSlots r1) := k4.cons s
          refine ⟨some s :: r1, c1, ?_, by simp [k2, h2], ?_, ?_, ?_, fun hc1 => ?_⟩
          · rw [HierarchyBuilderImpl.mergeSweep_quiet fuel source s rest r h1, k1]; rfl
          · rw [liveSlots_some]
            refine ⟨hg.names.nodup_iff.mpr h3.nodup, fun k hk => ?_⟩
            rw [List.mem_cons] at hk
            rcases hk with hk | hk
            · exact h3.wellFormed k (hk ▸ List.mem_cons_self _ _)
            · exact k3.wellFormed k hk
          · rw [liveSlots_some, liveSlots_some]; exact h4.grow_trans hg
          · rw [liveSlots_some, liveSlots_some, List.length_cons, List.length_cons]; omega
          · obtain ⟨f1, f2⟩ := k6 hc1
            refine ⟨by rw [f1, e1, e2], ?_⟩
            rw [liveSlots_some, List.pairwise_cons]
            exact ⟨e3, e2 ▸ f2⟩
        · refine ⟨some s :: r, c, ?_, by simp [h2], ?_, ?_, ?_, fun hc1 => absurd hc1 hc⟩
          · exact HierarchyBuilderImpl.mergeSweep_merged fuel source s rest r c h1 hc
          · rw [liveSlots_some]; exact h3
          · rw [liveSlots_some, liveSlots_some]; exact h4
          · rw [liveSlots_some, liveSlots_some, List.length_cons, List.length_cons]; omega

theorem HierarchyBuilderImpl.mergePasses_succ (fuel : Nat) (hs : List (Option Hierarchy))
    (mergeCount : Nat) :
    HierarchyBuilderImpl.mergePasses (fuel + 1) hs mergeCount =
      match HierarchyBuilderImpl.mergeSweep hs.length hs with
      | none => none
      | some (hs1, c) =>
        if c ≠ 0 then HierarchyBuilderImpl.mergePasses fuel hs1 (mergeCount + c)
        else some (hs1, mergeCount) := by
  rw [HierarchyBuilderImpl.mergePasses]

/-- The `while` loop of the merge pass: it always ends, keeps the invariant
of the list, loses no edge and no body, and afterwards no two hierarchies
share a body. -/
theorem HierarchyBuilderImpl.mergePasses_spec (joints : List JointRef) :
    ∀ (fuel : Nat) (slots : List (Option Hierarchy)) (mergeCount : Nat),
      (liveSlots slots).length < fuel → ForestInv joints (liveSlots slots) →
      ∃ slots1 count, HierarchyBuilderImpl.mergePasses fuel slots mergeCount =
          some (slots1, count) ∧
        ForestInv joints (liveSlots slots1) ∧
        ForestGrow (liveSlots slots) (liveSlots slots1) ∧
        (liveSlots slots1).Pairwise Hierarchy.Disjoint := by
  intro fuel
  induction fuel with
  | zero => intro slots _ h; omega
  | succ fuel ih =>
    intro slots mergeCount hlen hi
    obtain ⟨slots1, c, h1, _, h3, h4, h5, h6⟩ :=
      HierarchyBuilderImpl.mergeSweep_spec joints slots.length slots (le_refl _) hi
    rw [HierarchyBuilderImpl.mergePasses_succ, h1]
    by_cases hc : c = 0
    · obtain ⟨e1, e2⟩ := h6 hc
      refine ⟨slots1, mergeCount, by simp [hc], h3, h4, ?_⟩
      rw [e1]; exact e2
    · obtain ⟨slots2, count, k1, k2, k3, k4⟩ := ih slots1 (mergeCount + c) (by omega) h3
      exact ⟨slots2, count, by simp [hc, k1], k2, h4.grow_trans k3, k4⟩

/-- The merge pass of `build`: it always ends, keeps the invariant of the
list, loses no edge and no body, and afterwards no two hierarchies share a
body. -/
theorem HierarchyBuilderImpl.mergeHierarchies_spec (joints : List JointRef)
    (hs : List Hierarchy) (hi : ForestInv joints hs) :
    ∃ hs1, HierarchyBuilderImpl.mergeHierarchies hs = some hs1 ∧
      ForestInv joints hs1 ∧ ForestGrow hs hs1 ∧ hs1.Pairwise Hierarchy.Disjoint := by
  by_cases hl : hs.length > 1
  · have hi2 : ForestInv joints (liveSlots (hs.map some)) := by
      rw [liveSlots_map_some]; exact hi
    obtain ⟨slots1, count, h1, h2, h3, h4⟩ :=
      HierarchyBuilderImpl.mergePasses_spec joints (hs.length + 1) (hs.map some) 0
        (by rw [liveSlots_map_some]; omega) hi2
    rw [liveSlots_map_some] at h3
    refine ⟨liveSlots slots1, ?_, h2, h3, h4⟩
    rw [HierarchyBuilderImpl.mergeHierarchies, if_pos hl, h1]
    rfl
  · refine ⟨hs, ?_, hi, ForestGrow.grow_refl _, ?_⟩
    · rw [HierarchyBuilderImpl.mergeHierarchies, if_neg hl]
    · cases hs with
      | nil => exact List.Pairwise.nil
      | cons h hs =>
        cases hs with
        | nil => exact List.pairwise_singleton _ _
        | cons k hs => simp at hl

end HIERARCHY_BUILDER

namespace HIERARCHY_BUILDER

/-! ## The first loop of `build` -/

theorem usedNames_nil : usedNames [] = [] := rfl

theorem usedNames_cons_used (i : JointRef) (js : List JointRef) (h : i.mUsed = true) :
    usedNames (i :: js) = i.mName :: usedNames js := by
  simp [usedNames, List.filter_cons, h]

theorem usedNames_cons_unused (i : JointRef) (js : List JointRef) (h : i.mUsed = false) :
    usedNames (i :: js) = usedNames js := by
  simp [usedNames, List.filter_cons, h]

theorem usedNames_append (js ks : List JointRef) :
    usedNames (js ++ ks) = usedNames js ++ usedNames ks := by
  simp [usedNames, List.filter_append]

theorem unusedNames_append (js ks : List JointRef) :
    unusedNames (js ++ ks) = unusedNames js ++ unusedNames ks := by
  simp [unusedNames, List.filter_append]

theorem usedNames_of_used (js : List JointRef) (h : ∀ i ∈ js, i.mUsed = true) :
    usedNames js = js.map JointRef.mName := by
  induction js with
  | nil => rfl
  | cons i js ih =>
    rw [usedNames_cons_used i js (h i (List.mem_cons_self _ _)),
      ih (fun k hk => h k (List.mem_cons_of_mem _ hk))]
    rfl

theorem usedNames_of_unused (js : List JointRef) (h : ∀ i ∈ js, i.mUsed = false) :
    usedNames js = [] := by
  induction js with
  | nil => rfl
  | cons i js ih =>
    rw [usedNames_cons_unused i js (h i (List.mem_cons_self _ _)),
      ih (fun k hk => h k (List.mem_cons_of_mem _ hk))]

theorem JointRef.mark_mName (i : JointRef) : i.mark.mName = i.mName := rfl

theorem JointRef.mark_mBody0 (i : JointRef) : i.mark.mBody0 = i.mBody0 := rfl

theorem JointRef.mark_mBody1 (i : JointRef) : i.mark.mBody1 = i.mBody1 := rfl

/-- A joint that differs in the flag only from a registered joint is
admissible. -/
theorem JointRef.Admissible.of_unmark {joints : List JointRef} {j : JointRef}
    (h : j.unmark ∈ joints.map JointRef.unmark) : j.Admissible joints := by
  rw [List.mem_map] at h
  obtain ⟨g, hg, he⟩ := h
  have h0 : g.mBody0 = j.mBody0 := by
    rw [← JointRef.unmark_mBody0 g, he]; rfl
  have h1 : g.mBody1 = j.mBody1 := by
    rw [← JointRef.unmark_mBody1 g, he]; rfl
  have := JointRef.Admissible.of_mem hg
  exact ⟨h0 ▸ h1 ▸ this.connected, h0 ▸ this.endpoint0, h1 ▸ this.endpoint1⟩

/-- The joint that `findFirstUnusedJoint` finds is unused and splits the
joint list. -/
theorem HierarchyBuilderImpl.findFirstUnusedJoint_some (b : HierarchyBuilderImpl) (k : Nat)
    (jref : JointRef) (hk : b.findFirstUnusedJoint = some k) (hj : b.mJoints.get? k = some jref) :
    jref.mUsed = false ∧ b.mJoints = b.mJoints.take k ++ jref :: b.mJoints.drop (k + 1) ∧
      b.mJoints.set k jref.mark = b.mJoints.take k ++ jref.mark :: b.mJoints.drop (k + 1) ∧
      ∀ i ∈ b.mJoints.take k, i.mUsed = true := by
  rw [HierarchyBuilderImpl.findFirstUnusedJoint, List.findIdx?_eq_some_iff_getElem] at hk
  obtain ⟨hlt, hp, hbefore⟩ := hk
  rw [List.get?_eq_getElem?, List.getElem?_eq_getElem hlt] at hj
  cases hj
  refine ⟨by simpa using hp, ?_, ?_, ?_⟩
  · conv_lhs => rw [← List.take_append_drop k b.mJoints]
    rw [List.drop_eq_getElem_cons hlt]
  · rw [List.set_eq_take_append_cons_drop, if_pos hlt]
  · intro i hi
    rw [List.mem_take_iff_getElem] at hi
    obtain ⟨n, hn, rfl⟩ := hi
    have hn2 : n < k := by omega
    have := hbefore n hn2
    simpa using this
  
theorem HierarchyBuilderImpl.findFirstUnusedJoint_none (b : HierarchyBuilderImpl)
    (hk : b.findFirstUnusedJoint = none) : ∀ i ∈ b.mJoints, i.mUsed = true := by
  rw [HierarchyBuilderImpl.findFirstUnusedJoint, List.findIdx?_eq_none_iff] at hk
  intro i hi
  simpa using hk i hi

theorem HierarchyBuilderImpl.findFirstUnusedJoint_get (b : HierarchyBuilderImpl) (k : Nat)
    (hk : b.findFirstUnusedJoint = some k) : ∃ jref, b.mJoints.get? k = some jref := by
  rw [HierarchyBuilderImpl.findFirstUnusedJoint, List.findIdx?_eq_some_iff_getElem] at hk
  obtain ⟨hlt, _, _⟩ := hk
  exact ⟨b.mJoints[k], by rw [List.get?_eq_getElem?, List.getElem?_eq_getElem hlt]⟩

/-- What the loop over the hierarchies does with a joint: either the first
hierarchy that accepts it is updated, or nothing changes and every hierarchy
refuses it. -/
theorem HierarchyBuilderImpl.addToFirst_spec (j : JointRef) :
    ∀ hs : List Hierarchy,
      ((HierarchyBuilderImpl.addToFirst hs j).2 = true →
        ∃ pre h post t1, hs = pre ++ h :: post ∧ h.mRoot.add j = some t1 ∧
          (∀ p ∈ pre, p.mRoot.add j = none) ∧
          (HierarchyBuilderImpl.addToFirst hs j).1 = pre ++ { h with mRoot := t1 } :: post) ∧
      ((HierarchyBuilderImpl.addToFirst hs j).2 = false →
        (HierarchyBuilderImpl.addToFirst hs j).1 = hs ∧ ∀ h ∈ hs, h.mRoot.add j = none) := by
  intro hs
  induction hs with
  | nil =>
    rw [HierarchyBuilderImpl.addToFirst]
    exact ⟨fun h => Bool.noConfusion h, fun _ => ⟨rfl, fun h hh => (List.not_mem_nil h hh).elim⟩⟩
  | cons h hs ih =>
    cases ha : h.mRoot.add j with
    | some t1 =>
      rw [HierarchyBuilderImpl.addToFirst, Hierarchy.added_some h j t1 ha]
      refine ⟨fun _ => ⟨[], h, hs, t1, rfl, ha, fun p hp => (List.not_mem_nil p hp).elim, rfl⟩,
        fun hf => Bool.noConfusion hf⟩
    | none =>
      rw [HierarchyBuilderImpl.addToFirst, Hierarchy.added_none h j ha]
      refine ⟨fun ht => ?_, fun hf => ?_⟩
      · obtain ⟨pre, k, post, t1, e1, e2, e3, e4⟩ := ih.1 ht
        refine ⟨h :: pre, k, post, t1, by rw [e1]; rfl, e2, fun p hp => ?_, ?_⟩
        · rw [List.mem_cons] at hp
          rcases hp with hp | hp
          · rw [hp]; exact ha
          · exact e3 p hp
        · simp only [e4, List.cons_append]
      · obtain ⟨e1, e2⟩ := ih.2 hf
        refine ⟨by simp only [e1], fun k hk => ?_⟩
        rw [List.mem_cons] at hk
        rcases hk with hk | hk
        · rw [hk]; exact ha
        · exact e2 k hk

end HIERARCHY_BUILDER

namespace HIERARCHY_BUILDER

theorem HierarchyBuilderImpl.consumeJoint_added (b : HierarchyBuilderImpl) (k : Nat)
    (jref : JointRef) (h : (HierarchyBuilderImpl.addToFirst b.mHierarchies jref).2 = true) :
    b.consumeJoint k jref =
      { b with
        mJoints := b.mJoints.set k jref.mark
        mHierarchies := (HierarchyBuilderImpl.addToFirst b.mHierarchies jref).1 } := by
  simp only [HierarchyBuilderImpl.consumeJoint, h, if_true]
  rfl

theorem HierarchyBuilderImpl.consumeJoint_new (b : HierarchyBuilderImpl) (k : Nat)
    (jref : JointRef) (h : (HierarchyBuilderImpl.addToFirst b.mHierarchies jref).2 = false) :
    b.consumeJoint k jref =
      { b with
        mJoints := b.mJoints.set k jref.mark
        mHierarchies := (HierarchyBuilderImpl.addToFirst b.mHierarchies jref).1 ++
          [Hierarchy.new jref.mark (HierarchyBuilderImpl.addToFirst b.mHierarchies jref).1.length] } := by
  simp only [HierarchyBuilderImpl.consumeJoint, h, Bool.false_eq_true, if_false]
  rfl

theorem Hierarchy.new_bodies (j : JointRef) (index : Nat) :
    Link.bodies (Hierarchy.new j index).mRoot = [j.mBody0, j.mBody1] := by
  simp [Hierarchy.new, Link.bodies_mk, Link.bodiesChildren_cons, Link.bodiesChildren_nil]

theorem Hierarchy.new_jointNames (j : JointRef) (index : Nat) :
    Link.jointNames (Hierarchy.new j index).mRoot = [j.mName] := by
  simp [Hierarchy.new, Link.jointNames_mk, Link.jointNamesChildren_cons,
    Link.jointNamesChildren_nil, Link.mJointName]

/-- One repetition of the first loop of `build` keeps the invariant, marks
exactly one more joint and leaves the bodies and the disconnected list. -/
theorem HierarchyBuilderImpl.consumeJoint_spec (joints : List JointRef)
    (b : HierarchyBuilderImpl) (k : Nat) (jref : JointRef) (hi : BuildInv joints b)
    (hk : b.findFirstUnusedJoint = some k) (hj : b.mJoints.get? k = some jref) :
    BuildInv joints (b.consumeJoint k jref) ∧
      (unusedNames (b.consumeJoint k jref).mJoints).length + 1 =
        (unusedNames b.mJoints).length ∧
      (b.consumeJoint k jref).mRigidBodies = b.mRigidBodies ∧
      (b.consumeJoint k jref).mDisconnectedRigidBodies = b.mDisconnectedRigidBodies := by
  obtain ⟨hu, hsplit, hset, _⟩ := HierarchyBuilderImpl.findFirstUnusedJoint_some b k jref hk hj
  have hmem : jref ∈ b.mJoints := by
    rw [hsplit]; exact List.mem_append_right _ (List.mem_cons_self _ _)
  have hadm : jref.Admissible joints := by
    apply JointRef.Admissible.of_unmark
    rw [← hi.joints_eq]; exact List.mem_map_of_mem _ hmem
  have hadm2 : jref.mark.Admissible joints := ⟨hadm.connected, hadm.endpoint0, hadm.endpoint1⟩
  have hjoints : (b.mJoints.set k jref.mark).map JointRef.unmark =
      joints.map JointRef.unmark := by
    rw [← hi.joints_eq, hset]
    conv_rhs => rw [hsplit]
    simp [JointRef.unmark_mark]
  have hused : (usedNames (b.mJoints.set k jref.mark)).Perm
      (jref.mName :: usedNames b.mJoints) := by
    rw [hset]
    conv_rhs => rw [hsplit]
    rw [usedNames_append, usedNames_append, usedNames_cons_used _ _ (JointRef.mark_mUsed jref),
      usedNames_cons_unused _ _ hu, JointRef.mark_mName]
    exact List.perm_middle
  have hcount : (unusedNames (b.mJoints.set k jref.mark)).length + 1 =
      (unusedNames b.mJoints).length := by
    rw [hset]
    conv_rhs => rw [hsplit]
    rw [unusedNames_append, unusedNames_append,
      unusedNames_cons_used _ _ (JointRef.mark_mUsed jref), unusedNames_cons_unused _ _ hu]
    simp only [List.length_append, List.length_cons]
    omega
  have hold : ∀ i ∈ b.mJoints.set k jref.mark, i = jref.mark ∨ i ∈ b.mJoints := by
    intro i hmi
    rw [hset, List.mem_append, List.mem_cons] at hmi
    rcases hmi with hmi | hmi | hmi
    · exact Or.inr (List.mem_of_mem_take hmi)
    · exact Or.inl hmi
    · exact Or.inr (List.mem_of_mem_drop hmi)
  have hspec := HierarchyBuilderImpl.addToFirst_spec jref b.mHierarchies
  cases hr : (HierarchyBuilderImpl.addToFirst b.mHierarchies jref).2 with
  | true =>
    rw [HierarchyBuilderImpl.consumeJoint_added b k jref hr]
    obtain ⟨pre, h, post, t1, e1, e2, _, e4⟩ := hspec.1 hr
    refine ⟨⟨hjoints, ?_, ?_, ?_⟩, hcount, rfl, rfl⟩
    · show (forestNames (HierarchyBuilderImpl.addToFirst b.mHierarchies jref).1).Perm _
      rw [e4]
      refine List.Perm.trans ?_ hused.symm
      refine List.Perm.trans ?_ (List.Perm.cons _ hi.names)
      rw [e1, forestNames_append, forestNames_append, forestNames_cons, forestNames_cons]
      refine List.Perm.trans ?_ List.perm_middle
      refine List.Perm.append_left _ ?_
      exact List.Perm.append_right _ ((Link.add_jointNames jref).1 h.mRoot t1 e2).2
    · intro l hl
      change l ∈ (HierarchyBuilderImpl.addToFirst b.mHierarchies jref).1 at hl
      rw [e4, List.mem_append, List.mem_cons] at hl
      have hmh : h ∈ b.mHierarchies := by
        rw [e1]; exact List.mem_append_right _ (List.mem_cons_self _ _)
      rcases hl with hl | hl | hl
      · exact hi.wellFormed l (by rw [e1]; exact List.mem_append_left _ hl)
      · rw [hl]
        exact (hi.wellFormed h hmh).add hadm e2
      · have hml : l ∈ b.mHierarchies := by
          rw [e1]; exact List.mem_append_right _ (List.mem_cons_of_mem _ hl)
        exact hi.wellFormed l hml
    · intro i hmi hiu
      change i ∈ b.mJoints.set k jref.mark at hmi
      show ∃ l ∈ (HierarchyBuilderImpl.addToFirst b.mHierarchies jref).1, _
      rw [e4]
      have hb := (Link.add_bodies jref).1 h.mRoot t1 e2
      have hnm := ((Link.add_jointNames jref).1 h.mRoot t1 e2).2
      have hnew : ({ h with mRoot := t1 } : Hierarchy) ∈ pre ++ { h with mRoot := t1 } :: post :=
        List.mem_append_right _ (List.mem_cons_self _ _)
      rcases hold i hmi with hin | hin
      · rw [hin]
        exact ⟨_, hnew, hnm.mem_iff.mpr (List.mem_cons_self _ _),
          (hb _).mpr (Or.inr (Or.inl rfl)), (hb _).mpr (Or.inr (Or.inr rfl))⟩
      · obtain ⟨l, hl, hln, hl0, hl1⟩ := hi.placed i hin hiu
        rw [e1, List.mem_append, List.mem_cons] at hl
        rcases hl with hl | hl | hl
        · exact ⟨l, List.mem_append_left _ hl, hln, hl0, hl1⟩
        · rw [hl] at hln hl0 hl1
          exact ⟨_, hnew, hnm.mem_iff.mpr (List.mem_cons_of_mem _ hln),
            (hb _).mpr (Or.inl hl0), (hb _).mpr (Or.inl hl1)⟩
        · exact ⟨l, List.mem_append_right _ (List.mem_cons_of_mem _ hl), hln, hl0, hl1⟩
  | false =>
    rw [HierarchyBuilderImpl.consumeJoint_new b k jref hr]
    obtain ⟨e1, _⟩ := hspec.2 hr
    rw [e1]
    refine ⟨⟨hjoints, ?_, ?_, ?_⟩, hcount, rfl, rfl⟩
    · show (forestNames (b.mHierarchies ++ [Hierarchy.new jref.mark b.mHierarchies.length])).Perm _
      refine List.Perm.trans ?_ hused.symm
      rw [forestNames_append, forestNames_cons, forestNames_nil, List.append_nil,
        Hierarchy.new_jointNames, JointRef.mark_mName]
      exact (List.perm_append_comm).trans (List.Perm.cons _ hi.names)
    · intro l hl
      change l ∈ b.mHierarchies ++ [Hierarchy.new jref.mark b.mHierarchies.length] at hl
      rw [List.mem_append, List.mem_singleton] at hl
      rcases hl with hl | hl
      · exact hi.wellFormed l hl
      · rw [hl]; exact Hierarchy.new_wellFormed _ _ hadm2
    · intro i hmi hiu
      change i ∈ b.mJoints.set k jref.mark at hmi
      show ∃ l ∈ b.mHierarchies ++ [Hierarchy.new jref.mark b.mHierarchies.length], _
      rcases hold i hmi with hin | hin
      · refine ⟨_, List.mem_append_right _ (List.mem_singleton_self _), ?_, ?_, ?_⟩
        · rw [Hierarchy.new_jointNames, hin]; simp
        · rw [Hierarchy.new_bodies, hin]; simp
        · rw [Hierarchy.new_bodies, hin]; simp
      · obtain ⟨l, hl, hln, hl0, hl1⟩ := hi.placed i hin hiu
        exact ⟨l, List.mem_append_left _ hl, hln, hl0, hl1⟩

theorem HierarchyBuilderImpl.consumeJoints_succ (fuel : Nat) (b : HierarchyBuilderImpl) :
    HierarchyBuilderImpl.consumeJoints (fuel + 1) b =
      match b.findFirstUnusedJoint with
      | none => some b
      | some k =>
        match b.mJoints.get? k with
        | none => some b
        | some jref => HierarchyBuilderImpl.consumeJoints fuel (b.consumeJoint k jref) := by
  rw [HierarchyBuilderImpl.consumeJoints]

/-- The first loop of `build` ends when the fuel exceeds the number of
unused joints; afterwards the invariant holds and every joint is marked. -/
theorem HierarchyBuilderImpl.consumeJoints_spec (joints : List JointRef) :
    ∀ (fuel : Nat) (b : HierarchyBuilderImpl), BuildInv joints b →
      (unusedNames b.mJoints).length < fuel →
      ∃ b1, HierarchyBuilderImpl.consumeJoints fuel b = some b1 ∧ BuildInv joints b1 ∧
        (∀ i ∈ b1.mJoints, i.mUsed = true) ∧ b1.mRigidBodies = b.mRigidBodies ∧
        b1.mDisconnectedRigidBodies = b.mDisconnectedRigidBodies := by
  intro fuel
  induction fuel with
  | zero => intro b _ h; omega
  | succ fuel ih =>
    intro b hi hlen
    rw [HierarchyBuilderImpl.consumeJoints_succ]
    cases hk : b.findFirstUnusedJoint with
    | none =>
      exact ⟨b, rfl, hi, HierarchyBuilderImpl.findFirstUnusedJoint_none b hk, rfl, rfl⟩
    | some k =>
      obtain ⟨jref, hj⟩ := HierarchyBuilderImpl.findFirstUnusedJoint_get b k hk
      simp only [hj]
      obtain ⟨h1, h2, h3, h4⟩ := HierarchyBuilderImpl.consumeJoint_spec joints b k jref hi hk hj
      obtain ⟨b1, k1, k2, k3, k4, k5⟩ := ih (b.consumeJoint k jref) h1 (by omega)
      exact ⟨b1, k1, k2, k3, k4.trans h3, k5.trans h4⟩

end HIERARCHY_BUILDER

namespace HIERARCHY_BUILDER

/-! ## Registration -/

theorem HierarchyBuilderImpl.findRigidBodRef_isNone (b : HierarchyBuilderImpl) (id : String) :
    (b.findRigidBodRef id).isNone = true ↔ id ∉ b.mRigidBodies.map RigidBodyRef.mName := by
  rw [HierarchyBuilderImpl.findRigidBodRef, Option.isNone_iff_eq_none, List.findIdx?_eq_none_iff]
  simp only [decide_eq_false_iff_not, List.mem_map, not_exists, not_and]

theorem HierarchyBuilderImpl.findRigidBodRef_isSome (b : HierarchyBuilderImpl) (id : String) :
    (b.findRigidBodRef id).isSome = true ↔ id ∈ b.mRigidBodies.map RigidBodyRef.mName := by
  rw [← not_iff_not, ← HierarchyBuilderImpl.findRigidBodRef_isNone]
  cases b.findRigidBodRef id <;> simp

theorem HierarchyBuilderImpl.findJointRef_isNone (b : HierarchyBuilderImpl) (id : String) :
    (b.findJointRef id).isNone = true ↔ id ∉ b.mJoints.map JointRef.mName := by
  rw [HierarchyBuilderImpl.findJointRef, Option.isNone_iff_eq_none, List.findIdx?_eq_none_iff]
  simp only [decide_eq_false_iff_not, List.mem_map, not_exists, not_and]

theorem Registered.create : Registered HierarchyBuilderImpl.create := by
  refine ⟨rfl, rfl, ?_, ?_, ?_, ?_, ?_⟩ <;> simp [HierarchyBuilderImpl.create]

theorem Registered.addRigidBody {b : HierarchyBuilderImpl} (hb : Registered b) (id : String) :
    Registered (b.addRigidBody id).1 := by
  rw [HierarchyBuilderImpl.addRigidBody]
  by_cases h : (b.findRigidBodRef id).isNone = true
  · rw [if_pos h]
    rw [HierarchyBuilderImpl.findRigidBodRef_isNone] at h
    refine ⟨hb.hierarchies, hb.disconnected, hb.jointsUnused, ?_, hb.jointNames, ?_, ?_⟩
    · intro r hr
      simp only [List.mem_append, List.mem_singleton] at hr
      rcases hr with hr | hr
      · exact hb.bodiesUnused r hr
      · rw [hr]
    · simp only [List.map_append, List.map_cons, List.map_nil]
      refine List.Nodup.append hb.bodyNames (List.nodup_singleton _) ?_
      intro x hx hx2
      rw [List.mem_singleton] at hx2
      exact h (hx2 ▸ hx)
    · intro j hj
      have := hb.known j hj
      simp only [List.map_append, List.mem_append]
      exact ⟨Or.inl this.1, Or.inl this.2⟩
  · rw [if_neg h]; exact hb

theorem Registered.addJoint {b : HierarchyBuilderImpl} (hb : Registered b)
    (jointId body0 body1 : String) : Registered (b.addJoint jointId body0 body1).1 := by
  rw [HierarchyBuilderImpl.addJoint]
  by_cases h : (b.findJointRef jointId).isNone = true
  · rw [if_pos h]
    by_cases h2 : ((b.findRigidBodRef body0).isSome && (b.findRigidBodRef body1).isSome) = true
    · rw [if_pos h2]
      rw [HierarchyBuilderImpl.findJointRef_isNone] at h
      rw [Bool.and_eq_true, HierarchyBuilderImpl.findRigidBodRef_isSome,
        HierarchyBuilderImpl.findRigidBodRef_isSome] at h2
      refine ⟨hb.hierarchies, hb.disconnected, ?_, hb.bodiesUnused, ?_, hb.bodyNames, ?_⟩
      · intro j hj
        simp only [List.mem_append, List.mem_singleton] at hj
        rcases hj with hj | hj
        · exact hb.jointsUnused j hj
        · rw [hj]
      · simp only [List.map_append, List.map_cons, List.map_nil]
        refine List.Nodup.append hb.jointNames (List.nodup_singleton _) ?_
        intro x hx hx2
        rw [List.mem_singleton] at hx2
        exact h (hx2 ▸ hx)
      · intro j hj
        simp only [List.mem_append, List.mem_singleton] at hj
        rcases hj with hj | hj
        · exact hb.known j hj
        · rw [hj]; exact h2
    · rw [if_neg h2]; exact hb
  · rw [if_neg h]; exact hb

theorem Registered.run {b : HierarchyBuilderImpl} (hb : Registered b) (c : Call) :
    Registered (Call.run b c) := by
  cases c with
  | addRigidBody id => exact hb.addRigidBody id
  | addJoint jointId body0 body1 => exact hb.addJoint jointId body0 body1

theorem Registered.foldl (calls : List Call) :
    ∀ b : HierarchyBuilderImpl, Registered b → Registered (calls.foldl Call.run b) := by
  induction calls with
  | nil => intro b hb; exact hb
  | cons c calls ih => intro b hb; exact ih _ (hb.run c)

/-- Every sequence of registration calls on a fresh builder gives a valid
input. -/
theorem Registered.register (calls : List Call) : Registered (register calls) :=
  Registered.foldl calls _ Registered.create

end HIERARCHY_BUILDER

namespace HIERARCHY_BUILDER

/-! ## The methods `findLoopJoints` and `showHierarchy` -/

theorem Link.setLoopJoints_mk (marked : List Nat) (f : Bool) (n b : String) (cs : List Link)
    (k : Nat) :
    Link.setLoopJoints marked (.mk f n b cs) k =
      .mk (if k ∈ marked then true else f) n b (Link.setLoopJointsChildren marked cs (k + 1)) := by
  rw [Link.setLoopJoints]

theorem Link.setLoopJointsChildren_nil (marked : List Nat) (k : Nat) :
    Link.setLoopJointsChildren marked [] k = [] := by
  rw [Link.setLoopJointsChildren]

theorem Link.setLoopJointsChildren_cons (marked : List Nat) (c : Link) (cs : List Link)
    (k : Nat) :
    Link.setLoopJointsChildren marked (c :: cs) k =
      Link.setLoopJoints marked c k ::
        Link.setLoopJointsChildren marked cs (k + (Link.getLinks c).length) := by
  rw [Link.setLoopJointsChildren]

/-- Setting loop flags changes no joint name and no body of the flat link
array. -/
theorem Link.setLoopJoints_getLinks (marked : List Nat) :
    (∀ (t : Link) (k : Nat),
      (Link.getLinks (Link.setLoopJoints marked t k)).map
          (fun l => (l.mJointName, l.mRigidBody)) =
        (Link.getLinks t).map (fun l => (l.mJointName, l.mRigidBody))) ∧
    (∀ (cs : List Link) (k : Nat),
      (Link.getLinksChildren (Link.setLoopJointsChildren marked cs k)).map
          (fun l => (l.mJointName, l.mRigidBody)) =
        (Link.getLinksChildren cs).map (fun l => (l.mJointName, l.mRigidBody))) := by
  apply Link.induct
  · intro f n b cs ih k
    rw [Link.setLoopJoints_mk, Link.getLinks_mk, Link.getLinks_mk, List.map_cons, List.map_cons,
      ih (k + 1)]
    rfl
  · intro k
    rw [Link.setLoopJointsChildren_nil]
  · intro c cs ihc ihcs k
    rw [Link.setLoopJointsChildren_cons, Link.getLinksChildren_cons, Link.getLinksChildren_cons,
      List.map_append, List.map_append, ihc k, ihcs]

theorem Link.setLoopJoints_bodies (marked : List Nat) (t : Link) (k : Nat) :
    Link.bodies (Link.setLoopJoints marked t k) = Link.bodies t := by
  have h := congrArg (List.map Prod.snd) ((Link.setLoopJoints_getLinks marked).1 t k)
  simpa [Link.bodies, List.map_map, Function.comp_def] using h

theorem Link.setLoopJoints_length (marked : List Nat) (t : Link) (k : Nat) :
    (Link.getLinks (Link.setLoopJoints marked t k)).length = (Link.getLinks t).length := by
  have h := congrArg List.length ((Link.setLoopJoints_getLinks marked).1 t k)
  simpa using h

theorem Link.setLoopJoints_mRigidBody (marked : List Nat) (t : Link) (k : Nat) :
    (Link.setLoopJoints marked t k).mRigidBody = t.mRigidBody := by
  cases t with
  | mk f n b cs => rw [Link.setLoopJoints_mk]; rfl

theorem Link.setLoopJoints_mChildren (marked : List Nat) (t : Link) (k : Nat) :
    (Link.setLoopJoints marked t k).mChildren =
      Link.setLoopJointsChildren marked t.mChildren (k + 1) := by
  cases t with
  | mk f n b cs => rw [Link.setLoopJoints_mk]; rfl

theorem Link.setLoopJoints_jointNames (marked : List Nat) (t : Link) (k : Nat) :
    Link.jointNames (Link.setLoopJoints marked t k) = Link.jointNames t := by
  have h := congrArg (List.map Prod.fst)
    ((Link.setLoopJoints_getLinks marked).2 t.mChildren (k + 1))
  rw [Link.jointNames, Link.setLoopJoints_mChildren]
  simpa [Link.jointNames, List.map_map, Function.comp_def] using h

theorem Hierarchy.findLoopJoints_bodies (h : Hierarchy) (joints : List JointRef) :
    Link.bodies (h.findLoopJoints joints).mRoot = Link.bodies h.mRoot := by
  simp only [Hierarchy.findLoopJoints]
  exact Link.setLoopJoints_bodies _ _ _

theorem Hierarchy.findLoopJoints_jointNames (h : Hierarchy) (joints : List JointRef) :
    Link.jointNames (h.findLoopJoints joints).mRoot = Link.jointNames h.mRoot := by
  simp only [Hierarchy.findLoopJoints]
  exact Link.setLoopJoints_jointNames _ _ _

theorem Hierarchy.findLoopJoints_mRigidBody (h : Hierarchy) (joints : List JointRef) :
    (h.findLoopJoints joints).mRoot.mRigidBody = h.mRoot.mRigidBody := by
  simp only [Hierarchy.findLoopJoints]
  exact Link.setLoopJoints_mRigidBody _ _ _

theorem Link.showHierarchy_mk (f : Bool) (n b : String) (cs : List Link) :
    Link.showHierarchy (.mk f n b cs) = Link.childEdges b cs ++ Link.showHierarchyChildren cs := by
  rw [Link.showHierarchy]

theorem Link.showHierarchyChildren_nil : Link.showHierarchyChildren [] = [] := by
  rw [Link.showHierarchyChildren]

theorem Link.showHierarchyChildren_cons (c : Link) (cs : List Link) :
    Link.showHierarchyChildren (c :: cs) =
      Link.showHierarchy c ++ Link.showHierarchyChildren cs := by
  rw [Link.showHierarchyChildren]

theorem Link.childEdges_nil (b : String) : Link.childEdges b [] = [] := rfl

theorem Link.childEdges_cons (b : String) (c : Link) (cs : List Link) :
    Link.childEdges b (c :: cs) =
      (c.mJointName, b, c.mRigidBody, c.mIsLoopJoint) :: Link.childEdges b cs := rfl

/-- The edges that `showHierarchy` reports are the records of `getJointRef`,
up to the flags. -/
theorem Link.showHierarchy_getJointRef :
    (∀ t : Link,
      (Link.showHierarchy t).map (fun e => (e.1, e.2.1, e.2.2.1)) =
        (Link.getJointRef t).map (fun j => (j.mName, j.mBody0, j.mBody1))) ∧
    (∀ (cs : List Link) (b : String),
      (Link.childEdges b cs).map (fun e => (e.1, e.2.1, e.2.2.1)) =
          (Link.childJointRefs b cs).map (fun j => (j.mName, j.mBody0, j.mBody1)) ∧
        (Link.showHierarchyChildren cs).map (fun e => (e.1, e.2.1, e.2.2.1)) =
          (Link.getJointRefChildren cs).map (fun j => (j.mName, j.mBody0, j.mBody1))) := by
  apply Link.induct
  · intro f n b cs ih
    rw [Link.showHierarchy_mk, Link.getJointRef_mk, List.map_append, List.map_append,
      (ih b).1, (ih b).2]
  · intro b
    simp [Link.childEdges_nil, Link.childJointRefs_nil, Link.showHierarchyChildren_nil,
      Link.getJointRefChildren_nil]
  · intro c cs ihc ihcs b
    rw [Link.childEdges_cons, Link.childJointRefs_cons, Link.showHierarchyChildren_cons,
      Link.getJointRefChildren_cons, List.map_cons, List.map_cons, List.map_append,
      List.map_append, (ihcs b).1, (ihcs b).2, ihc]
    exact ⟨rfl, rfl⟩

/-- The joint names of the edges that `showHierarchy` reports are the joint
names of the nodes below the root, in another order. -/
theorem Link.showHierarchy_names (t : Link) :
    ((Link.showHierarchy t).map fun e => e.1).Perm (Link.jointNames t) := by
  have h := congrArg (List.map fun e : String × String × String => e.1)
    (Link.showHierarchy_getJointRef.1 t)
  simp only [List.map_map, Function.comp_def] at h
  rw [h]
  exact Link.getJointRef_names.1 t

/-- Both bodies of an edge that `showHierarchy` reports label nodes. -/
theorem Link.showHierarchy_bodies (t : Link) (e : String × String × String × Bool)
    (he : e ∈ Link.showHierarchy t) : e.2.1 ∈ Link.bodies t ∧ e.2.2.1 ∈ Link.bodies t := by
  have h1 : (e.1, e.2.1, e.2.2.1) ∈
      (Link.showHierarchy t).map (fun e => (e.1, e.2.1, e.2.2.1)) :=
    List.mem_map_of_mem _ he
  rw [Link.showHierarchy_getJointRef.1 t, List.mem_map] at h1
  obtain ⟨j, hj, hje⟩ := h1
  have := Link.getJointRef_bodies.1 t j hj
  simp only [Prod.mk.injEq] at hje
  rw [← hje.2.1, ← hje.2.2]
  exact this

end HIERARCHY_BUILDER

namespace HIERARCHY_BUILDER

/-! ## The method `checkForDisconnectedRigidBodies` -/

theorem HierarchyBuilderImpl.markUsed_eq (i : JointRef) (bodies : List RigidBodyRef) :
    HierarchyBuilderImpl.markUsed i bodies =
      bodies.map fun j => { j with mUsed := j.mUsed || i.refersTo j.mName } := by
  rw [HierarchyBuilderImpl.markUsed]
  refine List.map_congr_left fun j _ => ?_
  cases j with
  | mk name used =>
    cases used with
    | true => simp
    | false =>
      by_cases h : name = i.mBody0 ∨ name = i.mBody1
      · simp [JointRef.refersTo, h]
      · simp [JointRef.refersTo, h]

theorem HierarchyBuilderImpl.markUsed_foldl (joints : List JointRef) :
    ∀ bodies : List RigidBodyRef,
      joints.foldl (fun bodies i => HierarchyBuilderImpl.markUsed i bodies) bodies =
        bodies.map fun j =>
          { j with mUsed := j.mUsed || joints.any fun i => i.refersTo j.mName } := by
  induction joints with
  | nil =>
    intro bodies
    simp
  | cons i joints ih =>
    intro bodies
    rw [List.foldl_cons, ih, HierarchyBuilderImpl.markUsed_eq, List.map_map]
    refine List.map_congr_left fun j _ => ?_
    simp [Bool.or_assoc]

theorem JointRef.refersTo_any (joints : List JointRef) (x : String) :
    (joints.any fun i => i.refersTo x) = true ↔ IsEndpoint joints x := by
  simp [JointRef.refersTo, IsEndpoint, List.any_eq_true]

theorem HierarchyBuilderImpl.check_mJoints (b : HierarchyBuilderImpl) :
    b.checkForDisconnectedRigidBodies.mJoints = b.mJoints := rfl

theorem HierarchyBuilderImpl.check_mHierarchies (b : HierarchyBuilderImpl) :
    b.checkForDisconnectedRigidBodies.mHierarchies = b.mHierarchies := rfl

theorem HierarchyBuilderImpl.check_names (b : HierarchyBuilderImpl) :
    b.checkForDisconnectedRigidBodies.mRigidBodies.map RigidBodyRef.mName =
      b.mRigidBodies.map RigidBodyRef.mName := by
  simp only [HierarchyBuilderImpl.checkForDisconnectedRigidBodies,
    HierarchyBuilderImpl.markUsed_foldl, List.map_map]
  rfl

/-- The disconnected list after `checkForDisconnectedRigidBodies`: the names
of the registered bodies that no joint refers to, in registration order. -/
theorem HierarchyBuilderImpl.check_disconnected (b : HierarchyBuilderImpl) :
    b.checkForDisconnectedRigidBodies.mDisconnectedRigidBodies =
      (b.mRigidBodies.map RigidBodyRef.mName).filter fun x =>
        !(b.mJoints.any fun i => i.refersTo x) := by
  simp only [HierarchyBuilderImpl.checkForDisconnectedRigidBodies,
    HierarchyBuilderImpl.markUsed_foldl, List.map_map, List.filter_map]
  rfl

theorem HierarchyBuilderImpl.mem_check_disconnected (b : HierarchyBuilderImpl) (x : String) :
    x ∈ b.checkForDisconnectedRigidBodies.mDisconnectedRigidBodies ↔
      x ∈ b.mRigidBodies.map RigidBodyRef.mName ∧ ¬ IsEndpoint b.mJoints x := by
  rw [HierarchyBuilderImpl.check_disconnected, List.mem_filter, ← JointRef.refersTo_any]
  simp

end HIERARCHY_BUILDER

namespace HIERARCHY_BUILDER

/-! ## The method `build` -/

theorem HierarchyBuilderImpl.build_eq (b b2 : HierarchyBuilderImpl) (hs : List Hierarchy)
    (h1 : HierarchyBuilderImpl.consumeJoints
      (b.checkForDisconnectedRigidBodies.mJoints.length + 1)
      b.checkForDisconnectedRigidBodies = some b2)
    (h2 : HierarchyBuilderImpl.mergeHierarchies b2.mHierarchies = some hs) :
    b.build =
      some ({ b2 with mHierarchies := hs.map fun i => i.findLoopJoints b2.mJoints },
        (hs.map fun i => i.findLoopJoints b2.mJoints).length) := by
  simp only [HierarchyBuilderImpl.build, h1, h2]

theorem JointRef.unmark_map_mName (js : List JointRef) :
    (js.map JointRef.unmark).map JointRef.mName = js.map JointRef.mName := by
  rw [List.map_map]; rfl

/-- The invariant holds before the first loop of `build` on a valid input. -/
theorem BuildInv.start (b : HierarchyBuilderImpl) (hb : Registered b) :
    BuildInv b.mJoints b.checkForDisconnectedRigidBodies := by
  refine ⟨rfl, ?_, ?_, ?_⟩
  · rw [HierarchyBuilderImpl.check_mHierarchies, hb.hierarchies,
      HierarchyBuilderImpl.check_mJoints, usedNames_of_unused _ hb.jointsUnused]
    exact List.Perm.refl _
  · intro h hh
    rw [HierarchyBuilderImpl.check_mHierarchies, hb.hierarchies] at hh
    cases hh
  · intro j hj hu
    rw [HierarchyBuilderImpl.check_mJoints] at hj
    rw [hb.jointsUnused j hj] at hu
    cases hu

/-- On a valid input `build` returns, and the hierarchies it leaves have the
joints by name exactly once, are well formed and pairwise disjoint, and
contain both bodies of every joint in one tree. -/
theorem HierarchyBuilderImpl.build_spec (b : HierarchyBuilderImpl) (hb : Registered b) :
    ∃ r hs, b.build = some r ∧ BuildResult b r hs := by
  have hstart := BuildInv.start b hb
  have hfuel : (unusedNames b.checkForDisconnectedRigidBodies.mJoints).length <
      b.checkForDisconnectedRigidBodies.mJoints.length + 1 := by
    have : (unusedNames b.checkForDisconnectedRigidBodies.mJoints).length ≤
        b.checkForDisconnectedRigidBodies.mJoints.length := by
      rw [unusedNames, List.length_map]
      exact List.length_filter_le _ _
    omega
  obtain ⟨b2, h1, h2, h3, h4, h5⟩ :=
    HierarchyBuilderImpl.consumeJoints_spec b.mJoints _ _ hstart hfuel
  have hnames : usedNames b2.mJoints = b.mJoints.map JointRef.mName := by
    rw [usedNames_of_used _ h3, ← JointRef.unmark_map_mName, h2.joints_eq,
      JointRef.unmark_map_mName]
  have hinv : ForestInv b.mJoints b2.mHierarchies := by
    refine ⟨?_, h2.wellFormed⟩
    rw [h2.names.nodup_iff, hnames]
    exact hb.jointNames
  obtain ⟨hs, k1, k2, k3, k4⟩ :=
    HierarchyBuilderImpl.mergeHierarchies_spec b.mJoints b2.mHierarchies hinv
  refine ⟨_, hs, HierarchyBuilderImpl.build_eq b b2 hs h1 k1, ?_⟩
  refine ⟨by simp, rfl, h2.joints_eq, ?_, h5, k2, k4, ?_, ?_⟩
  · show b2.mRigidBodies.map RigidBodyRef.mName = _
    rw [h4, HierarchyBuilderImpl.check_names]
  · exact k3.names.trans (hnames ▸ h2.names)
  · intro j hj
    have hj2 : j.unmark ∈ b2.mJoints.map JointRef.unmark := by
      rw [h2.joints_eq]; exact List.mem_map_of_mem _ hj
    rw [List.mem_map] at hj2
    obtain ⟨i, hi, hie⟩ := hj2
    have e0 : i.mBody0 = j.mBody0 := by
      rw [← JointRef.unmark_mBody0 i, hie]; rfl
    have e1 : i.mBody1 = j.mBody1 := by
      rw [← JointRef.unmark_mBody1 i, hie]; rfl
    have en : i.mName = j.mName := by
      rw [← JointRef.unmark_mName i, hie]; rfl
    obtain ⟨h, hh, hn, hb0, hb1⟩ := h2.placed i hi (h3 i hi)
    obtain ⟨l, hl, hlin⟩ := k3.inside h hh
    exact ⟨l, hl, en ▸ hlin.2 _ hn, e0 ▸ hlin.1 _ hb0, e1 ▸ hlin.1 _ hb1⟩

end HIERARCHY_BUILDER

namespace HIERARCHY_BUILDER

/-! ## Hierarchies and connected components -/

theorem Hierarchy.Disjoint.disjoint_symm {h k : Hierarchy} (hd : Hierarchy.Disjoint h k) :
    Hierarchy.Disjoint k h :=
  fun x hx hx2 => hd x hx2 hx

/-- In a list of pairwise disjoint hierarchies a body labels nodes of at most
one hierarchy. -/
theorem Hierarchy.eq_of_common_body {hs : List Hierarchy}
    (hp : hs.Pairwise Hierarchy.Disjoint) {h k : Hierarchy} (hh : h ∈ hs) (hk : k ∈ hs)
    {x : String} (hx : x ∈ Link.bodies h.mRoot) (hx2 : x ∈ Link.bodies k.mRoot) : h = k := by
  by_contra hne
  exact (hp.forall (fun _ _ hd => Hierarchy.Disjoint.disjoint_symm hd) hh hk hne) x hx hx2

/-- The cardinality of the set of values of an injective function on a
list. -/
theorem ncard_list_image {α β : Type} (f : α → Set β) :
    ∀ l : List α, l.Pairwise (fun a b => f a ≠ f b) →
      Set.Finite {S | ∃ a ∈ l, S = f a} ∧ Set.ncard {S | ∃ a ∈ l, S = f a} = l.length := by
  intro l
  induction l with
  | nil =>
    intro _
    have : {S | ∃ a ∈ ([] : List α), S = f a} = (∅ : Set (Set β)) := by
      ext S; simp
    rw [this]
    exact ⟨Set.finite_empty, Set.ncard_empty _⟩
  | cons a l ih =>
    intro hp
    rw [List.pairwise_cons] at hp
    obtain ⟨hfin, hcard⟩ := ih hp.2
    have : {S | ∃ c ∈ a :: l, S = f c} = insert (f a) {S | ∃ c ∈ l, S = f c} := by
      ext S
      simp only [List.mem_cons, Set.mem_setOf_eq, Set.mem_insert_iff]
      constructor
      · rintro ⟨c, hc | hc, rfl⟩
        · exact Or.inl (by rw [hc])
        · exact Or.inr ⟨c, hc, rfl⟩
      · rintro (h | ⟨c, hc, rfl⟩)
        · exact ⟨a, Or.inl rfl, h⟩
        · exact ⟨c, Or.inr hc, rfl⟩
    rw [this]
    have hnot : f a ∉ {S | ∃ c ∈ l, S = f c} := by
      rintro ⟨c, hc, he⟩
      exact hp.1 c hc he
    exact ⟨hfin.insert _, by rw [Set.ncard_insert_of_not_mem hnot hfin, hcard, List.length_cons]⟩

/-- A final hierarchy contains with a body every body adjacent to it. -/
theorem BuildResult.closed {b : HierarchyBuilderImpl} {r : HierarchyBuilderImpl × Nat}
    {hs : List Hierarchy} (hr : BuildResult b r hs) {h : Hierarchy} (hh : h ∈ hs)
    {x y : String} (hx : x ∈ Link.bodies h.mRoot) (ha : Adjacent b.mJoints x y) :
    y ∈ Link.bodies h.mRoot := by
  obtain ⟨j, hj, hxy⟩ := ha
  obtain ⟨k, hk, _, h0, h1⟩ := hr.placed j hj
  rcases hxy with ⟨e0, e1⟩ | ⟨e0, e1⟩
  · have : h = k := Hierarchy.eq_of_common_body hr.disjoint hh hk hx (e0 ▸ h0)
    rw [this, ← e1]; exact h1
  · have : h = k := Hierarchy.eq_of_common_body hr.disjoint hh hk hx (e1 ▸ h1)
    rw [this, ← e0]; exact h0

/-- The bodies of a final hierarchy are exactly the bodies connected with any
one of them. -/
theorem BuildResult.component {b : HierarchyBuilderImpl} {r : HierarchyBuilderImpl × Nat}
    {hs : List Hierarchy} (hr : BuildResult b r hs) {h : Hierarchy} (hh : h ∈ hs)
    {x : String} (hx : x ∈ Link.bodies h.mRoot) (y : String) :
    Connected b.mJoints x y ↔ y ∈ Link.bodies h.mRoot := by
  constructor
  · intro hc
    induction hc with
    | refl => exact hx
    | tail _ hbc ih => exact hr.closed hh ih hbc
  · intro hy
    exact (hr.inv.wellFormed h hh).connected x hx y hy

theorem BuildResult.bodySet_eq {b : HierarchyBuilderImpl} {r : HierarchyBuilderImpl × Nat}
    {hs : List Hierarchy} (hr : BuildResult b r hs) {h : Hierarchy} (hh : h ∈ hs)
    {x : String} (hx : x ∈ Link.bodies h.mRoot) :
    {y | Connected b.mJoints x y} = h.bodySet := by
  ext y
  exact hr.component hh hx y

/-- The final hierarchies are the connected components of the joint graph
that contain a joint. -/
theorem BuildResult.components {b : HierarchyBuilderImpl} {r : HierarchyBuilderImpl × Nat}
    {hs : List Hierarchy} (hr : BuildResult b r hs) :
    jointComponents b.mJoints = {S | ∃ h ∈ hs, S = h.bodySet} := by
  ext S
  constructor
  · rintro ⟨j, hj, rfl⟩
    obtain ⟨h, hh, _, h0, _⟩ := hr.placed j hj
    exact ⟨h, hh, hr.bodySet_eq hh h0⟩
  · rintro ⟨h, hh, rfl⟩
    have hroot := Link.mRigidBody_mem_bodies h.mRoot
    obtain ⟨j, hj, he⟩ := (hr.inv.wellFormed h hh).endpoint _ hroot
    have h0 : j.mBody0 ∈ Link.bodies h.mRoot := by
      rcases he with he | he
      · rw [← he]; exact hroot
      · exact hr.closed hh hroot ⟨j, hj, Or.inr ⟨rfl, he.symm⟩⟩
    exact ⟨j, hj, (hr.bodySet_eq hh h0).symm⟩

/-- The number of final hierarchies is the number of connected components of
the joint graph that contain a joint. -/
theorem BuildResult.count_components {b : HierarchyBuilderImpl}
    {r : HierarchyBuilderImpl × Nat} {hs : List Hierarchy} (hr : BuildResult b r hs) :
    r.2 = Set.ncard (jointComponents b.mJoints) := by
  rw [hr.components, hr.count]
  refine ((ncard_list_image Hierarchy.bodySet hs ?_).2).symm
  refine hr.disjoint.imp ?_
  intro h k hd he
  have hroot : h.mRoot.mRigidBody ∈ h.bodySet := Link.mRigidBody_mem_bodies h.mRoot
  rw [he] at hroot
  exact hd _ (Link.mRigidBody_mem_bodies h.mRoot) hroot

theorem BuildResult.final_bodies {b : HierarchyBuilderImpl} {r : HierarchyBuilderImpl × Nat}
    {hs : List Hierarchy} (hr : BuildResult b r hs) :
    r.1.mHierarchies.map (fun h => Link.bodies h.mRoot) =
      hs.map fun h => Link.bodies h.mRoot := by
  rw [hr.hierarchies, List.map_map]
  exact List.map_congr_left fun h _ => Hierarchy.findLoopJoints_bodies h _

theorem BuildResult.final_jointNames {b : HierarchyBuilderImpl}
    {r : HierarchyBuilderImpl × Nat} {hs : List Hierarchy} (hr : BuildResult b r hs) :
    r.1.mHierarchies.map (fun h => Link.jointNames h.mRoot) =
      hs.map fun h => Link.jointNames h.mRoot := by
  rw [hr.hierarchies, List.map_map]
  exact List.map_congr_left fun h _ => Hierarchy.findLoopJoints_jointNames h _

end HIERARCHY_BUILDER

namespace HIERARCHY_BUILDER

/-! ## The final hierarchy list -/

theorem BuildResult.final_mem {b : HierarchyBuilderImpl} {r : HierarchyBuilderImpl × Nat}
    {hs : List Hierarchy} (hr : BuildResult b r hs) {k : Hierarchy}
    (hk : k ∈ r.1.mHierarchies) :
    ∃ h ∈ hs, k = h.findLoopJoints r.1.mJoints ∧ Link.bodies k.mRoot = Link.bodies h.mRoot ∧
      Link.jointNames k.mRoot = Link.jointNames h.mRoot := by
  rw [hr.hierarchies, List.mem_map] at hk
  obtain ⟨h, hh, rfl⟩ := hk
  exact ⟨h, hh, rfl, Hierarchy.findLoopJoints_bodies h _, Hierarchy.findLoopJoints_jointNames h _⟩

theorem BuildResult.final_disjoint {b : HierarchyBuilderImpl} {r : HierarchyBuilderImpl × Nat}
    {hs : List Hierarchy} (hr : BuildResult b r hs) :
    r.1.mHierarchies.Pairwise Hierarchy.Disjoint := by
  rw [hr.hierarchies, List.pairwise_map]
  refine hr.disjoint.imp ?_
  intro h k hd x hx hx2
  rw [Hierarchy.findLoopJoints_bodies] at hx hx2
  exact hd x hx hx2

theorem BuildResult.final_closed {b : HierarchyBuilderImpl} {r : HierarchyBuilderImpl × Nat}
    {hs : List Hierarchy} (hr : BuildResult b r hs) {k : Hierarchy}
    (hk : k ∈ r.1.mHierarchies) {x : String} (hx : x ∈ Link.bodies k.mRoot) (y : String) :
    Connected b.mJoints x y ↔ y ∈ Link.bodies k.mRoot := by
  obtain ⟨h, hh, _, hb, _⟩ := hr.final_mem hk
  rw [hb] at hx ⊢
  exact hr.component hh hx y

theorem BuildResult.final_count {b : HierarchyBuilderImpl} {r : HierarchyBuilderImpl × Nat}
    {hs : List Hierarchy} (hr : BuildResult b r hs) : r.2 = r.1.getHierarchyCount := by
  rw [HierarchyBuilderImpl.getHierarchyCount, hr.hierarchies, List.length_map, hr.count]

/-- The joint names of the reported edges are the registered joint names, in
another order. -/
theorem BuildResult.reported_names {b : HierarchyBuilderImpl} {r : HierarchyBuilderImpl × Nat}
    {hs : List Hierarchy} (hr : BuildResult b r hs) :
    (r.1.reportedEdges.map fun e => e.1).Perm (b.mJoints.map JointRef.mName) := by
  refine List.Perm.trans ?_ hr.names
  rw [HierarchyBuilderImpl.reportedEdges, hr.hierarchies, forestNames]
  generalize r.1.mJoints = js
  clear hr
  induction hs with
  | nil => exact List.Perm.refl _
  | cons h hs ih =>
    simp only [List.map_cons, List.flatMap_cons, List.map_append]
    refine List.Perm.append ?_ ih
    rw [← Hierarchy.findLoopJoints_jointNames h js]
    exact Link.showHierarchy_names _

/-- With pairwise disjoint hierarchies, a body that labels a node labels
nodes of exactly one hierarchy. -/
theorem Hierarchy.countP_of_mem (x : String) :
    ∀ hs : List Hierarchy, hs.Pairwise Hierarchy.Disjoint →
      ∀ h ∈ hs, x ∈ Link.bodies h.mRoot →
        hs.countP (fun h => decide (x ∈ Link.bodies h.getHierarchyRoot)) = 1 := by
  intro hs
  induction hs with
  | nil => intro _ h hh; cases hh
  | cons a l ih =>
    intro hp h hh hx
    rw [List.pairwise_cons] at hp
    by_cases ha : x ∈ Link.bodies a.mRoot
    · have hzero : l.countP (fun h => decide (x ∈ Link.bodies h.getHierarchyRoot)) = 0 := by
        rw [List.countP_eq_zero]
        intro k hk
        simp only [Hierarchy.getHierarchyRoot, decide_eq_true_eq]
        exact hp.1 k hk x ha
      rw [List.countP_cons, hzero]
      simp [Hierarchy.getHierarchyRoot, ha]
    · rw [List.mem_cons] at hh
      rcases hh with hh | hh
      · exact absurd (hh ▸ hx) ha
      · rw [List.countP_cons, ih hp.2 h hh hx]
        simp [Hierarchy.getHierarchyRoot, ha]

/-- Every registered body is either in the disconnected list, once, and in no
hierarchy, or not in the list and in exactly one hierarchy. -/
theorem BuildResult.body_place {b : HierarchyBuilderImpl} {r : HierarchyBuilderImpl × Nat}
    {hs : List Hierarchy} (hr : BuildResult b r hs) (hb : Registered b) (x : String)
    (hx : x ∈ b.mRigidBodies.map RigidBodyRef.mName) :
    (r.1.mDisconnectedRigidBodies.count x = 1 ∧ r.1.hierarchiesWith x = 0) ∨
      (r.1.mDisconnectedRigidBodies.count x = 0 ∧ r.1.hierarchiesWith x = 1) := by
  have hnd : r.1.mDisconnectedRigidBodies.Nodup := by
    rw [hr.disconnected, HierarchyBuilderImpl.check_disconnected]
    exact hb.bodyNames.filter _
  have hmem := HierarchyBuilderImpl.mem_check_disconnected b x
  rw [← hr.disconnected] at hmem
  by_cases he : IsEndpoint b.mJoints x
  · right
    constructor
    · rw [List.count_eq_zero, hmem]
      exact fun h => h.2 he
    · obtain ⟨j, hj, hxj⟩ := he
      obtain ⟨h, hh, _, h0, h1⟩ := hr.placed j hj
      have hxh : x ∈ Link.bodies h.mRoot := by
        rcases hxj with e | e
        · rw [e]; exact h0
        · rw [e]; exact h1
      have hk : h.findLoopJoints r.1.mJoints ∈ r.1.mHierarchies := by
        rw [hr.hierarchies]; exact List.mem_map_of_mem _ hh
      refine Hierarchy.countP_of_mem x _ hr.final_disjoint _ hk ?_
      rw [Hierarchy.findLoopJoints_bodies]; exact hxh
  · left
    constructor
    · exact List.count_eq_one_of_mem hnd (hmem.mpr ⟨hx, he⟩)
    · rw [HierarchyBuilderImpl.hierarchiesWith, List.countP_eq_zero]
      intro k hk
      simp only [Hierarchy.getHierarchyRoot, decide_eq_true_eq]
      intro hxk
      obtain ⟨h, hh, _, hbk, _⟩ := hr.final_mem hk
      rw [hbk] at hxk
      exact he ((hr.inv.wellFormed h hh).endpoint x hxk)

end HIERARCHY_BUILDER

namespace HIERARCHY_BUILDER

/-! ## Registration of a list of bodies and a list of joints -/

theorem register_append (cs ds : List Call) :
    register (cs ++ ds) = ds.foldl Call.run (register cs) := by
  rw [register, List.foldl_append]; rfl

/-- Registering bodies changes nothing but the body list, which afterwards
holds the old names and the new ones. -/
theorem bodyCalls_foldl (bodies : List String) :
    ∀ b : HierarchyBuilderImpl,
      ((bodyCalls bodies).foldl Call.run b).mJoints = b.mJoints ∧
      ∀ x, x ∈ ((bodyCalls bodies).foldl Call.run b).mRigidBodies.map RigidBodyRef.mName ↔
        x ∈ b.mRigidBodies.map RigidBodyRef.mName ∨ x ∈ bodies := by
  induction bodies with
  | nil => intro b; simp [bodyCalls]
  | cons a bodies ih =>
    intro b
    have h := ih (Call.run b (.addRigidBody a))
    simp only [bodyCalls, List.map_cons, List.foldl_cons] at h ⊢
    refine ⟨h.1.trans ?_, fun x => (h.2 x).trans ?_⟩
    · simp only [Call.run, HierarchyBuilderImpl.addRigidBody]
      split <;> rfl
    · simp only [Call.run, HierarchyBuilderImpl.addRigidBody]
      by_cases hn : (b.findRigidBodRef a).isNone = true
      · rw [if_pos hn]
        simp only [List.map_append, List.map_cons, List.map_nil, List.mem_append,
          List.mem_singleton, List.mem_cons]
        tauto
      · rw [if_neg hn]
        have hin : a ∈ b.mRigidBodies.map RigidBodyRef.mName := by
          by_contra hc
          exact hn ((HierarchyBuilderImpl.findRigidBodRef_isNone b a).mpr hc)
        simp only [List.mem_cons]
        constructor
        · rintro (h1 | h1)
          · exact Or.inl h1
          · exact Or.inr (Or.inr h1)
        · rintro (h1 | h1 | h1)
          · exact Or.inl h1
          · exact Or.inl (h1 ▸ hin)
          · exact Or.inr h1

/-- Registering joints with fresh, pairwise distinct names between registered
bodies appends their records and changes nothing else. -/
theorem jointCalls_foldl (joints : List (String × String × String)) :
    ∀ b : HierarchyBuilderImpl,
      (b.mJoints.map JointRef.mName ++ joints.map fun j => j.1).Nodup →
      (∀ j ∈ joints, j.2.1 ∈ b.mRigidBodies.map RigidBodyRef.mName ∧
        j.2.2 ∈ b.mRigidBodies.map RigidBodyRef.mName) →
      ((jointCalls joints).foldl Call.run b).mJoints = b.mJoints ++ joints.map jointRecord ∧
        ((jointCalls joints).foldl Call.run b).mRigidBodies = b.mRigidBodies := by
  induction joints with
  | nil => intro b _ _; simp [jointCalls]
  | cons a joints ih =>
    intro b hn hk
    have hfresh : a.1 ∉ b.mJoints.map JointRef.mName := by
      intro hc
      exact (List.nodup_append.mp hn).2.2 hc (by simp)
    have hka := hk a (List.mem_cons_self _ _)
    have hrun : Call.run b (.addJoint a.1 a.2.1 a.2.2) =
        { b with mJoints := b.mJoints ++ [jointRecord a] } := by
      simp only [Call.run, HierarchyBuilderImpl.addJoint]
      rw [if_pos ((HierarchyBuilderImpl.findJointRef_isNone b a.1).mpr hfresh), if_pos]
      · rfl
      · rw [Bool.and_eq_true, HierarchyBuilderImpl.findRigidBodRef_isSome,
          HierarchyBuilderImpl.findRigidBodRef_isSome]
        exact hka
    have h := ih { b with mJoints := b.mJoints ++ [jointRecord a] } ?_ ?_
    · simp only [jointCalls, List.map_cons, List.foldl_cons] at h ⊢
      rw [hrun]
      refine ⟨h.1.trans ?_, h.2⟩
      simp
    · simp only [List.map_append, List.map_cons, List.map_nil, List.append_assoc,
        List.singleton_append]
      simpa [jointRecord] using hn
    · intro j hj
      exact hk j (List.mem_cons_of_mem _ hj)

/-- The joint list after registering bodies and then valid joints. -/
theorem register_valid (bodies : List String) (joints : List (String × String × String))
    (hn : (joints.map fun j => j.1).Nodup)
    (hk : ∀ j ∈ joints, j.2.1 ∈ bodies ∧ j.2.2 ∈ bodies) :
    (register (bodyCalls bodies ++ jointCalls joints)).mJoints = joints.map jointRecord ∧
      (register (bodyCalls bodies ++ jointCalls joints)).mRigidBodies =
        (register (bodyCalls bodies)).mRigidBodies ∧
      ∀ x, x ∈ (register (bodyCalls bodies ++ jointCalls joints)).mRigidBodies.map
        RigidBodyRef.mName ↔ x ∈ bodies := by
  rw [register_append]
  have hb := bodyCalls_foldl bodies HierarchyBuilderImpl.create
  have hb1 : (register (bodyCalls bodies)).mJoints = [] := hb.1
  have hb2 : ∀ x, x ∈ (register (bodyCalls bodies)).mRigidBodies.map RigidBodyRef.mName ↔
      x ∈ bodies := by
    intro x
    have := hb.2 x
    simpa [HierarchyBuilderImpl.create] using this
  have h := jointCalls_foldl joints (register (bodyCalls bodies))
    (by rw [hb1]; simpa using hn)
    (fun j hj => ⟨(hb2 _).mpr (hk j hj).1, (hb2 _).mpr (hk j hj).2⟩)
  rw [hb1, List.nil_append] at h
  refine ⟨h.1, h.2, fun x => ?_⟩
  rw [h.2]
  exact hb2 x

end HIERARCHY_BUILDER

namespace HIERARCHY_BUILDER

/-! ## A chain of three bodies -/

/-- Symbolic run of `build` on the two joints of a chain, in either order:
the hierarchy list afterwards, up to the loop flag of the root, which no edge
reports. -/
theorem HierarchyBuilderImpl.build_chain (A B C j1 j2 : String) (hAB : A ≠ B) (hBC : B ≠ C)
    (hAC : A ≠ C) (h12 : j1 ≠ j2) (b : HierarchyBuilderImpl) (hh : b.mHierarchies = [])
    (hjs : b.mJoints = [{ mName := j1, mBody0 := A, mBody1 := B },
        { mName := j2, mBody0 := B, mBody1 := C }] ∨
      b.mJoints = [{ mName := j2, mBody0 := B, mBody1 := C },
        { mName := j1, mBody0 := A, mBody1 := B }]) :
    ∃ f r, b.build = some r ∧ r.2 = 1 ∧
      r.1.mHierarchies =
        [{ mIndex := 0, mRoot := .mk f "" A [.mk false j1 B [.mk false j2 C []]] }] ∧
      r.1.mDisconnectedRigidBodies =
        b.checkForDisconnectedRigidBodies.mDisconnectedRigidBodies := by
  obtain ⟨rb, js, hs, ds⟩ := b
  simp only at hh hjs
  subst hh
  rcases hjs with rfl | rfl <;> by_cases e1 : "" = j1 <;> by_cases e2 : "" = j2 <;>
  simp [HierarchyBuilderImpl.build, HierarchyBuilderImpl.check_mJoints,
    HierarchyBuilderImpl.check_mHierarchies, HierarchyBuilderImpl.consumeJoints,
    HierarchyBuilderImpl.findFirstUnusedJoint, HierarchyBuilderImpl.consumeJoint,
    HierarchyBuilderImpl.addToFirst, Hierarchy.added, Hierarchy.new, Link.add,
    Link.addChildren, Link.isLinked, Link.fresh, Link.mRigidBody,
    HierarchyBuilderImpl.mergeHierarchies, Hierarchy.findLoopJoints, Link.getLinks,
    Link.getLinksChildren, Hierarchy.sortLinks, Hierarchy.findLink, Hierarchy.loopScan,
    Link.setLoopJoints, Link.setLoopJointsChildren, Link.mJointName, List.findIdx?_cons,
    hAB, hBC, hAC, h12, Ne.symm hAB, Ne.symm hBC, Ne.symm hAC, Ne.symm h12, e1, e2]

end HIERARCHY_BUILDER

namespace HIERARCHY_BUILDER

/-! ## Counting loop joints -/

/-- The loop flags after `setLoopJoints` on a tree without loop flags: the
node at position `i` of the flat link array is flagged when `i` is marked. -/
theorem Link.setLoopJoints_loopFlags (marked : List Nat) :
    (∀ (t : Link) (k : Nat), (∀ f ∈ Link.loopFlags t, f = false) →
      Link.loopFlags (Link.setLoopJoints marked t k) =
        (List.range' k (Link.getLinks t).length).map fun i => decide (i ∈ marked)) ∧
    (∀ (cs : List Link) (k : Nat), (∀ f ∈ Link.loopFlagsChildren cs, f = false) →
      Link.loopFlagsChildren (Link.setLoopJointsChildren marked cs k) =
        (List.range' k (Link.getLinksChildren cs).length).map fun i => decide (i ∈ marked)) := by
  apply Link.induct
  · intro f n b cs ih k hf
    rw [Link.loopFlags_mk] at hf
    have hf0 : f = false := hf f (List.mem_cons_self _ _)
    subst hf0
    rw [Link.setLoopJoints_mk, Link.loopFlags_mk, Link.getLinks_mk, List.length_cons,
      ih (k + 1) (fun g hg => hf g (List.mem_cons_of_mem _ hg)), List.range'_succ,
      List.map_cons]
    by_cases hk : k ∈ marked <;> simp [hk]
  · intro k _
    rw [Link.setLoopJointsChildren_nil, Link.loopFlagsChildren_nil, Link.getLinksChildren_nil]
    rfl
  · intro c cs ihc ihcs k hf
    rw [Link.loopFlagsChildren_cons] at hf
    rw [Link.setLoopJointsChildren_cons, Link.loopFlagsChildren_cons,
      Link.getLinksChildren_cons, List.length_append,
      ihc k (fun g hg => hf g (List.mem_append_left _ hg)),
      ihcs _ (fun g hg => hf g (List.mem_append_right _ hg)), ← List.map_append]
    congr 1
    rw [List.range'_append_1, Nat.add_comm]

/-- The loop flags of the edges that `showHierarchy` reports are the loop
flags of the nodes below the root, in another order. -/
theorem Link.showHierarchy_flags :
    (∀ t : Link,
      ((Link.showHierarchy t).map fun e => e.2.2.2).Perm
        (Link.loopFlagsChildren t.mChildren)) ∧
    (∀ (cs : List Link) (b : String),
      ((Link.childEdges b cs ++ Link.showHierarchyChildren cs).map fun e => e.2.2.2).Perm
        (Link.loopFlagsChildren cs)) := by
  apply Link.induct
  · intro f n b cs ih
    rw [Link.showHierarchy_mk]
    exact ih b
  · intro b
    simp [Link.childEdges_nil, Link.showHierarchyChildren_nil, Link.loopFlagsChildren_nil]
  · intro c cs ihc ihcs b
    have h2 := ihcs b
    rw [List.map_append] at h2
    cases c with
    | mk f n cb ccs =>
      rw [Link.showHierarchy_mk] at ihc
      simp only [Link.mChildren] at ihc
      simp only [Link.childEdges_cons, Link.showHierarchyChildren_cons, List.cons_append,
        List.map_cons, List.map_append, Link.loopFlagsChildren_cons, Link.loopFlags_mk,
        Link.mIsLoopJoint, Link.showHierarchy_mk]
      refine List.Perm.cons _ ?_
      rw [List.map_append] at ihc
      refine List.Perm.trans ?_ (List.Perm.append ihc h2)
      rw [← List.append_assoc, ← List.append_assoc, ← List.append_assoc]
      refine List.Perm.append_right _ ?_
      rw [List.append_assoc, List.append_assoc]
      refine List.perm_append_comm.trans ?_
      rw [List.append_assoc]

theorem Link.showHierarchy_length (t : Link) :
    (Link.showHierarchy t).length + 1 = (Link.getLinks t).length := by
  have h := (Link.showHierarchy_flags.1 t).length_eq
  rw [List.length_map] at h
  rw [h, Link.getLinks_eq, List.length_cons, Link.loopFlagsChildren, List.length_map]

end HIERARCHY_BUILDER

namespace HIERARCHY_BUILDER

theorem Hierarchy.loopScan_nil (links : List Link) (seen : List String) :
    Hierarchy.loopScan links seen [] = [] := by
  rw [Hierarchy.loopScan]

theorem Hierarchy.loopSeen_nil (links : List Link) (seen : List String) :
    Hierarchy.loopSeen links seen [] = seen := by
  rw [Hierarchy.loopSeen]

theorem Hierarchy.loopScan_old (links : List Link) (seen : List String) (i : Nat)
    (rest : List Nat) (l : Link) (hl : links.get? i = some l) (hs : l.mRigidBody ∈ seen) :
    Hierarchy.loopScan links seen (i :: rest) = i :: Hierarchy.loopScan links seen rest ∧
      Hierarchy.loopSeen links seen (i :: rest) = Hierarchy.loopSeen links seen rest := by
  rw [Hierarchy.loopScan, Hierarchy.loopSeen, hl]
  simp [hs]

theorem Hierarchy.loopScan_new (links : List Link) (seen : List String) (i : Nat)
    (rest : List Nat) (l : Link) (hl : links.get? i = some l) (hs : l.mRigidBody ∉ seen) :
    Hierarchy.loopScan links seen (i :: rest) =
        Hierarchy.loopScan links (seen ++ [l.mRigidBody]) rest ∧
      Hierarchy.loopSeen links seen (i :: rest) =
        Hierarchy.loopSeen links (seen ++ [l.mRigidBody]) rest := by
  rw [Hierarchy.loopScan, Hierarchy.loopSeen, hl]
  simp [hs]

/-- The second loop of `findLoopJoints`: every visited link is either
flagged or adds its body to the list of bodies seen, which stays free of
repetitions and holds the bodies of the visited links. -/
theorem Hierarchy.loopScan_spec (links : List Link) :
    ∀ (sorted : List Nat) (seen : List String), (∀ p ∈ sorted, p < links.length) →
      (Hierarchy.loopScan links seen sorted).length +
          (Hierarchy.loopSeen links seen sorted).length = sorted.length + seen.length ∧
        (Hierarchy.loopScan links seen sorted).Sublist sorted ∧
        (seen.Nodup → (Hierarchy.loopSeen links seen sorted).Nodup) ∧
        ∀ x, x ∈ Hierarchy.loopSeen links seen sorted ↔
          x ∈ seen ∨ ∃ p ∈ sorted, ∃ l, links.get? p = some l ∧ l.mRigidBody = x := by
  intro sorted
  induction sorted with
  | nil =>
    intro seen _
    rw [Hierarchy.loopScan_nil, Hierarchy.loopSeen_nil]
    refine ⟨by simp, List.Sublist.refl _, fun h => h, fun x => by simp⟩
  | cons i rest ih =>
    intro seen hlt
    have hi : i < links.length := hlt i (List.mem_cons_self _ _)
    have hrest : ∀ p ∈ rest, p < links.length := fun p hp => hlt p (List.mem_cons_of_mem _ hp)
    have hl : links.get? i = some links[i] := by
      rw [List.get?_eq_getElem?, List.getElem?_eq_getElem hi]
    by_cases hs : links[i].mRigidBody ∈ seen
    · obtain ⟨e1, e2⟩ := Hierarchy.loopScan_old links seen i rest _ hl hs
      obtain ⟨h1, h2, h3, h4⟩ := ih seen hrest
      rw [e1, e2]
      refine ⟨by simp only [List.length_cons]; omega, h2.cons₂ _, h3, fun x => ?_⟩
      rw [h4 x]
      constructor
      · rintro (h | ⟨p, hp, l, hpl, hx⟩)
        · exact Or.inl h
        · exact Or.inr ⟨p, List.mem_cons_of_mem _ hp, l, hpl, hx⟩
      · rintro (h | ⟨p, hp, l, hpl, hx⟩)
        · exact Or.inl h
        · rw [List.mem_cons] at hp
          rcases hp with hp | hp
          · subst hp
            rw [hl] at hpl
            cases hpl
            exact Or.inl (hx ▸ hs)
          · exact Or.inr ⟨p, hp, l, hpl, hx⟩
    · obtain ⟨e1, e2⟩ := Hierarchy.loopScan_new links seen i rest _ hl hs
      obtain ⟨h1, h2, h3, h4⟩ := ih (seen ++ [links[i].mRigidBody]) hrest
      rw [e1, e2]
      refine ⟨?_, h2.cons _, fun hn => h3 ?_, fun x => ?_⟩
      · simp only [List.length_cons, List.length_append, List.length_nil] at h1 ⊢
        omega
      · refine List.Nodup.append hn (List.nodup_singleton _) ?_
        intro y hy hy2
        rw [List.mem_singleton] at hy2
        exact hs (hy2 ▸ hy)
      · rw [h4 x, List.mem_append, List.mem_singleton]
        constructor
        · rintro ((h | h) | ⟨p, hp, l, hpl, hx⟩)
          · exact Or.inl h
          · exact Or.inr ⟨i, List.mem_cons_self _ _, _, hl, h.symm⟩
          · exact Or.inr ⟨p, List.mem_cons_of_mem _ hp, l, hpl, hx⟩
        · rintro (h | ⟨p, hp, l, hpl, hx⟩)
          · exact Or.inl (Or.inl h)
          · rw [List.mem_cons] at hp
            rcases hp with hp | hp
            · subst hp
              rw [hl] at hpl
              cases hpl
              exact Or.inl (Or.inr hx.symm)
            · exact Or.inr ⟨p, hp, l, hpl, hx⟩

/-- The position that `findLink` returns is in range and carries the name. -/
theorem Hierarchy.findLink_some (links : List Link) (name : String) (p : Nat)
    (h : Hierarchy.findLink links name = some p) :
    ∃ hp : p < links.length, links[p].mJointName = name := by
  rw [Hierarchy.findLink, List.findIdx?_eq_some_iff_getElem] at h
  obtain ⟨hp, hn, _⟩ := h
  exact ⟨hp, by simpa using hn⟩

/-- With pairwise distinct joint names in the flat link array, `findLink`
finds every link by its name. -/
theorem Hierarchy.findLink_self (links : List Link)
    (hn : (links.map Link.mJointName).Nodup) (p : Nat) (hp : p < links.length) :
    Hierarchy.findLink links links[p].mJointName = some p := by
  rw [Hierarchy.findLink, List.findIdx?_eq_some_iff_getElem]
  refine ⟨hp, by simp, fun j hj => ?_⟩
  simp only [decide_eq_true_eq]
  intro he
  have hj2 : j < (links.map Link.mJointName).length := by
    rw [List.length_map]; omega
  have hp2 : p < (links.map Link.mJointName).length := by
    rw [List.length_map]; exact hp
  have he2 : (links.map Link.mJointName)[j] = (links.map Link.mJointName)[p] := by
    simpa using he
  have := (List.Nodup.getElem_inj_iff hn).mp he2
  omega

end HIERARCHY_BUILDER

namespace HIERARCHY_BUILDER

theorem Link.getLinks_names (t : Link) :
    (Link.getLinks t).map Link.mJointName = t.mJointName :: Link.jointNames t := by
  rw [Link.getLinks_eq, List.map_cons]; rfl

theorem Link.getLinks_bodies (t : Link) :
    (Link.getLinks t).map Link.mRigidBody = Link.bodies t := rfl

theorem Link.getLinks_length_pos (t : Link) : 0 < (Link.getLinks t).length := by
  rw [Link.getLinks_eq]; simp

theorem Link.getLinks_zero (t : Link) : (Link.getLinks t)[0]? = some t := by
  rw [Link.getLinks_eq]; simp

/-- The list `sortLinks` of `findLoopJoints` holds every position of the
flat link array but that of the root, once, when the root has the empty joint
name and the other links carry pairwise distinct, non-empty names of
joints. -/
theorem Hierarchy.sortLinks_spec (t : Link) (joints : List JointRef)
    (hroot : t.mJointName = "") (hnd : (Link.jointNames t).Nodup)
    (hsub : ∀ n ∈ Link.jointNames t, n ∈ joints.map JointRef.mName)
    (hJ : (joints.map JointRef.mName).Nodup)
    (hne : ∀ n ∈ joints.map JointRef.mName, n ≠ "") :
    (Hierarchy.sortLinks (Link.getLinks t) joints).Nodup ∧
      ∀ p, p ∈ Hierarchy.sortLinks (Link.getLinks t) joints ↔
        0 < p ∧ p < (Link.getLinks t).length := by
  have hnames : ((Link.getLinks t).map Link.mJointName).Nodup := by
    rw [Link.getLinks_names, List.nodup_cons]
    refine ⟨fun h => hne _ (hsub _ h) hroot, hnd⟩
  have hS : Hierarchy.sortLinks (Link.getLinks t) joints =
      (joints.map JointRef.mName).filterMap (Hierarchy.findLink (Link.getLinks t)) := by
    rw [Hierarchy.sortLinks, List.filterMap_map]; rfl
  constructor
  · rw [hS]
    refine List.Nodup.filterMap ?_ hJ
    intro a a1 p ha ha1
    obtain ⟨_, e⟩ := Hierarchy.findLink_some _ a p ha
    obtain ⟨_, e1⟩ := Hierarchy.findLink_some _ a1 p ha1
    rw [← e, ← e1]
  · intro p
    rw [hS, List.mem_filterMap]
    constructor
    · rintro ⟨a, ha, hp⟩
      obtain ⟨hlt, e⟩ := Hierarchy.findLink_some _ a p hp
      refine ⟨Nat.pos_of_ne_zero fun h0 => ?_, hlt⟩
      subst h0
      have h1 : (Link.getLinks t)[0] = t := by
        have := Link.getLinks_zero t
        rw [List.getElem?_eq_getElem hlt] at this
        exact Option.some.inj this
      rw [h1, hroot] at e
      exact hne a ha e.symm
    · rintro ⟨hpos, hlt⟩
      refine ⟨(Link.getLinks t)[p].mJointName, ?_, Hierarchy.findLink_self _ hnames p hlt⟩
      apply hsub
      have hmem : ((Link.getLinks t).map Link.mJointName)[p]? =
          some (Link.getLinks t)[p].mJointName := by
        rw [List.getElem?_map, List.getElem?_eq_getElem hlt]; rfl
      rw [Link.getLinks_names] at hmem
      cases p with
      | zero => omega
      | succ q =>
        rw [List.getElem?_cons_succ] at hmem
        exact List.mem_iff_getElem?.mpr ⟨q, hmem⟩

/-- Counting the members of a list without repetitions inside another. -/
theorem countP_mem_of_nodup (l1 l2 : List Nat) (h1 : l1.Nodup) (h2 : l2.Nodup)
    (hsub : ∀ x ∈ l1, x ∈ l2) : l2.countP (fun i => decide (i ∈ l1)) = l1.length := by
  rw [List.countP_eq_length_filter]
  refine List.Perm.length_eq ?_
  refine (List.perm_ext_iff_of_nodup (h2.filter _) h1).mpr fun x => ?_
  rw [List.mem_filter]
  simp only [decide_eq_true_eq]
  exact ⟨fun h => h.2, fun h => ⟨hsub x h, h⟩⟩

end HIERARCHY_BUILDER

namespace HIERARCHY_BUILDER

/-- The number of loop joints that `findLoopJoints` flags in a tree without
loop flags whose root has the empty joint name and whose other links carry
pairwise distinct, non-empty names of joints: together with the number of
distinct bodies it is the number of edges plus one. -/
theorem Hierarchy.findLoopJoints_count (h : Hierarchy) (joints : List JointRef)
    (hroot : h.mRoot.mJointName = "") (hflags : ∀ f ∈ Link.loopFlags h.mRoot, f = false)
    (hnd : (Link.jointNames h.mRoot).Nodup)
    (hsub : ∀ n ∈ Link.jointNames h.mRoot, n ∈ joints.map JointRef.mName)
    (hJ : (joints.map JointRef.mName).Nodup)
    (hne : ∀ n ∈ joints.map JointRef.mName, n ≠ "") :
    ((Link.showHierarchy (h.findLoopJoints joints).mRoot).filter fun e => e.2.2.2).length +
        (Link.bodies (h.findLoopJoints joints).mRoot).dedup.length =
      (Link.showHierarchy (h.findLoopJoints joints).mRoot).length + 1 := by
  obtain ⟨hSnd, hSmem⟩ := Hierarchy.sortLinks_spec h.mRoot joints hroot hnd hsub hJ hne
  have hlt : ∀ p ∈ Hierarchy.sortLinks (Link.getLinks h.mRoot) joints,
      p < (Link.getLinks h.mRoot).length := fun p hp => ((hSmem p).mp hp).2
  obtain ⟨h1, h2, h3, h4⟩ := Hierarchy.loopScan_spec (Link.getLinks h.mRoot)
    (Hierarchy.sortLinks (Link.getLinks h.mRoot) joints) [h.mRoot.mRigidBody] hlt
  have hpos := Link.getLinks_length_pos h.mRoot
  -- the sorted list has one position for each edge
  have hSlen : (Hierarchy.sortLinks (Link.getLinks h.mRoot) joints).length + 1 =
      (Link.getLinks h.mRoot).length := by
    have hp : (Hierarchy.sortLinks (Link.getLinks h.mRoot) joints).Perm
        (List.range' 1 ((Link.getLinks h.mRoot).length - 1)) := by
      refine (List.perm_ext_iff_of_nodup hSnd (List.nodup_range' _ _)).mpr fun p => ?_
      rw [hSmem p, List.mem_range'_1]
      omega
    rw [hp.length_eq, List.length_range']
    omega
  -- the bodies seen are the distinct bodies of the tree
  have hseen : (Hierarchy.loopSeen (Link.getLinks h.mRoot) [h.mRoot.mRigidBody]
      (Hierarchy.sortLinks (Link.getLinks h.mRoot) joints)).length =
      (Link.bodies h.mRoot).dedup.length := by
    refine List.Perm.length_eq ?_
    refine (List.perm_ext_iff_of_nodup (h3 (List.nodup_singleton _))
      (List.nodup_dedup _)).mpr fun x => ?_
    rw [h4 x, List.mem_dedup, ← Link.getLinks_bodies, List.mem_map, List.mem_singleton]
    constructor
    · rintro (hx | ⟨p, hp, l, hpl, hx⟩)
      · exact ⟨h.mRoot, by rw [Link.getLinks_eq]; exact List.mem_cons_self _ _, hx.symm⟩
      · rw [List.get?_eq_getElem?] at hpl
        exact ⟨l, List.mem_iff_getElem?.mpr ⟨p, hpl⟩, hx⟩
    · rintro ⟨l, hl, hx⟩
      obtain ⟨p, hpl⟩ := List.mem_iff_getElem?.mp hl
      cases p with
      | zero =>
        rw [Link.getLinks_zero] at hpl
        cases hpl
        exact Or.inl hx.symm
      | succ q =>
        have hq : q + 1 < (Link.getLinks h.mRoot).length := by
          by_contra hc
          rw [List.getElem?_eq_none (by omega)] at hpl
          cases hpl
        refine Or.inr ⟨q + 1, (hSmem _).mpr ⟨by omega, hq⟩, l, ?_, hx⟩
        rw [List.get?_eq_getElem?]; exact hpl
  -- the flagged edges are the marked positions
  have hmarkedNd : (Hierarchy.loopScan (Link.getLinks h.mRoot) [h.mRoot.mRigidBody]
      (Hierarchy.sortLinks (Link.getLinks h.mRoot) joints)).Nodup := hSnd.sublist h2
  have hflagged : ((Link.showHierarchy (h.findLoopJoints joints).mRoot).filter
      fun e => e.2.2.2).length =
      (Hierarchy.loopScan (Link.getLinks h.mRoot) [h.mRoot.mRigidBody]
        (Hierarchy.sortLinks (Link.getLinks h.mRoot) joints)).length := by
    have hfl := (Link.setLoopJoints_loopFlags
      (Hierarchy.loopScan (Link.getLinks h.mRoot) [h.mRoot.mRigidBody]
        (Hierarchy.sortLinks (Link.getLinks h.mRoot) joints))).1 h.mRoot 0 hflags
    have hsplit : List.range' 0 (Link.getLinks h.mRoot).length =
        0 :: List.range' 1 ((Link.getLinks h.mRoot).length - 1) := by
      have : (Link.getLinks h.mRoot).length = ((Link.getLinks h.mRoot).length - 1) + 1 := by
        omega
      conv_lhs => rw [this, List.range'_succ]
    have hch : Link.loopFlagsChildren (h.findLoopJoints joints).mRoot.mChildren =
        (List.range' 1 ((Link.getLinks h.mRoot).length - 1)).map fun i =>
          decide (i ∈ Hierarchy.loopScan (Link.getLinks h.mRoot) [h.mRoot.mRigidBody]
            (Hierarchy.sortLinks (Link.getLinks h.mRoot) joints)) := by
      have e : Link.loopFlags (h.findLoopJoints joints).mRoot =
          (h.findLoopJoints joints).mRoot.mIsLoopJoint ::
            Link.loopFlagsChildren (h.findLoopJoints joints).mRoot.mChildren := by
        rw [Link.loopFlags, Link.getLinks_eq, List.map_cons]; rfl
      have e2 : Link.loopFlags (h.findLoopJoints joints).mRoot = _ := hfl
      rw [e, hsplit, List.map_cons] at e2
      exact (List.cons.inj e2).2
    have hperm := Link.showHierarchy_flags.1 (h.findLoopJoints joints).mRoot
    rw [← List.countP_eq_length_filter]
    have hc1 : (Link.showHierarchy (h.findLoopJoints joints).mRoot).countP (fun e => e.2.2.2) =
        ((Link.showHierarchy (h.findLoopJoints joints).mRoot).map fun e => e.2.2.2).countP
          (fun f => f) := by
      rw [List.countP_map]; rfl
    rw [hc1, hperm.countP_eq, hch, List.countP_map]
    refine countP_mem_of_nodup _ _ hmarkedNd (List.nodup_range' _ _) fun p hp => ?_
    have := (hSmem p).mp (h2.subset hp)
    rw [List.mem_range'_1]
    omega
  have hedges : (Link.showHierarchy (h.findLoopJoints joints).mRoot).length + 1 =
      (Link.getLinks h.mRoot).length := by
    rw [Link.showHierarchy_length]
    exact Link.setLoopJoints_length _ _ _
  rw [hflagged, Hierarchy.findLoopJoints_bodies, ← hseen, hedges]
  simp only [List.length_singleton] at h1
  omega

end HIERARCHY_BUILDER

namespace HIERARCHY_BUILDER

theorem forestNames_mem {hs : List Hierarchy} {h : Hierarchy} (hh : h ∈ hs) :
    ∀ n ∈ Link.jointNames h.mRoot, n ∈ forestNames hs := fun _ hn =>
  List.mem_flatMap.mpr ⟨h, hh, hn⟩

theorem forestNames_nodup {hs : List Hierarchy} (hn : (forestNames hs).Nodup) {h : Hierarchy}
    (hh : h ∈ hs) : (Link.jointNames h.mRoot).Nodup :=
  (List.nodup_flatMap.mp hn).1 h hh

/-- The joint names of the joint list after `build` are the registered
ones. -/
theorem BuildResult.joint_names {b : HierarchyBuilderImpl} {r : HierarchyBuilderImpl × Nat}
    {hs : List Hierarchy} (hr : BuildResult b r hs) :
    r.1.mJoints.map JointRef.mName = b.mJoints.map JointRef.mName := by
  rw [← JointRef.unmark_map_mName, hr.joints_eq, JointRef.unmark_map_mName]

/-- In every final hierarchy the number of flagged edges and the number of
distinct bodies add up to the number of edges plus one, when no joint has the
empty name. -/
theorem BuildResult.loop_count {b : HierarchyBuilderImpl} {r : HierarchyBuilderImpl × Nat}
    {hs : List Hierarchy} (hr : BuildResult b r hs) (hb : Registered b)
    (hne : ∀ j ∈ b.mJoints, j.mName ≠ "") {k : Hierarchy} (hk : k ∈ r.1.mHierarchies) :
    ((Link.showHierarchy k.getHierarchyRoot).filter fun e => e.2.2.2).length +
        (Link.bodies k.getHierarchyRoot).dedup.length =
      (Link.showHierarchy k.getHierarchyRoot).length + 1 := by
  obtain ⟨h, hh, rfl, _, _⟩ := hr.final_mem hk
  have hw := hr.inv.wellFormed h hh
  refine Hierarchy.findLoopJoints_count h r.1.mJoints hw.rootName hw.noLoop
    (forestNames_nodup hr.inv.nodup hh) (fun n hn => ?_) ?_ (fun n hn => ?_)
  · rw [hr.joint_names, ← hr.names.mem_iff]
    exact forestNames_mem hh n hn
  · rw [hr.joint_names]; exact hb.jointNames
  · rw [hr.joint_names, List.mem_map] at hn
    obtain ⟨j, hj, rfl⟩ := hn
    exact hne j hj

end HIERARCHY_BUILDER

namespace HIERARCHY_BUILDER

/-! ## The order of registration -/

theorem Adjacent.adjacent_mono {js ks : List JointRef} (h : ∀ j ∈ js, j ∈ ks) {a b : String}
    (ha : Adjacent js a b) : Adjacent ks a b := by
  obtain ⟨j, hj, hab⟩ := ha
  exact ⟨j, h j hj, hab⟩

theorem Connected.connected_mono {js ks : List JointRef} (h : ∀ j ∈ js, j ∈ ks) {a b : String}
    (hc : Connected js a b) : Connected ks a b :=
  Relation.ReflTransGen.mono (fun _ _ hab => Adjacent.adjacent_mono h hab) hc

theorem Connected.connected_perm {js ks : List JointRef} (h : js.Perm ks) (a b : String) :
    Connected js a b ↔ Connected ks a b :=
  ⟨Connected.connected_mono fun _ hj => h.mem_iff.mp hj,
    Connected.connected_mono fun _ hj => h.mem_iff.mpr hj⟩

theorem IsEndpoint.endpoint_perm {js ks : List JointRef} (h : js.Perm ks) (x : String) :
    IsEndpoint js x ↔ IsEndpoint ks x := by
  constructor
  · rintro ⟨j, hj, hx⟩; exact ⟨j, h.mem_iff.mp hj, hx⟩
  · rintro ⟨j, hj, hx⟩; exact ⟨j, h.mem_iff.mpr hj, hx⟩

theorem jointComponents_of_perm {js ks : List JointRef} (h : js.Perm ks) :
    jointComponents js = jointComponents ks := by
  ext S
  constructor
  · rintro ⟨j, hj, rfl⟩
    refine ⟨j, h.mem_iff.mp hj, ?_⟩
    ext x
    exact Connected.connected_perm h _ _
  · rintro ⟨j, hj, rfl⟩
    refine ⟨j, h.mem_iff.mpr hj, ?_⟩
    ext x
    exact (Connected.connected_perm h _ _).symm

/-- With pairwise distinct joint names over the list, a joint name is on an
edge of at most one hierarchy. -/
theorem Hierarchy.eq_of_common_name {hs : List Hierarchy} (hn : (forestNames hs).Nodup)
    {h k : Hierarchy} (hh : h ∈ hs) (hk : k ∈ hs) {n : String}
    (h1 : n ∈ Link.jointNames h.mRoot) (h2 : n ∈ Link.jointNames k.mRoot) : h = k := by
  by_contra hne
  have hp := (List.nodup_flatMap.mp hn).2
  have := hp.forall (fun _ _ hd => List.Disjoint.symm hd) hh hk hne
  exact this h1 h2

/-- The joint names on the edges of a final hierarchy are the names of the
registered joints between its bodies. -/
theorem BuildResult.names_iff {b : HierarchyBuilderImpl} {r : HierarchyBuilderImpl × Nat}
    {hs : List Hierarchy} (hr : BuildResult b r hs) {h : Hierarchy} (hh : h ∈ hs) (n : String) :
    n ∈ Link.jointNames h.mRoot ↔
      ∃ j ∈ b.mJoints, j.mName = n ∧ j.mBody0 ∈ Link.bodies h.mRoot := by
  constructor
  · intro hn
    have h1 : n ∈ b.mJoints.map JointRef.mName := hr.names.mem_iff.mp (forestNames_mem hh n hn)
    rw [List.mem_map] at h1
    obtain ⟨j, hj, rfl⟩ := h1
    obtain ⟨k, hk, hkn, hk0, _⟩ := hr.placed j hj
    have : h = k := Hierarchy.eq_of_common_name hr.inv.nodup hh hk hn hkn
    exact ⟨j, hj, rfl, this ▸ hk0⟩
  · rintro ⟨j, hj, rfl, h0⟩
    obtain ⟨k, hk, hkn, hk0, _⟩ := hr.placed j hj
    have : h = k := Hierarchy.eq_of_common_body hr.disjoint hh hk h0 hk0
    exact this ▸ hkn

/-- Two lists without repetitions and with the same members have the same
length. -/
theorem length_eq_of_mem_iff {l1 l2 : List String} (h1 : l1.Nodup) (h2 : l2.Nodup)
    (h : ∀ x, x ∈ l1 ↔ x ∈ l2) : l1.length = l2.length :=
  ((List.perm_ext_iff_of_nodup h1 h2).mpr h).length_eq

/-- Two valid inputs with the same joints in another order: every final
hierarchy of the first has a final hierarchy of the second with the same
bodies and the same joint names on its edges. -/
theorem BuildResult.match_of_perm {b1 b2 : HierarchyBuilderImpl}
    {r1 r2 : HierarchyBuilderImpl × Nat} {hs1 hs2 : List Hierarchy}
    (hr1 : BuildResult b1 r1 hs1) (hr2 : BuildResult b2 r2 hs2)
    (hp : b1.mJoints.Perm b2.mJoints) {h1 : Hierarchy} (hh1 : h1 ∈ hs1) :
    ∃ h2 ∈ hs2, (∀ x, x ∈ Link.bodies h1.mRoot ↔ x ∈ Link.bodies h2.mRoot) ∧
      ∀ n, n ∈ Link.jointNames h1.mRoot ↔ n ∈ Link.jointNames h2.mRoot := by
  have hroot := Link.mRigidBody_mem_bodies h1.mRoot
  obtain ⟨j, hj, he⟩ := (hr1.inv.wellFormed h1 hh1).endpoint _ hroot
  obtain ⟨h2, hh2, _, h20, h21⟩ := hr2.placed j (hp.mem_iff.mp hj)
  have hroot2 : h1.mRoot.mRigidBody ∈ Link.bodies h2.mRoot := by
    rcases he with e | e
    · rw [e]; exact h20
    · rw [e]; exact h21
  have hbodies : ∀ x, x ∈ Link.bodies h1.mRoot ↔ x ∈ Link.bodies h2.mRoot := by
    intro x
    rw [← hr1.component hh1 hroot x, ← hr2.component hh2 hroot2 x]
    exact Connected.connected_perm hp _ _
  refine ⟨h2, hh2, hbodies, fun n => ?_⟩
  rw [hr1.names_iff hh1 n, hr2.names_iff hh2 n]
  constructor
  · rintro ⟨i, hi, hn, h0⟩
    exact ⟨i, hp.mem_iff.mp hi, hn, (hbodies _).mp h0⟩
  · rintro ⟨i, hi, hn, h0⟩
    exact ⟨i, hp.mem_iff.mpr hi, hn, (hbodies _).mpr h0⟩

end HIERARCHY_BUILDER

namespace HIERARCHY_BUILDER

/-- The disconnected list depends on the joints as a set only. -/
theorem HierarchyBuilderImpl.check_disconnected_perm (b1 b2 : HierarchyBuilderImpl)
    (hb : b1.mRigidBodies = b2.mRigidBodies) (hp : b1.mJoints.Perm b2.mJoints) :
    b1.checkForDisconnectedRigidBodies.mDisconnectedRigidBodies =
      b2.checkForDisconnectedRigidBodies.mDisconnectedRigidBodies := by
  rw [HierarchyBuilderImpl.check_disconnected, HierarchyBuilderImpl.check_disconnected, hb]
  refine List.filter_congr fun x _ => ?_
  congr 1
  rw [Bool.eq_iff_iff, JointRef.refersTo_any, JointRef.refersTo_any]
  exact IsEndpoint.endpoint_perm hp x

/-- Two valid inputs with the same bodies and the same joints in another
order: every final hierarchy of the first has a final hierarchy of the second
with the same bodies, the same joint names on its edges and, when no joint has
the empty name, the same number of flagged edges. -/
theorem BuildResult.final_match {b1 b2 : HierarchyBuilderImpl}
    {r1 r2 : HierarchyBuilderImpl × Nat} {hs1 hs2 : List Hierarchy}
    (hr1 : BuildResult b1 r1 hs1) (hr2 : BuildResult b2 r2 hs2)
    (hreg1 : Registered b1) (hreg2 : Registered b2)
    (hp : b1.mJoints.Perm b2.mJoints) {k1 : Hierarchy} (hk1 : k1 ∈ r1.1.mHierarchies) :
    ∃ k2 ∈ r2.1.mHierarchies,
      (∀ x, x ∈ Link.bodies k1.getHierarchyRoot ↔ x ∈ Link.bodies k2.getHierarchyRoot) ∧
      (∀ n, n ∈ (Link.showHierarchy k1.getHierarchyRoot).map (fun e => e.1) ↔
        n ∈ (Link.showHierarchy k2.getHierarchyRoot).map (fun e => e.1)) ∧
      ((∀ j ∈ b1.mJoints, j.mName ≠ "") →
        ((Link.showHierarchy k1.getHierarchyRoot).filter fun e => e.2.2.2).length =
          ((Link.showHierarchy k2.getHierarchyRoot).filter fun e => e.2.2.2).length) := by
  obtain ⟨h1, hh1, rfl, hb1, hn1⟩ := hr1.final_mem hk1
  obtain ⟨h2, hh2, hbodies, hnames⟩ := hr1.match_of_perm hr2 hp hh1
  have hk2 : h2.findLoopJoints r2.1.mJoints ∈ r2.1.mHierarchies := by
    rw [hr2.hierarchies]; exact List.mem_map_of_mem _ hh2
  have hb2 := Hierarchy.findLoopJoints_bodies h2 r2.1.mJoints
  have hn2 := Hierarchy.findLoopJoints_jointNames h2 r2.1.mJoints
  have hB : ∀ x, x ∈ Link.bodies (h1.findLoopJoints r1.1.mJoints).getHierarchyRoot ↔
      x ∈ Link.bodies (h2.findLoopJoints r2.1.mJoints).getHierarchyRoot := by
    intro x
    simp only [Hierarchy.getHierarchyRoot]
    rw [hb1, hb2]; exact hbodies x
  have hN : ∀ n, n ∈ (Link.showHierarchy (h1.findLoopJoints r1.1.mJoints).getHierarchyRoot).map
        (fun e => e.1) ↔
      n ∈ (Link.showHierarchy (h2.findLoopJoints r2.1.mJoints).getHierarchyRoot).map
        (fun e => e.1) := by
    intro n
    simp only [Hierarchy.getHierarchyRoot]
    rw [(Link.showHierarchy_names _).mem_iff, (Link.showHierarchy_names _).mem_iff, hn1, hn2]
    exact hnames n
  refine ⟨_, hk2, hB, hN, fun hne => ?_⟩
  have hne2 : ∀ j ∈ b2.mJoints, j.mName ≠ "" := fun j hj => hne j (hp.mem_iff.mpr hj)
  have c1 := hr1.loop_count hreg1 hne hk1
  have c2 := hr2.loop_count hreg2 hne2 hk2
  have hD : (Link.bodies (h1.findLoopJoints r1.1.mJoints).getHierarchyRoot).dedup.length =
      (Link.bodies (h2.findLoopJoints r2.1.mJoints).getHierarchyRoot).dedup.length := by
    refine length_eq_of_mem_iff (List.nodup_dedup _) (List.nodup_dedup _) fun x => ?_
    rw [List.mem_dedup, List.mem_dedup]
    exact hB x
  have hE : (Link.showHierarchy (h1.findLoopJoints r1.1.mJoints).getHierarchyRoot).length =
      (Link.showHierarchy (h2.findLoopJoints r2.1.mJoints).getHierarchyRoot).length := by
    have e1 := (Link.showHierarchy_names (h1.findLoopJoints r1.1.mJoints).mRoot).length_eq
    have e2 := (Link.showHierarchy_names (h2.findLoopJoints r2.1.mJoints).mRoot).length_eq
    rw [List.length_map] at e1 e2
    simp only [Hierarchy.getHierarchyRoot]
    rw [e1, e2, hn1, hn2]
    exact length_eq_of_mem_iff (forestNames_nodup hr1.inv.nodup hh1)
      (forestNames_nodup hr2.inv.nodup hh2) hnames
  omega

end HIERARCHY_BUILDER

namespace HIERARCHY_BUILDER

/-- Passing the state through the calls that return `nullptr` gives the same
tree as leaving it alone. -/
theorem Link.addInPlace_eq (j : JointRef) :
    (∀ t, Link.addInPlace t j =
      match Link.add t j with
      | some t1 => (t1, true)
      | none => (t, false)) ∧
    (∀ cs, Link.addInPlaceChildren cs j =
      match Link.addChildren cs j with
      | some cs1 => (cs1, true)
      | none => (cs, false)) := by
  apply Link.induct
  · intro f n b cs ih
    rw [Link.addInPlace, Link.add, ih]
    cases Link.isLinked (.mk f n b cs) j with
    | LO_BODY0 => rfl
    | LO_BODY1 => rfl
    | LO_NOT_LINKED => cases Link.addChildren cs j <;> rfl
  · rw [Link.addInPlaceChildren, Link.addChildren]
  · intro c cs ihc ihcs
    rw [Link.addInPlaceChildren, Link.addChildren, ihc, ihcs]
    cases Link.add c j with
    | some c1 => rfl
    | none => cases Link.addChildren cs j <;> rfl

theorem Hierarchy.addedInPlace_eq (h : Hierarchy) (j : JointRef) :
    h.addedInPlace j = h.added j := by
  rw [Hierarchy.addedInPlace, Hierarchy.added, (Link.addInPlace_eq j).1]
  cases Link.add h.mRoot j <;> rfl

end HIERARCHY_BUILDER

namespace HIERARCHY_BUILDER

/-! ## Termination of `build` on every builder state -/

theorem HierarchyBuilderImpl.consumeJoint_mJoints (b : HierarchyBuilderImpl) (k : Nat)
    (jref : JointRef) :
    (b.consumeJoint k jref).mJoints = b.mJoints.set k jref.mark ∧
      (b.consumeJoint k jref).mRigidBodies = b.mRigidBodies ∧
      (b.consumeJoint k jref).mDisconnectedRigidBodies = b.mDisconnectedRigidBodies := by
  cases h : (HierarchyBuilderImpl.addToFirst b.mHierarchies jref).2 with
  | true => rw [HierarchyBuilderImpl.consumeJoint_added b k jref h]; exact ⟨rfl, rfl, rfl⟩
  | false => rw [HierarchyBuilderImpl.consumeJoint_new b k jref h]; exact ⟨rfl, rfl, rfl⟩

/-- One repetition of the first loop of `build` marks exactly one unused
joint and changes nothing else of the joint records, whatever the state of
the builder is. -/
theorem HierarchyBuilderImpl.consumeJoint_frame (b : HierarchyBuilderImpl) (k : Nat)
    (jref : JointRef) (hk : b.findFirstUnusedJoint = some k)
    (hj : b.mJoints.get? k = some jref) :
    (unusedNames (b.consumeJoint k jref).mJoints).length + 1 = (unusedNames b.mJoints).length ∧
      (b.consumeJoint k jref).mJoints.map JointRef.unmark = b.mJoints.map JointRef.unmark := by
  obtain ⟨hu, hsplit, hset, _⟩ := HierarchyBuilderImpl.findFirstUnusedJoint_some b k jref hk hj
  rw [(HierarchyBuilderImpl.consumeJoint_mJoints b k jref).1, hset]
  constructor
  · conv_rhs => rw [hsplit]
    rw [unusedNames_append, unusedNames_append,
      unusedNames_cons_used _ _ (JointRef.mark_mUsed jref), unusedNames_cons_unused _ _ hu]
    simp only [List.length_append, List.length_cons]
    omega
  · conv_rhs => rw [hsplit]
    simp [JointRef.unmark_mark]

/-- The first loop of `build` ends on every builder state when the fuel
exceeds the number of unused joints. -/
theorem HierarchyBuilderImpl.consumeJoints_total :
    ∀ (fuel : Nat) (b : HierarchyBuilderImpl), (unusedNames b.mJoints).length < fuel →
      ∃ b1, HierarchyBuilderImpl.consumeJoints fuel b = some b1 ∧
        (∀ i ∈ b1.mJoints, i.mUsed = true) ∧
        b1.mJoints.map JointRef.unmark = b.mJoints.map JointRef.unmark ∧
        b1.mRigidBodies = b.mRigidBodies ∧
        b1.mDisconnectedRigidBodies = b.mDisconnectedRigidBodies := by
  intro fuel
  induction fuel with
  | zero => intro b h; omega
  | succ fuel ih =>
    intro b hlen
    rw [HierarchyBuilderImpl.consumeJoints_succ]
    cases hk : b.findFirstUnusedJoint with
    | none =>
      exact ⟨b, rfl, HierarchyBuilderImpl.findFirstUnusedJoint_none b hk, rfl, rfl, rfl⟩
    | some k =>
      obtain ⟨jref, hj⟩ := HierarchyBuilderImpl.findFirstUnusedJoint_get b k hk
      simp only [hj]
      obtain ⟨hc, hu⟩ := HierarchyBuilderImpl.consumeJoint_frame b k jref hk hj
      obtain ⟨_, hr, hd⟩ := HierarchyBuilderImpl.consumeJoint_mJoints b k jref
      obtain ⟨b1, h1, h2, h3, h4, h5⟩ := ih (b.consumeJoint k jref) (by omega)
      exact ⟨b1, h1, h2, h3.trans hu, h4.trans hr, h5.trans hd⟩

/-- The loop over `j` of the merge pass ends for every source and every
slot list, and every merge it counts has emptied one slot. -/
theorem HierarchyBuilderImpl.mergeInto_total :
    ∀ (rest : List (Option Hierarchy)) (source : Hierarchy),
      ∃ s r c, HierarchyBuilderImpl.mergeInto source rest = some (s, r, c) ∧
        r.length = rest.length ∧ (liveSlots r).length + c = (liveSlots rest).length := by
  intro rest
  induction rest with
  | nil => intro source; exact ⟨source, [], 0, HierarchyBuilderImpl.mergeInto_nil source, rfl, rfl⟩
  | cons a rest ih =>
    intro source
    cases a with
    | none =>
      obtain ⟨s, r, c, h1, h2, h3⟩ := ih source
      refine ⟨s, none :: r, c, ?_, ?_, ?_⟩
      · rw [HierarchyBuilderImpl.mergeInto_none, h1]; rfl
      · simp [h2]
      · rw [liveSlots_none, liveSlots_none]; exact h3
    | some dest =>
      obtain ⟨m, hm, _⟩ := Hierarchy.merge_spec source dest
      obtain ⟨s, r, c, h1, h2, h3⟩ := ih m.self
      cases hret : m.ret with
      | true =>
        refine ⟨s, none :: r, c + 1, ?_, ?_, ?_⟩
        · rw [HierarchyBuilderImpl.mergeInto_merged source dest rest m hm hret, h1]; rfl
        · simp [h2]
        · rw [liveSlots_none, liveSlots_some, List.length_cons]; omega
      | false =>
        refine ⟨s, some dest :: r, c, ?_, ?_, ?_⟩
        · rw [HierarchyBuilderImpl.mergeInto_refused source dest rest m hm hret, h1]; rfl
        · simp [h2]
        · rw [liveSlots_some, liveSlots_some, List.length_cons, List.length_cons]; omega

/-- One pass over the hierarchy list ends on every slot list, and the
number of merges it reports is the number of slots it has emptied. -/
theorem HierarchyBuilderImpl.mergeSweep_total :
    ∀ (fuel : Nat) (slots : List (Option Hierarchy)), slots.length ≤ fuel →
      ∃ slots1 c, HierarchyBuilderImpl.mergeSweep fuel slots = some (slots1, c) ∧
        slots1.length = slots.length ∧
        (liveSlots slots1).length + c = (liveSlots slots).length := by
  intro fuel
  induction fuel with
  | zero =>
    intro slots hl
    have : slots = [] := List.length_eq_zero.mp (by omega)
    subst this
    exact ⟨[], 0, HierarchyBuilderImpl.mergeSweep_nil 0, rfl, rfl⟩
  | succ fuel ih =>
    intro slots hl
    cases slots with
    | nil => exact ⟨[], 0, HierarchyBuilderImpl.mergeSweep_nil _, rfl, rfl⟩
    | cons a rest =>
      rw [List.length_cons] at hl
      cases a with
      | none =>
        obtain ⟨r, c, h1, h2, h3⟩ := ih rest (by omega)
        refine ⟨none :: r, c, ?_, by simp [h2], ?_⟩
        · rw [HierarchyBuilderImpl.mergeSweep_none, h1]; rfl
        · rw [liveSlots_none, liveSlots_none]; exact h3
      | some source =>
        obtain ⟨s, r, c, h1, h2, h3⟩ := HierarchyBuilderImpl.mergeInto_total rest source
        by_cases hc : c = 0
        · subst hc
          obtain ⟨r1, c1, h4, h5, h6⟩ := ih r (by omega)
          refine ⟨some s :: r1, c1, ?_, by simp [h5, h2], ?_⟩
          · rw [HierarchyBuilderImpl.mergeSweep_quiet fuel source s rest r h1, h4]; rfl
          · rw [liveSlots_some, liveSlots_some, List.length_cons, List.length_cons]; omega
        · refine ⟨some s :: r, c, ?_, by simp [h2], ?_⟩
          · exact HierarchyBuilderImpl.mergeSweep_merged fuel source s rest r c h1 hc
          · rw [liveSlots_some, liveSlots_some, List.length_cons, List.length_cons]; omega

/-- The `while (mergePass)` loop ends on every slot list when the fuel
exceeds the number of slots that are not null. -/
theorem HierarchyBuilderImpl.mergePasses_total :
    ∀ (fuel : Nat) (slots : List (Option Hierarchy)) (mergeCount : Nat),
      (liveSlots slots).length < fuel →
      ∃ slots1 count, HierarchyBuilderImpl.mergePasses fuel slots mergeCount =
        some (slots1, count) := by
  intro fuel
  induction fuel with
  | zero => intro slots _ h; omega
  | succ fuel ih =>
    intro slots mergeCount hlen
    obtain ⟨slots1, c, h1, _, h3⟩ :=
      HierarchyBuilderImpl.mergeSweep_total slots.length slots (le_refl _)
    rw [HierarchyBuilderImpl.mergePasses_succ, h1]
    by_cases hc : c = 0
    · subst hc; exact ⟨slots1, mergeCount, by simp⟩
    · obtain ⟨s2, c2, h4⟩ := ih slots1 (mergeCount + c) (by omega)
      exact ⟨s2, c2, by simp [hc, h4]⟩

theorem HierarchyBuilderImpl.mergeHierarchies_total (hs : List Hierarchy) :
    ∃ hs1, HierarchyBuilderImpl.mergeHierarchies hs = some hs1 := by
  rw [HierarchyBuilderImpl.mergeHierarchies]
  by_cases hl : hs.length > 1
  · rw [if_pos hl]
    obtain ⟨s, c, h⟩ := HierarchyBuilderImpl.mergePasses_total (hs.length + 1) (hs.map some) 0
      (by rw [liveSlots_map_some]; omega)
    exact ⟨s.filterMap id, by rw [h]⟩
  · rw [if_neg hl]; exact ⟨hs, rfl⟩

/-- The method `build` returns on every builder state; the body list is the
one after `checkForDisconnectedRigidBodies`, the disconnected list is the one
that method computed, and every joint record is marked and otherwise as
before. -/
theorem HierarchyBuilderImpl.build_total (b : HierarchyBuilderImpl) :
    ∃ r, b.build = some r ∧
      r.1.mDisconnectedRigidBodies =
        b.checkForDisconnectedRigidBodies.mDisconnectedRigidBodies ∧
      r.1.mRigidBodies = b.checkForDisconnectedRigidBodies.mRigidBodies ∧
      r.1.mJoints.map JointRef.unmark = b.mJoints.map JointRef.unmark ∧
      (∀ i ∈ r.1.mJoints, i.mUsed = true) ∧ r.2 = r.1.mHierarchies.length := by
  have hfuel : (unusedNames b.checkForDisconnectedRigidBodies.mJoints).length <
      b.checkForDisconnectedRigidBodies.mJoints.length + 1 := by
    have : (unusedNames b.checkForDisconnectedRigidBodies.mJoints).length ≤
        b.checkForDisconnectedRigidBodies.mJoints.length := by
      rw [unusedNames, List.length_map]; exact List.length_filter_le _ _
    omega
  obtain ⟨b2, h1, h2, h3, h4, h5⟩ :=
    HierarchyBuilderImpl.consumeJoints_total _ b.checkForDisconnectedRigidBodies hfuel
  obtain ⟨hs, h6⟩ := HierarchyBuilderImpl.mergeHierarchies_total b2.mHierarchies
  exact ⟨_, HierarchyBuilderImpl.build_eq b b2 hs h1 h6, h5, h4, h3, h2, rfl⟩

end HIERARCHY_BUILDER

namespace HIERARCHY_BUILDER

/-! ## When `merge` returns true -/

/-- A successful `add` makes the tree one node larger. -/
theorem Link.add_length (j : JointRef) :
    (∀ t t1, Link.add t j = some t1 →
      (Link.getLinks t1).length = (Link.getLinks t).length + 1) ∧
    (∀ cs cs1, Link.addChildren cs j = some cs1 →
      (Link.getLinksChildren cs1).length = (Link.getLinksChildren cs).length + 1) := by
  refine Link.add_cases j
    (P := fun t t1 => (Link.getLinks t1).length = (Link.getLinks t).length + 1)
    (Q := fun cs cs1 =>
      (Link.getLinksChildren cs1).length = (Link.getLinksChildren cs).length + 1)
    ?_ ?_ ?_ ?_ ?_
  · intro f n b cs _
    simp [Link.getLinks_mk, Link.getLinksChildren_append, Link.getLinksChildren_cons,
      Link.getLinksChildren_nil, Link.fresh]
  · intro f n b cs _ _
    simp [Link.getLinks_mk, Link.getLinksChildren_cons, Link.getLinksChildren_nil, Link.fresh]
  · intro f n b cs cs1 _ _ _ ih
    simp only [Link.getLinks_mk, List.length_cons, ih]
  · intro c c1 cs _ ih
    simp only [Link.getLinksChildren_cons, List.length_append, ih]; omega
  · intro c cs cs1 _ _ ih
    simp only [Link.getLinksChildren_cons, List.length_append, ih]; omega

/-- A scan of `merge` never removes a node, and it sets `ret` only when it
has added one. -/
theorem Hierarchy.mergeScan_grows (js : List JointRef) (self : Hierarchy) (ret consumed : Bool) :
    (Link.getLinks self.mRoot).length ≤
        (Link.getLinks (Hierarchy.mergeScan self ret consumed js).self.mRoot).length ∧
      ((Hierarchy.mergeScan self ret consumed js).ret = true → ret = true ∨
        (Link.getLinks self.mRoot).length <
          (Link.getLinks (Hierarchy.mergeScan self ret consumed js).self.mRoot).length) := by
  refine Hierarchy.mergeScan_cases
    (P := fun self ret _ _ s =>
      (Link.getLinks self.mRoot).length ≤ (Link.getLinks s.self.mRoot).length ∧
      (s.ret = true → ret = true ∨
        (Link.getLinks self.mRoot).length < (Link.getLinks s.self.mRoot).length))
    ?_ ?_ ?_ ?_ ?_ js self ret consumed
  · intro self ret consumed; exact ⟨le_refl _, fun h => Or.inl h⟩
  · intro self ret consumed i rest s _ ih; exact ih
  · intro self ret consumed i rest s _ _ ih; exact ih
  · intro self ret consumed i rest r s _ _ hr ih
    have hl := (Link.add_length i).1 _ _ hr
    have h1 := ih.1
    simp only at h1
    exact ⟨by simp only; omega, fun _ => Or.inr (by simp only; omega)⟩
  · intro self ret consumed i rest s _ _ _ ih; exact ih

/-- A scan in which every unused joint is a duplicate or is refused leaves
both flags as they were. -/
theorem Hierarchy.mergeScan_idle (js : List JointRef) (self : Hierarchy) (ret consumed : Bool) :
    (∀ i ∈ js, i.mUsed = false →
      self.mRoot.isDuplicate i = true ∨ self.mRoot.add i = none) →
    (Hierarchy.mergeScan self ret consumed js).ret = ret ∧
      (Hierarchy.mergeScan self ret consumed js).consumed = consumed := by
  refine Hierarchy.mergeScan_cases
    (P := fun self ret consumed js s =>
      (∀ i ∈ js, i.mUsed = false →
        self.mRoot.isDuplicate i = true ∨ self.mRoot.add i = none) →
      s.ret = ret ∧ s.consumed = consumed)
    ?_ ?_ ?_ ?_ ?_ js self ret consumed
  · intro self ret consumed _; exact ⟨rfl, rfl⟩
  · intro self ret consumed i rest s _ ih h
    exact ih fun k hk => h k (List.mem_cons_of_mem _ hk)
  · intro self ret consumed i rest s _ _ ih h
    exact ih fun k hk => h k (List.mem_cons_of_mem _ hk)
  · intro self ret consumed i rest r s hu hd hr _ h
    rcases h i (List.mem_cons_self _ _) hu with h1 | h1
    · rw [hd] at h1; cases h1
    · rw [hr] at h1; cases h1
  · intro self ret consumed i rest s _ _ _ ih h
    exact ih fun k hk => h k (List.mem_cons_of_mem _ hk)

/-- The result of `merge` is true exactly when the tree of the receiver has
grown. -/
theorem Hierarchy.merge_grows (self other : Hierarchy) :
    ∃ s, self.merge other = some s ∧
      (Link.getLinks self.mRoot).length ≤ (Link.getLinks s.self.mRoot).length ∧
      (s.ret = true → (Link.getLinks self.mRoot).length < (Link.getLinks s.self.mRoot).length) := by
  have hlen : (unusedNames (Link.getJointRef other.mRoot)).length <
      (Link.getJointRef other.mRoot).length + 1 := by
    have : (unusedNames (Link.getJointRef other.mRoot)).length ≤
        (Link.getJointRef other.mRoot).length := by
      rw [unusedNames, List.length_map]; exact List.length_filter_le _ _
    omega
  obtain ⟨self1, ret1, js1, ⟨h1, h2⟩, _, hrun⟩ := Hierarchy.mergeLoop_rule
    (fun self1 ret1 _ =>
      (Link.getLinks self.mRoot).length ≤ (Link.getLinks self1.mRoot).length ∧
      (ret1 = true → (Link.getLinks self.mRoot).length < (Link.getLinks self1.mRoot).length))
    (fun slf ret js hinv _ => by
      have hg := Hierarchy.mergeScan_grows js slf ret false
      refine ⟨le_trans hinv.1 hg.1, fun hr => ?_⟩
      rcases hg.2 hr with h | h
      · exact lt_of_lt_of_le (hinv.2 h) hg.1
      · exact lt_of_le_of_lt hinv.1 h)
    ((Link.getJointRef other.mRoot).length + 1) self false (Link.getJointRef other.mRoot)
    ⟨le_refl _, fun h => Bool.noConfusion h⟩ hlen
  have hg := Hierarchy.mergeScan_grows js1 self1 ret1 false
  refine ⟨_, hrun, le_trans h1 hg.1, fun hr => ?_⟩
  rcases hg.2 hr with h | h
  · exact lt_of_lt_of_le (h2 h) hg.1
  · exact lt_of_le_of_lt h1 h

/-- When no edge of the other hierarchy is both no duplicate and accepted by
the receiver, `merge` returns false after one scan. -/
theorem Hierarchy.merge_idle (self other : Hierarchy)
    (h : ∀ e ∈ Link.getJointRef other.mRoot,
      self.mRoot.isDuplicate e = true ∨ self.mRoot.add e = none) :
    ∃ s, self.merge other = some s ∧ s.ret = false := by
  have hi := Hierarchy.mergeScan_idle (Link.getJointRef other.mRoot) self false false
    fun i hi _ => h i hi
  refine ⟨Hierarchy.mergeScan self false false (Link.getJointRef other.mRoot), ?_, hi.1⟩
  rw [Hierarchy.merge]
  simp only [Hierarchy.mergeLoop_succ, hi.2]
  rfl

end HIERARCHY_BUILDER

namespace HIERARCHY_BUILDER

/-! ## Which links `findLoopJoints` flags -/

theorem Hierarchy.loopScan_skip (links : List Link) (seen : List String) (i : Nat)
    (rest : List Nat) (hl : links.get? i = none) :
    Hierarchy.loopScan links seen (i :: rest) = Hierarchy.loopScan links seen rest ∧
      Hierarchy.loopSeen links seen (i :: rest) = Hierarchy.loopSeen links seen rest := by
  rw [Hierarchy.loopScan, Hierarchy.loopSeen, hl]
  exact ⟨rfl, rfl⟩

/-- Splitting a visit order at a position, when the first visit turns the
seen bodies `seen` into `seen1`. -/
theorem Hierarchy.loopSeen_split (links : List Link) (seen seen1 : List String) (i p : Nat)
    (rest : List Nat)
    (hstep : ∀ X, Hierarchy.loopSeen links seen (i :: X) = Hierarchy.loopSeen links seen1 X) :
    (∃ S1 S2 l, i :: rest = S1 ++ p :: S2 ∧ links.get? p = some l ∧
        l.mRigidBody ∈ Hierarchy.loopSeen links seen S1) ↔
      (p = i ∧ ∃ l, links.get? p = some l ∧ l.mRigidBody ∈ seen) ∨
        ∃ S1 S2 l, rest = S1 ++ p :: S2 ∧ links.get? p = some l ∧
          l.mRigidBody ∈ Hierarchy.loopSeen links seen1 S1 := by
  constructor
  · rintro ⟨S1, S2, l, hs, hl, hm⟩
    cases S1 with
    | nil =>
      rw [List.nil_append] at hs
      injection hs with h1 h2
      rw [Hierarchy.loopSeen_nil] at hm
      exact Or.inl ⟨h1.symm, l, hl, hm⟩
    | cons x S1 =>
      rw [List.cons_append] at hs
      injection hs with h1 h2
      subst h1
      rw [hstep] at hm
      exact Or.inr ⟨S1, S2, l, h2, hl, hm⟩
  · rintro (⟨hp, l, hl, hm⟩ | ⟨S1, S2, l, hs, hl, hm⟩)
    · subst hp
      exact ⟨[], rest, l, rfl, hl, by rw [Hierarchy.loopSeen_nil]; exact hm⟩
    · exact ⟨i :: S1, S2, l, by rw [hs]; rfl, hl, by rw [hstep]; exact hm⟩

/-- A position gets the flag exactly when, at one of its visits, the body of
its link is among the bodies seen so far. -/
theorem Hierarchy.loopScan_mem (links : List Link) (p : Nat) :
    ∀ (sorted : List Nat) (seen : List String),
      p ∈ Hierarchy.loopScan links seen sorted ↔
        ∃ S1 S2 l, sorted = S1 ++ p :: S2 ∧ links.get? p = some l ∧
          l.mRigidBody ∈ Hierarchy.loopSeen links seen S1 := by
  intro sorted
  induction sorted with
  | nil =>
    intro seen
    rw [Hierarchy.loopScan_nil]
    constructor
    · intro h; cases h
    · rintro ⟨S1, S2, l, hs, _⟩
      cases S1 <;> cases hs
  | cons i rest ih =>
    intro seen
    cases hl : links.get? i with
    | none =>
      rw [(Hierarchy.loopScan_skip links seen i rest hl).1,
        Hierarchy.loopSeen_split links seen seen i p rest
          (fun X => (Hierarchy.loopScan_skip links seen i X hl).2), ih seen]
      constructor
      · intro h; exact Or.inr h
      · rintro (⟨hp, l, hl2, _⟩ | h)
        · rw [hp, hl] at hl2; cases hl2
        · exact h
    | some l0 =>
      by_cases hs : l0.mRigidBody ∈ seen
      · rw [(Hierarchy.loopScan_old links seen i rest l0 hl hs).1,
          Hierarchy.loopSeen_split links seen seen i p rest
            (fun X => (Hierarchy.loopScan_old links seen i X l0 hl hs).2), List.mem_cons, ih seen]
        constructor
        · rintro (hp | h)
          · exact Or.inl ⟨hp, l0, by rw [hp]; exact hl, hs⟩
          · exact Or.inr h
        · rintro (⟨hp, _⟩ | h)
          · exact Or.inl hp
          · exact Or.inr h
      · rw [(Hierarchy.loopScan_new links seen i rest l0 hl hs).1,
          Hierarchy.loopSeen_split links seen (seen ++ [l0.mRigidBody]) i p rest
            (fun X => (Hierarchy.loopScan_new links seen i X l0 hl hs).2),
          ih (seen ++ [l0.mRigidBody])]
        constructor
        · intro h; exact Or.inr h
        · rintro (⟨hp, l, hl2, hm⟩ | h)
          · rw [hp, hl] at hl2
            injection hl2 with hl2
            rw [← hl2] at hm
            exact (hs hm).elim
          · exact h

theorem Hierarchy.mem_sortLinks (links : List Link) (joints : List JointRef) (q : Nat) :
    q ∈ Hierarchy.sortLinks links joints ↔
      ∃ a ∈ joints, Hierarchy.findLink links a.mName = some q := by
  rw [Hierarchy.sortLinks, List.mem_filterMap]

theorem Hierarchy.sortLinks_middle (links : List Link) (L1 L2 : List JointRef) (a : JointRef)
    (p : Nat) (h : Hierarchy.findLink links a.mName = some p) :
    Hierarchy.sortLinks links (L1 ++ a :: L2) =
      Hierarchy.sortLinks links L1 ++ p :: Hierarchy.sortLinks links L2 := by
  simp only [Hierarchy.sortLinks, List.filterMap_append, List.filterMap_cons, h]

/-- A place in `sortLinks` comes from a place in the joint list. -/
theorem Hierarchy.sortLinks_split (links : List Link) (joints : List JointRef)
    (S1 S2 : List Nat) (p : Nat) (h : Hierarchy.sortLinks links joints = S1 ++ p :: S2) :
    ∃ L1 a L2, joints = L1 ++ a :: L2 ∧ Hierarchy.findLink links a.mName = some p ∧
      S1 = Hierarchy.sortLinks links L1 := by
  rw [Hierarchy.sortLinks, List.filterMap_eq_append_iff] at h
  obtain ⟨l1, l2, hj, h1, h2⟩ := h
  rw [List.filterMap_eq_cons_iff] at h2
  obtain ⟨l3, a, l4, hl2, hnone, ha, _⟩ := h2
  refine ⟨l1 ++ l3, a, l4, by rw [hj, hl2, List.append_assoc], ha, ?_⟩
  rw [Hierarchy.sortLinks, List.filterMap_append, h1]
  have : List.filterMap (fun i => Hierarchy.findLink links i.mName) l3 = [] := by
    rw [List.filterMap_eq_nil_iff]; exact hnone
  rw [this, List.append_nil]

end HIERARCHY_BUILDER

namespace HIERARCHY_BUILDER

theorem Link.setLoopJoints_skeleton (marked : List Nat) :
    (∀ (t : Link) (k : Nat), Link.skeleton (Link.setLoopJoints marked t k) = Link.skeleton t) ∧
    (∀ (cs : List Link) (k : Nat),
      Link.skeletonChildren (Link.setLoopJointsChildren marked cs k) =
        Link.skeletonChildren cs) := by
  apply Link.induct
  · intro f n b cs ih k
    rw [Link.setLoopJoints_mk, Link.skeleton, Link.skeleton, ih]
  · intro k
    rw [Link.setLoopJointsChildren_nil]
  · intro c cs ihc ihcs k
    rw [Link.setLoopJointsChildren_cons, Link.skeletonChildren, Link.skeletonChildren, ihc, ihcs]

/-- The flag of the link at a position of the flat link array after
`findLoopJoints`, in a tree that had no flag set. -/
theorem Hierarchy.findLoopJoints_flagAt (h : Hierarchy) (joints : List JointRef)
    (hflags : ∀ f ∈ Link.loopFlags h.mRoot, f = false) (p : Nat)
    (hp : p < (Link.getLinks h.mRoot).length) :
    (Link.getLinks (h.findLoopJoints joints).mRoot)[p]?.map Link.mIsLoopJoint =
      some (decide (p ∈ Hierarchy.loopScan (Link.getLinks h.mRoot) [h.mRoot.mRigidBody]
        (Hierarchy.sortLinks (Link.getLinks h.mRoot) joints))) := by
  have hf := (Link.setLoopJoints_loopFlags
    (Hierarchy.loopScan (Link.getLinks h.mRoot) [h.mRoot.mRigidBody]
      (Hierarchy.sortLinks (Link.getLinks h.mRoot) joints))).1 h.mRoot 0 hflags
  rw [← List.getElem?_map]
  change (Link.loopFlags (Link.setLoopJoints _ h.mRoot 0))[p]? = _
  rw [hf, List.getElem?_map, List.getElem?_range' _ _ hp]
  simp

/-- The name of a link below the root is one of the joint names of the
tree. -/
theorem Link.getLinks_name_mem (t : Link) (p : Nat) (l : Link) (hp : 0 < p)
    (hl : (Link.getLinks t)[p]? = some l) : l.mJointName ∈ Link.jointNames t := by
  rw [Link.getLinks_eq] at hl
  cases p with
  | zero => omega
  | succ q =>
    rw [List.getElem?_cons_succ] at hl
    exact List.mem_map_of_mem _ (List.mem_iff_getElem?.mpr ⟨q, hl⟩)

theorem Hierarchy.findLink_of_get (links : List Link)
    (hn : (links.map Link.mJointName).Nodup) (p : Nat) (l : Link) (hl : links[p]? = some l) :
    Hierarchy.findLink links l.mJointName = some p := by
  obtain ⟨hp, e⟩ := List.getElem?_eq_some.mp hl
  rw [← e]
  exact Hierarchy.findLink_self links hn p hp

theorem Hierarchy.sortLinks_lt (links : List Link) (joints : List JointRef) :
    ∀ q ∈ Hierarchy.sortLinks links joints, q < links.length := by
  intro q hq
  obtain ⟨a, _, ha⟩ := (Hierarchy.mem_sortLinks links joints q).mp hq
  exact (Hierarchy.findLink_some links _ q ha).1

/-- The rule of `findLoopJoints` for one link below the root. -/
theorem Hierarchy.findLoopJoints_rule (h : Hierarchy) (joints : List JointRef)
    (hroot : h.mRoot.mJointName = "")
    (hnd : (Link.jointNames h.mRoot).Nodup) (hne : ∀ n ∈ Link.jointNames h.mRoot, n ≠ "")
    (hflags : ∀ f ∈ Link.loopFlags h.mRoot, f = false)
    (hJ : (joints.map JointRef.mName).Nodup)
    (hsub : ∀ n ∈ Link.jointNames h.mRoot, n ∈ joints.map JointRef.mName)
    (p : Nat) (l : Link) (hp : 0 < p) (hl : (Link.getLinks h.mRoot)[p]? = some l) :
    (Link.getLinks (h.findLoopJoints joints).mRoot)[p]?.map Link.mIsLoopJoint = some true ↔
      (l.mRigidBody = h.mRoot.mRigidBody ∨
        ∃ q m, 0 < q ∧ q ≠ p ∧ (Link.getLinks h.mRoot)[q]? = some m ∧
          m.mRigidBody = l.mRigidBody ∧ JointRef.Earlier joints m.mJointName l.mJointName) := by
  have hnames : ((Link.getLinks h.mRoot).map Link.mJointName).Nodup := by
    rw [Link.getLinks_names, List.nodup_cons]
    exact ⟨fun hm => hne _ hm hroot, hnd⟩
  obtain ⟨hlt, hget⟩ := List.getElem?_eq_some.mp hl
  have hfind := Hierarchy.findLink_of_get _ hnames p l hl
  rw [Hierarchy.findLoopJoints_flagAt h joints hflags p hlt]
  simp only [Option.some.injEq, decide_eq_true_eq]
  rw [Hierarchy.loopScan_mem]
  constructor
  · rintro ⟨S1, S2, l1, hs, hl1, hm⟩
    rw [List.get?_eq_getElem?, hl] at hl1
    injection hl1 with hl1
    subst hl1
    obtain ⟨L1, a, L2, hj, ha, hS1⟩ := Hierarchy.sortLinks_split _ _ _ _ _ hs
    subst hS1
    rw [(Hierarchy.loopScan_spec (Link.getLinks h.mRoot) _ [h.mRoot.mRigidBody]
      (Hierarchy.sortLinks_lt _ L1)).2.2.2] at hm
    rcases hm with hm | ⟨q, hq, m, hqm, hb⟩
    · exact Or.inl (List.mem_singleton.mp hm)
    · rw [List.get?_eq_getElem?] at hqm
      obtain ⟨a1, ha1, hf1⟩ := (Hierarchy.mem_sortLinks _ _ _).mp hq
      by_cases hq0 : q = 0
      · subst hq0
        rw [Link.getLinks_zero] at hqm
        injection hqm with hqm
        rw [← hqm] at hb
        exact Or.inl hb.symm
      · obtain ⟨hqlt, hqn⟩ := Hierarchy.findLink_some _ _ _ hf1
        obtain ⟨_, hpn⟩ := Hierarchy.findLink_some _ _ _ ha
        have hmq : (Link.getLinks h.mRoot)[q] = m := by
          rw [List.getElem?_eq_getElem hqlt] at hqm
          exact Option.some.inj hqm
        have hne1 : a1.mName ≠ a.mName := by
          rw [hj, List.map_append, List.map_cons] at hJ
          have hd := (List.nodup_append.mp hJ).2.2
          intro he
          exact hd (List.mem_map_of_mem _ ha1) (by rw [he]; exact List.mem_cons_self _ _)
        refine Or.inr ⟨q, m, Nat.pos_of_ne_zero hq0, fun he => ?_, hqm, hb,
          L1, a, L2, hj, ?_, a1, ha1, ?_⟩
        · subst he
          exact hne1 (hqn.symm.trans hpn)
        · rw [← hpn, hget]
        · rw [← hqn, hmq]
  · intro hr
    have hsplit : ∃ L1 a L2, joints = L1 ++ a :: L2 ∧ a.mName = l.mJointName ∧
        (l.mRigidBody = h.mRoot.mRigidBody ∨ ∃ q ∈ Hierarchy.sortLinks (Link.getLinks h.mRoot) L1,
          ∃ m, (Link.getLinks h.mRoot).get? q = some m ∧ m.mRigidBody = l.mRigidBody) := by
      rcases hr with hr | ⟨q, m, _, _, hqm, hb, L1, a, L2, hj, ha, a1, ha1, hn1⟩
      · have hmem := hsub _ (Link.getLinks_name_mem h.mRoot p l hp hl)
        rw [List.mem_map] at hmem
        obtain ⟨a, haj, han⟩ := hmem
        obtain ⟨L1, L2, hj⟩ := List.append_of_mem haj
        exact ⟨L1, a, L2, hj, han, Or.inl hr⟩
      · refine ⟨L1, a, L2, hj, ha, Or.inr ⟨q, ?_, m, by rw [List.get?_eq_getElem?]; exact hqm, hb⟩⟩
        rw [Hierarchy.mem_sortLinks]
        exact ⟨a1, ha1, by rw [hn1]; exact Hierarchy.findLink_of_get _ hnames q m hqm⟩
    obtain ⟨L1, a, L2, hj, ha, hb⟩ := hsplit
    refine ⟨Hierarchy.sortLinks (Link.getLinks h.mRoot) L1,
      Hierarchy.sortLinks (Link.getLinks h.mRoot) L2, l, ?_,
      by rw [List.get?_eq_getElem?]; exact hl, ?_⟩
    · rw [hj]
      exact Hierarchy.sortLinks_middle _ L1 L2 a p (by rw [ha]; exact hfind)
    · rw [(Hierarchy.loopScan_spec (Link.getLinks h.mRoot) _ [h.mRoot.mRigidBody]
        (Hierarchy.sortLinks_lt _ L1)).2.2.2]
      rcases hb with hb | hb
      · exact Or.inl (List.mem_singleton.mpr hb)
      · exact Or.inr hb

theorem Hierarchy.findLoopJoints_skeleton (h : Hierarchy) (joints : List JointRef) :
    Link.skeleton (h.findLoopJoints joints).mRoot = Link.skeleton h.mRoot ∧
      (h.findLoopJoints joints).mIndex = h.mIndex :=
  ⟨(Link.setLoopJoints_skeleton _).1 h.mRoot 0, rfl⟩

end HIERARCHY_BUILDER

namespace HIERARCHY_BUILDER

/-! ## Bodies of the final hierarchies -/

theorem HierarchyBuilderImpl.mem_nodeBodies_iff (b : HierarchyBuilderImpl) (x : String) :
    x ∈ b.nodeBodies ↔ ∃ h ∈ b.mHierarchies, x ∈ Link.bodies h.mRoot := by
  rw [HierarchyBuilderImpl.nodeBodies, List.mem_flatMap]
  rfl

/-- The bodies on the nodes of the final hierarchies are the bodies that are
an end of a registered joint. -/
theorem BuildResult.nodeBodies_endpoint {b : HierarchyBuilderImpl} {r : HierarchyBuilderImpl × Nat}
    {hs : List Hierarchy} (hr : BuildResult b r hs) (x : String) :
    x ∈ r.1.nodeBodies ↔ IsEndpoint b.mJoints x := by
  rw [HierarchyBuilderImpl.mem_nodeBodies_iff]
  constructor
  · rintro ⟨k, hk, hx⟩
    obtain ⟨h, hh, _, hb, _⟩ := hr.final_mem hk
    rw [hb] at hx
    exact (hr.inv.wellFormed h hh).endpoint x hx
  · rintro ⟨j, hj, hxj⟩
    obtain ⟨h, hh, _, h0, h1⟩ := hr.placed j hj
    refine ⟨h.findLoopJoints r.1.mJoints, ?_, ?_⟩
    · rw [hr.hierarchies]; exact List.mem_map_of_mem _ hh
    · rw [Hierarchy.findLoopJoints_bodies]
      rcases hxj with e | e
      · rw [e]; exact h0
      · rw [e]; exact h1

end HIERARCHY_BUILDER

namespace HIERARCHY_BUILDER

/-! ## Reported edges and the nodes below the root -/

/-- The joint name, child body and loop flag of the edges that
`showHierarchy` reports are those of the nodes below the root, in another
order. -/
theorem Link.showHierarchy_nodes :
    (∀ t : Link,
      ((Link.showHierarchy t).map fun e => (e.1, e.2.2.1, e.2.2.2)).Perm
        ((Link.getLinksChildren t.mChildren).map fun l =>
          (l.mJointName, l.mRigidBody, l.mIsLoopJoint))) ∧
    (∀ (cs : List Link) (b : String),
      ((Link.childEdges b cs ++ Link.showHierarchyChildren cs).map fun e =>
          (e.1, e.2.2.1, e.2.2.2)).Perm
        ((Link.getLinksChildren cs).map fun l =>
          (l.mJointName, l.mRigidBody, l.mIsLoopJoint))) := by
  apply Link.induct
  · intro f n b cs ih
    rw [Link.showHierarchy_mk]
    exact ih b
  · intro b
    simp [Link.childEdges_nil, Link.showHierarchyChildren_nil, Link.getLinksChildren_nil]
  · intro c cs ihc ihcs b
    have h2 := ihcs b
    rw [List.map_append] at h2
    cases c with
    | mk f n cb ccs =>
      rw [Link.showHierarchy_mk] at ihc
      simp only [Link.mChildren] at ihc
      simp only [Link.childEdges_cons, Link.showHierarchyChildren_cons, List.cons_append,
        List.map_cons, List.map_append, Link.getLinksChildren_cons, Link.getLinks_mk,
        Link.mIsLoopJoint, Link.mJointName, Link.mRigidBody, Link.showHierarchy_mk]
      refine List.Perm.cons _ ?_
      rw [List.map_append] at ihc
      refine List.Perm.trans ?_ (List.Perm.append ihc h2)
      rw [← List.append_assoc, ← List.append_assoc, ← List.append_assoc]
      refine List.Perm.append_right _ ?_
      rw [List.append_assoc, List.append_assoc]
      refine List.perm_append_comm.trans ?_
      rw [List.append_assoc]

/-- Every edge that `showHierarchy` reports is the edge of a node at a
position of the flat link array other than the root. -/
theorem Link.showHierarchy_position (t : Link) (e : String × String × String × Bool)
    (he : e ∈ Link.showHierarchy t) :
    ∃ p l, 0 < p ∧ (Link.getLinks t)[p]? = some l ∧ l.mJointName = e.1 ∧
      l.mRigidBody = e.2.2.1 ∧ l.mIsLoopJoint = e.2.2.2 := by
  have h1 : (e.1, e.2.2.1, e.2.2.2) ∈
      (Link.showHierarchy t).map fun e => (e.1, e.2.2.1, e.2.2.2) :=
    List.mem_map_of_mem _ he
  rw [(Link.showHierarchy_nodes.1 t).mem_iff, List.mem_map] at h1
  obtain ⟨l, hl, hle⟩ := h1
  obtain ⟨q, hq⟩ := List.mem_iff_getElem?.mp hl
  simp only [Prod.mk.injEq] at hle
  refine ⟨q + 1, l, Nat.succ_pos _, ?_, hle.1, hle.2.1, hle.2.2⟩
  rw [Link.getLinks_eq, List.getElem?_cons_succ]
  exact hq

/-- No link before the one that `findLink` finds has the name. -/
theorem Hierarchy.findLink_first (links : List Link) (name : String) (p : Nat)
    (h : Hierarchy.findLink links name = some p) (q : Nat) (l : Link) (hq : q < p)
    (hl : links[q]? = some l) : l.mJointName ≠ name := by
  rw [Hierarchy.findLink, List.findIdx?_eq_some_iff_getElem] at h
  obtain ⟨hp, _, hbefore⟩ := h
  have hq2 : q < links.length := by omega
  have := hbefore q hq
  rw [List.getElem?_eq_getElem hq2] at hl
  cases Option.some.inj hl
  simpa using this

theorem Hierarchy.loopScan_subset (links : List Link) :
    ∀ (sorted : List Nat) (seen : List String),
      ∀ p ∈ Hierarchy.loopScan links seen sorted, p ∈ sorted := by
  intro sorted seen p hp
  obtain ⟨S1, S2, _, hs, _⟩ := (Hierarchy.loopScan_mem links p sorted seen).mp hp
  rw [hs]
  exact List.mem_append_right _ (List.mem_cons_self _ _)

/-- The name of the link at a position is unchanged by `findLoopJoints`. -/
theorem Hierarchy.findLoopJoints_nameAt (h : Hierarchy) (joints : List JointRef) (p : Nat) :
    (Link.getLinks (h.findLoopJoints joints).mRoot)[p]?.map
        (fun l => (l.mJointName, l.mRigidBody)) =
      (Link.getLinks h.mRoot)[p]?.map (fun l => (l.mJointName, l.mRigidBody)) := by
  rw [← List.getElem?_map, ← List.getElem?_map]
  exact congrArg (fun l => l[p]?) ((Link.setLoopJoints_getLinks _).1 h.mRoot 0)

/-- In a tree whose root has the empty joint name and in which no loop flag
is set, `findLoopJoints` never flags a link below the root that has the empty
joint name: the search by name stops at the root. -/
theorem Hierarchy.findLoopJoints_empty_name (h : Hierarchy) (joints : List JointRef)
    (hroot : h.mRoot.mJointName = "") (hflags : ∀ f ∈ Link.loopFlags h.mRoot, f = false)
    (e : String × String × String × Bool)
    (he : e ∈ Link.showHierarchy (h.findLoopJoints joints).mRoot) (hn : e.1 = "") :
    e.2.2.2 = false := by
  obtain ⟨p, l, hp, hl, hln, _, hlf⟩ := Link.showHierarchy_position _ e he
  have hlt : p < (Link.getLinks h.mRoot).length := by
    have := (List.getElem?_eq_some.mp hl).1
    rw [Hierarchy.findLoopJoints, Link.setLoopJoints_length] at this
    exact this
  have hflag := Hierarchy.findLoopJoints_flagAt h joints hflags p hlt
  have hname := Hierarchy.findLoopJoints_nameAt h joints p
  rw [hl] at hflag hname
  simp only [Option.map_some', Option.some.injEq] at hflag
  rw [← hlf, hflag, decide_eq_false_iff_not]
  intro hm
  have hs := Hierarchy.loopScan_subset _ _ _ p hm
  obtain ⟨a, _, ha⟩ := (Hierarchy.mem_sortLinks _ _ _).mp hs
  obtain ⟨_, han⟩ := Hierarchy.findLink_some _ _ _ ha
  rw [List.getElem?_eq_getElem hlt] at hname
  simp only [Option.map_some', Option.some.injEq, Prod.mk.injEq] at hname
  have hroot2 := Hierarchy.findLink_first _ _ _ ha 0 h.mRoot hp (Link.getLinks_zero h.mRoot)
  apply hroot2
  rw [hroot, ← han, ← hname.1, hln, hn]

end HIERARCHY_BUILDER

namespace HIERARCHY_BUILDER

/-! ## A second `build` -/

theorem HierarchyBuilderImpl.check_mRigidBodies (b : HierarchyBuilderImpl) :
    b.checkForDisconnectedRigidBodies.mRigidBodies =
      b.mRigidBodies.map fun j =>
        { j with mUsed := b.mJoints.any fun i => i.refersTo j.mName } := by
  simp only [HierarchyBuilderImpl.checkForDisconnectedRigidBodies,
    HierarchyBuilderImpl.markUsed_foldl, List.map_map]
  refine List.map_congr_left fun j _ => ?_
  simp

theorem HierarchyBuilderImpl.check_def (b : HierarchyBuilderImpl) :
    b.checkForDisconnectedRigidBodies =
      { b with
        mRigidBodies := b.checkForDisconnectedRigidBodies.mRigidBodies
        mDisconnectedRigidBodies :=
          (b.checkForDisconnectedRigidBodies.mRigidBodies.filter fun i => !i.mUsed).map
            fun i => i.mName } := rfl

theorem JointRef.refersTo_unmark (js ks : List JointRef)
    (h : js.map JointRef.unmark = ks.map JointRef.unmark) (x : String) :
    (js.any fun i => i.refersTo x) = ks.any fun i => i.refersTo x := by
  have e : ∀ l : List JointRef,
      (l.any fun i => i.refersTo x) = (l.map JointRef.unmark).any fun i => i.refersTo x := by
    intro l
    rw [List.any_map]
    rfl
  rw [e js, e ks, h]

/-- On a builder that has the body list and the disconnected list of an
earlier `checkForDisconnectedRigidBodies` and the same joints up to their
flags, the method changes nothing. -/
theorem HierarchyBuilderImpl.check_again (b c : HierarchyBuilderImpl)
    (hR : c.mRigidBodies = b.checkForDisconnectedRigidBodies.mRigidBodies)
    (hD : c.mDisconnectedRigidBodies =
      b.checkForDisconnectedRigidBodies.mDisconnectedRigidBodies)
    (hJ : c.mJoints.map JointRef.unmark = b.mJoints.map JointRef.unmark) :
    c.checkForDisconnectedRigidBodies = c := by
  have h1 : c.checkForDisconnectedRigidBodies.mRigidBodies = c.mRigidBodies := by
    rw [HierarchyBuilderImpl.check_mRigidBodies, hR, HierarchyBuilderImpl.check_mRigidBodies,
      List.map_map]
    refine List.map_congr_left fun j _ => ?_
    simp only [Function.comp_def]
    rw [JointRef.refersTo_unmark c.mJoints b.mJoints hJ]
  rw [HierarchyBuilderImpl.check_def c, h1]
  have h2 : ((c.mRigidBodies.filter fun i => !i.mUsed).map fun i => i.mName) =
      c.mDisconnectedRigidBodies := by
    rw [hD, hR]
    rfl
  rw [h2]

theorem HierarchyBuilderImpl.findFirstUnusedJoint_of_used (b : HierarchyBuilderImpl)
    (h : ∀ i ∈ b.mJoints, i.mUsed = true) : b.findFirstUnusedJoint = none := by
  rw [HierarchyBuilderImpl.findFirstUnusedJoint, List.findIdx?_eq_none_iff]
  intro i hi
  simp [h i hi]

theorem HierarchyBuilderImpl.consumeJoints_of_used (fuel : Nat) (b : HierarchyBuilderImpl)
    (h : ∀ i ∈ b.mJoints, i.mUsed = true) :
    HierarchyBuilderImpl.consumeJoints (fuel + 1) b = some b := by
  rw [HierarchyBuilderImpl.consumeJoints_succ,
    HierarchyBuilderImpl.findFirstUnusedJoint_of_used b h]

/-- Two hierarchies without a common body do not merge. -/
theorem Hierarchy.merge_of_disjoint (self other : Hierarchy)
    (hd : Hierarchy.Disjoint self other) :
    ∃ s, self.merge other = some s ∧ s.ret = false ∧ s.self = self := by
  obtain ⟨s, hs, hr⟩ := Hierarchy.merge_idle self other fun e he => by
    right
    rw [(Link.add_eq_none e).1 self.mRoot]
    have hb := Link.getJointRef_bodies.1 other.mRoot e he
    exact ⟨fun h0 => hd _ h0 hb.1, fun h1 => hd _ h1 hb.2⟩
  obtain ⟨s1, h1, _, _, _, h2, _⟩ := Hierarchy.merge_spec self other
  rw [hs] at h1
  cases Option.some.inj h1
  exact ⟨s, hs, hr, (h2 hr).1⟩

theorem HierarchyBuilderImpl.mergeInto_idle (source : Hierarchy) :
    ∀ rest : List (Option Hierarchy),
      (∀ dest ∈ liveSlots rest, Hierarchy.Disjoint source dest) →
      HierarchyBuilderImpl.mergeInto source rest = some (source, rest, 0) := by
  intro rest
  induction rest with
  | nil => intro _; exact HierarchyBuilderImpl.mergeInto_nil source
  | cons a rest ih =>
    intro hd
    cases a with
    | none =>
      rw [liveSlots_none] at hd
      rw [HierarchyBuilderImpl.mergeInto_none, ih hd]
      rfl
    | some dest =>
      rw [liveSlots_some] at hd
      obtain ⟨s, hs, hr, hself⟩ :=
        Hierarchy.merge_of_disjoint source dest (hd dest (List.mem_cons_self _ _))
      rw [HierarchyBuilderImpl.mergeInto_refused source dest rest s hs hr, hself,
        ih fun d hdm => hd d (List.mem_cons_of_mem _ hdm)]
      rfl

theorem HierarchyBuilderImpl.mergeSweep_idle :
    ∀ (fuel : Nat) (slots : List (Option Hierarchy)), slots.length ≤ fuel →
      (liveSlots slots).Pairwise Hierarchy.Disjoint →
      HierarchyBuilderImpl.mergeSweep fuel slots = some (slots, 0) := by
  intro fuel
  induction fuel with
  | zero =>
    intro slots hl _
    have : slots = [] := List.length_eq_zero.mp (by omega)
    subst this
    exact HierarchyBuilderImpl.mergeSweep_nil 0
  | succ fuel ih =>
    intro slots hl hp
    cases slots with
    | nil => exact HierarchyBuilderImpl.mergeSweep_nil _
    | cons a rest =>
      rw [List.length_cons] at hl
      cases a with
      | none =>
        rw [liveSlots_none] at hp
        rw [HierarchyBuilderImpl.mergeSweep_none, ih rest (by omega) hp]
        rfl
      | some source =>
        rw [liveSlots_some, List.pairwise_cons] at hp
        rw [HierarchyBuilderImpl.mergeSweep_quiet fuel source source rest rest
          (HierarchyBuilderImpl.mergeInto_idle source rest hp.1), ih rest (by omega) hp.2]
        rfl

/-- The merge pass of `build` changes nothing in a list of hierarchies that
pairwise have no common body. -/
theorem HierarchyBuilderImpl.mergeHierarchies_idle (hs : List Hierarchy)
    (hp : hs.Pairwise Hierarchy.Disjoint) :
    HierarchyBuilderImpl.mergeHierarchies hs = some hs := by
  rw [HierarchyBuilderImpl.mergeHierarchies]
  by_cases hl : hs.length > 1
  · rw [if_pos hl, HierarchyBuilderImpl.mergePasses_succ,
      HierarchyBuilderImpl.mergeSweep_idle _ (hs.map some) (le_refl _)
        (by rw [liveSlots_map_some]; exact hp)]
    simp only [ne_eq, not_true_eq_false, if_false]
    exact congrArg some (liveSlots_map_some hs)
  · rw [if_neg hl]

end HIERARCHY_BUILDER

namespace HIERARCHY_BUILDER

/-! ## `findLoopJoints` on a tree that has its flags already -/

theorem Hierarchy.findLink_congr (links links1 : List Link)
    (h : links.map Link.mJointName = links1.map Link.mJointName) (name : String) :
    Hierarchy.findLink links name = Hierarchy.findLink links1 name := by
  have e : ∀ l : List Link, Hierarchy.findLink l name =
      (l.map Link.mJointName).findIdx? fun s => decide (s = name) := by
    intro l
    rw [List.findIdx?_map]
    rfl
  rw [e links, e links1, h]

theorem Hierarchy.sortLinks_congr (links links1 : List Link)
    (h : links.map Link.mJointName = links1.map Link.mJointName) (joints : List JointRef) :
    Hierarchy.sortLinks links joints = Hierarchy.sortLinks links1 joints := by
  rw [Hierarchy.sortLinks, Hierarchy.sortLinks]
  refine List.filterMap_congr fun i _ => ?_
  exact Hierarchy.findLink_congr links links1 h _

theorem Hierarchy.loopScan_congr (links links1 : List Link)
    (h : links.map Link.mRigidBody = links1.map Link.mRigidBody) :
    ∀ (sorted : List Nat) (seen : List String),
      Hierarchy.loopScan links seen sorted = Hierarchy.loopScan links1 seen sorted := by
  have hg : ∀ i, (links.get? i).map Link.mRigidBody = (links1.get? i).map Link.mRigidBody := by
    intro i
    rw [List.get?_eq_getElem?, List.get?_eq_getElem?, ← List.getElem?_map, ← List.getElem?_map, h]
  intro sorted
  induction sorted with
  | nil => intro seen; rw [Hierarchy.loopScan_nil, Hierarchy.loopScan_nil]
  | cons i rest ih =>
    intro seen
    have hi := hg i
    cases hl : links.get? i with
    | none =>
      cases hl1 : links1.get? i with
      | none =>
        rw [(Hierarchy.loopScan_skip links seen i rest hl).1,
          (Hierarchy.loopScan_skip links1 seen i rest hl1).1, ih]
      | some l1 => rw [hl, hl1] at hi; cases hi
    | some l =>
      cases hl1 : links1.get? i with
      | none => rw [hl, hl1] at hi; cases hi
      | some l1 =>
        rw [hl, hl1] at hi
        have hb : l.mRigidBody = l1.mRigidBody := Option.some.inj hi
        by_cases hs : l.mRigidBody ∈ seen
        · rw [(Hierarchy.loopScan_old links seen i rest l hl hs).1,
            (Hierarchy.loopScan_old links1 seen i rest l1 hl1 (hb ▸ hs)).1, ih]
        · rw [(Hierarchy.loopScan_new links seen i rest l hl hs).1,
            (Hierarchy.loopScan_new links1 seen i rest l1 hl1 (hb ▸ hs)).1, ih, hb]

theorem Link.setLoopJoints_twice (marked : List Nat) :
    (∀ (t : Link) (k : Nat),
      Link.setLoopJoints marked (Link.setLoopJoints marked t k) k =
        Link.setLoopJoints marked t k) ∧
    (∀ (cs : List Link) (k : Nat),
      Link.setLoopJointsChildren marked (Link.setLoopJointsChildren marked cs k) k =
        Link.setLoopJointsChildren marked cs k) := by
  apply Link.induct
  · intro f n b cs ih k
    rw [Link.setLoopJoints_mk, Link.setLoopJoints_mk, ih]
    by_cases hk : k ∈ marked <;> simp [hk]
  · intro k
    rw [Link.setLoopJointsChildren_nil, Link.setLoopJointsChildren_nil]
  · intro c cs ihc ihcs k
    rw [Link.setLoopJointsChildren_cons, Link.setLoopJointsChildren_cons, ihc,
      Link.setLoopJoints_length, ihcs]

/-- A second `findLoopJoints` with the same joint list changes nothing. -/
theorem Hierarchy.findLoopJoints_twice (h : Hierarchy) (joints : List JointRef) :
    (h.findLoopJoints joints).findLoopJoints joints = h.findLoopJoints joints := by
  have hg := (Link.setLoopJoints_getLinks
    (Hierarchy.loopScan (Link.getLinks h.mRoot) [h.mRoot.mRigidBody]
      (Hierarchy.sortLinks (Link.getLinks h.mRoot) joints))).1 h.mRoot 0
  have hn : (Link.getLinks (h.findLoopJoints joints).mRoot).map Link.mJointName =
      (Link.getLinks h.mRoot).map Link.mJointName := by
    have := congrArg (List.map Prod.fst) hg
    simpa [List.map_map, Function.comp_def] using this
  have hb : (Link.getLinks (h.findLoopJoints joints).mRoot).map Link.mRigidBody =
      (Link.getLinks h.mRoot).map Link.mRigidBody := by
    have := congrArg (List.map Prod.snd) hg
    simpa [List.map_map, Function.comp_def] using this
  have hr : (h.findLoopJoints joints).mRoot.mRigidBody = h.mRoot.mRigidBody :=
    Link.setLoopJoints_mRigidBody _ _ _
  conv_lhs => rw [Hierarchy.findLoopJoints]
  simp only [Hierarchy.sortLinks_congr _ _ hn, Hierarchy.loopScan_congr _ _ hb, hr]
  conv_rhs => rw [Hierarchy.findLoopJoints]
  conv_lhs => rw [Hierarchy.findLoopJoints]
  simp only [(Link.setLoopJoints_twice _).1]

/-- A second `build` directly after the first changes nothing and returns
the same count, for a first `build` that has left pairwise disjoint
hierarchies. -/
theorem HierarchyBuilderImpl.build_again (b : HierarchyBuilderImpl)
    (r : HierarchyBuilderImpl × Nat) (hs : List Hierarchy) (hb : b.build = some r)
    (hh : r.1.mHierarchies = hs.map fun i => i.findLoopJoints r.1.mJoints)
    (hd : r.1.mHierarchies.Pairwise Hierarchy.Disjoint) : r.1.build = some r := by
  obtain ⟨r1, h1, h2, h3, h4, h5, h6⟩ := HierarchyBuilderImpl.build_total b
  rw [hb] at h1
  cases Option.some.inj h1
  have hc : r.1.checkForDisconnectedRigidBodies = r.1 :=
    HierarchyBuilderImpl.check_again b r.1 h3 h2 h4
  have hcons : HierarchyBuilderImpl.consumeJoints
      (r.1.checkForDisconnectedRigidBodies.mJoints.length + 1)
      r.1.checkForDisconnectedRigidBodies = some r.1 := by
    rw [hc]
    exact HierarchyBuilderImpl.consumeJoints_of_used _ r.1 h5
  rw [HierarchyBuilderImpl.build_eq r.1 r.1 r.1.mHierarchies hcons
    (HierarchyBuilderImpl.mergeHierarchies_idle _ hd)]
  have hmap : (r.1.mHierarchies.map fun i => i.findLoopJoints r.1.mJoints) =
      r.1.mHierarchies := by
    conv_rhs => rw [hh]
    conv_lhs => rw [hh]
    rw [List.map_map]
    exact List.map_congr_left fun i _ => Hierarchy.findLoopJoints_twice i _
  rw [hmap, ← h6]

end HIERARCHY_BUILDER

namespace HIERARCHY_BUILDER

/-! ## Paths in a forest -/

theorem Connected.of_nil {x y : String} (h : Connected [] x y) : x = y := by
  induction h with
  | refl => rfl
  | tail _ hbc _ =>
    obtain ⟨j, hj, _⟩ := hbc
    cases hj

/-- A path that may use the joint `j` either does not need it, or leads to
one body of `j` and from the other body on without it. -/
theorem Connected.split_joint {G : List JointRef} {j : JointRef} {x y : String}
    (h : Connected (j :: G) x y) :
    Connected G x y ∨ (Connected G x j.mBody0 ∧ Connected G j.mBody1 y) ∨
      (Connected G x j.mBody1 ∧ Connected G j.mBody0 y) := by
  induction h with
  | refl => exact Or.inl (Connected.connected_refl _ _)
  | @tail z y _ hbc ih =>
    obtain ⟨e, he, hzy⟩ := hbc
    rw [List.mem_cons] at he
    rcases he with he | he
    · subst he
      rcases hzy with ⟨h0, h1⟩ | ⟨h0, h1⟩
      · subst h0; subst h1
        rcases ih with ih | ⟨ih, _⟩ | ⟨ih, _⟩
        · exact Or.inr (Or.inl ⟨ih, Connected.connected_refl _ _⟩)
        · exact Or.inr (Or.inl ⟨ih, Connected.connected_refl _ _⟩)
        · exact Or.inl ih
      · subst h0; subst h1
        rcases ih with ih | ⟨ih, _⟩ | ⟨ih, _⟩
        · exact Or.inr (Or.inr ⟨ih, Connected.connected_refl _ _⟩)
        · exact Or.inl ih
        · exact Or.inr (Or.inr ⟨ih, Connected.connected_refl _ _⟩)
    · have hstep : Connected G z y := Relation.ReflTransGen.single ⟨e, he, hzy⟩
      rcases ih with ih | ⟨ih1, ih2⟩ | ⟨ih1, ih2⟩
      · exact Or.inl (ih.connected_trans hstep)
      · exact Or.inr (Or.inl ⟨ih1, ih2.connected_trans hstep⟩)
      · exact Or.inr (Or.inr ⟨ih1, ih2.connected_trans hstep⟩)

/-- In a forest two bodies that are connected by each of two sets of joints
without a common joint are the same body. -/
theorem Acyclic.unique {joints : List JointRef} (hf : Acyclic joints) :
    ∀ G1 G2 : List JointRef, (G1 ++ G2).Nodup → (∀ g ∈ G1 ++ G2, g ∈ joints) →
      ∀ x y, Connected G1 x y → Connected G2 x y → x = y := by
  intro G1
  induction G1 with
  | nil => intro G2 _ _ x y h1 _; exact h1.of_nil
  | cons j G1 ih =>
    intro G2 hn hsub x y h1 h2
    rw [List.cons_append, List.nodup_cons] at hn
    have hsub2 : ∀ g ∈ G1 ++ G2, g ∈ joints := fun g hg => hsub g (List.mem_cons_of_mem _ hg)
    have hj : j ∈ joints := hsub j (List.mem_cons_self _ _)
    have herase : ∀ g ∈ G1 ++ G2, g ∈ joints.erase j := by
      intro g hg
      have hne : g ≠ j := fun e => hn.1 (e ▸ hg)
      exact (List.mem_erase_of_ne hne).mpr (hsub2 g hg)
    have hl : ∀ {a b}, Connected G1 a b → Connected (joints.erase j) a b := fun h =>
      h.connected_mono fun g hg => herase g (List.mem_append_left _ hg)
    have hr : ∀ {a b}, Connected G2 a b → Connected (joints.erase j) a b := fun h =>
      h.connected_mono fun g hg => herase g (List.mem_append_right _ hg)
    rcases h1.split_joint with h | ⟨ha, hb⟩ | ⟨ha, hb⟩
    · exact ih G2 hn.2 hsub2 x y h h2
    · exact absurd (((hl ha).connected_symm.connected_trans (hr h2)).connected_trans
        (hl hb).connected_symm) (hf j hj)
    · exact absurd (((hl hb).connected_trans (hr h2).connected_symm).connected_trans (hl ha))
        (hf j hj)

theorem Acyclic.ne {joints : List JointRef} (hf : Acyclic joints) {j : JointRef}
    (hj : j ∈ joints) : j.mBody0 ≠ j.mBody1 := by
  intro e
  apply hf j hj
  rw [e]
  exact Connected.connected_refl _ _

end HIERARCHY_BUILDER

namespace HIERARCHY_BUILDER

/-! ## Trees without a body on two nodes -/

/-- A successful `add` puts one body of the joint on a new node where the
other body labels a node already. -/
theorem Link.add_bodies_perm (j : JointRef) :
    (∀ t t1, Link.add t j = some t1 →
      (j.mBody0 ∈ Link.bodies t ∧ (Link.bodies t1).Perm (j.mBody1 :: Link.bodies t)) ∨
        (j.mBody1 ∈ Link.bodies t ∧ (Link.bodies t1).Perm (j.mBody0 :: Link.bodies t))) ∧
    (∀ cs cs1, Link.addChildren cs j = some cs1 →
      (j.mBody0 ∈ Link.bodiesChildren cs ∧
          (Link.bodiesChildren cs1).Perm (j.mBody1 :: Link.bodiesChildren cs)) ∨
        (j.mBody1 ∈ Link.bodiesChildren cs ∧
          (Link.bodiesChildren cs1).Perm (j.mBody0 :: Link.bodiesChildren cs))) := by
  apply Link.add_cases j
  · intro f n b cs e0
    subst e0
    refine Or.inl ⟨by rw [Link.bodies_mk]; exact List.mem_cons_self _ _, ?_⟩
    simp only [Link.bodies_mk, Link.bodiesChildren_append, Link.bodiesChildren_cons,
      Link.bodies_fresh, Link.bodiesChildren_nil, List.append_nil]
    refine (List.Perm.cons _ ?_).trans (List.Perm.swap _ _ _)
    exact List.perm_append_comm
  · intro f n b cs _ e1
    subst e1
    refine Or.inr ⟨by rw [Link.bodies_mk]; exact List.mem_cons_self _ _, ?_⟩
    simp only [Link.bodies_mk, Link.bodiesChildren_cons, Link.bodies_fresh,
      Link.bodiesChildren_nil, List.append_nil]
    exact List.Perm.refl _
  · intro f n b cs cs1 _ _ _ ih
    simp only [Link.bodies_mk]
    rcases ih with ⟨h, hp⟩ | ⟨h, hp⟩
    · exact Or.inl ⟨List.mem_cons_of_mem _ h, (List.Perm.cons _ hp).trans (List.Perm.swap _ _ _)⟩
    · exact Or.inr ⟨List.mem_cons_of_mem _ h, (List.Perm.cons _ hp).trans (List.Perm.swap _ _ _)⟩
  · intro c c1 cs _ ih
    simp only [Link.bodiesChildren_cons]
    rcases ih with ⟨h, hp⟩ | ⟨h, hp⟩
    · exact Or.inl ⟨List.mem_append_left _ h, List.Perm.append_right _ hp⟩
    · exact Or.inr ⟨List.mem_append_left _ h, List.Perm.append_right _ hp⟩
  · intro c cs cs1 _ _ ih
    simp only [Link.bodiesChildren_cons]
    rcases ih with ⟨h, hp⟩ | ⟨h, hp⟩
    · exact Or.inl ⟨List.mem_append_right _ h,
        (List.Perm.append_left _ hp).trans List.perm_middle⟩
    · exact Or.inr ⟨List.mem_append_right _ h,
        (List.Perm.append_left _ hp).trans List.perm_middle⟩

theorem Link.mem_jointsOf (joints : List JointRef) (t : Link) (g : JointRef) :
    g ∈ Link.jointsOf joints t ↔ g ∈ joints ∧ g.mName ∈ Link.jointNames t := by
  rw [Link.jointsOf, List.mem_filter, decide_eq_true_eq]

/-- Adding a joint of a forest that is not yet in the tree keeps the tree
free of a body on two nodes. -/
theorem Link.Simple.simple_add {joints : List JointRef} (hf : Acyclic joints) {t t1 : Link}
    {j : JointRef} (hj : j ∈ joints) (hn : j.mName ∉ Link.jointNames t)
    (hs : Link.Simple joints t) (ha : Link.add t j = some t1) : Link.Simple joints t1 := by
  have hnames := ((Link.add_jointNames j).1 t t1 ha).2
  have hbod := (Link.add_bodies j).1 t t1 ha
  have hmono : ∀ g ∈ Link.jointsOf joints t, g ∈ Link.jointsOf joints t1 := by
    intro g hg
    rw [Link.mem_jointsOf] at hg ⊢
    exact ⟨hg.1, hnames.mem_iff.mpr (List.mem_cons_of_mem _ hg.2)⟩
  have hj1 : j ∈ Link.jointsOf joints t1 := by
    rw [Link.mem_jointsOf]
    exact ⟨hj, hnames.mem_iff.mpr (List.mem_cons_self _ _)⟩
  have hnot : ¬ (j.mBody0 ∈ Link.bodies t ∧ j.mBody1 ∈ Link.bodies t) := by
    rintro ⟨h0, h1⟩
    apply hf j hj
    refine (hs.linked _ h0 _ h1).connected_mono fun g hg => ?_
    rw [Link.mem_jointsOf] at hg
    have hne : g ≠ j := fun e => hn (e ▸ hg.2)
    exact (List.mem_erase_of_ne hne).mpr hg.1
  have h01 : Connected (Link.jointsOf joints t1) j.mBody0 j.mBody1 := Connected.of_joint hj1
  -- every body of the new tree is connected to a body `a` of the old tree
  have hkey : ∀ a ∈ Link.bodies t, (a = j.mBody0 ∨ a = j.mBody1) →
      ∀ x ∈ Link.bodies t1, Connected (Link.jointsOf joints t1) x a := by
    intro a ha2 hab x hx
    rcases (hbod x).mp hx with h | h | h
    · exact (hs.linked x h a ha2).connected_mono hmono
    · rcases hab with e | e
      · rw [h, e]; exact Connected.connected_refl _ _
      · rw [h, e]; exact h01
    · rcases hab with e | e
      · rw [h, e]; exact h01.connected_symm
      · rw [h, e]; exact Connected.connected_refl _ _
  rcases (Link.add_bodies_perm j).1 t t1 ha with ⟨h0, hp⟩ | ⟨h1, hp⟩
  · refine ⟨hp.nodup_iff.mpr (List.nodup_cons.mpr ⟨fun h1 => hnot ⟨h0, h1⟩, hs.nodup⟩),
      fun x hx y hy => ?_⟩
    exact (hkey _ h0 (Or.inl rfl) x hx).connected_trans
      (hkey _ h0 (Or.inl rfl) y hy).connected_symm
  · refine ⟨hp.nodup_iff.mpr (List.nodup_cons.mpr ⟨fun h0 => hnot ⟨h0, h1⟩, hs.nodup⟩),
      fun x hx y hy => ?_⟩
    exact (hkey _ h1 (Or.inr rfl) x hx).connected_trans
      (hkey _ h1 (Or.inr rfl) y hy).connected_symm

/-- The tree of a new hierarchy for a joint of a forest. -/
theorem Hierarchy.new_simple {joints : List JointRef} (hf : Acyclic joints) {j : JointRef}
    (hj : j ∈ joints) (k : JointRef) (hn : k.mName = j.mName) (h0 : k.mBody0 = j.mBody0)
    (h1 : k.mBody1 = j.mBody1) (index : Nat) :
    Link.Simple joints (Hierarchy.new k index).mRoot := by
  have hj1 : j ∈ Link.jointsOf joints (Hierarchy.new k index).mRoot := by
    rw [Link.mem_jointsOf, Hierarchy.new_jointNames, hn]
    exact ⟨hj, List.mem_cons_self _ _⟩
  have h01 : Connected (Link.jointsOf joints (Hierarchy.new k index).mRoot)
      j.mBody0 j.mBody1 := Connected.of_joint hj1
  refine ⟨?_, fun x hx y hy => ?_⟩
  · rw [Hierarchy.new_bodies, h0, h1]
    simp only [List.nodup_cons, List.mem_singleton, List.not_mem_nil, not_false_eq_true,
      List.nodup_nil, and_true]
    exact hf.ne hj
  · rw [Hierarchy.new_bodies, h0, h1] at hx hy
    simp only [List.mem_cons, List.not_mem_nil, or_false] at hx hy
    rcases hx with hx | hx <;> rcases hy with hy | hy <;> subst hx <;> subst hy
    · exact Connected.connected_refl _ _
    · exact h01
    · exact h01.connected_symm
    · exact Connected.connected_refl _ _

end HIERARCHY_BUILDER

namespace HIERARCHY_BUILDER

/-! ## Merging two trees of a forest -/

/-- The bodies after adding a list of joints: one new node for each joint,
labelled by a body of one of the joints. -/
theorem Link.addAll_bodies_perm (js : List JointRef) (t t2 : Link)
    (h : Link.addAll t js = some t2) :
    ∃ news : List String, (Link.bodies t2).Perm (news ++ Link.bodies t) ∧
      news.length = js.length ∧ ∀ x ∈ news, ∃ e ∈ js, x = e.mBody0 ∨ x = e.mBody1 := by
  refine Link.addAll_induct
    (P := fun t js t2 => ∃ news : List String, (Link.bodies t2).Perm (news ++ Link.bodies t) ∧
      news.length = js.length ∧ ∀ x ∈ news, ∃ e ∈ js, x = e.mBody0 ∨ x = e.mBody1)
    ?_ ?_ js t t2 h
  · intro t
    exact ⟨[], List.Perm.refl _, rfl, fun x hx => (List.not_mem_nil x hx).elim⟩
  · intro t j t1 js t2 ha _ ih
    obtain ⟨news, hp, hl, hm⟩ := ih
    have hstep : ∃ new, (Link.bodies t1).Perm (new :: Link.bodies t) ∧
        (new = j.mBody0 ∨ new = j.mBody1) := by
      rcases (Link.add_bodies_perm j).1 t t1 ha with ⟨_, h1⟩ | ⟨_, h1⟩
      · exact ⟨_, h1, Or.inr rfl⟩
      · exact ⟨_, h1, Or.inl rfl⟩
    obtain ⟨new, hp1, hnew⟩ := hstep
    refine ⟨news ++ [new], ?_, by simp [hl], fun x hx => ?_⟩
    · refine hp.trans ((List.Perm.append_left _ hp1).trans ?_)
      rw [List.append_assoc]
      rfl
    · rw [List.mem_append, List.mem_singleton] at hx
      rcases hx with hx | hx
      · obtain ⟨e, he, hxe⟩ := hm x hx
        exact ⟨e, List.mem_cons_of_mem _ he, hxe⟩
      · exact ⟨j, List.mem_cons_self _ _, hx ▸ hnew⟩

theorem length_le_one_of_eq {l : List String} (hn : l.Nodup)
    (h : ∀ x ∈ l, ∀ y ∈ l, x = y) : l.length ≤ 1 := by
  match l, hn, h with
  | [], _, _ => simp
  | [_], _, _ => simp
  | a :: b :: _, hn, h =>
    have e : a = b := h a (List.mem_cons_self _ _) b
      (List.mem_cons_of_mem _ (List.mem_cons_self _ _))
    rw [List.nodup_cons] at hn
    exact (hn.1 (e ▸ List.mem_cons_self _ _)).elim

/-- When the lists `A` and `B` have no entry twice and at most one common
entry, and `news` is one shorter than `B` and holds, with `A`, every entry
of `B`: then `news` with `A` has no entry twice, and `A` and `B` have a
common entry. -/
theorem nodup_of_cover (A B news : List String) (hA : A.Nodup) (hB : B.Nodup)
    (hone : ∀ x ∈ B, x ∈ A → ∀ y ∈ B, y ∈ A → x = y)
    (hlen : news.length + 1 = B.length) (hcov : ∀ x ∈ B, x ∈ news ∨ x ∈ A) :
    (news ++ A).Nodup ∧ ∃ z ∈ B, z ∈ A := by
  have hperm := List.filter_append_perm (fun x => decide (x ∈ A)) B
  have hl := hperm.length_eq
  rw [List.length_append] at hl
  have hin : (B.filter fun x => decide (x ∈ A)).length ≤ 1 := by
    refine length_le_one_of_eq (hB.filter _) fun x hx y hy => ?_
    rw [List.mem_filter, decide_eq_true_eq] at hx hy
    exact hone x hx.1 hx.2 y hy.1 hy.2
  have hsub : (B.filter fun x => !decide (x ∈ A)) ⊆ news := by
    intro x hx
    rw [List.mem_filter] at hx
    have hxa : x ∉ A := by simpa using hx.2
    rcases hcov x hx.1 with h | h
    · exact h
    · exact (hxa h).elim
  have hsp := List.subperm_of_subset (hB.filter fun x => !decide (x ∈ A)) hsub
  have hp2 := hsp.perm_of_length_le (by omega)
  have hnews : news.Nodup := hp2.nodup_iff.mp (hB.filter _)
  have hout : ∀ x ∈ news, x ∉ A := by
    intro x hx
    have := hp2.mem_iff.mpr hx
    rw [List.mem_filter] at this
    simpa using this.2
  refine ⟨List.nodup_append.mpr ⟨hnews, hA, fun x hx hxa => hout x hx hxa⟩, ?_⟩
  have hlen2 := hp2.length_eq
  have hpos : 0 < (B.filter fun x => decide (x ∈ A)).length := by omega
  obtain ⟨z, hz⟩ := List.exists_mem_of_length_pos hpos
  rw [List.mem_filter, decide_eq_true_eq] at hz
  exact ⟨z, hz.1, hz.2⟩

theorem Link.bodies_length (t : Link) :
    (Link.bodies t).length = (Link.jointNames t).length + 1 := by
  rw [Link.bodies, List.length_map, Link.getLinks_eq, List.length_cons, Link.jointNames,
    List.length_map]

/-- A successful merge of two trees of a forest that have no body on two
nodes and no common joint name gives a tree with no body on two nodes. -/
theorem Hierarchy.merge_simple {joints : List JointRef} (hf : Acyclic joints)
    (hJ : joints.Nodup) (self other : Hierarchy) (s : MergeState)
    (hs : Link.Simple joints self.mRoot) (ho : Link.Simple joints other.mRoot)
    (hn : (Link.jointNames self.mRoot ++ Link.jointNames other.mRoot).Nodup)
    (hm : self.merge other = some s) (hret : s.ret = true) :
    Link.Simple joints s.self.mRoot := by
  obtain ⟨s1, h1, _, _, _, _, ⟨es, hes, hes2⟩, h7, h8⟩ := Hierarchy.merge_spec self other
  rw [hm] at h1
  cases Option.some.inj h1
  have hnames := h8 hn hret
  have hinside := (h7 hret).2
  obtain ⟨news, hp, hl, hnew⟩ := Link.addAll_bodies_perm es _ _ hes
  have hesn := (Link.addAll_jointNames es _ _ hes).2
  -- the number of added joints is the number of edges of the other tree
  have hcount : news.length + 1 = (Link.bodies other.mRoot).length := by
    have e1 := hnames.length_eq
    have e2 := hesn.length_eq
    rw [List.length_append] at e1 e2
    rw [List.length_map] at e2
    rw [Link.bodies_length, hl]
    omega
  have hnewB : ∀ x ∈ news, x ∈ Link.bodies other.mRoot := by
    intro x hx
    obtain ⟨e, he, hxe⟩ := hnew x hx
    have := Link.getJointRef_bodies.1 other.mRoot e (hes2 e he)
    rcases hxe with h | h
    · rw [h]; exact this.1
    · rw [h]; exact this.2
  -- the joints of both trees, without a common joint
  have hnd : (Link.jointsOf joints self.mRoot ++ Link.jointsOf joints other.mRoot).Nodup := by
    refine List.nodup_append.mpr ⟨hJ.filter _, hJ.filter _, fun g h1 h2 => ?_⟩
    rw [Link.mem_jointsOf] at h1 h2
    exact (List.nodup_append.mp hn).2.2 h1.2 h2.2
  have hsubJ : ∀ g ∈ Link.jointsOf joints self.mRoot ++ Link.jointsOf joints other.mRoot,
      g ∈ joints := by
    intro g hg
    rw [List.mem_append, Link.mem_jointsOf, Link.mem_jointsOf] at hg
    rcases hg with hg | hg
    · exact hg.1
    · exact hg.1
  have hone : ∀ x ∈ Link.bodies other.mRoot, x ∈ Link.bodies self.mRoot →
      ∀ y ∈ Link.bodies other.mRoot, y ∈ Link.bodies self.mRoot → x = y :=
    fun x hxo hxs y hyo hys =>
      hf.unique _ _ hnd hsubJ x y (hs.linked x hxs y hys) (ho.linked x hxo y hyo)
  have hcov : ∀ x ∈ Link.bodies other.mRoot, x ∈ news ∨ x ∈ Link.bodies self.mRoot := by
    intro x hx
    have := hp.mem_iff.mp (hinside x hx)
    rw [List.mem_append] at this
    exact this
  obtain ⟨hnodup, z, hzo, hzs⟩ := nodup_of_cover _ _ news hs.nodup ho.nodup hone hcount hcov
  have hmonoS : ∀ g ∈ Link.jointsOf joints self.mRoot, g ∈ Link.jointsOf joints s.self.mRoot := by
    intro g hg
    rw [Link.mem_jointsOf] at hg ⊢
    exact ⟨hg.1, hnames.mem_iff.mpr (List.mem_append_left _ hg.2)⟩
  have hmonoO : ∀ g ∈ Link.jointsOf joints other.mRoot,
      g ∈ Link.jointsOf joints s.self.mRoot := by
    intro g hg
    rw [Link.mem_jointsOf] at hg ⊢
    exact ⟨hg.1, hnames.mem_iff.mpr (List.mem_append_right _ hg.2)⟩
  have hkey : ∀ x ∈ Link.bodies s.self.mRoot,
      Connected (Link.jointsOf joints s.self.mRoot) x z := by
    intro x hx
    have := hp.mem_iff.mp hx
    rw [List.mem_append] at this
    rcases this with h | h
    · exact (ho.linked x (hnewB x h) z hzo).connected_mono hmonoO
    · exact (hs.linked x h z hzs).connected_mono hmonoS
  exact ⟨hp.nodup_iff.mpr hnodup, fun x hx y hy =>
    (hkey x hx).connected_trans (hkey y hy).connected_symm⟩

end HIERARCHY_BUILDER

namespace HIERARCHY_BUILDER

/-! ## Invariants of the loops of `build` -/

/-- Every property that one repetition of the first loop of `build` keeps
holds when the loop has ended. -/
theorem HierarchyBuilderImpl.consumeJoints_rule (I : HierarchyBuilderImpl → Prop)
    (hstep : ∀ b k jref, I b → b.findFirstUnusedJoint = some k →
      b.mJoints.get? k = some jref → I (b.consumeJoint k jref)) :
    ∀ (fuel : Nat) (b b1 : HierarchyBuilderImpl), I b →
      HierarchyBuilderImpl.consumeJoints fuel b = some b1 → I b1 := by
  intro fuel
  induction fuel with
  | zero =>
    intro b b1 _ h
    rw [HierarchyBuilderImpl.consumeJoints] at h
    cases h
  | succ fuel ih =>
    intro b b1 hi h
    rw [HierarchyBuilderImpl.consumeJoints_succ] at h
    cases hk : b.findFirstUnusedJoint with
    | none =>
      rw [hk] at h
      cases Option.some.inj h
      exact hi
    | some k =>
      obtain ⟨jref, hj⟩ := HierarchyBuilderImpl.findFirstUnusedJoint_get b k hk
      simp only [hk, hj] at h
      exact ih _ b1 (hstep b k jref hi hk hj) h

/-- The loop over `j` of the merge pass keeps every property of the list of
hierarchies that does not depend on the order of the list and that a
successful merge of the first hierarchy with the second keeps, when the
second is removed. -/
theorem HierarchyBuilderImpl.mergeInto_rule (P : List Hierarchy → Prop)
    (hperm : ∀ l l1 : List Hierarchy, l.Perm l1 → P l → P l1)
    (hstep : ∀ (S D : Hierarchy) (rest : List Hierarchy) (s : MergeState),
      P (S :: D :: rest) → S.merge D = some s → s.ret = true → P (s.self :: rest)) :
    ∀ (rest : List (Option Hierarchy)) (source : Hierarchy) (pre : List Hierarchy)
      (s : Hierarchy) (r : List (Option Hierarchy)) (c : Nat),
      P (source :: (liveSlots rest ++ pre)) →
      HierarchyBuilderImpl.mergeInto source rest = some (s, r, c) →
      P (s :: (liveSlots r ++ pre)) := by
  intro rest
  induction rest with
  | nil =>
    intro source pre s r c hp h
    rw [HierarchyBuilderImpl.mergeInto_nil] at h
    cases Option.some.inj h
    exact hp
  | cons a rest ih =>
    intro source pre s r c hp h
    cases a with
    | none =>
      rw [HierarchyBuilderImpl.mergeInto_none, Option.map_eq_some'] at h
      obtain ⟨q, hq, he⟩ := h
      cases he
      rw [liveSlots_none] at hp ⊢
      exact ih source pre q.1 q.2.1 q.2.2 hp hq
    | some dest =>
      obtain ⟨m, hm, _, _, _, hfalse, _⟩ := Hierarchy.merge_spec source dest
      rw [liveSlots_some] at hp
      cases hret : m.ret with
      | true =>
        rw [HierarchyBuilderImpl.mergeInto_merged source dest rest m hm hret,
          Option.map_eq_some'] at h
        obtain ⟨q, hq, he⟩ := h
        cases he
        rw [liveSlots_none]
        exact ih m.self pre q.1 q.2.1 q.2.2 (hstep source dest _ m hp hm hret) hq
      | false =>
        rw [HierarchyBuilderImpl.mergeInto_refused source dest rest m hm hret,
          Option.map_eq_some'] at h
        obtain ⟨q, hq, he⟩ := h
        cases he
        rw [(hfalse hret).1] at hq
        rw [liveSlots_some]
        have hp1 : P (source :: (liveSlots rest ++ dest :: pre)) := by
          refine hperm _ _ (List.Perm.cons _ ?_) hp
          exact (List.perm_middle :
            (liveSlots rest ++ dest :: pre).Perm (dest :: (liveSlots rest ++ pre))).symm
        have := ih source (dest :: pre) q.1 q.2.1 q.2.2 hp1 hq
        refine hperm _ _ (List.Perm.cons _ ?_) this
        exact List.perm_middle

/-- One pass over the hierarchy list keeps every such property. -/
theorem HierarchyBuilderImpl.mergeSweep_rule (P : List Hierarchy → Prop)
    (hperm : ∀ l l1 : List Hierarchy, l.Perm l1 → P l → P l1)
    (hstep : ∀ (S D : Hierarchy) (rest : List Hierarchy) (s : MergeState),
      P (S :: D :: rest) → S.merge D = some s → s.ret = true → P (s.self :: rest)) :
    ∀ (fuel : Nat) (slots : List (Option Hierarchy)) (pre : List Hierarchy)
      (slots1 : List (Option Hierarchy)) (c : Nat),
      P (liveSlots slots ++ pre) →
      HierarchyBuilderImpl.mergeSweep fuel slots = some (slots1, c) →
      P (liveSlots slots1 ++ pre) := by
  intro fuel
  induction fuel with
  | zero =>
    intro slots pre slots1 c hp h
    cases slots with
    | nil =>
      rw [HierarchyBuilderImpl.mergeSweep_nil] at h
      cases Option.some.inj h
      exact hp
    | cons a rest =>
      rw [HierarchyBuilderImpl.mergeSweep] at h
      cases h
  | succ fuel ih =>
    intro slots pre slots1 c hp h
    cases slots with
    | nil =>
      rw [HierarchyBuilderImpl.mergeSweep_nil] at h
      cases Option.some.inj h
      exact hp
    | cons a rest =>
      cases a with
      | none =>
        rw [HierarchyBuilderImpl.mergeSweep_none, Option.map_eq_some'] at h
        obtain ⟨q, hq, he⟩ := h
        cases he
        rw [liveSlots_none] at hp ⊢
        exact ih rest pre q.1 q.2 hp hq
      | some source =>
        obtain ⟨s, r, c0, hm, _, _⟩ := HierarchyBuilderImpl.mergeInto_total rest source
        rw [liveSlots_some, List.cons_append] at hp
        have hp1 := HierarchyBuilderImpl.mergeInto_rule P hperm hstep rest source pre s r c0 hp hm
        by_cases hc : c0 = 0
        · subst hc
          rw [HierarchyBuilderImpl.mergeSweep_quiet fuel source s rest r hm,
            Option.map_eq_some'] at h
          obtain ⟨q, hq, he⟩ := h
          cases he
          rw [liveSlots_some, List.cons_append]
          have hp2 : P (liveSlots r ++ s :: pre) := hperm _ _ List.perm_middle.symm hp1
          exact hperm _ _ List.perm_middle (ih r (s :: pre) q.1 q.2 hp2 hq)
        · rw [HierarchyBuilderImpl.mergeSweep_merged fuel source s rest r c0 hm hc] at h
          cases Option.some.inj h
          rw [liveSlots_some, List.cons_append]
          exact hp1

theorem HierarchyBuilderImpl.mergePasses_rule (P : List Hierarchy → Prop)
    (hperm : ∀ l l1 : List Hierarchy, l.Perm l1 → P l → P l1)
    (hstep : ∀ (S D : Hierarchy) (rest : List Hierarchy) (s : MergeState),
      P (S :: D :: rest) → S.merge D = some s → s.ret = true → P (s.self :: rest)) :
    ∀ (fuel : Nat) (slots : List (Option Hierarchy)) (mergeCount : Nat)
      (slots1 : List (Option Hierarchy)) (count : Nat),
      P (liveSlots slots) →
      HierarchyBuilderImpl.mergePasses fuel slots mergeCount = some (slots1, count) →
      P (liveSlots slots1) := by
  intro fuel
  induction fuel with
  | zero =>
    intro slots mergeCount slots1 count _ h
    rw [HierarchyBuilderImpl.mergePasses] at h
    cases h
  | succ fuel ih =>
    intro slots mergeCount slots1 count hp h
    obtain ⟨s1, c, hs, _, _⟩ :=
      HierarchyBuilderImpl.mergeSweep_total slots.length slots (le_refl _)
    have hp1 : P (liveSlots s1) := by
      have := HierarchyBuilderImpl.mergeSweep_rule P hperm hstep slots.length slots [] s1 c
        (by rw [List.append_nil]; exact hp) hs
      rw [List.append_nil] at this
      exact this
    rw [HierarchyBuilderImpl.mergePasses_succ, hs] at h
    by_cases hc : c = 0
    · subst hc
      simp only [ne_eq, not_true_eq_false, if_false] at h
      cases Option.some.inj h
      exact hp1
    · simp only [ne_eq, hc, not_false_eq_true, if_true] at h
      exact ih s1 _ slots1 count hp1 h

/-- The merge pass of `build` keeps every property of the list of
hierarchies that does not depend on the order of the list and that a
successful merge keeps. -/
theorem HierarchyBuilderImpl.mergeHierarchies_rule (P : List Hierarchy → Prop)
    (hperm : ∀ l l1 : List Hierarchy, l.Perm l1 → P l → P l1)
    (hstep : ∀ (S D : Hierarchy) (rest : List Hierarchy) (s : MergeState),
      P (S :: D :: rest) → S.merge D = some s → s.ret = true → P (s.self :: rest))
    (hs hs1 : List Hierarchy) (hp : P hs)
    (h : HierarchyBuilderImpl.mergeHierarchies hs = some hs1) : P hs1 := by
  rw [HierarchyBuilderImpl.mergeHierarchies] at h
  by_cases hl : hs.length > 1
  · rw [if_pos hl] at h
    obtain ⟨s, c, hm⟩ := HierarchyBuilderImpl.mergePasses_total (hs.length + 1) (hs.map some) 0
      (by rw [liveSlots_map_some]; omega)
    rw [hm] at h
    cases Option.some.inj h
    exact HierarchyBuilderImpl.mergePasses_rule P hperm hstep _ _ _ s c
      (by rw [liveSlots_map_some]; exact hp) hm
  · rw [if_neg hl] at h
    cases Option.some.inj h
    exact hp

end HIERARCHY_BUILDER

namespace HIERARCHY_BUILDER

/-! ## `build` on a forest -/

theorem ForestInv.forest_perm {joints : List JointRef} {l l1 : List Hierarchy} (hp : l.Perm l1)
    (hi : ForestInv joints l) : ForestInv joints l1 := by
  refine ⟨?_, fun h hh => hi.wellFormed h (hp.mem_iff.mpr hh)⟩
  have : (forestNames l).Perm (forestNames l1) := hp.flatMap_right _
  exact this.nodup_iff.mp hi.nodup

/-- One repetition of the first loop of `build` on a forest keeps every tree
free of a body on two nodes. -/
theorem HierarchyBuilderImpl.consumeJoint_simple {joints : List JointRef}
    (hf : Acyclic joints) (hJ : (joints.map JointRef.mName).Nodup)
    (hJu : ∀ j ∈ joints, j.mUsed = false) (b : HierarchyBuilderImpl) (k : Nat)
    (jref : JointRef) (hi : BuildInv joints b)
    (hsimple : ∀ h ∈ b.mHierarchies, Link.Simple joints h.mRoot)
    (hk : b.findFirstUnusedJoint = some k) (hj : b.mJoints.get? k = some jref) :
    ∀ h ∈ (b.consumeJoint k jref).mHierarchies, Link.Simple joints h.mRoot := by
  obtain ⟨hu, hsplit, _, _⟩ := HierarchyBuilderImpl.findFirstUnusedJoint_some b k jref hk hj
  have hmem : jref ∈ b.mJoints := by
    rw [hsplit]; exact List.mem_append_right _ (List.mem_cons_self _ _)
  have hJid : joints.map JointRef.unmark = joints := by
    conv_rhs => rw [← List.map_id joints]
    exact List.map_congr_left fun e he => JointRef.unmark_of_unused e (hJu e he)
  have hjJ : jref ∈ joints := by
    have : jref.unmark ∈ b.mJoints.map JointRef.unmark := List.mem_map_of_mem _ hmem
    rw [hi.joints_eq, hJid, JointRef.unmark_of_unused jref hu] at this
    exact this
  have hbn : (b.mJoints.map JointRef.mName).Nodup := by
    rw [← JointRef.unmark_map_mName, hi.joints_eq, JointRef.unmark_map_mName]
    exact hJ
  have hfresh : jref.mName ∉ forestNames b.mHierarchies := by
    intro hn
    rw [hi.names.mem_iff, usedNames, List.mem_map] at hn
    obtain ⟨i, hif, hin⟩ := hn
    rw [List.mem_filter] at hif
    have := List.inj_on_of_nodup_map hbn hif.1 hmem hin
    rw [this, hu] at hif
    exact Bool.noConfusion hif.2
  cases hr : (HierarchyBuilderImpl.addToFirst b.mHierarchies jref).2 with
  | true =>
    rw [HierarchyBuilderImpl.consumeJoint_added b k jref hr]
    obtain ⟨pre, h, post, t1, hs, ha, _, hres⟩ :=
      (HierarchyBuilderImpl.addToFirst_spec jref b.mHierarchies).1 hr
    intro h1 hh1
    simp only [hres, List.mem_append, List.mem_cons] at hh1
    have hin : h ∈ b.mHierarchies := by
      rw [hs]; exact List.mem_append_right _ (List.mem_cons_self _ _)
    rcases hh1 with hh1 | hh1 | hh1
    · exact hsimple h1 (by rw [hs]; exact List.mem_append_left _ hh1)
    · subst hh1
      exact Link.Simple.simple_add hf hjJ (fun hn => hfresh (forestNames_mem hin _ hn))
        (hsimple h hin) ha
    · exact hsimple h1 (by
        rw [hs]; exact List.mem_append_right _ (List.mem_cons_of_mem _ hh1))
  | false =>
    rw [HierarchyBuilderImpl.consumeJoint_new b k jref hr]
    have hres := ((HierarchyBuilderImpl.addToFirst_spec jref b.mHierarchies).2 hr).1
    intro h1 hh1
    simp only [hres, List.mem_append, List.mem_singleton] at hh1
    rcases hh1 with hh1 | hh1
    · exact hsimple h1 hh1
    · subst hh1
      exact Hierarchy.new_simple hf hjJ jref.mark rfl rfl rfl _

theorem Hierarchy.sortLinks_nodup (links : List Link) (joints : List JointRef)
    (hJ : (joints.map JointRef.mName).Nodup) : (Hierarchy.sortLinks links joints).Nodup := by
  have hS : Hierarchy.sortLinks links joints =
      (joints.map JointRef.mName).filterMap (Hierarchy.findLink links) := by
    rw [Hierarchy.sortLinks, List.filterMap_map]; rfl
  rw [hS]
  refine List.Nodup.filterMap ?_ hJ
  intro a a1 p ha ha1
  obtain ⟨_, e⟩ := Hierarchy.findLink_some _ a p ha
  obtain ⟨_, e1⟩ := Hierarchy.findLink_some _ a1 p ha1
  rw [← e, ← e1]

/-- In a tree in which no body labels two nodes and no loop flag is set,
`findLoopJoints` flags no link below the root. -/
theorem Hierarchy.findLoopJoints_simple (h : Hierarchy) (joints : List JointRef)
    (hflags : ∀ f ∈ Link.loopFlags h.mRoot, f = false)
    (hnd : (Link.bodies h.mRoot).Nodup) (hJ : (joints.map JointRef.mName).Nodup)
    (e : String × String × String × Bool)
    (he : e ∈ Link.showHierarchy (h.findLoopJoints joints).mRoot) : e.2.2.2 = false := by
  obtain ⟨p, l, hp, hl, _, _, hlf⟩ := Link.showHierarchy_position _ e he
  have hlt : p < (Link.getLinks h.mRoot).length := by
    have := (List.getElem?_eq_some.mp hl).1
    rw [Hierarchy.findLoopJoints, Link.setLoopJoints_length] at this
    exact this
  have hflag := Hierarchy.findLoopJoints_flagAt h joints hflags p hlt
  rw [hl] at hflag
  simp only [Option.map_some', Option.some.injEq] at hflag
  rw [← hlf, hflag, decide_eq_false_iff_not]
  intro hm
  obtain ⟨S1, S2, l0, hs, hl0, hseen⟩ := (Hierarchy.loopScan_mem _ p _ _).mp hm
  have hSn := Hierarchy.sortLinks_nodup (Link.getLinks h.mRoot) joints hJ
  rw [hs] at hSn
  have hpS1 : p ∉ S1 := fun hin =>
    (List.nodup_append.mp hSn).2.2 hin (List.mem_cons_self _ _)
  have hvalid : ∀ q ∈ S1, q < (Link.getLinks h.mRoot).length := fun q hq =>
    Hierarchy.sortLinks_lt _ joints q (by rw [hs]; exact List.mem_append_left _ hq)
  rw [(Hierarchy.loopScan_spec (Link.getLinks h.mRoot) S1 [h.mRoot.mRigidBody] hvalid).2.2.2]
    at hseen
  rw [List.get?_eq_getElem?] at hl0
  have hinj : ∀ q m, (Link.getLinks h.mRoot)[q]? = some m → m.mRigidBody = l0.mRigidBody →
      q = p := by
    intro q m hq hb
    have hq1 : (Link.bodies h.mRoot)[q]? = some m.mRigidBody := by
      rw [Link.bodies, List.getElem?_map, hq]; rfl
    have hp1 : (Link.bodies h.mRoot)[p]? = some l0.mRigidBody := by
      rw [Link.bodies, List.getElem?_map, hl0]; rfl
    have hqlt : q < (Link.bodies h.mRoot).length := (List.getElem?_eq_some.mp hq1).1
    exact List.getElem?_inj hqlt hnd (by rw [hq1, hp1, hb])
  rcases hseen with hroot | ⟨q, hq, m, hqm, hb⟩
  · have := hinj 0 h.mRoot (Link.getLinks_zero h.mRoot) (List.mem_singleton.mp hroot).symm
    omega
  · rw [List.get?_eq_getElem?] at hqm
    have := hinj q m hqm hb
    exact hpS1 (this ▸ hq)

/-- On a valid input whose joint graph is a forest `build` returns, and it
leaves the trees of a list of well-formed hierarchies, without a body on two
nodes, after `findLoopJoints`. -/
theorem HierarchyBuilderImpl.build_acyclic (b : HierarchyBuilderImpl) (hb : Registered b)
    (hf : Acyclic b.mJoints) :
    ∃ r hs, b.build = some r ∧
      r.1.mHierarchies = hs.map (fun i => i.findLoopJoints r.1.mJoints) ∧
      ForestInv b.mJoints hs ∧ (∀ h ∈ hs, Link.Simple b.mJoints h.mRoot) ∧
      r.1.mJoints.map JointRef.mName = b.mJoints.map JointRef.mName := by
  have hstart := BuildInv.start b hb
  have hfuel : (unusedNames b.checkForDisconnectedRigidBodies.mJoints).length <
      b.checkForDisconnectedRigidBodies.mJoints.length + 1 := by
    have : (unusedNames b.checkForDisconnectedRigidBodies.mJoints).length ≤
        b.checkForDisconnectedRigidBodies.mJoints.length := by
      rw [unusedNames, List.length_map]
      exact List.length_filter_le _ _
    omega
  obtain ⟨b2, h1, h2, h3, _, _⟩ :=
    HierarchyBuilderImpl.consumeJoints_spec b.mJoints _ _ hstart hfuel
  have hsimple : BuildInv b.mJoints b2 ∧ ∀ h ∈ b2.mHierarchies, Link.Simple b.mJoints h.mRoot :=
    HierarchyBuilderImpl.consumeJoints_rule
      (fun c => BuildInv b.mJoints c ∧ ∀ h ∈ c.mHierarchies, Link.Simple b.mJoints h.mRoot)
      (fun c k jref hc hk hj =>
        ⟨(HierarchyBuilderImpl.consumeJoint_spec b.mJoints c k jref hc.1 hk hj).1,
          HierarchyBuilderImpl.consumeJoint_simple hf hb.jointNames hb.jointsUnused c k jref
            hc.1 hc.2 hk hj⟩)
      _ _ b2 ⟨hstart, fun h hh => by
        rw [HierarchyBuilderImpl.check_mHierarchies, hb.hierarchies] at hh
        cases hh⟩ h1
  have hnames : usedNames b2.mJoints = b.mJoints.map JointRef.mName := by
    rw [usedNames_of_used _ h3, ← JointRef.unmark_map_mName, h2.joints_eq,
      JointRef.unmark_map_mName]
  have hinv : ForestInv b.mJoints b2.mHierarchies := by
    refine ⟨?_, h2.wellFormed⟩
    rw [h2.names.nodup_iff, hnames]
    exact hb.jointNames
  obtain ⟨hs, k1, _⟩ :=
    HierarchyBuilderImpl.mergeHierarchies_spec b.mJoints b2.mHierarchies hinv
  have hP := HierarchyBuilderImpl.mergeHierarchies_rule
    (fun l => ForestInv b.mJoints l ∧ ∀ h ∈ l, Link.Simple b.mJoints h.mRoot)
    (fun l l1 hp hl => ⟨hl.1.forest_perm hp, fun h hh => hl.2 h (hp.mem_iff.mpr hh)⟩)
    (fun S D rest s hl hm hret => by
      refine ⟨(Hierarchy.merge_absorb S D rest s hl.1 hm hret).1, fun h hh => ?_⟩
      rw [List.mem_cons] at hh
      rcases hh with hh | hh
      · subst hh
        have hnd := hl.1.nodup
        rw [forestNames_cons, forestNames_cons, ← List.append_assoc] at hnd
        exact Hierarchy.merge_simple hf (List.Nodup.of_map _ hb.jointNames) S D s
          (hl.2 S (List.mem_cons_self _ _))
          (hl.2 D (List.mem_cons_of_mem _ (List.mem_cons_self _ _)))
          hnd.of_append_left hm hret
      · exact hl.2 h (List.mem_cons_of_mem _ (List.mem_cons_of_mem _ hh)))
    b2.mHierarchies hs ⟨hinv, hsimple.2⟩ k1
  refine ⟨_, hs, HierarchyBuilderImpl.build_eq b b2 hs h1 k1, rfl, hP.1, hP.2, ?_⟩
  show b2.mJoints.map JointRef.mName = _
  rw [← JointRef.unmark_map_mName, h2.joints_eq, JointRef.unmark_map_mName]

end HIERARCHY_BUILDER

namespace HIERARCHY_BUILDER

theorem Acyclic.acyclic_perm {js ks : List JointRef} (hp : js.Perm ks) (hf : Acyclic js) :
    Acyclic ks := by
  intro j hj hc
  exact hf j (hp.mem_iff.mpr hj) ((Connected.connected_perm (hp.erase j) _ _).mpr hc)

/-- A forest has no two joints between the same two bodies. -/
theorem Acyclic.no_parallel {joints : List JointRef} (hf : Acyclic joints) {j k : JointRef}
    (hj : j ∈ joints) (hk : k ∈ joints) (hne : k ≠ j) :
    ¬ ((k.mBody0 = j.mBody0 ∧ k.mBody1 = j.mBody1) ∨
      (k.mBody0 = j.mBody1 ∧ k.mBody1 = j.mBody0)) := by
  intro h
  apply hf j hj
  exact Relation.ReflTransGen.single ⟨k, (List.mem_erase_of_ne hne).mpr hk, h⟩

/-- The bodies that one joint connects. -/
theorem Connected.of_single {g : JointRef} {x y : String} (h : Connected [g] x y) :
    x = y ∨ (x = g.mBody0 ∧ y = g.mBody1) ∨ (x = g.mBody1 ∧ y = g.mBody0) := by
  rcases h.split_joint with h | ⟨h1, h2⟩ | ⟨h1, h2⟩
  · exact Or.inl h.of_nil
  · exact Or.inr (Or.inl ⟨h1.of_nil, h2.of_nil.symm⟩)
  · exact Or.inr (Or.inr ⟨h1.of_nil, h2.of_nil.symm⟩)

/-- After `build` on a valid input whose joint graph is a forest no
reported edge is flagged and no body labels two nodes. -/
theorem HierarchyBuilderImpl.build_forest (b : HierarchyBuilderImpl) (hb : Registered b)
    (hf : Acyclic b.mJoints) :
    ∃ r, b.build = some r ∧ (∀ e ∈ r.1.reportedEdges, e.2.2.2 = false) ∧
      r.1.nodeBodies.Nodup ∧ ∀ x, x ∈ r.1.nodeBodies ↔ IsEndpoint b.mJoints x := by
  obtain ⟨r, hs, h1, h2, h3, h4, h5⟩ := HierarchyBuilderImpl.build_acyclic b hb hf
  obtain ⟨r1, hs1, k1, hr⟩ := HierarchyBuilderImpl.build_spec b hb
  rw [h1] at k1
  cases Option.some.inj k1
  have hJ : (r.1.mJoints.map JointRef.mName).Nodup := h5 ▸ hb.jointNames
  refine ⟨r, h1, fun e he => ?_, ?_, hr.nodeBodies_endpoint⟩
  · rw [HierarchyBuilderImpl.reportedEdges, List.mem_flatMap] at he
    obtain ⟨k, hk, hek⟩ := he
    rw [h2, List.mem_map] at hk
    obtain ⟨h, hh, hkh⟩ := hk
    subst hkh
    exact Hierarchy.findLoopJoints_simple h _ (h3.wellFormed h hh).noLoop (h4 h hh).nodup hJ e hek
  · rw [HierarchyBuilderImpl.nodeBodies, List.nodup_flatMap]
    refine ⟨fun k hk => ?_, hr.final_disjoint.imp fun hd x hx hy => hd x hx hy⟩
    rw [h2, List.mem_map] at hk
    obtain ⟨h, hh, hkh⟩ := hk
    subst hkh
    show (Link.bodies (h.findLoopJoints r.1.mJoints).mRoot).Nodup
    rw [Hierarchy.findLoopJoints_bodies]
    exact (h4 h hh).nodup

end HIERARCHY_BUILDER

namespace HIERARCHY_BUILDER

/-! ## Claims -/

/-- C1: after any sequence of registration calls on a fresh builder, `build`
returns a number that is the hierarchy count afterwards and the number of
connected components of the joint graph that contain a joint; bodies A, B,
C, D with the joints (j1, A, B) and (j2, C, D) give 2. -/
theorem build_count_eq_components (calls : List Call) :
    (∃ r, (register calls).build = some r ∧ r.2 = r.1.getHierarchyCount ∧
      r.2 = Set.ncard (jointComponents (register calls).mJoints)) ∧
    ((register (bodyCalls ["A", "B", "C", "D"] ++
      jointCalls [("j1", "A", "B"), ("j2", "C", "D")])).build).map (fun r => r.2) = some 2 := by
  refine ⟨?_, by decide⟩
  obtain ⟨r, hs, h1, h2⟩ :=
    HierarchyBuilderImpl.build_spec (register calls) (Registered.register calls)
  exact ⟨r, h1, h2.final_count, h2.count_components⟩

/-- C2, as stated, fails: with bodies A, B, C and the joints (j1, A, B),
(j2, B, C), (j3, C, A) the body C is not disconnected and labels two nodes of
the final hierarchy. -/
theorem body_in_two_nodes :
    ((register (bodyCalls ["A", "B", "C"] ++
      jointCalls [("j1", "A", "B"), ("j2", "B", "C"), ("j3", "C", "A")])).build).map
        (fun r => (r.1.mDisconnectedRigidBodies, r.1.nodeBodies.count "C")) =
      some ([], 2) := by
  decide

/-- C2, amended: after `build` on a valid input every registered body is in
exactly one of the disconnected list, where it occurs once, and the final
hierarchies, where it labels one or more nodes of exactly one hierarchy. -/
theorem body_in_one_place (calls : List Call) :
    ∃ r, (register calls).build = some r ∧
      ∀ x ∈ (register calls).mRigidBodies.map RigidBodyRef.mName,
        (r.1.mDisconnectedRigidBodies.count x = 1 ∧ r.1.hierarchiesWith x = 0) ∨
          (r.1.mDisconnectedRigidBodies.count x = 0 ∧ r.1.hierarchiesWith x = 1) := by
  obtain ⟨r, hs, h1, h2⟩ :=
    HierarchyBuilderImpl.build_spec (register calls) (Registered.register calls)
  exact ⟨r, h1, fun x hx => h2.body_place (Registered.register calls) x hx⟩

/-- C3: after `build` on a valid input the joint names of the edges that the
final hierarchies report are the registered joint names in some order, so
each registered joint name is on exactly one edge. -/
theorem joint_on_one_edge (calls : List Call) :
    ∃ r, (register calls).build = some r ∧
      (r.1.reportedEdges.map fun e => e.1).Perm
        ((register calls).mJoints.map JointRef.mName) ∧
      ∀ j ∈ (register calls).mJoints, (r.1.reportedEdges.map fun e => e.1).count j.mName = 1 := by
  obtain ⟨r, hs, h1, h2⟩ :=
    HierarchyBuilderImpl.build_spec (register calls) (Registered.register calls)
  refine ⟨r, h1, h2.reported_names, fun j hj => ?_⟩
  rw [h2.reported_names.count_eq]
  exact List.count_eq_one_of_mem (Registered.register calls).jointNames
    (List.mem_map_of_mem _ hj)

/-- C4 fails on the code: with bodies A, B, C and the joints (j1, A, B),
(j2, C, B) the final hierarchy reports the edge j1 between A and C, while j1
was registered between A and B. -/
theorem edge_misreported :
    ((register (bodyCalls ["A", "B", "C"] ++
      jointCalls [("j1", "A", "B"), ("j2", "C", "B")])).build).map
        (fun r => (r.1.reportedEdges, r.1.mJoints.map fun j => (j.mName, j.mBody0, j.mBody1))) =
      some ([("j1", "A", "C", false), ("j2", "C", "B", false)],
        [("j1", "A", "B"), ("j2", "C", "B")]) := by
  rfl

/-- C5: after `build` on a valid input no body labels nodes of two final
hierarchies, and a final hierarchy contains with a body every body that is
connected with it in the joint graph. -/
theorem final_hierarchies_disjoint (calls : List Call) :
    ∃ r, (register calls).build = some r ∧
      r.1.mHierarchies.Pairwise
        (fun h k => ∀ x ∈ Link.bodies h.getHierarchyRoot, x ∉ Link.bodies k.getHierarchyRoot) ∧
      ∀ h ∈ r.1.mHierarchies, ∀ x ∈ Link.bodies h.getHierarchyRoot, ∀ y,
        Connected (register calls).mJoints x y → y ∈ Link.bodies h.getHierarchyRoot := by
  obtain ⟨r, hs, h1, h2⟩ :=
    HierarchyBuilderImpl.build_spec (register calls) (Registered.register calls)
  exact ⟨r, h1, h2.final_disjoint, fun h hh x hx y hc => (h2.final_closed hh hx y).mp hc⟩

end HIERARCHY_BUILDER

namespace HIERARCHY_BUILDER

/-- C7 fails on the code: with bodies A, B, C, D and the joints (j1, B, C),
(j2, C, D), (j3, B, D), (jb, A, D) the only edge flagged as a loop joint is
jb, whose bodies A and D are not connected by the other joints. -/
theorem bridge_flagged :
    ((register (bodyCalls ["A", "B", "C", "D"] ++
      jointCalls [("j1", "B", "C"), ("j2", "C", "D"), ("j3", "B", "D"),
        ("jb", "A", "D")])).build).map (fun r => r.1.loopJoints) = some ["jb"] ∧
    ¬ Connected ((register (bodyCalls ["A", "B", "C", "D"] ++
      jointCalls [("j1", "B", "C"), ("j2", "C", "D"), ("j3", "B", "D"),
        ("jb", "A", "D")])).mJoints.filter fun j => j.mName != "jb") "A" "D" := by
  refine ⟨by decide, ?_⟩
  have hjs : ((register (bodyCalls ["A", "B", "C", "D"] ++
      jointCalls [("j1", "B", "C"), ("j2", "C", "D"), ("j3", "B", "D"),
        ("jb", "A", "D")])).mJoints.filter fun j => j.mName != "jb") =
      [{ mName := "j1", mBody0 := "B", mBody1 := "C" },
        { mName := "j2", mBody0 := "C", mBody1 := "D" },
        { mName := "j3", mBody0 := "B", mBody1 := "D" }] := by
    decide
  rw [hjs]
  intro hc
  have hall : ∀ y, Connected
      [{ mName := "j1", mBody0 := "B", mBody1 := "C" },
        { mName := "j2", mBody0 := "C", mBody1 := "D" },
        { mName := "j3", mBody0 := "B", mBody1 := "D" }] "A" y → y = "A" := by
    intro y hy
    induction hy with
    | refl => rfl
    | tail _ hbc ih =>
      subst ih
      obtain ⟨j, hj, h⟩ := hbc
      simp only [List.mem_cons, List.mem_singleton, List.not_mem_nil, or_false] at hj
      rcases hj with rfl | rfl | rfl <;> rcases h with ⟨h0, h1⟩ | ⟨h0, h1⟩ <;>
        first
        | exact absurd h0 (by decide)
        | exact absurd h1 (by decide)
  exact absurd (hall _ hc) (by decide)

/-- C8, as stated, fails: with bodies A, B, C and the joints (j1, A, B),
(j2, B, C), (j3, C, A) registered in this order, `build` does not flag the
edge named j3. -/
theorem loop_joint_not_j3 :
    ¬ ∃ r, (register (bodyCalls ["A", "B", "C"] ++
      jointCalls [("j1", "A", "B"), ("j2", "B", "C"), ("j3", "C", "A")])).build = some r ∧
        r.2 = 1 ∧ r.1.loopJoints = ["j3"] := by
  rintro ⟨r, h, _, h3⟩
  have e : ((register (bodyCalls ["A", "B", "C"] ++
      jointCalls [("j1", "A", "B"), ("j2", "B", "C"), ("j3", "C", "A")])).build).map
        (fun r => r.1.loopJoints) = some ["j2"] := by
    decide
  rw [h, Option.map_some', h3] at e
  exact absurd e (by decide)

/-- C8, amended: with bodies A, B, C and the joints (j1, A, B), (j2, B, C),
(j3, C, A) registered in this order, `build` returns 1 hierarchy with root C
and the edges j3 from C to A, j1 from A to B and j2 from B to C, of which
exactly one is flagged as a loop joint, the one named j2. -/
theorem triangle_flags_j2 :
    ((register (bodyCalls ["A", "B", "C"] ++
      jointCalls [("j1", "A", "B"), ("j2", "B", "C"), ("j3", "C", "A")])).build).map
        (fun r => (r.2, r.1.mHierarchies.map fun h => h.getHierarchyRoot.getRigidBody,
          r.1.reportedEdges, r.1.loopJoints)) =
      some (1, ["C"],
        [("j3", "C", "A", false), ("j1", "A", "B", false), ("j2", "B", "C", true)], ["j2"]) := by
  rfl

end HIERARCHY_BUILDER

namespace HIERARCHY_BUILDER

/-- C9: for pairwise distinct bodies A, B, C, registered in any order, and
distinct joint names j1, j2, with the joints (j1, A, B) and (j2, B, C)
registered in either order, `build` returns 1; the root of the hierarchy has
body A and exactly one child B attached by j1; B has exactly one child C
attached by j2; C has no child; no edge is flagged as a loop joint; and no
body is disconnected. -/
theorem chain_hierarchy (A B C j1 j2 : String) (hAB : A ≠ B) (hBC : B ≠ C) (hAC : A ≠ C)
    (h12 : j1 ≠ j2) (bodies : List String) (joints : List (String × String × String))
    (hb : ∀ x, x ∈ bodies ↔ x = A ∨ x = B ∨ x = C)
    (hj : joints = [(j1, A, B), (j2, B, C)] ∨ joints = [(j2, B, C), (j1, A, B)]) :
    ∃ r root b c, (register (bodyCalls bodies ++ jointCalls joints)).build = some r ∧
      r.2 = 1 ∧ r.1.getHierarchyCount = 1 ∧ r.1.getHierarchyRoot 0 = some root ∧
      root.getRigidBody = A ∧ root.getChildCount = 1 ∧
      root.getJoint 0 = some (j1, A, B, false) ∧ root.getChild 0 = some b ∧
      b.getChildCount = 1 ∧ b.getJoint 0 = some (j2, B, C, false) ∧
      b.getChild 0 = some c ∧ c.getChildCount = 0 ∧
      r.1.getDisconnectedRigidBodyCount = 0 := by
  have hn : (joints.map fun j => j.1).Nodup := by
    rcases hj with rfl | rfl
    · simp [h12]
    · simp [Ne.symm h12]
  have hk : ∀ j ∈ joints, j.2.1 ∈ bodies ∧ j.2.2 ∈ bodies := by
    intro j hjm
    rcases hj with rfl | rfl <;>
      simp only [List.mem_cons, List.mem_singleton, List.not_mem_nil, or_false] at hjm <;>
      rcases hjm with rfl | rfl <;> simp [hb]
  obtain ⟨hjs, _, hnames⟩ := register_valid bodies joints hn hk
  have hjs2 : (register (bodyCalls bodies ++ jointCalls joints)).mJoints =
        [{ mName := j1, mBody0 := A, mBody1 := B }, { mName := j2, mBody0 := B, mBody1 := C }] ∨
      (register (bodyCalls bodies ++ jointCalls joints)).mJoints =
        [{ mName := j2, mBody0 := B, mBody1 := C }, { mName := j1, mBody0 := A, mBody1 := B }] := by
    rw [hjs]
    rcases hj with rfl | rfl
    · exact Or.inl rfl
    · exact Or.inr rfl
  obtain ⟨f, r, h1, h2, h3, h4⟩ := HierarchyBuilderImpl.build_chain A B C j1 j2 hAB hBC hAC h12
    _ (Registered.register _).hierarchies hjs2
  have hd : r.1.mDisconnectedRigidBodies = [] := by
    rw [h4, List.eq_nil_iff_forall_not_mem]
    intro x hx
    rw [HierarchyBuilderImpl.mem_check_disconnected, hnames, hb] at hx
    apply hx.2
    rcases hjs2 with e | e <;> rw [e] <;> rcases hx.1 with rfl | rfl | rfl <;>
      simp [IsEndpoint]
  refine ⟨r, .mk f "" A [.mk false j1 B [.mk false j2 C []]], .mk false j1 B [.mk false j2 C []],
    .mk false j2 C [], h1, h2, ?_, ?_, rfl, rfl, rfl, rfl, rfl, rfl, rfl, rfl, ?_⟩
  · rw [HierarchyBuilderImpl.getHierarchyCount, h3]; rfl
  · rw [HierarchyBuilderImpl.getHierarchyRoot, h3]; rfl
  · rw [HierarchyBuilderImpl.getDisconnectedRigidBodyCount, hd]; rfl

/-- C9 at the bodies A, B, C and the joints j1, j2, registered in this
order. -/
theorem chain_hierarchy_witness :
    ∃ r root b c, (register (bodyCalls ["A", "B", "C"] ++
        jointCalls [("j1", "A", "B"), ("j2", "B", "C")])).build = some r ∧
      r.2 = 1 ∧ r.1.getHierarchyCount = 1 ∧ r.1.getHierarchyRoot 0 = some root ∧
      root.getRigidBody = "A" ∧ root.getChildCount = 1 ∧
      root.getJoint 0 = some ("j1", "A", "B", false) ∧ root.getChild 0 = some b ∧
      b.getChildCount = 1 ∧ b.getJoint 0 = some ("j2", "B", "C", false) ∧
      b.getChild 0 = some c ∧ c.getChildCount = 0 ∧
      r.1.getDisconnectedRigidBodyCount = 0 :=
  chain_hierarchy "A" "B" "C" "j1" "j2" (by decide) (by decide) (by decide) (by decide)
    ["A", "B", "C"] [("j1", "A", "B"), ("j2", "B", "C")] (by simp) (Or.inl rfl)

end HIERARCHY_BUILDER

namespace HIERARCHY_BUILDER

/-- C6: after `build` on a valid input in which no joint has the empty name,
in every final hierarchy the number of edges flagged as loop joints is the
number of edges minus the number of distinct body names plus one; the
equation is stated with the subtraction moved to the other side. -/
theorem loop_joint_count (calls : List Call)
    (hne : ∀ j ∈ (register calls).mJoints, j.mName ≠ "") :
    ∃ r, (register calls).build = some r ∧
      ∀ h ∈ r.1.mHierarchies,
        ((Link.showHierarchy h.getHierarchyRoot).filter fun e => e.2.2.2).length +
            (Link.bodies h.getHierarchyRoot).dedup.length =
          (Link.showHierarchy h.getHierarchyRoot).length + 1 := by
  obtain ⟨r, hs, h1, h2⟩ :=
    HierarchyBuilderImpl.build_spec (register calls) (Registered.register calls)
  exact ⟨r, h1, fun h hh => h2.loop_count (Registered.register calls) hne hh⟩

/-- C6 at the bodies A, B, C with the joints (j1, A, B), (j2, B, C),
(j3, C, A), where one of three edges is flagged. -/
theorem loop_joint_count_witness :
    (∀ j ∈ (register (bodyCalls ["A", "B", "C"] ++
      jointCalls [("j1", "A", "B"), ("j2", "B", "C"), ("j3", "C", "A")])).mJoints,
        j.mName ≠ "") ∧
    ∃ r, (register (bodyCalls ["A", "B", "C"] ++
      jointCalls [("j1", "A", "B"), ("j2", "B", "C"), ("j3", "C", "A")])).build = some r ∧
      ∀ h ∈ r.1.mHierarchies,
        ((Link.showHierarchy h.getHierarchyRoot).filter fun e => e.2.2.2).length +
            (Link.bodies h.getHierarchyRoot).dedup.length =
          (Link.showHierarchy h.getHierarchyRoot).length + 1 :=
  ⟨by decide, loop_joint_count _ (by decide)⟩

end HIERARCHY_BUILDER

namespace HIERARCHY_BUILDER

/-- C10, as stated, fails: with bodies A, B, C the joints (j1, A, B),
(j2, B, C), (j3, C, A) give the loop joint j2 when they are registered in
this order and the loop joint j1 when they are registered in the order j3,
j1, j2, so the sets of flagged joints differ. -/
theorem loop_joints_depend_on_order :
    [("j1", "A", "B"), ("j2", "B", "C"), ("j3", "C", "A")].Perm
        [("j3", "C", "A"), ("j1", "A", "B"), ("j2", "B", "C")] ∧
    ((register (bodyCalls ["A", "B", "C"] ++
      jointCalls [("j1", "A", "B"), ("j2", "B", "C"), ("j3", "C", "A")])).build).map
        (fun r => r.1.loopJoints) = some ["j2"] ∧
    ((register (bodyCalls ["A", "B", "C"] ++
      jointCalls [("j3", "C", "A"), ("j1", "A", "B"), ("j2", "B", "C")])).build).map
        (fun r => r.1.loopJoints) = some ["j1"] ∧
    ¬ (["j2"] : List String).Perm ["j1"] := by
  refine ⟨by decide, by decide, by decide, by decide⟩

/-- C10, amended: for bodies and valid joints and every permutation of the
order in which the joints are registered, `build` returns the same number of
hierarchies and the same disconnected list, and the final hierarchies
correspond to each other with the same bodies, the same joint names on their
edges and, when no joint has the empty name, the same number of edges flagged
as loop joints. -/
theorem registration_order (bodies : List String)
    (joints1 joints2 : List (String × String × String)) (hp : joints1.Perm joints2)
    (hn : (joints1.map fun j => j.1).Nodup)
    (hk : ∀ j ∈ joints1, j.2.1 ∈ bodies ∧ j.2.2 ∈ bodies) :
    ∃ r1 r2, (register (bodyCalls bodies ++ jointCalls joints1)).build = some r1 ∧
      (register (bodyCalls bodies ++ jointCalls joints2)).build = some r2 ∧
      r1.2 = r2.2 ∧ r1.1.mDisconnectedRigidBodies = r2.1.mDisconnectedRigidBodies ∧
      (∀ h1 ∈ r1.1.mHierarchies, ∃ h2 ∈ r2.1.mHierarchies,
        (∀ x, x ∈ Link.bodies h1.getHierarchyRoot ↔ x ∈ Link.bodies h2.getHierarchyRoot) ∧
        (∀ n, n ∈ (Link.showHierarchy h1.getHierarchyRoot).map (fun e => e.1) ↔
          n ∈ (Link.showHierarchy h2.getHierarchyRoot).map (fun e => e.1)) ∧
        ((∀ j ∈ joints1, j.1 ≠ "") →
          ((Link.showHierarchy h1.getHierarchyRoot).filter fun e => e.2.2.2).length =
            ((Link.showHierarchy h2.getHierarchyRoot).filter fun e => e.2.2.2).length)) ∧
      (∀ h2 ∈ r2.1.mHierarchies, ∃ h1 ∈ r1.1.mHierarchies,
        ∀ x, x ∈ Link.bodies h2.getHierarchyRoot ↔ x ∈ Link.bodies h1.getHierarchyRoot) := by
  have hn2 : (joints2.map fun j => j.1).Nodup := (hp.map _).nodup_iff.mp hn
  have hk2 : ∀ j ∈ joints2, j.2.1 ∈ bodies ∧ j.2.2 ∈ bodies :=
    fun j hj => hk j (hp.mem_iff.mpr hj)
  obtain ⟨e1, f1, _⟩ := register_valid bodies joints1 hn hk
  obtain ⟨e2, f2, _⟩ := register_valid bodies joints2 hn2 hk2
  have hperm : (register (bodyCalls bodies ++ jointCalls joints1)).mJoints.Perm
      (register (bodyCalls bodies ++ jointCalls joints2)).mJoints := by
    rw [e1, e2]; exact hp.map _
  have hreg1 := Registered.register (bodyCalls bodies ++ jointCalls joints1)
  have hreg2 := Registered.register (bodyCalls bodies ++ jointCalls joints2)
  obtain ⟨r1, hs1, b1, hr1⟩ := HierarchyBuilderImpl.build_spec _ hreg1
  obtain ⟨r2, hs2, b2, hr2⟩ := HierarchyBuilderImpl.build_spec _ hreg2
  refine ⟨r1, r2, b1, b2, ?_, ?_, fun h1 hh1 => ?_, fun h2 hh2 => ?_⟩
  · rw [hr1.count_components, hr2.count_components, jointComponents_of_perm hperm]
  · rw [hr1.disconnected, hr2.disconnected]
    exact HierarchyBuilderImpl.check_disconnected_perm _ _ (f1.trans f2.symm) hperm
  · obtain ⟨h2, hh2, m1, m2, m3⟩ := hr1.final_match hr2 hreg1 hreg2 hperm hh1
    refine ⟨h2, hh2, m1, m2, fun hne => m3 fun j hj => ?_⟩
    rw [e1, List.mem_map] at hj
    obtain ⟨i, hi, rfl⟩ := hj
    exact hne i hi
  · obtain ⟨h1, hh1, m1, _, _⟩ := hr2.final_match hr1 hreg2 hreg1 hperm.symm hh2
    exact ⟨h1, hh1, m1⟩

/-- C10, amended, at the bodies A, B, C and the joints (j1, A, B),
(j2, B, C), (j3, C, A), registered in this order and in the order j3, j1,
j2. -/
theorem registration_order_witness :
    ∃ r1 r2, (register (bodyCalls ["A", "B", "C"] ++
        jointCalls [("j1", "A", "B"), ("j2", "B", "C"), ("j3", "C", "A")])).build = some r1 ∧
      (register (bodyCalls ["A", "B", "C"] ++
        jointCalls [("j3", "C", "A"), ("j1", "A", "B"), ("j2", "B", "C")])).build = some r2 ∧
      r1.2 = r2.2 ∧ r1.1.mDisconnectedRigidBodies = r2.1.mDisconnectedRigidBodies ∧
      (∀ h1 ∈ r1.1.mHierarchies, ∃ h2 ∈ r2.1.mHierarchies,
        (∀ x, x ∈ Link.bodies h1.getHierarchyRoot ↔ x ∈ Link.bodies h2.getHierarchyRoot) ∧
        (∀ n, n ∈ (Link.showHierarchy h1.getHierarchyRoot).map (fun e => e.1) ↔
          n ∈ (Link.showHierarchy h2.getHierarchyRoot).map (fun e => e.1)) ∧
        ((∀ j ∈ [("j1", "A", "B"), ("j2", "B", "C"), ("j3", "C", "A")], j.1 ≠ "") →
          ((Link.showHierarchy h1.getHierarchyRoot).filter fun e => e.2.2.2).length =
            ((Link.showHierarchy h2.getHierarchyRoot).filter fun e => e.2.2.2).length)) ∧
      (∀ h2 ∈ r2.1.mHierarchies, ∃ h1 ∈ r1.1.mHierarchies,
        ∀ x, x ∈ Link.bodies h2.getHierarchyRoot ↔ x ∈ Link.bodies h1.getHierarchyRoot) :=
  registration_order ["A", "B", "C"] [("j1", "A", "B"), ("j2", "B", "C"), ("j3", "C", "A")]
    [("j3", "C", "A"), ("j1", "A", "B"), ("j2", "B", "C")] (by decide) (by decide) (by decide)

end HIERARCHY_BUILDER

namespace HIERARCHY_BUILDER

/-- C11: `build` returns on every builder state and leaves as the
disconnected list the names of the body list, in the order of that list,
that are neither `mBody0` nor `mBody1` of a joint of the joint list; after
registration calls on a fresh builder the body list is in registration order
and the disconnected list has no name twice.  With bodies A, B, C and the
joint (j1, A, B) the list is [C]; with bodies A, B and the self-loop joint
(j1, A, A) the body A is not disconnected. -/
theorem disconnected_bodies :
    (∀ b : HierarchyBuilderImpl, ∃ r, b.build = some r ∧
      r.1.mDisconnectedRigidBodies =
        (b.mRigidBodies.map RigidBodyRef.mName).filter
          (fun x => !(b.mJoints.any fun i => i.refersTo x)) ∧
      (∀ x, x ∈ r.1.mDisconnectedRigidBodies ↔
        x ∈ b.mRigidBodies.map RigidBodyRef.mName ∧
          ∀ j ∈ b.mJoints, x ≠ j.mBody0 ∧ x ≠ j.mBody1) ∧
      r.1.getDisconnectedRigidBodyCount = r.1.mDisconnectedRigidBodies.length ∧
      ∀ index, r.1.getDisconnectedRigidBody index = r.1.mDisconnectedRigidBodies.get? index) ∧
    (∀ calls : List Call, ∃ r, (register calls).build = some r ∧
      r.1.mDisconnectedRigidBodies.Nodup) ∧
    ((register (bodyCalls ["A", "B", "C"] ++ jointCalls [("j1", "A", "B")])).build).map
        (fun r => r.1.mDisconnectedRigidBodies) = some ["C"] ∧
    ((register (bodyCalls ["A", "B"] ++ jointCalls [("j1", "A", "A")])).build).map
        (fun r => r.1.mDisconnectedRigidBodies) = some ["B"] := by
  refine ⟨fun b => ?_, fun calls => ?_, by decide, by decide⟩
  · obtain ⟨r, h1, h2, _⟩ := HierarchyBuilderImpl.build_total b
    refine ⟨r, h1, ?_, fun x => ?_, rfl, fun _ => rfl⟩
    · rw [h2, HierarchyBuilderImpl.check_disconnected]
    · rw [h2, HierarchyBuilderImpl.mem_check_disconnected]
      simp only [IsEndpoint, not_exists, not_and, not_or]
  · obtain ⟨r, h1, h2, _⟩ := HierarchyBuilderImpl.build_total (register calls)
    refine ⟨r, h1, ?_⟩
    rw [h2, HierarchyBuilderImpl.check_disconnected]
    exact (Registered.register calls).bodyNames.filter _

/-- C12: `addJoint` fails exactly when the name is the name of a joint of
the joint list or one of the two bodies is no name of the body list; a
failed call changes nothing, so the joint count is the same; a successful
call appends the record of the joint, with `mUsed` false, to the joint list
and changes nothing else, so the joint count grows by one.  A self-loop
joint and a second and third joint between the same two bodies are
accepted. -/
theorem addJoint_contract (b : HierarchyBuilderImpl) (jointId body0 body1 : String) :
    ((b.addJoint jointId body0 body1).2 = false ↔
      (jointId ∈ b.mJoints.map JointRef.mName ∨
        body0 ∉ b.mRigidBodies.map RigidBodyRef.mName ∨
        body1 ∉ b.mRigidBodies.map RigidBodyRef.mName)) ∧
    ((b.addJoint jointId body0 body1).2 = false →
      (b.addJoint jointId body0 body1).1 = b ∧
        (b.addJoint jointId body0 body1).1.getJointCount = b.getJointCount) ∧
    ((b.addJoint jointId body0 body1).2 = true →
      (b.addJoint jointId body0 body1).1 =
          { b with
            mJoints := b.mJoints ++
              [{ mUsed := false, mName := jointId, mBody0 := body0, mBody1 := body1 }] } ∧
        (b.addJoint jointId body0 body1).1.mRigidBodies = b.mRigidBodies ∧
        (b.addJoint jointId body0 body1).1.getJointCount = b.getJointCount + 1) ∧
    ((register (bodyCalls ["A", "B"])).addJoint "j1" "A" "A").2 = true ∧
    ((register (bodyCalls ["A", "B"] ++ jointCalls [("j1", "A", "B")])).addJoint
      "j2" "A" "B").2 = true ∧
    ((register (bodyCalls ["A", "B"] ++
      jointCalls [("j1", "A", "B"), ("j2", "A", "B")])).addJoint "j3" "B" "A").2 = true := by
  have hJ := HierarchyBuilderImpl.findJointRef_isNone b jointId
  have h0 := HierarchyBuilderImpl.findRigidBodRef_isSome b body0
  have h1 := HierarchyBuilderImpl.findRigidBodRef_isSome b body1
  have hJ2 : jointId ∈ b.mJoints.map JointRef.mName ↔ (b.findJointRef jointId).isNone = false := by
    rw [← not_iff_not, ← hJ]; simp
  refine ⟨?_, ?_, ?_, by decide, by decide, by decide⟩
  · rw [HierarchyBuilderImpl.addJoint, hJ2, ← h0, ← h1]
    cases (b.findJointRef jointId).isNone <;> cases (b.findRigidBodRef body0).isSome <;>
      cases (b.findRigidBodRef body1).isSome <;> simp
  · intro h
    have hb : (b.addJoint jointId body0 body1).1 = b := by
      rw [HierarchyBuilderImpl.addJoint] at h ⊢
      split_ifs at h ⊢ <;> rfl
    exact ⟨hb, by rw [hb]⟩
  · intro h
    rw [HierarchyBuilderImpl.addJoint] at h ⊢
    split_ifs at h ⊢
    exact ⟨rfl, rfl, by simp [HierarchyBuilderImpl.getJointCount]⟩

/-- C13: `addRigidBody` fails exactly when the name is a name of the body
list; a failed call changes nothing; a successful call appends one body with
that name and `mUsed` false to the body list and changes nothing else.  So
the call keeps the names of the body list pairwise distinct, and they are
pairwise distinct after every sequence of registration calls on a fresh
builder. -/
theorem addRigidBody_contract :
    (∀ (b : HierarchyBuilderImpl) (id : String),
      ((b.addRigidBody id).2 = false ↔ id ∈ b.mRigidBodies.map RigidBodyRef.mName) ∧
      ((b.addRigidBody id).2 = false → (b.addRigidBody id).1 = b) ∧
      ((b.addRigidBody id).2 = true →
        (b.addRigidBody id).1 =
          { b with mRigidBodies := b.mRigidBodies ++ [{ mName := id, mUsed := false }] }) ∧
      ((b.mRigidBodies.map RigidBodyRef.mName).Nodup →
        ((b.addRigidBody id).1.mRigidBodies.map RigidBodyRef.mName).Nodup)) ∧
    (∀ calls : List Call, ((register calls).mRigidBodies.map RigidBodyRef.mName).Nodup) := by
  refine ⟨fun b id => ?_, fun calls => (Registered.register calls).bodyNames⟩
  have hN := HierarchyBuilderImpl.findRigidBodRef_isNone b id
  rw [HierarchyBuilderImpl.addRigidBody]
  by_cases e : (b.findRigidBodRef id).isNone = true
  · have a := hN.mp e
    rw [if_pos e]
    refine ⟨⟨fun h => absurd h (by simp), fun h => (a h).elim⟩, fun h => absurd h (by simp),
      fun _ => rfl, fun hn => ?_⟩
    rw [List.map_append, List.nodup_append]
    refine ⟨hn, List.nodup_singleton _, ?_⟩
    intro x hx hx2
    rw [List.map_singleton, List.mem_singleton] at hx2
    subst hx2
    exact a hx
  · rw [if_neg e]
    exact ⟨⟨fun _ => by_contra fun h => e (hN.mpr h), fun _ => rfl⟩, fun _ => rfl,
      fun h => absurd h (by simp), fun hn => hn⟩

/-- C14: for every tree and every joint, `Link::add` on the root, and with
it `Hierarchy::added`, returns success exactly when some node of the tree
has `mBody0` or `mBody1` of the joint as its body; when it fails the tree
after the call is the tree before the call.  The tree after the call is
taken from the embedding that passes the state through every recursive
call, which agrees with the embedding that returns `none` for `nullptr`. -/
theorem insert_succeeds_iff (h : Hierarchy) (j : JointRef) :
    ((Link.addInPlace h.mRoot j).2 = true ↔
      ∃ l ∈ Link.getLinks h.mRoot, l.mRigidBody = j.mBody0 ∨ l.mRigidBody = j.mBody1) ∧
    ((Link.addInPlace h.mRoot j).2 = false → (Link.addInPlace h.mRoot j).1 = h.mRoot) ∧
    (Link.add h.mRoot j =
      if (Link.addInPlace h.mRoot j).2 then some (Link.addInPlace h.mRoot j).1 else none) ∧
    h.added j = h.addedInPlace j ∧
    ((h.added j).2 = true ↔
      ∃ l ∈ Link.getLinks h.mRoot, l.mRigidBody = j.mBody0 ∨ l.mRigidBody = j.mBody1) ∧
    ((h.added j).2 = false → (h.added j).1 = h) := by
  have hiff := Link.add_isSome_iff h.mRoot j
  have hex : (j.mBody0 ∈ Link.bodies h.mRoot ∨ j.mBody1 ∈ Link.bodies h.mRoot) ↔
      ∃ l ∈ Link.getLinks h.mRoot, l.mRigidBody = j.mBody0 ∨ l.mRigidBody = j.mBody1 := by
    simp only [Link.bodies, List.mem_map]
    constructor
    · rintro (⟨l, hl, e⟩ | ⟨l, hl, e⟩)
      · exact ⟨l, hl, Or.inl e⟩
      · exact ⟨l, hl, Or.inr e⟩
    · rintro ⟨l, hl, e | e⟩
      · exact Or.inl ⟨l, hl, e⟩
      · exact Or.inr ⟨l, hl, e⟩
  rw [← hex, ← hiff, Hierarchy.addedInPlace_eq, Hierarchy.added, (Link.addInPlace_eq j).1]
  cases Link.add h.mRoot j with
  | none => simp
  | some t1 => simp

/-- C15: when the body of the root is `mBody1` of the joint and is not
`mBody0`, `Link::add` on the root succeeds; afterwards the root has the body
`mBody0`, its old joint name and loop flag, and exactly one child, which has
the body `mBody1`, the name of the joint, no loop flag and the former
children of the root as its children. -/
theorem insert_at_root_body1 (h : Hierarchy) (j : JointRef)
    (h1 : h.mRoot.mRigidBody = j.mBody1) (h0 : h.mRoot.mRigidBody ≠ j.mBody0) :
    ∃ t1 N, Link.add h.mRoot j = some t1 ∧ Link.addInPlace h.mRoot j = (t1, true) ∧
      h.added j = ({ h with mRoot := t1 }, true) ∧
      t1.mRigidBody = j.mBody0 ∧ t1.mJointName = h.mRoot.mJointName ∧
      t1.mIsLoopJoint = h.mRoot.mIsLoopJoint ∧ t1.mChildren = [N] ∧
      N.mRigidBody = j.mBody1 ∧ N.mJointName = j.mName ∧ N.mIsLoopJoint = false ∧
      N.mChildren = h.mRoot.mChildren := by
  obtain ⟨idx, root⟩ := h
  cases root with
  | mk f n b cs =>
    have ha := Link.add_body1 f n b cs j h0 h1
    refine ⟨.mk f n j.mBody0 [Link.fresh j cs], Link.fresh j cs, ha, ?_, ?_,
      rfl, rfl, rfl, rfl, rfl, rfl, rfl, rfl⟩
    · rw [(Link.addInPlace_eq j).1, ha]
    · exact Hierarchy.added_some _ j _ ha

/-- C15 at the tree B -j1-> C and the joint (j2, A, B), which puts A above
B. -/
theorem insert_at_root_body1_witness :
    ∃ t1 N,
      Link.add (Hierarchy.new { mName := "j1", mBody0 := "B", mBody1 := "C" } 0).mRoot
          { mName := "j2", mBody0 := "A", mBody1 := "B" } = some t1 ∧
      Link.addInPlace (Hierarchy.new { mName := "j1", mBody0 := "B", mBody1 := "C" } 0).mRoot
          { mName := "j2", mBody0 := "A", mBody1 := "B" } = (t1, true) ∧
      (Hierarchy.new { mName := "j1", mBody0 := "B", mBody1 := "C" } 0).added
          { mName := "j2", mBody0 := "A", mBody1 := "B" } =
        ({ (Hierarchy.new { mName := "j1", mBody0 := "B", mBody1 := "C" } 0) with
          mRoot := t1 }, true) ∧
      t1.mRigidBody = "A" ∧
      t1.mJointName = (Hierarchy.new { mName := "j1", mBody0 := "B", mBody1 := "C" } 0).mRoot.mJointName ∧
      t1.mIsLoopJoint =
        (Hierarchy.new { mName := "j1", mBody0 := "B", mBody1 := "C" } 0).mRoot.mIsLoopJoint ∧
      t1.mChildren = [N] ∧ N.mRigidBody = "B" ∧ N.mJointName = "j2" ∧ N.mIsLoopJoint = false ∧
      N.mChildren = (Hierarchy.new { mName := "j1", mBody0 := "B", mBody1 := "C" } 0).mRoot.mChildren :=
  insert_at_root_body1 (Hierarchy.new { mName := "j1", mBody0 := "B", mBody1 := "C" } 0)
    { mName := "j2", mBody0 := "A", mBody1 := "B" } (by decide) (by decide)

/-- C16: when the body of the root is `mBody0` of the joint, also when it is
`mBody1` as well, `Link::add` on the root succeeds and the tree afterwards is
the old tree with one more child of the root at the end of its child list: a
node without children that has the body `mBody1`, the name of the joint and
no loop flag. -/
theorem insert_at_root_body0 (h : Hierarchy) (j : JointRef)
    (h0 : h.mRoot.mRigidBody = j.mBody0) :
    Link.add h.mRoot j =
        some (.mk h.mRoot.mIsLoopJoint h.mRoot.mJointName h.mRoot.mRigidBody
          (h.mRoot.mChildren ++ [.mk false j.mName j.mBody1 []])) ∧
      Link.addInPlace h.mRoot j =
        (.mk h.mRoot.mIsLoopJoint h.mRoot.mJointName h.mRoot.mRigidBody
          (h.mRoot.mChildren ++ [.mk false j.mName j.mBody1 []]), true) ∧
      h.added j =
        ({ h with
          mRoot := .mk h.mRoot.mIsLoopJoint h.mRoot.mJointName h.mRoot.mRigidBody
            (h.mRoot.mChildren ++ [.mk false j.mName j.mBody1 []]) }, true) := by
  obtain ⟨idx, root⟩ := h
  cases root with
  | mk f n b cs =>
    have ha : Link.add (.mk f n b cs) j =
        some (.mk f n b (cs ++ [.mk false j.mName j.mBody1 []])) :=
      Link.add_body0 f n b cs j h0
    have hp := (Link.addInPlace_eq j).1 (.mk f n b cs)
    rw [ha] at hp
    exact ⟨ha, hp, Hierarchy.added_some _ j _ ha⟩

/-- C16 at the tree A -j1-> B and the self-loop joint (j2, A, A), which
becomes a second child of the root. -/
theorem insert_at_root_body0_witness :
    (Hierarchy.new { mName := "j1", mBody0 := "A", mBody1 := "B" } 0).mRoot.mRigidBody = "A" ∧
    Link.add (Hierarchy.new { mName := "j1", mBody0 := "A", mBody1 := "B" } 0).mRoot
        { mName := "j2", mBody0 := "A", mBody1 := "A" } =
      some (.mk false "" "A" [.mk false "j1" "B" [], .mk false "j2" "A" []]) :=
  ⟨rfl, (insert_at_root_body0 (Hierarchy.new { mName := "j1", mBody0 := "A", mBody1 := "B" } 0)
    { mName := "j2", mBody0 := "A", mBody1 := "A" } rfl).1⟩

/-- C17: `merge` returns for every pair of hierarchies, and when it returns
true every record of its local joint list, which holds the edges of the
other hierarchy in the order of `getJointRef`, is marked as used: the
assertion at its end holds. -/
theorem merge_consumes_all (source other : Hierarchy) :
    ∃ s, source.merge other = some s ∧
      s.joints.map JointRef.unmark = Link.getJointRef other.mRoot ∧
      (s.ret = true → ∀ i ∈ s.joints, i.mUsed = true) := by
  obtain ⟨s, h1, _, _, h2, _, _, h3, _⟩ := Hierarchy.merge_spec source other
  exact ⟨s, h1, h2, fun hr => (h3 hr).1⟩

end HIERARCHY_BUILDER

namespace HIERARCHY_BUILDER

/-- C18, as stated, fails: when the tree A -j1-> B is merged with a second
tree A -j1-> B, the only edge of the other tree is matched as a duplicate of
an edge of the receiver and is marked as used, and `merge` returns false. -/
theorem merge_false_on_duplicate :
    (Hierarchy.new { mName := "j1", mBody0 := "A", mBody1 := "B" } 0).mRoot.isDuplicate
        { mName := "j1", mBody0 := "A", mBody1 := "B" } = true ∧
    ((Hierarchy.new { mName := "j1", mBody0 := "A", mBody1 := "B" } 0).merge
        (Hierarchy.new { mName := "j1", mBody0 := "A", mBody1 := "B" } 1)).map
        (fun s => (s.ret, s.joints)) =
      some (false, [{ mUsed := true, mName := "j1", mBody0 := "A", mBody1 := "B" }]) := by
  decide

/-- C18, amended: `merge` returns for every pair of hierarchies, and it
returns true exactly when an edge of the other hierarchy was inserted into
the receiver: exactly when some edge of the other hierarchy is no duplicate
of an edge of the receiver and is accepted by `Link::add` on the receiver as
it is before the call, and exactly when the receiver has more nodes
afterwards.  When it returns false the receiver is as before. -/
theorem merge_true_iff_inserted (source other : Hierarchy) :
    ∃ s, source.merge other = some s ∧
      (s.ret = true ↔
        ∃ e ∈ Link.getJointRef other.mRoot,
          source.mRoot.isDuplicate e = false ∧ (source.mRoot.add e).isSome = true) ∧
      (s.ret = true ↔
        (Link.getLinks source.mRoot).length < (Link.getLinks s.self.mRoot).length) ∧
      (s.ret = false → s.self = source) := by
  obtain ⟨s, h1, _, _, _, h2, _⟩ := Hierarchy.merge_spec source other
  obtain ⟨s1, h3, _, h4⟩ := Hierarchy.merge_grows source other
  rw [h1] at h3
  cases Option.some.inj h3
  refine ⟨s, h1, ⟨fun hr => ?_, fun he => ?_⟩, ⟨h4, fun hlt => ?_⟩, fun hr => (h2 hr).1⟩
  · by_contra hn
    obtain ⟨s2, h5, h6⟩ := Hierarchy.merge_idle source other fun e he => by
      by_contra hc
      rw [not_or] at hc
      refine hn ⟨e, he, by simpa using hc.1, ?_⟩
      cases ha : Link.add source.mRoot e with
      | none => exact (hc.2 ha).elim
      | some t => rfl
    rw [h1] at h5
    cases Option.some.inj h5
    rw [hr] at h6
    cases h6
  · obtain ⟨e, he, hd, ha⟩ := he
    cases hr : s.ret with
    | true => rfl
    | false =>
      rcases (h2 hr).2 e he with h | h
      · rw [hd] at h; cases h
      · rw [h] at ha; cases ha
  · cases hr : s.ret with
    | true => rfl
    | false =>
      rw [(h2 hr).1] at hlt
      exact (lt_irrefl _ hlt).elim

/-- C19: in a hierarchy whose root has the empty joint name, as every root
that the constructor makes has, whose other nodes carry pairwise distinct,
non-empty joint names and in which no loop flag is set, and for a joint list
with pairwise distinct names that holds all those names: after
`findLoopJoints` the node at a position of the flat link array other than
the root has the loop flag exactly when its body is the body of the root or
the body of another node below the root whose joint stands earlier in the
joint list; the tree with the flags cleared and the index are as before. -/
theorem loop_flag_rule (h : Hierarchy) (joints : List JointRef)
    (hroot : h.mRoot.mJointName = "")
    (hnd : (Link.jointNames h.mRoot).Nodup) (hne : ∀ n ∈ Link.jointNames h.mRoot, n ≠ "")
    (hflags : ∀ f ∈ Link.loopFlags h.mRoot, f = false)
    (hJ : (joints.map JointRef.mName).Nodup)
    (hsub : ∀ n ∈ Link.jointNames h.mRoot, n ∈ joints.map JointRef.mName) :
    (∀ p l, 0 < p → (Link.getLinks h.mRoot)[p]? = some l →
      ((Link.getLinks (h.findLoopJoints joints).mRoot)[p]?.map Link.mIsLoopJoint = some true ↔
        (l.mRigidBody = h.mRoot.mRigidBody ∨
          ∃ q m, 0 < q ∧ q ≠ p ∧ (Link.getLinks h.mRoot)[q]? = some m ∧
            m.mRigidBody = l.mRigidBody ∧
            JointRef.Earlier joints m.mJointName l.mJointName))) ∧
    Link.skeleton (h.findLoopJoints joints).mRoot = Link.skeleton h.mRoot ∧
    (h.findLoopJoints joints).mIndex = h.mIndex :=
  ⟨fun p l hp hl => Hierarchy.findLoopJoints_rule h joints hroot hnd hne hflags hJ hsub p l hp hl,
    Hierarchy.findLoopJoints_skeleton h joints⟩

/-- C19 at the tree A -j1-> B -j2-> A with the joint list (j1, A, B),
(j2, B, A). -/
theorem loop_flag_rule_witness :
    (∀ p l, 0 < p →
      (Link.getLinks (Hierarchy.mk 0
        (.mk false "" "A" [.mk false "j1" "B" [.mk false "j2" "A" []]])).mRoot)[p]? = some l →
      ((Link.getLinks ((Hierarchy.mk 0
          (.mk false "" "A" [.mk false "j1" "B" [.mk false "j2" "A" []]])).findLoopJoints
            [{ mName := "j1", mBody0 := "A", mBody1 := "B" },
              { mName := "j2", mBody0 := "B", mBody1 := "A" }]).mRoot)[p]?.map
            Link.mIsLoopJoint = some true ↔
        (l.mRigidBody = (Hierarchy.mk 0
            (.mk false "" "A" [.mk false "j1" "B" [.mk false "j2" "A" []]])).mRoot.mRigidBody ∨
          ∃ q m, 0 < q ∧ q ≠ p ∧
            (Link.getLinks (Hierarchy.mk 0
              (.mk false "" "A" [.mk false "j1" "B" [.mk false "j2" "A" []]])).mRoot)[q]? =
                some m ∧
            m.mRigidBody = l.mRigidBody ∧
            JointRef.Earlier
              [{ mName := "j1", mBody0 := "A", mBody1 := "B" },
                { mName := "j2", mBody0 := "B", mBody1 := "A" }]
              m.mJointName l.mJointName))) ∧
    Link.skeleton ((Hierarchy.mk 0
        (.mk false "" "A" [.mk false "j1" "B" [.mk false "j2" "A" []]])).findLoopJoints
          [{ mName := "j1", mBody0 := "A", mBody1 := "B" },
            { mName := "j2", mBody0 := "B", mBody1 := "A" }]).mRoot =
      Link.skeleton (Hierarchy.mk 0
        (.mk false "" "A" [.mk false "j1" "B" [.mk false "j2" "A" []]])).mRoot ∧
    ((Hierarchy.mk 0
        (.mk false "" "A" [.mk false "j1" "B" [.mk false "j2" "A" []]])).findLoopJoints
          [{ mName := "j1", mBody0 := "A", mBody1 := "B" },
            { mName := "j2", mBody0 := "B", mBody1 := "A" }]).mIndex =
      (Hierarchy.mk 0
        (.mk false "" "A" [.mk false "j1" "B" [.mk false "j2" "A" []]])).mIndex :=
  loop_flag_rule
    (Hierarchy.mk 0 (.mk false "" "A" [.mk false "j1" "B" [.mk false "j2" "A" []]]))
    [{ mName := "j1", mBody0 := "A", mBody1 := "B" },
      { mName := "j2", mBody0 := "B", mBody1 := "A" }]
    rfl (by decide) (by decide) (by decide) (by decide) (by decide)

/-- C20: `build` returns on every builder state.  Every repetition of its
first loop leaves fewer unused joints; every scan of `merge` that makes the
loop of `merge` repeat leaves fewer unused records of the local joint list,
so `merge` returns for every pair of hierarchies; and every pass over the
hierarchy list ends, and one that makes the merge loop repeat leaves fewer
slots that are not null.  The walks over a tree are structural recursions
of the embedding. -/
theorem build_terminates :
    (∀ b : HierarchyBuilderImpl, ∃ r, b.build = some r) ∧
    (∀ (b : HierarchyBuilderImpl) (k : Nat) (jref : JointRef),
      b.findFirstUnusedJoint = some k → b.mJoints.get? k = some jref →
        (unusedNames (b.consumeJoint k jref).mJoints).length < (unusedNames b.mJoints).length) ∧
    (∀ (self : Hierarchy) (ret : Bool) (js : List JointRef),
      (Hierarchy.mergeScan self ret false js).consumed = true →
        (unusedNames (Hierarchy.mergeScan self ret false js).joints).length <
          (unusedNames js).length) ∧
    (∀ source other : Hierarchy, ∃ s, source.merge other = some s) ∧
    (∀ slots : List (Option Hierarchy), ∃ slots1 c,
      HierarchyBuilderImpl.mergeSweep slots.length slots = some (slots1, c) ∧
        (c ≠ 0 → (liveSlots slots1).length < (liveSlots slots).length)) := by
  refine ⟨fun b => ?_, fun b k jref hk hj => ?_, fun self ret js hc => ?_,
    fun source other => ?_, fun slots => ?_⟩
  · obtain ⟨r, h, _⟩ := HierarchyBuilderImpl.build_total b
    exact ⟨r, h⟩
  · have := (HierarchyBuilderImpl.consumeJoint_frame b k jref hk hj).1
    omega
  · rcases (Hierarchy.mergeScan_count js self ret false).2 hc with h | h
    · cases h
    · exact h
  · obtain ⟨s, h, _⟩ := Hierarchy.merge_spec source other
    exact ⟨s, h⟩
  · obtain ⟨slots1, c, h1, _, h3⟩ :=
      HierarchyBuilderImpl.mergeSweep_total slots.length slots (le_refl _)
    exact ⟨slots1, c, h1, fun hc => by omega⟩

end HIERARCHY_BUILDER

namespace HIERARCHY_BUILDER

/-- C21: after `build` on a valid input a registered body is in the
disconnected list exactly when it labels no node of a final hierarchy; every
body that is an end of a registered joint labels a node, and every body on a
node is a registered body. -/
theorem disconnected_iff_in_no_node (calls : List Call) :
    ∃ r, (register calls).build = some r ∧
      (∀ x ∈ (register calls).mRigidBodies.map RigidBodyRef.mName,
        (x ∈ r.1.mDisconnectedRigidBodies ↔ x ∉ r.1.nodeBodies)) ∧
      (∀ j ∈ (register calls).mJoints,
        j.mBody0 ∈ r.1.nodeBodies ∧ j.mBody1 ∈ r.1.nodeBodies) ∧
      (∀ x ∈ r.1.nodeBodies, x ∈ (register calls).mRigidBodies.map RigidBodyRef.mName) := by
  have hreg := Registered.register calls
  obtain ⟨r, hs, h1, hr⟩ := HierarchyBuilderImpl.build_spec (register calls) hreg
  have hmem := HierarchyBuilderImpl.mem_check_disconnected (register calls)
  rw [← hr.disconnected] at hmem
  refine ⟨r, h1, fun x hx => ?_, fun j hj => ?_, fun x hx => ?_⟩
  · rw [hmem x, hr.nodeBodies_endpoint x]
    exact ⟨fun h => h.2, fun h => ⟨hx, h⟩⟩
  · exact ⟨(hr.nodeBodies_endpoint _).mpr ⟨j, hj, Or.inl rfl⟩,
      (hr.nodeBodies_endpoint _).mpr ⟨j, hj, Or.inr rfl⟩⟩
  · obtain ⟨j, hj, hxj⟩ := (hr.nodeBodies_endpoint x).mp hx
    rcases hxj with e | e
    · rw [e]; exact (hreg.known j hj).1
    · rw [e]; exact (hreg.known j hj).2

/-- C23: when `Link::add` succeeds on a tree, the tree afterwards has one
more node, the joint names on its nodes are those before and the name of the
joint once more, every body that labelled a node before still labels a node,
and both bodies of the joint label a node. -/
theorem insert_adds_one_node (t t1 : Link) (j : JointRef) (h : Link.add t j = some t1) :
    Link.addInPlace t j = (t1, true) ∧
    (Link.getLinks t1).length = (Link.getLinks t).length + 1 ∧
    ((Link.getLinks t1).map Link.mJointName).Perm
      (j.mName :: (Link.getLinks t).map Link.mJointName) ∧
    (∀ x ∈ Link.bodies t, x ∈ Link.bodies t1) ∧
    j.mBody0 ∈ Link.bodies t1 ∧ j.mBody1 ∈ Link.bodies t1 := by
  have hb := (Link.add_bodies j).1 t t1 h
  have hn := (Link.add_jointNames j).1 t t1 h
  refine ⟨?_, (Link.add_length j).1 t t1 h, ?_, fun x hx => (hb x).mpr (Or.inl hx),
    (hb _).mpr (Or.inr (Or.inl rfl)), (hb _).mpr (Or.inr (Or.inr rfl))⟩
  · rw [(Link.addInPlace_eq j).1, h]
  · rw [Link.getLinks_names, Link.getLinks_names, hn.1]
    exact (List.Perm.cons _ hn.2).trans (List.Perm.swap _ _ _)

/-- C23 at the tree A -j1-> B and the joint (j2, C, B), which `Link::add`
puts below the root: the node of j1 gets the body C and a new node with the
body B hangs below it. -/
theorem insert_adds_one_node_witness :
    Link.addInPlace (.mk false "" "A" [.mk false "j1" "B" []])
        { mName := "j2", mBody0 := "C", mBody1 := "B" } =
      (.mk false "" "A" [.mk false "j1" "C" [.mk false "j2" "B" []]], true) ∧
    (Link.getLinks (.mk false "" "A" [.mk false "j1" "C" [.mk false "j2" "B" []]])).length =
      (Link.getLinks (.mk false "" "A" [.mk false "j1" "B" []])).length + 1 ∧
    ((Link.getLinks (.mk false "" "A" [.mk false "j1" "C" [.mk false "j2" "B" []]])).map
        Link.mJointName).Perm
      ("j2" :: (Link.getLinks (.mk false "" "A" [.mk false "j1" "B" []])).map Link.mJointName) ∧
    (∀ x ∈ Link.bodies (.mk false "" "A" [.mk false "j1" "B" []]),
      x ∈ Link.bodies (.mk false "" "A" [.mk false "j1" "C" [.mk false "j2" "B" []]])) ∧
    "C" ∈ Link.bodies (.mk false "" "A" [.mk false "j1" "C" [.mk false "j2" "B" []]]) ∧
    "B" ∈ Link.bodies (.mk false "" "A" [.mk false "j1" "C" [.mk false "j2" "B" []]]) :=
  insert_adds_one_node (.mk false "" "A" [.mk false "j1" "B" []])
    (.mk false "" "A" [.mk false "j1" "C" [.mk false "j2" "B" []]])
    { mName := "j2", mBody0 := "C", mBody1 := "B" } rfl

end HIERARCHY_BUILDER

namespace HIERARCHY_BUILDER

/-- C25: after `build` on a valid input no reported edge with the empty
joint name is flagged as a loop joint, and when a joint with the empty name
is registered there is such an edge.  The search by name in `findLoopJoints`
finds the root, whose joint name is empty, before any other link.  With the
body A and the self-loop joint with the empty name the only edge A -> A is
not flagged, where the same joint named j is; in the triangle A, B, C the
joint that closes the cycle is not flagged when its name is empty. -/
theorem empty_name_never_loop :
    (∀ calls : List Call, ∃ r, (register calls).build = some r ∧
      (∀ e ∈ r.1.reportedEdges, e.1 = "" → e.2.2.2 = false) ∧
      ((∃ j ∈ (register calls).mJoints, j.mName = "") →
        ∃ e ∈ r.1.reportedEdges, e.1 = "" ∧ e.2.2.2 = false)) ∧
    ((register (bodyCalls ["A"] ++ jointCalls [("", "A", "A")])).build).map
        (fun r => (r.2, r.1.reportedEdges)) = some (1, [("", "A", "A", false)]) ∧
    ((register (bodyCalls ["A"] ++ jointCalls [("j", "A", "A")])).build).map
        (fun r => (r.2, r.1.reportedEdges)) = some (1, [("j", "A", "A", true)]) ∧
    ((register (bodyCalls ["A", "B", "C"] ++
        jointCalls [("j1", "A", "B"), ("", "B", "C"), ("j3", "C", "A")])).build).map
        (fun r => r.1.reportedEdges) =
      some [("j3", "C", "A", false), ("j1", "A", "B", false), ("", "B", "C", false)] ∧
    ((register (bodyCalls ["A", "B", "C"] ++
        jointCalls [("j1", "A", "B"), ("j2", "B", "C"), ("j3", "C", "A")])).build).map
        (fun r => r.1.reportedEdges) =
      some [("j3", "C", "A", false), ("j1", "A", "B", false), ("j2", "B", "C", true)] := by
  refine ⟨fun calls => ?_, by decide, by decide, by decide, by decide⟩
  obtain ⟨r, hs, h1, hr⟩ :=
    HierarchyBuilderImpl.build_spec (register calls) (Registered.register calls)
  have hall : ∀ e ∈ r.1.reportedEdges, e.1 = "" → e.2.2.2 = false := by
    intro e he hn
    rw [HierarchyBuilderImpl.reportedEdges, List.mem_flatMap] at he
    obtain ⟨k, hk, hek⟩ := he
    obtain ⟨h, hh, hkh, _, _⟩ := hr.final_mem hk
    subst hkh
    have hw := hr.inv.wellFormed h hh
    exact Hierarchy.findLoopJoints_empty_name h _ hw.rootName hw.noLoop e hek hn
  refine ⟨r, h1, hall, ?_⟩
  rintro ⟨j, hj, hjn⟩
  have hm : "" ∈ r.1.reportedEdges.map fun e => e.1 := by
    rw [hr.reported_names.mem_iff, ← hjn]
    exact List.mem_map_of_mem _ hj
  rw [List.mem_map] at hm
  obtain ⟨e, he, hen⟩ := hm
  exact ⟨e, he, hen, hall e he hen⟩

end HIERARCHY_BUILDER

namespace HIERARCHY_BUILDER

/-- C22: when the registered joints are, in some order, the joints of a
forest, `build` on the valid input returns, no reported edge is flagged as
a loop joint, no body labels two nodes of the final hierarchies, and each of
the two bodies of every joint labels exactly one node. -/
theorem forest_has_no_loop_joint (calls : List Call) (joints : List JointRef)
    (hperm : (register calls).mJoints.Perm joints) (hf : Acyclic joints) :
    ∃ r, (register calls).build = some r ∧
      (∀ e ∈ r.1.reportedEdges, e.2.2.2 = false) ∧
      r.1.nodeBodies.Nodup ∧
      ∀ j ∈ joints, r.1.nodeBodies.count j.mBody0 = 1 ∧ r.1.nodeBodies.count j.mBody1 = 1 := by
  obtain ⟨r, h1, h2, h3, h4⟩ := HierarchyBuilderImpl.build_forest (register calls)
    (Registered.register calls) (hf.acyclic_perm hperm.symm)
  refine ⟨r, h1, h2, h3, fun j hj => ?_⟩
  have hj2 := hperm.mem_iff.mpr hj
  exact ⟨List.count_eq_one_of_mem h3 ((h4 _).mpr ⟨j, hj2, Or.inl rfl⟩),
    List.count_eq_one_of_mem h3 ((h4 _).mpr ⟨j, hj2, Or.inr rfl⟩)⟩

/-- C22 at the bodies A, B, C with the joints (j1, A, B), (j2, C, B), a
path in which `Link::add` puts the second joint below the node of the
first; the joints are registered in the order j2, j1. -/
theorem forest_has_no_loop_joint_witness :
    ∃ r, (register (bodyCalls ["A", "B", "C"] ++
        jointCalls [("j2", "C", "B"), ("j1", "A", "B")])).build = some r ∧
      (∀ e ∈ r.1.reportedEdges, e.2.2.2 = false) ∧
      r.1.nodeBodies.Nodup ∧
      ∀ j ∈ [({ mName := "j1", mBody0 := "A", mBody1 := "B" } : JointRef),
          { mName := "j2", mBody0 := "C", mBody1 := "B" }],
        r.1.nodeBodies.count j.mBody0 = 1 ∧ r.1.nodeBodies.count j.mBody1 = 1 :=
  forest_has_no_loop_joint
    (bodyCalls ["A", "B", "C"] ++ jointCalls [("j2", "C", "B"), ("j1", "A", "B")])
    [{ mName := "j1", mBody0 := "A", mBody1 := "B" },
      { mName := "j2", mBody0 := "C", mBody1 := "B" }]
    (by decide)
    (by
      intro j hj hc
      simp only [List.mem_cons, List.mem_singleton, List.not_mem_nil, or_false] at hj
      rcases hj with hj | hj
      · subst hj
        have h : Connected [({ mName := "j2", mBody0 := "C", mBody1 := "B" } : JointRef)]
            "A" "B" := hc
        rcases h.of_single with e | ⟨e, _⟩ | ⟨e, _⟩
        · exact absurd e (by decide)
        · exact absurd e (by decide)
        · exact absurd e (by decide)
      · subst hj
        have h : Connected [({ mName := "j1", mBody0 := "A", mBody1 := "B" } : JointRef)]
            "C" "B" := hc
        rcases h.of_single with e | ⟨e, _⟩ | ⟨e, _⟩
        · exact absurd e (by decide)
        · exact absurd e (by decide)
        · exact absurd e (by decide))

/-- C24: after `build` on a valid input, a second `build` returns the same
count and leaves the builder as the first call left it: the same
disconnected list and the same hierarchies with the same bodies, joint
names, children in the same order and loop flags. -/
theorem build_idempotent (calls : List Call) :
    ∃ r r2, (register calls).build = some r ∧ r.1.build = some r2 ∧ r2.2 = r.2 ∧
      r2.1.mDisconnectedRigidBodies = r.1.mDisconnectedRigidBodies ∧
      r2.1.mHierarchies = r.1.mHierarchies ∧ r2.1.reportedEdges = r.1.reportedEdges ∧
      r2.1 = r.1 := by
  obtain ⟨r, hs, h1, hr⟩ :=
    HierarchyBuilderImpl.build_spec (register calls) (Registered.register calls)
  exact ⟨r, r, h1,
    HierarchyBuilderImpl.build_again (register calls) r hs h1 hr.hierarchies hr.final_disjoint,
    rfl, rfl, rfl, rfl, rfl⟩

end HIERARCHY_BUILDER
